import Mathlib

/-!
# Vectorized quicksort (vqsort): a shallow embedding

The development follows `hwy/contrib/sort/vqsort-inl.h`.

* The key array is a `List α`; a pointer `keys + i` is the index `i` into that list (or the
  list `keys.drop i` when a callee receives the advanced pointer).
* A vector of `N` lanes is a `List α` of length `N`; a mask is a `List Bool`.
* Every memory access is bounds-checked: an access outside the list makes the operation
  return `none`.  Loops are structurally recursive on a fuel argument and return `none`
  when the fuel runs out.
* Keys of scalar lane types are elements of a bounded linear order (the integer lane types
  with their numeric order; `⊥` and `⊤` are the lowest and highest value of the lane type).
* The file-scope variables of the source and what it prints are threaded through `Recurse`
  and `Sort` as a `Globals` value.

The definitions come first, then the vocabulary of the specifications, then the lemmas and
the theorems about `HeapSort`, `Partition`, `BaseCase`, `ChoosePivot`, `Recurse` and `Sort`.
-/

set_option linter.unusedSectionVars false

namespace VQSort

/-- The order tag chosen at the call site. -/
inductive Order where
  | Ascending
  | Descending
  deriving DecidableEq, Repr

section Traits

variable {α : Type} [LinearOrder α]

/-- Modelled from the spec: `st.Compare` of the traits layer (traits-inl.h is not among the
sources).  It is the strict comparison of the chosen order: `a < b` when ascending,
`b < a` when descending. -/
def Compare (o : Order) (a b : α) : Bool :=
  match o with
  | .Ascending => decide (a < b)
  | .Descending => decide (b < a)

/-- Modelled from the spec: `st.First` of the traits layer, the key that comes first in sort
order (minimum when ascending, maximum when descending). -/
def First (o : Order) (a b : α) : α :=
  match o with
  | .Ascending => min a b
  | .Descending => max a b

/-- Modelled from the spec: `st.Last` of the traits layer, the key that comes last in sort
order (maximum when ascending, minimum when descending). -/
def Last (o : Order) (a b : α) : α :=
  match o with
  | .Ascending => max a b
  | .Descending => min a b

/-- Modelled from the spec: `st.FirstValue`, the value that precedes every key in sort
order (lowest value of the lane type when ascending). -/
def FirstValue [BoundedOrder α] (o : Order) : α :=
  match o with
  | .Ascending => ⊥
  | .Descending => ⊤

/-- Modelled from the spec: `st.LastValue`, the value that follows every key in sort order
(highest value of the lane type when ascending); used as padding. -/
def LastValue [BoundedOrder α] (o : Order) : α :=
  match o with
  | .Ascending => ⊤
  | .Descending => ⊥

/-- The non-strict comparison induced by `Compare`: `a` does not come strictly after `b`. -/
def ole (o : Order) (a b : α) : Prop := Compare o b a = false

instance (o : Order) (a b : α) : Decidable (ole o a b) := by
  unfold ole; infer_instance

end Traits

/-! ## Memory primitives -/

section Memory

variable {α : Type}

/-- `LoadU(d, p + i)`: the `N` lanes starting at index `i`. -/
def LoadU (N : Nat) (mem : List α) (i : Nat) : Option (List α) :=
  if i + N ≤ mem.length then some ((mem.drop i).take N) else none

/-- Writes the lanes `v` at index `i` (the common core of `StoreU`, `memcpy` and the
blended stores). -/
def StoreU (v : List α) (mem : List α) (i : Nat) : Option (List α) :=
  if i + v.length ≤ mem.length then some (mem.take i ++ v ++ mem.drop (i + v.length)) else none

/-- `st.Swap(lanes + i, lanes + j)` for single-lane keys. -/
def Swap (lanes : List α) (i j : Nat) : Option (List α) := do
  let a ← lanes[i]?
  let b ← lanes[j]?
  pure ((lanes.set i b).set j a)

end Memory

/-! ## HeapSort -/

section HeapSort

variable {α : Type} [LinearOrder α]

/-- `SiftDown(st, lanes, num_lanes, start)` with `LanesPerKey = 1`; one unit of fuel per
iteration of the `while` loop. -/
def SiftDown (o : Order) (num_lanes : Nat) : Nat → List α → Nat → Option (List α)
  | 0, _, _ => none
  | fuel + 1, lanes, start =>
    if start < num_lanes then
      let left := 2 * start + 1
      let right := 2 * start + 2
      if left ≥ num_lanes then some lanes
      else do
        let key_j ← lanes[start]?
        let key_left ← lanes[left]?
        let idx_larger := if Compare o key_j key_left then left else start
        let key_larger ← lanes[idx_larger]?
        let idx_larger ←
          if right < num_lanes then do
            let key_right ← lanes[right]?
            pure (if Compare o key_larger key_right then right else idx_larger)
          else pure idx_larger
        if idx_larger = start then some lanes
        else do
          let lanes ← Swap lanes start idx_larger
          SiftDown o num_lanes fuel lanes idx_larger
    else some lanes

/-- The build loop of `HeapSort`: `count` is `i + 1`, so it runs `i = count - 1, …, 0` and
stops when `i` wraps around to `(size_t)-1`. -/
def HeapSort.build (o : Order) (num_lanes : Nat) : Nat → List α → Option (List α)
  | 0, lanes => some lanes
  | i + 1, lanes => do
    let lanes ← SiftDown o num_lanes (num_lanes + 1) lanes i
    HeapSort.build o num_lanes i lanes

/-- The extraction loop of `HeapSort`: runs `i = num_lanes - 1, …, 1`. -/
def HeapSort.extract (o : Order) : Nat → List α → Option (List α)
  | 0, lanes => some lanes
  | i + 1, lanes => do
    let lanes ← Swap lanes 0 (i + 1)
    let lanes ← SiftDown o (i + 1) (i + 2) lanes 0
    HeapSort.extract o i lanes

/-- `HeapSort(st, lanes, num_lanes)` with `LanesPerKey = 1`. -/
def HeapSort (o : Order) (lanes : List α) (num_lanes : Nat) : Option (List α) :=
  if num_lanes < 2 then some lanes
  else do
    let lanes ← HeapSort.build o num_lanes ((num_lanes - 1) / 2 + 1) lanes
    HeapSort.extract o (num_lanes - 1) lanes

end HeapSort

/-! ## Targets and constants -/

/-- The compile-time and run-time parameters of one instantiation of `Sort`: the vector
tag `d`, the lane type and the platform. -/
structure Target (α : Type) where
  /-- `Lanes(d)`, the number of lanes `N` of the vectors the sort operates on. -/
  lanes : Nat
  /-- Lanes of a full hardware vector of the lane type (what `CappedTag` caps). -/
  fullLanes : Nat
  /-- `sizeof(T)` in bytes. -/
  sizeofT : Nat
  /-- `HWY_MAX_BYTES`, the largest vector size the target can have. -/
  maxBytes : Nat
  /-- `VQSORT_ENABLED`. -/
  vqsortEnabled : Bool
  /-- `CompressIsPartition<T>::value`. -/
  compressIsPartition : Bool
  /-- The lanes that `CompressStore` may write after the valid ones (implementation-defined
  upper lanes of `Compress`), as a function of the vector and the mask. -/
  compressTail : List α → List Bool → List α
  /-- Modelled from the spec: `Sorter::Fill24Bytes(heap, num, &a_)` of vqsort.cc, which is
  not among the sources.  Per the spec the seed is a hash of the array address and length:
  the three seed words as a function of `(addr, num)`. -/
  Fill24Bytes : Nat → Nat → Nat × Nat × Nat

/-- The targets on which `Recurse` runs: power-of-two vectors of 128 to 512 bits of a 16-,
32- or 64-bit lane type (narrower vectors are not used with SIMD targets, and `Sort` caps
wider ones). -/
def Target.Valid {α : Type} (t : Target α) : Prop :=
  (∃ k, t.lanes = 2 ^ k) ∧ (t.sizeofT = 2 ∨ t.sizeofT = 4 ∨ t.sizeofT = 8) ∧
    16 ≤ t.lanes * t.sizeofT ∧ t.lanes * t.sizeofT ≤ 64 ∧ t.lanes ≤ t.fullLanes

/-- The targets `Sort` can be instantiated for: power-of-two vectors of at least 128 bits
of a 16-, 32- or 64-bit lane type, not larger than a full vector, which fits the target's
largest vector size. -/
def Target.WellFormed {α : Type} (t : Target α) : Prop :=
  (∃ k, t.lanes = 2 ^ k) ∧ (∃ k, t.fullLanes = 2 ^ k) ∧
    (t.sizeofT = 2 ∨ t.sizeofT = 4 ∨ t.sizeofT = 8) ∧
    16 ≤ t.lanes * t.sizeofT ∧ t.lanes ≤ t.fullLanes ∧ t.fullLanes * t.sizeofT ≤ t.maxBytes

/-- `Constants::kPartitionUnroll` (shared-inl.h is not among the sources; the spec fixes the
unroll factor at 4). -/
def kPartitionUnroll : Nat := 4

/-- `Constants::kMaxRowsLog2`: the sorting network has 16 rows. -/
def kMaxRowsLog2 : Nat := 4

/-- `Constants::kMaxRows`. -/
def kMaxRows : Nat := 1 <<< kMaxRowsLog2

/-- `Constants::kMaxCols`: the largest number of keys per vector in the sorting network. -/
def kMaxCols : Nat := 16

/-- Modelled from the spec: `Constants::BaseCaseNum(N)`, the largest input the sorting
network handles at vector width `N`: `kMaxRows` rows of at most `kMaxCols` columns. -/
def BaseCaseNum (N : Nat) : Nat := kMaxRows * min N kMaxCols

/-- Modelled from the spec: `Constants::LanesPerChunk(sizeof(T), N)`, a power of two: one
cache line of keys, or a whole vector if that is larger. -/
def LanesPerChunk (sizeofT N : Nat) : Nat := max (64 / sizeofT) N

/-! ## Vectors and masks -/

section Vectors

variable {α : Type}

/-- `st.SetKey(d, p)`: broadcast of one key to all `N` lanes. -/
def SetKey (N : Nat) (x : α) : List α := List.replicate N x

/-- `Not(mask)`. -/
def MaskNot (m : List Bool) : List Bool := m.map (fun b => !b)

/-- `And(a, b)` on masks. -/
def MaskAnd (a b : List Bool) : List Bool := List.zipWith (fun x y => x && y) a b

/-- `AndNot(a, b)` on masks: `!a & b`. -/
def MaskAndNot (a b : List Bool) : List Bool := List.zipWith (fun x y => !x && y) a b

/-- `FirstN(d, k)`: the mask whose first `k` of `N` lanes are set. -/
def FirstN (N k : Nat) : List Bool := (List.range N).map (fun i => decide (i < k))

/-- `CountTrue(d, mask)`. -/
def CountTrue (m : List Bool) : Nat := m.count true

/-- `Compress(v, mask)` restricted to its valid lanes: the lanes of `v` whose mask bit is
set, in lane order. -/
def Compress (v : List α) (m : List Bool) : List α :=
  ((v.zip m).filter (fun p => p.2)).map (fun p => p.1)

/-- Modelled from the spec: `st.CompressKeys(v, mask)` on targets where compress is a
partition: the lanes whose mask bit is clear, followed by the lanes whose bit is set. -/
def CompressKeys (v : List α) (m : List Bool) : List α :=
  Compress v (MaskNot m) ++ Compress v m

/-- `CompressStore(v, mask, d, p + i)`: writes the selected lanes at `i` and returns their
number; lanes after the valid ones, up to a whole vector, may be overwritten. -/
def CompressStore (t : Target α) (v : List α) (m : List Bool) (mem : List α) (i : Nat) :
    Option (List α × Nat) := do
  let mem ← StoreU ((Compress v m ++ t.compressTail v m).take t.lanes) mem i
  pure (mem, CountTrue m)

/-- `CompressBlendedStore(v, mask, d, p + i)` at the level of values: writes only the
selected lanes at `i` and returns their number.  The other lanes of the vector at `i`, which
the store leaves unchanged, are not required to lie in the array here;
`CompressBlendedStore.vector` is the store with the whole vector accessed. -/
def CompressBlendedStore (v : List α) (m : List Bool) (mem : List α) (i : Nat) :
    Option (List α × Nat) := do
  let mem ← StoreU (Compress v m) mem i
  pure (mem, CountTrue m)

end Vectors

/-! ## Partition -/

section Partition

variable {α : Type} [LinearOrder α]

/-- `st.Compare(d, a, b)` lane by lane. -/
def CompareV (o : Order) (a b : List α) : List Bool := List.zipWith (Compare o) a b

/-- The full-vector loop of `PartitionToMultipleOfUnroll`.  `buf` holds the valid lanes
`buf[0, bufR)` of the scratch buffer. -/
def PartitionToMultipleOfUnroll.loop (o : Order) (N num_rem : Nat) (pivot : List α) :
    Nat → List α → Nat → Nat → List α → Nat → Option (List α × Nat × Nat × List α × Nat)
  | 0, _, _, _, _, _ => none
  | fuel + 1, keys, left, readL, buf, i =>
    if i + N ≤ num_rem then do
      let vL ← LoadU N keys readL
      let readL := readL + N
      let comp := CompareV o pivot vL
      let (keys, numL) ← CompressBlendedStore vL (MaskNot comp) keys left
      let left := left + numL
      let buf := buf ++ Compress vL comp
      PartitionToMultipleOfUnroll.loop o N num_rem pivot fuel keys left readL buf (i + N)
    else some (keys, left, readL, buf, i)

/-- `PartitionToMultipleOfUnroll(d, st, keys, left, right, pivot, buf)`; returns the keys and
the updated `left` and `right`. -/
def PartitionToMultipleOfUnroll (t : Target α) (o : Order) (keys : List α) (left right : Nat)
    (pivot : List α) : Option (List α × Nat × Nat) := do
  let N := t.lanes
  let num := right - left
  let num_rem :=
    if num < 2 * kPartitionUnroll * N then num else num &&& (kPartitionUnroll * N - 1)
  let (keys, left, readL, buf, i) ←
    PartitionToMultipleOfUnroll.loop o N num_rem pivot (num_rem + 1) keys left left [] 0
  let (keys, left, buf) ←
    if i ≠ num_rem then do
      let mask := FirstN N (num_rem - i)
      let vL ← LoadU N keys readL
      let comp := CompareV o pivot vL
      let (keys, numL) ← CompressBlendedStore vL (MaskAndNot comp mask) keys left
      pure (keys, left + numL, buf ++ Compress vL (MaskAnd comp mask))
    else pure (keys, left, buf)
  let bufR := buf.length
  let right := right - bufR
  let moved ← LoadU bufR keys right
  let keys ← StoreU moved keys left
  let keys ← StoreU buf keys right
  pure (keys, left, right)

/-- `StoreLeftRight(d, st, v, pivot, keys, writeL, remaining)`; returns the keys and the
updated `writeL` and `remaining`. -/
def StoreLeftRight (t : Target α) (o : Order) (v pivot : List α) (keys : List α)
    (writeL remaining : Nat) : Option (List α × Nat × Nat) := do
  let N := t.lanes
  let comp := CompareV o pivot v
  let remaining := remaining - N
  if t.compressIsPartition then
    let lr := CompressKeys v comp
    let num_left := N - CountTrue comp
    let keys ← StoreU lr keys writeL
    let keys ← StoreU lr keys (remaining + writeL)
    pure (keys, writeL + num_left, remaining)
  else
    let (keys, num_left) ← CompressStore t v (MaskNot comp) keys writeL
    let writeL := writeL + num_left
    let (keys, _) ← CompressBlendedStore v comp keys (remaining + writeL)
    pure (keys, writeL, remaining)

/-- `StoreLeftRight4`. -/
def StoreLeftRight4 (t : Target α) (o : Order) (v0 v1 v2 v3 pivot : List α) (keys : List α)
    (writeL remaining : Nat) : Option (List α × Nat × Nat) := do
  let (keys, writeL, remaining) ← StoreLeftRight t o v0 pivot keys writeL remaining
  let (keys, writeL, remaining) ← StoreLeftRight t o v1 pivot keys writeL remaining
  let (keys, writeL, remaining) ← StoreLeftRight t o v2 pivot keys writeL remaining
  StoreLeftRight t o v3 pivot keys writeL remaining

/-- The main loop of `Partition`: `while (left != right)`. -/
def Partition.loop (t : Target α) (o : Order) (pivot : List α) :
    Nat → List α → Nat → Nat → Nat → Nat → Option (List α × Nat × Nat)
  | 0, _, _, _, _, _ => none
  | fuel + 1, keys, left, right, writeL, remaining =>
    let N := t.lanes
    if left ≠ right then do
      let capacityL := left - writeL
      if kPartitionUnroll * N < capacityL then do
        let right := right - kPartitionUnroll * N
        let v0 ← LoadU N keys (right + 0 * N)
        let v1 ← LoadU N keys (right + 1 * N)
        let v2 ← LoadU N keys (right + 2 * N)
        let v3 ← LoadU N keys (right + 3 * N)
        let (keys, writeL, remaining) ←
          StoreLeftRight4 t o v0 v1 v2 v3 pivot keys writeL remaining
        Partition.loop t o pivot fuel keys left right writeL remaining
      else do
        let v0 ← LoadU N keys (left + 0 * N)
        let v1 ← LoadU N keys (left + 1 * N)
        let v2 ← LoadU N keys (left + 2 * N)
        let v3 ← LoadU N keys (left + 3 * N)
        let left := left + kPartitionUnroll * N
        let (keys, writeL, remaining) ←
          StoreLeftRight4 t o v0 v1 v2 v3 pivot keys writeL remaining
        Partition.loop t o pivot fuel keys left right writeL remaining
    else some (keys, writeL, remaining)

/-- The block `if (HWY_LIKELY(num != 0)) { … }` of `Partition`, entered after
`PartitionToMultipleOfUnroll`: primes four vectors on each side, runs the main loop and
flushes the primed vectors.  Returns the keys, `writeL` and `remaining`. -/
def Partition.main (t : Target α) (o : Order) (pivot : List α) (keys : List α)
    (left right : Nat) : Option (List α × Nat × Nat) :=
  let N := t.lanes
  let writeL := left
  let remaining := right - left
  let num := right - left
  if num ≠ 0 then do
    let vL0 ← LoadU N keys (left + 0 * N)
    let vL1 ← LoadU N keys (left + 1 * N)
    let vL2 ← LoadU N keys (left + 2 * N)
    let vL3 ← LoadU N keys (left + 3 * N)
    let left := left + kPartitionUnroll * N
    let right := right - kPartitionUnroll * N
    let vR0 ← LoadU N keys (right + 0 * N)
    let vR1 ← LoadU N keys (right + 1 * N)
    let vR2 ← LoadU N keys (right + 2 * N)
    let vR3 ← LoadU N keys (right + 3 * N)
    let (keys, writeL, remaining) ←
      Partition.loop t o pivot (num + 1) keys left right writeL remaining
    let (keys, writeL, remaining) ←
      StoreLeftRight4 t o vL0 vL1 vL2 vL3 pivot keys writeL remaining
    StoreLeftRight4 t o vR0 vR1 vR2 vR3 pivot keys writeL remaining
  else pure (keys, writeL, remaining)

/-- The load address `startR` at the end of `Partition`:
`totalR < N ? writeL + totalR - N : writeL` with `totalR = last - writeL`. -/
def Partition.startR (N last writeL : Nat) : Nat :=
  let totalR := last - writeL
  if totalR < N then writeL + totalR - N else writeL

/-- The end of `Partition`: makes room at `writeL` by moving up to `N` right-side keys into
the slot at `last`, then partitions `vlast` into the gap.  Returns the keys and the
boundary. -/
def Partition.insertLast (t : Target α) (o : Order) (pivot : List α) (keys : List α)
    (vlast : List α) (last writeL : Nat) : Option (List α × Nat) := do
  let N := t.lanes
  let startR := Partition.startR N last writeL
  let moved ← LoadU N keys startR
  let keys ← StoreU moved keys last
  let comp := CompareV o pivot vlast
  let (keys, numL) ← CompressBlendedStore vlast (MaskNot comp) keys writeL
  let writeL := writeL + numL
  let (keys, _) ← CompressBlendedStore vlast comp keys writeL
  pure (keys, writeL)

/-- `Partition(d, st, keys, left, right, pivot, buf)`; returns the keys and the boundary. -/
def Partition (t : Target α) (o : Order) (keys : List α) (left right : Nat)
    (pivot : List α) : Option (List α × Nat) := do
  let N := t.lanes
  let right := right - N
  let last := right
  let vlast ← LoadU N keys last
  let (keys, left, right) ← PartitionToMultipleOfUnroll t o keys left right pivot
  let (keys, writeL, _) ← Partition.main t o pivot keys left right
  Partition.insertLast t o pivot keys vlast last writeL

end Partition

/-! ## Base case -/

/-- Number of significant bits of `x` (`0` for `x = 0`), by repeated halving. -/
def bitLength : Nat → Nat → Nat
  | 0, _ => 0
  | fuel + 1, x => if x = 0 then 0 else 1 + bitLength fuel (x / 2)

/-- `Num0BitsAboveMS1Bit_Nonzero32(x)` of hwy/base.h: the number of leading zero bits of a
nonzero 32-bit value. -/
def Num0BitsAboveMS1Bit_Nonzero32 (x : Nat) : Nat := 32 - bitLength 32 x

/-- Number of trailing zero bits, by repeated halving. -/
def trailingZeros : Nat → Nat → Nat
  | 0, _ => 0
  | fuel + 1, x => if x % 2 = 1 then 0 else 1 + trailingZeros fuel (x / 2)

/-- `Num0BitsBelowLS1Bit_Nonzero32(x)` of hwy/base.h: the number of trailing zero bits of a
nonzero 32-bit value. -/
def Num0BitsBelowLS1Bit_Nonzero32 (x : Nat) : Nat := trailingZeros 32 x

/-- `hwy::CeilLog2(x)` of hwy/base.h: `x == 1 ? 0 : FloorLog2(x - 1) + 1`. -/
def CeilLog2 (x : Nat) : Nat := if x = 1 then 0 else bitLength 64 (x - 1)

section BaseCase

variable {α : Type} [LinearOrder α] [BoundedOrder α]

/-- Modelled from the spec: `SortingNetwork(st, buf + ofs, cols)` of
sorting_networks-inl.h, which is not among the sources.  Per the spec it sorts the
`kMaxRows × cols` block of keys starting at `buf + ofs` under the order. -/
def SortingNetwork (o : Order) (mem : List α) (ofs cols : Nat) : Option (List α) := do
  let block ← LoadU (kMaxRows * cols) mem ofs
  StoreU (block.insertionSort (ole o)) mem ofs

/-- The padding loop of `BaseCase`: `for (; i < limit; i += N) StoreU(kPadding, d, buf + i)`.
`buf` holds the initialised lanes `buf[0, i)`. -/
def BaseCase.pad (o : Order) (N limit : Nat) : Nat → List α → Nat → Option (List α)
  | 0, _, _ => none
  | fuel + 1, buf, i =>
    if i < limit then
      BaseCase.pad o N limit fuel (buf ++ SetKey N (LastValue o)) (i + N)
    else some buf

/-- The second half of `BaseCase`, after the in-place test failed: copy `num` keys to the
scratch buffer, pad, sort there with `cols` columns and copy `num` keys back. -/
def BaseCase.padded (t : Target α) (o : Order) (mem : List α) (keys num cols : Nat) :
    Option (List α) := do
  let N := t.lanes
  -- Copy `keys` to `buf`.
  let buf ← LoadU num mem keys
  -- Fill with padding - last in sort order, not copied to keys.
  let buf ← BaseCase.pad o N (cols * kMaxRows + N) (cols * kMaxRows + N + 1) buf num
  let buf ← SortingNetwork o buf 0 cols
  let sorted ← LoadU num buf 0
  StoreU sorted mem keys

/-- `BaseCase(d, st, mem + keys, mem + keys_end, num, buf)`. -/
def BaseCase (t : Target α) (o : Order) (mem : List α) (keys keys_end num : Nat) :
    Option (List α) :=
  if num ≤ 1 then some mem
  else
    let num_pow2 := 1 <<< (32 - Num0BitsAboveMS1Bit_Nonzero32 ((num - 1) % 2 ^ 32))
    let cols := max 1 (num_pow2 >>> kMaxRowsLog2)
    let N_sn := min t.fullLanes kMaxCols
    if keys + N_sn * kMaxRows ≤ keys_end then
      SortingNetwork o mem keys N_sn
    else BaseCase.padded t o mem keys num cols

end BaseCase

/-! ## Pivot selection -/

section Pivot

variable {α : Type} [LinearOrder α]

/-- `MedianOf3` in one lane, for scalar lane types: `Sort2(v0, v2); v1 = Last(v0, v1);
v1 = First(v1, v2)`. -/
def MedianOf3Lane (o : Order) (v0 v1 v2 : α) : α :=
  let s0 := First o v0 v2
  let s2 := Last o v0 v2
  let v1 := Last o s0 v1
  First o v1 s2

/-- `MedianOf3(st, v0, v1, v2)` on vectors of scalar lanes. -/
def MedianOf3 (o : Order) (v0 v1 v2 : List α) : List α :=
  List.zipWith3 (MedianOf3Lane o) v0 v1 v2

/-- The first loop of `RecursiveMedianOf3` (triplets of vectors); `out` holds the lanes
`buf[0, written)`. -/
def RecursiveMedianOf3.vectors (o : Order) (N num : Nat) (keys : List α) :
    Nat → Nat → List α → Option (Nat × List α)
  | 0, _, _ => none
  | fuel + 1, read, out =>
    if read + 3 * N ≤ num then do
      let v0 ← LoadU N keys (read + 0 * N)
      let v1 ← LoadU N keys (read + 1 * N)
      let v2 ← LoadU N keys (read + 2 * N)
      RecursiveMedianOf3.vectors o N num keys fuel (read + 3 * N) (out ++ MedianOf3 o v0 v1 v2)
    else some (read, out)

/-- The second loop of `RecursiveMedianOf3` (triplets of keys).  Each median is stored as a
broadcast vector at `buf + written`, of which only the first lane survives the next store. -/
def RecursiveMedianOf3.singles (o : Order) (num : Nat) (keys : List α) :
    Nat → Nat → List α → Option (Nat × List α)
  | 0, _, _ => none
  | fuel + 1, read, out =>
    if read + 3 ≤ num then do
      let v0 ← keys[read + 0]?
      let v1 ← keys[read + 1]?
      let v2 ← keys[read + 2]?
      RecursiveMedianOf3.singles o num keys fuel (read + 3) (out ++ [MedianOf3Lane o v0 v1 v2])
    else some (read, out)

/-- `RecursiveMedianOf3(d, st, keys, num, buf)`; `keys` holds the lanes `keys[0, num)` of
the current buffer, and the two buffers swap roles at each level. -/
def RecursiveMedianOf3 (o : Order) (N : Nat) : Nat → List α → Nat → Option (List α)
  | 0, _, _ => none
  | fuel + 1, keys, num =>
    if num < 3 then do
      let key ← keys[0]?
      pure (SetKey N key)
    else do
      let (read, out) ← RecursiveMedianOf3.vectors o N num keys (num + 1) 0 []
      let (_, out) ← RecursiveMedianOf3.singles o num keys (num + 1) read out
      RecursiveMedianOf3 o N fuel out out.length

/-- The state of `Generator`: four 64-bit words. -/
structure Generator where
  a : Nat
  b : Nat
  w : Nat
  k : Nat
  deriving DecidableEq, Repr

/-- `Generator::operator()`: returns `next` and the updated state. -/
def Generator.next (g : Generator) : Nat × Generator :=
  let b := g.b
  let w := (g.w + g.k) % 2 ^ 64
  let next := g.a ^^^ w
  let a := ((b + (b <<< 3)) % 2 ^ 64) ^^^ (b >>> 11)
  let rot := ((b <<< 24) % 2 ^ 64) ||| (b >>> 40)
  let b := (rot + next) % 2 ^ 64
  (next, { a := a, b := b, w := w, k := g.k })

/-- `RandomChunkIndex(num_chunks, bits)`. -/
def RandomChunkIndex (num_chunks bits : Nat) : Nat :=
  ((bits * num_chunks) % 2 ^ 64) >>> 32

/-- The sampling loop of `ChoosePivot`: `for (i = 0; i < lanes_per_chunk; i += N)`.  The
three lists are the regions `buf[0, i)`, `buf[lpc, lpc + i)` and `buf[2 lpc, 2 lpc + i)`. -/
def ChoosePivot.sample (o : Order) (N lanes_per_chunk : Nat) (keys : List α) (base : Nat)
    (ofs : Nat → Nat) : Nat → Nat → List α → List α → List α →
    Option (List α × List α × List α)
  | 0, _, _, _, _ => none
  | fuel + 1, i, m0, m1, m2 =>
    if i < lanes_per_chunk then do
      let v0 ← LoadU N keys (base + ofs 0 + i)
      let v1 ← LoadU N keys (base + ofs 1 + i)
      let v2 ← LoadU N keys (base + ofs 2 + i)
      let medians0 := MedianOf3 o v0 v1 v2
      let v3 ← LoadU N keys (base + ofs 3 + i)
      let v4 ← LoadU N keys (base + ofs 4 + i)
      let v5 ← LoadU N keys (base + ofs 5 + i)
      let medians1 := MedianOf3 o v3 v4 v5
      let v6 ← LoadU N keys (base + ofs 6 + i)
      let v7 ← LoadU N keys (base + ofs 7 + i)
      let v8 ← LoadU N keys (base + ofs 8 + i)
      let medians2 := MedianOf3 o v6 v7 v8
      ChoosePivot.sample o N lanes_per_chunk keys base ofs fuel (i + N)
        (m0 ++ medians0) (m1 ++ medians1) (m2 ++ medians2)
    else some (m0, m1, m2)

/-- `ChoosePivot(d, st, keys, begin, end, buf, rng)`.  `addr` is the address of `keys[0]` in
bytes; the 32-bit words `bits[0..9)` are the little-endian halves of the five generator
outputs. -/
def ChoosePivot (t : Target α) (o : Order) (addr : Nat) (keys : List α) (begin end_ : Nat)
    (rng : Generator) : Option (List α × Generator) := do
  let N := t.lanes
  let lanes_per_chunk := LanesPerChunk t.sizeofT N
  let base := begin
  let num := end_ - begin
  let misalign := ((addr + begin * t.sizeofT) / t.sizeofT) &&& (lanes_per_chunk - 1)
  let (base, num) :=
    if misalign ≠ 0 then
      let consume := lanes_per_chunk - misalign
      (base + consume, num - consume)
    else (base, num)
  let (r0, rng) := rng.next
  let (r1, rng) := rng.next
  let (r2, rng) := rng.next
  let (r3, rng) := rng.next
  let (r4, rng) := rng.next
  let bits64 : List Nat := [r0, r1, r2, r3, r4]
  let bits : Nat → Nat := fun j =>
    if j % 2 = 0 then bits64[j / 2]! % 2 ^ 32 else (bits64[j / 2]! >>> 32) % 2 ^ 32
  let lpc32 := lanes_per_chunk % 2 ^ 32
  let log2_lpc := Num0BitsBelowLS1Bit_Nonzero32 lpc32
  let num_chunks64 := num >>> log2_lpc
  let num_chunks := min num_chunks64 0xFFFFFFFF
  let ofs : Nat → Nat := fun j => RandomChunkIndex num_chunks (bits j) <<< log2_lpc
  let (m0, m1, m2) ←
    ChoosePivot.sample o N lanes_per_chunk keys base ofs (lanes_per_chunk + 1) 0 [] [] []
  let pivot ← RecursiveMedianOf3 o N (3 * lanes_per_chunk + 1) (m0 ++ m1 ++ m2)
    (3 * lanes_per_chunk)
  pure (pivot, rng)

end Pivot

/-! ## ScanMinMax -/

section Scan

variable {α : Type} [LinearOrder α] [BoundedOrder α]

/-- Modelled from the spec: `st.FirstOfLanes(d, v, buf)`, the broadcast of the lane of `v`
that comes first in sort order. -/
def FirstOfLanes (o : Order) (v : List α) : List α :=
  match v with
  | [] => []
  | x :: xs => SetKey v.length (xs.foldl (First o) x)

/-- Modelled from the spec: `st.LastOfLanes(d, v, buf)`, the broadcast of the lane of `v`
that comes last in sort order. -/
def LastOfLanes (o : Order) (v : List α) : List α :=
  match v with
  | [] => []
  | x :: xs => SetKey v.length (xs.foldl (Last o) x)

/-- The loop of `ScanMinMax` over whole vectors. -/
def ScanMinMax.loop (o : Order) (N num : Nat) (mem : List α) (keys : Nat) :
    Nat → Nat → List α → List α → Option (Nat × List α × List α)
  | 0, _, _, _ => none
  | fuel + 1, i, first, last =>
    if i + N ≤ num then do
      let v ← LoadU N mem (keys + i)
      ScanMinMax.loop o N num mem keys fuel (i + N) (List.zipWith (First o) v first)
        (List.zipWith (Last o) v last)
    else some (i, first, last)

/-- `ScanMinMax(d, st, mem + keys, num, buf, first, last)`; returns `first` and `last`. -/
def ScanMinMax (t : Target α) (o : Order) (mem : List α) (keys num : Nat) :
    Option (List α × List α) := do
  let N := t.lanes
  let first := SetKey N (LastValue o)
  let last := SetKey N (FirstValue o)
  let (i, first, last) ← ScanMinMax.loop o N num mem keys (num + 1) 0 first last
  let (first, last) ←
    if i ≠ num then do
      let v ← LoadU N mem (keys + num - N)
      pure (List.zipWith (First o) v first, List.zipWith (Last o) v last)
    else pure (first, last)
  pure (FirstOfLanes o first, LastOfLanes o last)

end Scan

/-! ## Recurse and Sort -/

/-- What the instrumented source prints. -/
inductive Event where
  /-- `depth` stars followed by `Heapsort with num`. -/
  | heapsort (depth : Int) (num : Nat)
  /-- `Max depth: d`. -/
  | maxDepth (d : Int)
  deriving DecidableEq, Repr

/-- The file-scope variables `max_depth` and `depth` of the source and the text written to
standard output, together with two ghost fields that record what happened. -/
structure Globals (α : Type) where
  max_depth : Int
  depth : Int
  /-- Everything printed so far, oldest first. -/
  out : List Event
  /-- Ghost: the number of calls of `HeapSort` made so far.  Not program state. -/
  heapSortCalls : Nat
  /-- Ghost: for every call of `ChoosePivot` so far, oldest first, the generator state it
  was given and the pivot it returned.  Not program state. -/
  choices : List (Generator × List α)
  deriving DecidableEq, Repr

section SortEntry

variable {α : Type} [LinearOrder α] [BoundedOrder α]

/-- One of the two sides of `Recurse` after a non-degenerate partition, the range
`[lo, hi)` of `num_side` keys: the base case if it is small enough, else a new pivot and the
recursive call `recurse` (which is `Recurse` with `remaining_levels - 1`). -/
def Recurse.side (t : Target α) (o : Order) (addr keys_end : Nat)
    (recurse : List α → Nat → Nat → List α → Generator → Globals α →
      Option (List α × Generator × Globals α))
    (keys : List α) (lo hi : Nat) (num_side : Int) (rng : Generator) (g : Globals α) :
    Option (List α × Generator × Globals α) :=
  let base_case_num : Int := BaseCaseNum t.lanes
  if num_side ≤ base_case_num then do
    let keys ← BaseCase t o keys lo keys_end num_side.toNat
    pure (keys, rng, g)
  else do
    let (next_pivot, rng2) ← ChoosePivot t o addr keys lo hi rng
    let g := { g with choices := g.choices ++ [(rng, next_pivot)] }
    let rng := rng2
    let g := { g with depth := g.depth + 1 }
    let (keys, rng, g) ← recurse keys lo hi next_pivot rng g
    pure (keys, rng, { g with depth := g.depth - 1 })

/-- `Recurse(d, st, keys, keys_end, begin, end, pivot, buf, rng, remaining_levels)`. -/
def Recurse (t : Target α) (o : Order) (addr keys_end : Nat) :
    Nat → List α → Nat → Nat → List α → Generator → Globals α →
    Option (List α × Generator × Globals α)
  | 0, keys, begin, end_, _, rng, g => do
    let g := { g with max_depth := max g.max_depth g.depth }
    let num := end_ - begin
    let g := { g with out := g.out ++ [Event.heapsort g.depth num] }
    let sorted ← HeapSort o (keys.drop begin) num
    pure (keys.take begin ++ sorted, rng, { g with heapSortCalls := g.heapSortCalls + 1 })
  | remaining_levels + 1, keys, begin, end_, pivot, rng, g => do
    let g := { g with max_depth := max g.max_depth g.depth }
    let num := end_ - begin
    let (keys, bound) ← Partition t o keys begin end_ pivot
    let num_left : Int := (bound : Int) - (begin : Int)
    let num_right : Int := (end_ : Int) - (bound : Int)
    if num_right = 0 then do
      let (first, last) ← ScanMinMax t o keys begin num
      if first = last then pure (keys, rng, g)
      else do
        let g := { g with depth := g.depth + 1 }
        let (keys, rng, g) ←
          Recurse t o addr keys_end remaining_levels keys begin end_ first rng g
        pure (keys, rng, { g with depth := g.depth - 1 })
    else do
      let (keys, rng, g) ←
        Recurse.side t o addr keys_end (Recurse t o addr keys_end remaining_levels)
          keys begin bound num_left rng g
      Recurse.side t o addr keys_end (Recurse t o addr keys_end remaining_levels)
        keys bound end_ num_right rng g

/-- `HandleSpecialCases(d, st, keys, num, buf)`; returns whether sorting is finished, the
keys and the globals.  `partial_128` is false for scalar lane types. -/
def HandleSpecialCases (t : Target α) (o : Order) (keys : List α) (num : Nat) (g : Globals α) :
    Option (Bool × List α × Globals α) :=
  let N := t.lanes
  let base_case_num := BaseCaseNum N
  let kPotentiallyHuge := decide (t.maxBytes / t.sizeofT > kMaxRows * kMaxCols)
  let huge_vec := kPotentiallyHuge && decide (2 * N > base_case_num)
  if huge_vec then do
    let keys ← HeapSort o keys num
    pure (true, keys, { g with heapSortCalls := g.heapSortCalls + 1 })
  else if num ≤ base_case_num then do
    let keys ← BaseCase t o keys 0 num num
    pure (true, keys, g)
  else pure (false, keys, g)

/-- The body of `Sort(d, st, keys, num, buf)`.  `reentry` is the instantiation for the
capped tag, called when the vectors exceed 512 bits. -/
def SortBody (t : Target α) (o : Order) (addr : Nat) (keys : List α) (num : Nat)
    (g : Globals α)
    (reentry : Target α → List α → Globals α → Option (List α × Globals α)) :
    Option (List α × Globals α) := do
  let g := { g with max_depth := -1, depth := 1 }
  if t.vqsortEnabled then
    let (done, keys, g) ← HandleSpecialCases t o keys num g
    if done then pure (keys, g)
    else if t.maxBytes > 64 ∧ t.lanes > 64 / t.sizeofT then
      reentry { t with lanes := min (64 / t.sizeofT) t.fullLanes } keys g
    else do
      let (a, b, w) := t.Fill24Bytes addr num
      let rng : Generator := { a := a, b := b, w := w, k := 1 }
      let (pivot, rng2) ← ChoosePivot t o addr keys 0 num rng
      let g := { g with choices := g.choices ++ [(rng, pivot)] }
      let rng := rng2
      let max_levels := 2 * CeilLog2 num + 4
      let (keys, _, g) ← Recurse t o addr num max_levels keys 0 num pivot rng g
      pure (keys, { g with out := g.out ++ [Event.maxDepth g.max_depth] })
  else do
    let keys ← HeapSort o keys num
    pure (keys, { g with heapSortCalls := g.heapSortCalls + 1 })

/-- `Sort(d, st, keys, num, buf)` (`Sort` is a reserved word): sorts `keys[0, num)`.  `addr` is the address of `keys[0]`
in bytes and `g` the file-scope variables on entry.  The capped instantiation never
re-enters a third time. -/
def Sort' (t : Target α) (o : Order) (addr : Nat) (keys : List α) (num : Nat) (g : Globals α) :
    Option (List α × Globals α) :=
  SortBody t o addr keys num g fun t2 keys2 g2 =>
    SortBody t2 o addr keys2 num g2 fun _ _ _ => none

end SortEntry

/-! ## Input statistics of the test harness (algo-inl.h) -/

section Stats

variable {α : Type} [LinearOrder α]

/-- The data members of `InputStats<T>`: `min_`, `max_`, the 64-bit checksum `sum_` and the
counter `count_` (a `size_t`). -/
structure InputStats (α : Type) where
  min_ : α
  max_ : α
  sum_ : Nat
  count_ : Nat

/-- The default member initialisers: `min_ = HighestValue<T>()`, `max_ = LowestValue<T>()`,
`sum_ = 0`, `count_ = 0`. -/
def InputStats.initial [BoundedOrder α] : InputStats α :=
  { min_ := ⊤, max_ := ⊥, sum_ := 0, count_ := 0 }

/-- `InputStats::Notify(value)`.  `bitsOf value` is the bit representation of `value`
copied into a zeroed `uint64_t`. -/
def InputStats.Notify (bitsOf : α → Nat) (s : InputStats α) (value : α) : InputStats α :=
  { min_ := min s.min_ value
    max_ := max s.max_ value
    sum_ := (s.sum_ + bitsOf value) % 2 ^ 64
    count_ := (s.count_ + 1) % 2 ^ 64 }

/-- The loop `for (i = 0; i < num; ++i) input_stats.Notify(v[i])` that ends
`GenerateInput`, on the `num` elements `v`. -/
def InputStats.NotifyAll [BoundedOrder α] (bitsOf : α → Nat) (v : List α) : InputStats α :=
  v.foldl (InputStats.Notify bitsOf) InputStats.initial

/-- `InputStats::operator==`: returns `true`, or aborts (`none`) at the first member that
differs. -/
def InputStats.equals (a b : InputStats α) : Option Bool :=
  if a.count_ ≠ b.count_ then none
  else if a.min_ ≠ b.min_ ∨ a.max_ ≠ b.max_ then none
  else if a.sum_ ≠ b.sum_ then none
  else some true

end Stats

/-! ## Specification vocabulary -/

section

variable {α : Type} [LinearOrder α]

/-- The children of node `i` that lie below `n` do not come after `l[i]`. -/
def HeapAt (o : Order) (l : List α) (n i : Nat) : Prop :=
  ∀ c, (c = 2 * i + 1 ∨ c = 2 * i + 2) → c < n →
    ∀ x y, l[i]? = some x → l[c]? = some y → ole o y x

/-- The lanes of `v` that go to the left of the pivot `p`. -/
def leftOf (o : Order) (p : α) (v : List α) : List α := v.filter (fun x => !Compare o p x)

/-- The lanes of `v` that go to the right of the pivot `p`. -/
def rightOf (o : Order) (p : α) (v : List α) : List α := v.filter (Compare o p)

/-- Every key of `P` goes to the left of the pivot. -/
def allLeft (o : Order) (p : α) (P : List α) : Prop := ∀ x ∈ P, Compare o p x = false

/-- Every key of `S` goes to the right of the pivot. -/
def allRight (o : Order) (p : α) (S : List α) : Prop := ∀ x ∈ S, Compare o p x = true

/-- The state of the in-place partition: the keys between `pre` and `post` are, from left to
right, the left side `P`, a gap of `g1` stale lanes, the unread keys `U`, a gap of `g2`
stale lanes, and the right side `S`. -/
def PartState (keys : List α) (writeL remaining : Nat) (pre P : List α) (g1 : Nat)
    (U : List α) (g2 : Nat) (S post : List α) : Prop :=
  ∃ G1 G2, keys = pre ++ (P ++ (G1 ++ (U ++ (G2 ++ (S ++ post))))) ∧ G1.length = g1 ∧
    G2.length = g2 ∧ writeL = pre.length + P.length ∧ remaining = g1 + U.length + g2

/-- The left-side lanes of four vectors, in the order `StoreLeftRight4` writes them. -/
def left4 (o : Order) (p : α) (v0 v1 v2 v3 : List α) : List α :=
  leftOf o p v0 ++ (leftOf o p v1 ++ (leftOf o p v2 ++ leftOf o p v3))

/-- The right-side lanes of four vectors, in the order `StoreLeftRight4` leaves them. -/
def right4 (o : Order) (p : α) (v0 v1 v2 v3 : List α) : List α :=
  rightOf o p v3 ++ (rightOf o p v2 ++ (rightOf o p v1 ++ rightOf o p v0))

/-- The cut at `j`: every key before it precedes (or equals) every key after it. -/
def CutOK (o : Order) (X : List α) (j : Nat) : Prop :=
  ∀ x ∈ X.take j, ∀ y ∈ X.drop j, ole o x y

/-- `X'` rearranges `X` without moving a key across any cut at or after `m`. -/
def CutStable (o : Order) (m : Nat) (X X' : List α) : Prop :=
  ∀ j, m ≤ j → CutOK o X j → (X'.take j).Perm (X.take j) ∧ (X'.drop j).Perm (X.drop j)

end

section

variable {α : Type} [LinearOrder α] [BoundedOrder α]

/-- The converse of `ole`. -/
def oge (o : Order) (a b : α) : Prop := ole o b a

/-- The lanes of `acc` cover the keys of `S` from below under the relation `r`, with
`init` as the neutral lane value. -/
def Covers (r : α → α → Prop) (init : α) (N : Nat) (acc S : List α) : Prop :=
  acc.length = N ∧ (∀ y ∈ acc, y = init ∨ y ∈ S) ∧ (∀ x ∈ S, ∃ y ∈ acc, r y x)

/-- What a call of `Recurse` on the range of the first `m` keys of the region `X` (which
extends to the end of the array) achieves. -/
def RecSpec (t : Target α) (o : Order) (keys_end : Nat)
    (recurse : List α → Nat → Nat → List α → Generator → Globals α →
      Option (List α × Generator × Globals α)) : Prop :=
  ∀ (A X Z : List α) (m : Nat) (p : α) (rng : Generator) (g : Globals α),
    keys_end = A.length + X.length → BaseCaseNum t.lanes < m → m ≤ X.length → CutOK o X m →
    ∃ X' rng' g', recurse (A ++ (X ++ Z)) A.length (A.length + m) (SetKey t.lanes p) rng g
        = some (A ++ (X' ++ Z), rng', g') ∧
      CutStable o m X X' ∧ (X'.take m).Sorted (ole o)

/-- `Partition` in a debug build: its first statement is
`HWY_DASSERT(right - left > 2 * N)`, which aborts (`none`) when it fails. -/
def Partition.asserted (t : Target α) (o : Order) (keys : List α) (left right : Nat)
    (pivot : List α) : Option (List α × Nat) :=
  if 2 * t.lanes < right - left then Partition t o keys left right pivot else none

/-- The body of `Recurse` for `remaining_levels > 0`, with the function called as
`Partition` and the recursive call as parameters. -/
def Recurse.level (t : Target α) (o : Order) (addr keys_end : Nat)
    (part : List α → Nat → Nat → List α → Option (List α × Nat))
    (recurse : List α → Nat → Nat → List α → Generator → Globals α →
      Option (List α × Generator × Globals α))
    (keys : List α) (begin end_ : Nat) (pivot : List α) (rng : Generator) (g : Globals α) :
    Option (List α × Generator × Globals α) := do
  let g := { g with max_depth := max g.max_depth g.depth }
  let num := end_ - begin
  let (keys, bound) ← part keys begin end_ pivot
  let num_left : Int := (bound : Int) - (begin : Int)
  let num_right : Int := (end_ : Int) - (bound : Int)
  if num_right = 0 then do
    let (first, last) ← ScanMinMax t o keys begin num
    if first = last then pure (keys, rng, g)
    else do
      let g := { g with depth := g.depth + 1 }
      let (keys, rng, g) ← recurse keys begin end_ first rng g
      pure (keys, rng, { g with depth := g.depth - 1 })
  else do
    let (keys, rng, g) ←
      Recurse.side t o addr keys_end recurse keys begin bound num_left rng g
    Recurse.side t o addr keys_end recurse keys bound end_ num_right rng g

/-- `Recurse` in a debug build: the same function with the assertion of `Partition`
checked at every call. -/
def Recurse.checked (t : Target α) (o : Order) (addr keys_end : Nat) :
    Nat → List α → Nat → Nat → List α → Generator → Globals α →
    Option (List α × Generator × Globals α)
  | 0 => Recurse t o addr keys_end 0
  | remaining_levels + 1 =>
    Recurse.level t o addr keys_end (Partition.asserted t o)
      (Recurse.checked t o addr keys_end remaining_levels)

/-- The postcondition of sorting `keys[0, num)`: the first `num` lanes are a sorted
rearrangement of the input and the lanes behind them are untouched. -/
def SortedResult (o : Order) (keys keys' : List α) (num : Nat) : Prop :=
  keys'.drop num = keys.drop num ∧ (keys'.take num).Perm (keys.take num) ∧
    (keys'.take num).Sorted (ole o)

end

/-- What a call adds to the file-scope state: the deepest level at which `Recurse` was
entered, the text printed, the number of `HeapSort` calls and the pivots chosen. -/
structure Delta (α : Type) where
  md : Int
  ev : List Event
  hs : Nat
  ch : List (Generator × List α)

/-- The globals after a call that contributed `x`. -/
def Globals.after {α : Type} (g : Globals α) (x : Delta α) : Globals α :=
  { max_depth := max g.max_depth x.md, depth := g.depth, out := g.out ++ x.ev,
    heapSortCalls := g.heapSortCalls + x.hs, choices := g.choices ++ x.ch }

/-- The assignments `max_depth = -1; depth = 1` at the start of `Sort`. -/
def Globals.reset {α : Type} (g : Globals α) : Globals α :=
  { g with max_depth := -1, depth := 1 }

/-- On every entry state that satisfies `P`, the call `f` returns the same keys and
generator and changes the globals by the same contribution, whose `md` lies in `[lo, hi]`. -/
def Tracks {α : Type} (P : Globals α → Prop)
    (f : Globals α → Option (List α × Generator × Globals α)) (lo hi : Int) : Prop :=
  ∃ res : Option (List α × Generator × Delta α),
    (∀ g, P g → f g = res.map fun x => (x.1, x.2.1, g.after x.2.2)) ∧
    ∀ x, res = some x → lo ≤ x.2.2.md ∧ x.2.2.md ≤ hi

/-- On every entry state, the top-level call `f` returns the same keys and changes the
globals by the same contribution after resetting them; `Recurse` is either never entered
(`md = -1`) or nested at most `top` deep. -/
def SortTracks {α : Type} (f : Globals α → Option (List α × Globals α)) (top : Int) : Prop :=
  ∃ res : Option (List α × Delta α),
    (∀ g, f g = res.map fun x => (x.1, g.reset.after x.2)) ∧
    ∀ x, res = some x → x.2.md = -1 ∨ (1 ≤ x.2.md ∧ x.2.md ≤ top)

/-- A 128-bit target with two 64-bit lanes per vector. -/
def sample128 (α : Type) : Target α :=
  { lanes := 2, fullLanes := 2, sizeofT := 8, maxBytes := 16, vqsortEnabled := true,
    compressIsPartition := false, compressTail := fun _ _ => [],
    Fill24Bytes := fun addr num => (addr, num, 0) }

/-- A scalable target whose vectors hold 256 lanes of 16 bits. -/
def sampleHuge (α : Type) : Target α :=
  { lanes := 256, fullLanes := 256, sizeofT := 2, maxBytes := 65536, vqsortEnabled := true,
    compressIsPartition := false, compressTail := fun _ _ => [],
    Fill24Bytes := fun addr num => (addr, num, 0) }

/-- The file-scope variables as the program starts: `max_depth = -1`, `depth = 0`, nothing
printed. -/
def Globals.initial (α : Type) : Globals α := ⟨-1, 0, [], 0, []⟩

/-- Unsigned 64-bit keys. -/
abbrev U64 : Type := Fin 18446744073709551616

/-- Forty equal keys. -/
def sevens : List (Fin 256) := List.replicate 40 7

/-- Thirty-three keys in no particular order. -/
def sampleKeys : List (Fin 256) := (List.range 33).map fun i => Fin.ofNat ((i * 37 + 11) % 101)

/-- Twenty keys of which only the first two are out of order. -/
def twentyKeys : List (Fin 256) := [2, 1] ++ List.replicate 18 9

/-- Thirty-two keys in descending order. -/
def thirtyTwoKeys : List (Fin 256) := (List.range 32).map fun i => Fin.ofNat (40 - i)

/-- In sort order `m` lies between `x` and `y` (in either direction). -/
def Between {α : Type} [LinearOrder α] (o : Order) (x m y : α) : Prop :=
  (ole o x m ∧ ole o m y) ∨ (ole o y m ∧ ole o m x)

/-- The 128-bit sample target on a platform where `Compress` is a partition. -/
def sample128P (α : Type) : Target α :=
  { lanes := 2, fullLanes := 2, sizeofT := 8, maxBytes := 16, vqsortEnabled := true,
    compressIsPartition := true, compressTail := fun _ _ => [],
    Fill24Bytes := fun addr num => (addr, num, 0) }

/-- Between the states `g` and `g2` nothing was printed but `Heapsort` lines, each from
nesting depth `d` and one for each call of `HeapSort` made, and `depth` has its former
value again. -/
def OnlyHeapSortAt {α : Type} (d : Int) (g g2 : Globals α) : Prop :=
  ∃ ev, g2.out = g.out ++ ev ∧ g2.heapSortCalls = g.heapSortCalls + ev.length ∧
    (∀ e ∈ ev, ∃ n, e = Event.heapsort d n) ∧ g2.depth = g.depth

section

variable {α : Type} [LinearOrder α]

/-- One iteration of the body of the loop `while (left != right)` of `Partition`: the state
`(keys, left, right, writeL, remaining)` after it. -/
def Partition.body (t : Target α) (o : Order) (pivot : List α) (keys : List α)
    (left right writeL remaining : Nat) : Option (List α × Nat × Nat × Nat × Nat) :=
  let N := t.lanes
  let capacityL := left - writeL
  if kPartitionUnroll * N < capacityL then do
    let right := right - kPartitionUnroll * N
    let v0 ← LoadU N keys (right + 0 * N)
    let v1 ← LoadU N keys (right + 1 * N)
    let v2 ← LoadU N keys (right + 2 * N)
    let v3 ← LoadU N keys (right + 3 * N)
    let (keys, writeL, remaining) ←
      StoreLeftRight4 t o v0 v1 v2 v3 pivot keys writeL remaining
    pure (keys, left, right, writeL, remaining)
  else do
    let v0 ← LoadU N keys (left + 0 * N)
    let v1 ← LoadU N keys (left + 1 * N)
    let v2 ← LoadU N keys (left + 2 * N)
    let v3 ← LoadU N keys (left + 3 * N)
    let left := left + kPartitionUnroll * N
    let (keys, writeL, remaining) ←
      StoreLeftRight4 t o v0 v1 v2 v3 pivot keys writeL remaining
    pure (keys, left, right, writeL, remaining)

/-- The state in which the loop of `Partition` starts its iteration number `k` (counted from
zero), if the loop test `left != right` held before each of the `k` iterations before it. -/
def Partition.iterate (t : Target α) (o : Order) (pivot : List α) :
    Nat → List α × Nat × Nat × Nat × Nat → Option (List α × Nat × Nat × Nat × Nat)
  | 0, s => some s
  | k + 1, (keys, left, right, writeL, remaining) =>
    if left ≠ right then
      (Partition.body t o pivot keys left right writeL remaining).bind
        (Partition.iterate t o pivot k)
    else none

/-- The arithmetic invariant of the loop of `Partition`: the cursors are ordered as
`writeL ≤ left ≤ right ≤ writeL + remaining`, the unread part is a whole number of blocks,
and the two capacities add up to two blocks. -/
def CapacityInv (N left right writeL remaining : Nat) : Prop :=
  writeL ≤ left ∧ left ≤ right ∧ right ≤ writeL + remaining ∧
    kPartitionUnroll * N ∣ right - left ∧
    (left - writeL) + (writeL + remaining - right) = 2 * kPartitionUnroll * N

/-- One level of `RecursiveMedianOf3` on `num ≥ 3` keys: the two loops (triplets of vectors,
then triplets of keys), returning the medians written, `buf[0, written)`. -/
def RecursiveMedianOf3.level (o : Order) (N : Nat) (keys : List α) (num : Nat) :
    Option (List α) := do
  let (read, out) ← RecursiveMedianOf3.vectors o N num keys (num + 1) 0 []
  let (_, out) ← RecursiveMedianOf3.singles o num keys (num + 1) read out
  pure out

/-- The buffer after `k` levels of `RecursiveMedianOf3`, each entered with at least three
keys. -/
def RecursiveMedianOf3.levels (o : Order) (N : Nat) : Nat → List α → Nat → Option (List α)
  | 0, keys, _ => some keys
  | k + 1, keys, num =>
    if 3 ≤ num then
      (RecursiveMedianOf3.level o N keys num).bind
        (fun out => RecursiveMedianOf3.levels o N k out out.length)
    else none

/-- The first part of `ChoosePivot`, up to the sampling loop: the start `base` of the
aligned keys, the number of chunks `num_chunks`, the nine chunk offsets `ofs 0 … ofs 8`
and the generator after the five draws. -/
def ChoosePivot.plan (t : Target α) (addr begin end_ : Nat) (rng : Generator) :
    Nat × Nat × (Nat → Nat) × Generator :=
  let N := t.lanes
  let lanes_per_chunk := LanesPerChunk t.sizeofT N
  let base := begin
  let num := end_ - begin
  let misalign := ((addr + begin * t.sizeofT) / t.sizeofT) &&& (lanes_per_chunk - 1)
  let (base, num) :=
    if misalign ≠ 0 then
      let consume := lanes_per_chunk - misalign
      (base + consume, num - consume)
    else (base, num)
  let (r0, rng) := rng.next
  let (r1, rng) := rng.next
  let (r2, rng) := rng.next
  let (r3, rng) := rng.next
  let (r4, rng) := rng.next
  let bits64 : List Nat := [r0, r1, r2, r3, r4]
  let bits : Nat → Nat := fun j =>
    if j % 2 = 0 then bits64[j / 2]! % 2 ^ 32 else (bits64[j / 2]! >>> 32) % 2 ^ 32
  let lpc32 := lanes_per_chunk % 2 ^ 32
  let log2_lpc := Num0BitsBelowLS1Bit_Nonzero32 lpc32
  let num_chunks64 := num >>> log2_lpc
  let num_chunks := min num_chunks64 0xFFFFFFFF
  let ofs : Nat → Nat := fun j => RandomChunkIndex num_chunks (bits j) <<< log2_lpc
  (base, num_chunks, ofs, rng)

/-- Modelled from the spec: `CompressBlendedStore(v, mask, d, p + i)` with the vector at
`p + i` accessed as a whole, which is how the comment at the head of `Partition` describes
the store ("unless all lanes happen to be in the right-side partition, this will overrun
`keys`"): it fails unless the `N` lanes at `i` lie in the array, and writes the selected
lanes. -/
def CompressBlendedStore.vector (N : Nat) (v : List α) (m : List Bool) (mem : List α)
    (i : Nat) : Option (List α × Nat) :=
  if i + N ≤ mem.length then CompressBlendedStore v m mem i else none

/-- `PartitionToMultipleOfUnroll.loop` with the blended store `cbs`. -/
def Footprint.PartitionToMultipleOfUnroll.loop
    (cbs : List α → List Bool → List α → Nat → Option (List α × Nat))
    (o : Order) (N num_rem : Nat) (pivot : List α) :
    Nat → List α → Nat → Nat → List α → Nat → Option (List α × Nat × Nat × List α × Nat)
  | 0, _, _, _, _, _ => none
  | fuel + 1, keys, left, readL, buf, i =>
    if i + N ≤ num_rem then do
      let vL ← LoadU N keys readL
      let readL := readL + N
      let comp := CompareV o pivot vL
      let (keys, numL) ← cbs vL (MaskNot comp) keys left
      let left := left + numL
      let buf := buf ++ Compress vL comp
      Footprint.PartitionToMultipleOfUnroll.loop cbs o N num_rem pivot fuel keys left readL buf
        (i + N)
    else some (keys, left, readL, buf, i)

/-- `PartitionToMultipleOfUnroll` with the blended store `cbs`. -/
def Footprint.PartitionToMultipleOfUnroll
    (cbs : List α → List Bool → List α → Nat → Option (List α × Nat))
    (t : Target α) (o : Order) (keys : List α) (left right : Nat)
    (pivot : List α) : Option (List α × Nat × Nat) := do
  let N := t.lanes
  let num := right - left
  let num_rem :=
    if num < 2 * kPartitionUnroll * N then num else num &&& (kPartitionUnroll * N - 1)
  let (keys, left, readL, buf, i) ←
    Footprint.PartitionToMultipleOfUnroll.loop cbs o N num_rem pivot (num_rem + 1) keys left
      left [] 0
  let (keys, left, buf) ←
    if i ≠ num_rem then do
      let mask := FirstN N (num_rem - i)
      let vL ← LoadU N keys readL
      let comp := CompareV o pivot vL
      let (keys, numL) ← cbs vL (MaskAndNot comp mask) keys left
      pure (keys, left + numL, buf ++ Compress vL (MaskAnd comp mask))
    else pure (keys, left, buf)
  let bufR := buf.length
  let right := right - bufR
  let moved ← LoadU bufR keys right
  let keys ← StoreU moved keys left
  let keys ← StoreU buf keys right
  pure (keys, left, right)

/-- `StoreLeftRight` with the blended store `cbs`. -/
def Footprint.StoreLeftRight
    (cbs : List α → List Bool → List α → Nat → Option (List α × Nat))
    (t : Target α) (o : Order) (v pivot : List α) (keys : List α)
    (writeL remaining : Nat) : Option (List α × Nat × Nat) := do
  let N := t.lanes
  let comp := CompareV o pivot v
  let remaining := remaining - N
  if t.compressIsPartition then
    let lr := CompressKeys v comp
    let num_left := N - CountTrue comp
    let keys ← StoreU lr keys writeL
    let keys ← StoreU lr keys (remaining + writeL)
    pure (keys, writeL + num_left, remaining)
  else
    let (keys, num_left) ← CompressStore t v (MaskNot comp) keys writeL
    let writeL := writeL + num_left
    let (keys, _) ← cbs v comp keys (remaining + writeL)
    pure (keys, writeL, remaining)

/-- `StoreLeftRight4` with the blended store `cbs`. -/
def Footprint.StoreLeftRight4
    (cbs : List α → List Bool → List α → Nat → Option (List α × Nat))
    (t : Target α) (o : Order) (v0 v1 v2 v3 pivot : List α) (keys : List α)
    (writeL remaining : Nat) : Option (List α × Nat × Nat) := do
  let (keys, writeL, remaining) ← Footprint.StoreLeftRight cbs t o v0 pivot keys writeL remaining
  let (keys, writeL, remaining) ← Footprint.StoreLeftRight cbs t o v1 pivot keys writeL remaining
  let (keys, writeL, remaining) ← Footprint.StoreLeftRight cbs t o v2 pivot keys writeL remaining
  Footprint.StoreLeftRight cbs t o v3 pivot keys writeL remaining

/-- `Partition.loop` with the blended store `cbs`. -/
def Footprint.Partition.loop
    (cbs : List α → List Bool → List α → Nat → Option (List α × Nat))
    (t : Target α) (o : Order) (pivot : List α) :
    Nat → List α → Nat → Nat → Nat → Nat → Option (List α × Nat × Nat)
  | 0, _, _, _, _, _ => none
  | fuel + 1, keys, left, right, writeL, remaining =>
    let N := t.lanes
    if left ≠ right then do
      let capacityL := left - writeL
      if kPartitionUnroll * N < capacityL then do
        let right := right - kPartitionUnroll * N
        let v0 ← LoadU N keys (right + 0 * N)
        let v1 ← LoadU N keys (right + 1 * N)
        let v2 ← LoadU N keys (right + 2 * N)
        let v3 ← LoadU N keys (right + 3 * N)
        let (keys, writeL, remaining) ←
          Footprint.StoreLeftRight4 cbs t o v0 v1 v2 v3 pivot keys writeL remaining
        Footprint.Partition.loop cbs t o pivot fuel keys left right writeL remaining
      else do
        let v0 ← LoadU N keys (left + 0 * N)
        let v1 ← LoadU N keys (left + 1 * N)
        let v2 ← LoadU N keys (left + 2 * N)
        let v3 ← LoadU N keys (left + 3 * N)
        let left := left + kPartitionUnroll * N
        let (keys, writeL, remaining) ←
          Footprint.StoreLeftRight4 cbs t o v0 v1 v2 v3 pivot keys writeL remaining
        Footprint.Partition.loop cbs t o pivot fuel keys left right writeL remaining
    else some (keys, writeL, remaining)

/-- `Partition.main` with the blended store `cbs`. -/
def Footprint.Partition.main
    (cbs : List α → List Bool → List α → Nat → Option (List α × Nat))
    (t : Target α) (o : Order) (pivot : List α) (keys : List α)
    (left right : Nat) : Option (List α × Nat × Nat) :=
  let N := t.lanes
  let writeL := left
  let remaining := right - left
  let num := right - left
  if num ≠ 0 then do
    let vL0 ← LoadU N keys (left + 0 * N)
    let vL1 ← LoadU N keys (left + 1 * N)
    let vL2 ← LoadU N keys (left + 2 * N)
    let vL3 ← LoadU N keys (left + 3 * N)
    let left := left + kPartitionUnroll * N
    let right := right - kPartitionUnroll * N
    let vR0 ← LoadU N keys (right + 0 * N)
    let vR1 ← LoadU N keys (right + 1 * N)
    let vR2 ← LoadU N keys (right + 2 * N)
    let vR3 ← LoadU N keys (right + 3 * N)
    let (keys, writeL, remaining) ←
      Footprint.Partition.loop cbs t o pivot (num + 1) keys left right writeL remaining
    let (keys, writeL, remaining) ←
      Footprint.StoreLeftRight4 cbs t o vL0 vL1 vL2 vL3 pivot keys writeL remaining
    Footprint.StoreLeftRight4 cbs t o vR0 vR1 vR2 vR3 pivot keys writeL remaining
  else pure (keys, writeL, remaining)

/-- `Partition.insertLast` with the blended store `cbs` for the left-side lanes of `vlast`
and `final` for its right-side lanes, the last store of `Partition`. -/
def Footprint.Partition.insertLast
    (cbs final : List α → List Bool → List α → Nat → Option (List α × Nat))
    (t : Target α) (o : Order) (pivot : List α) (keys : List α)
    (vlast : List α) (last writeL : Nat) : Option (List α × Nat) := do
  let N := t.lanes
  let startR := Partition.startR N last writeL
  let moved ← LoadU N keys startR
  let keys ← StoreU moved keys last
  let comp := CompareV o pivot vlast
  let (keys, numL) ← cbs vlast (MaskNot comp) keys writeL
  let writeL := writeL + numL
  let (keys, _) ← final vlast comp keys writeL
  pure (keys, writeL)

/-- `Partition` with its blended stores as parameters: `final` is the last store, of the
right-side lanes of `vlast`, and `cbs` every other `CompressBlendedStore`.  With
`CompressBlendedStore.vector` the call fails when the vector of such a store leaves the
array. -/
def Footprint.Partition
    (cbs final : List α → List Bool → List α → Nat → Option (List α × Nat))
    (t : Target α) (o : Order) (keys : List α) (left right : Nat)
    (pivot : List α) : Option (List α × Nat) := do
  let N := t.lanes
  let right := right - N
  let last := right
  let vlast ← LoadU N keys last
  let (keys, left, right) ← Footprint.PartitionToMultipleOfUnroll cbs t o keys left right pivot
  let (keys, writeL, _) ← Footprint.Partition.main cbs t o pivot keys left right
  Footprint.Partition.insertLast cbs final t o pivot keys vlast last writeL

/-- The 128-bit sample target with a `CompressStore` that writes whole vectors: the lanes
after the valid ones are those of a `StoreU` of the vector. -/
def sample128V (α : Type) : Target α :=
  { lanes := 2, fullLanes := 2, sizeofT := 8, maxBytes := 16, vqsortEnabled := true,
    compressIsPartition := false, compressTail := fun v _ => v,
    Fill24Bytes := fun addr num => (addr, num, 0) }

end

section

variable {α : Type} [LinearOrder α]

instance (o : Order) : IsTotal α (ole o) :=
  ⟨fun a b => by cases o <;> simp [ole, Compare] <;> exact le_total _ _⟩

instance (o : Order) : IsTrans α (ole o) :=
  ⟨fun a b c h1 h2 => by
    cases o <;> simp [ole, Compare] at h1 h2 ⊢
    · exact le_trans h1 h2
    · exact le_trans h2 h1⟩

instance (o : Order) : IsAntisymm α (ole o) :=
  ⟨fun a b h1 h2 => by
    cases o <;> simp [ole, Compare] at h1 h2
    · exact le_antisymm h1 h2
    · exact le_antisymm h2 h1⟩

end

/-! ## Lemmas and theorems -/

section

variable {α : Type}

theorem Swap_eq_some {l : List α} {i j : Nat} (hi : i < l.length) (hj : j < l.length) :
    Swap l i j = some ((l.set i l[j]).set j l[i]) := by
  simp [Swap, List.getElem?_eq_getElem hi, List.getElem?_eq_getElem hj]

theorem swap_perm {l : List α} {i j : Nat} (hi : i < l.length) (hj : j < l.length) :
    ((l.set i l[j]).set j l[i]).Perm l := by
  classical
  rw [List.perm_iff_count]
  intro a
  by_cases hij : i = j
  · subst hij
    rw [List.count_set _ _ _ _ (by simpa using hi), List.count_set _ _ _ _ hi]
    simp
    have := List.count_pos_iff.2 (show l[i] ∈ l from List.getElem_mem _)
    split_ifs <;> simp_all <;> omega
  · rw [List.count_set _ _ _ _ (by simpa using hj), List.count_set _ _ _ _ hi]
    simp [List.getElem_set, hij]
    have h1 := List.count_pos_iff.2 (show l[i] ∈ l from List.getElem_mem _)
    have h2 := List.count_pos_iff.2 (show l[j] ∈ l from List.getElem_mem _)
    by_cases e1 : l[i] = a <;> by_cases e2 : l[j] = a <;> simp [e1, e2] <;> 
      first | omega | (subst e1; omega) | (subst e2; omega) | skip

theorem swap_getElem? {l : List α} {i j : Nat} (hi : i < l.length) (hj : j < l.length) (k : Nat) :
    ((l.set i l[j]).set j l[i])[k]? =
      if k = j then some l[i] else if k = i then some l[j] else l[k]? := by
  simp only [List.getElem?_set, List.length_set]
  by_cases h1 : j = k
  · subst h1; simp [hj]
  · by_cases h2 : i = k
    · subst h2; simp [h1, hi, Ne.symm h1]
    · simp [h1, h2, Ne.symm h1, Ne.symm h2]

end

section

variable {α : Type} [LinearOrder α]

theorem ole_refl (o : Order) (a : α) : ole o a a := by
  cases o <;> simp [ole, Compare]

theorem ole_total (o : Order) (a b : α) : ole o a b ∨ ole o b a := by
  cases o <;> simp [ole, Compare] <;> exact le_total _ _

theorem ole_trans (o : Order) {a b c : α} (h1 : ole o a b) (h2 : ole o b c) : ole o a c := by
  cases o <;> simp [ole, Compare] at * 
  · exact le_trans h1 h2
  · exact le_trans h2 h1

theorem ole_antisymm (o : Order) {a b : α} (h1 : ole o a b) (h2 : ole o b a) : a = b := by
  cases o <;> simp [ole, Compare] at * 
  · exact le_antisymm h1 h2
  · exact le_antisymm h2 h1

theorem ole_of_Compare (o : Order) {a b : α} (h : Compare o a b = true) : ole o a b := by
  cases o <;> simp [ole, Compare] at * <;> exact le_of_lt h

theorem Compare_trans (o : Order) {a b c : α} (h1 : Compare o a b = true)
    (h2 : Compare o b c = true) : Compare o a c = true := by
  cases o <;> simp [Compare] at * 
  · exact lt_trans h1 h2
  · exact lt_trans h2 h1

theorem SiftDown_spec (o : Order) (n s0 : Nat) :
    ∀ (fuel : Nat) (l : List α) (k : Nat), n ≤ l.length → s0 ≤ k → n < k + fuel → 0 < fuel →
    (∀ i, s0 ≤ i → i ≠ k → HeapAt o l n i) →
    (∀ p, s0 ≤ p → (k = 2 * p + 1 ∨ k = 2 * p + 2) → ∀ c, (c = 2 * k + 1 ∨ c = 2 * k + 2) →
        c < n → ∀ x y, l[p]? = some x → l[c]? = some y → ole o y x) →
    ∃ l', SiftDown o n fuel l k = some l' ∧ l'.Perm l ∧
      (∀ i, n ≤ i → l'[i]? = l[i]?) ∧ (∀ i, s0 ≤ i → HeapAt o l' n i) := by
  intro fuel
  induction fuel with
  | zero => intro l k _ _ _ h; omega
  | succ fuel ih =>
    intro l k hn hs hf _ hA hB
    rw [SiftDown]
    by_cases hk : k < n
    · simp only [hk, if_true]
      by_cases hl : 2 * k + 1 ≥ n
      · simp only [hl, if_true]
        refine ⟨l, rfl, List.Perm.refl _, fun _ _ => rfl, ?_⟩
        intro i hi
        by_cases hik : i = k
        · subst hik
          intro c hc hcn; omega
        · exact hA i hi hik
      · simp only [hl, if_false]
        have hkl : k < l.length := by omega
        have hll : 2 * k + 1 < l.length := by omega
        rw [List.getElem?_eq_getElem hkl, List.getElem?_eq_getElem hll]
        simp only [Option.some_bind, Option.bind_eq_bind]
        have stop : (∀ c, (c = 2 * k + 1 ∨ c = 2 * k + 2) → c < n → ∀ y, l[c]? = some y →
            ole o y l[k]) → ∃ l', some l = some l' ∧ l'.Perm l ∧
              (∀ i, n ≤ i → l'[i]? = l[i]?) ∧ (∀ i, s0 ≤ i → HeapAt o l' n i) := by
          intro hmax
          refine ⟨l, rfl, List.Perm.refl _, fun _ _ => rfl, ?_⟩
          intro i hi
          by_cases hik : i = k
          · subst hik
            intro c hc hcn x y hx hy
            rw [List.getElem?_eq_getElem hkl] at hx
            cases hx
            exact hmax c hc hcn y hy
          · exact hA i hi hik
        have step : ∀ idx, (idx = 2 * k + 1 ∨ idx = 2 * k + 2) → (hin : idx < n) →
            Compare o l[k] l[idx] = true →
            (∀ c, (c = 2 * k + 1 ∨ c = 2 * k + 2) → c < n → ∀ y, l[c]? = some y →
              ole o y l[idx]) →
            ∃ l', (if idx = k then some l
                else (Swap l k idx).bind fun a => SiftDown o n fuel a idx) = some l' ∧
              l'.Perm l ∧ (∀ i, n ≤ i → l'[i]? = l[i]?) ∧
              (∀ i, s0 ≤ i → HeapAt o l' n i) := by
          intro idx hidx hin hlt hmax
          have hil : idx < l.length := by omega
          have hne : idx ≠ k := by omega
          simp only [hne, if_false, Swap_eq_some hkl hil, Option.some_bind]
          have hget := swap_getElem? hkl hil
          obtain ⟨l', h1, h2, h3, h4⟩ := ih ((l.set k l[idx]).set idx l[k]) idx
            (by simpa using hn) (by omega) (by omega) (by omega)
            (by
              intro i hi hii c hc hcn x y hx hy
              rw [hget] at hx hy
              by_cases hik : i = k
              · rw [hik] at hx hc
                simp only [hne.symm, if_false, if_true] at hx
                cases hx
                have hck : c ≠ k := by omega
                by_cases hci : c = idx
                · simp only [hci, if_true] at hy
                  cases hy
                  exact ole_of_Compare o hlt
                · simp only [hci, hck, if_false] at hy
                  exact hmax c hc hcn y hy
              · have hci : c ≠ idx := by omega
                simp only [hii, hik, if_false] at hx
                simp only [hci, if_false] at hy
                by_cases hck : c = k
                · simp only [hck, if_true] at hy
                  cases hy
                  exact hB i hi (by omega) idx hidx hin x _ hx (List.getElem?_eq_getElem hil)
                · simp only [hck, if_false] at hy
                  exact hA i hi hik c hc hcn x y hx hy)
            (by
              intro p hp hpk c hc hcn x y hx hy
              rw [hget] at hx hy
              have hpk' : p = k := by omega
              subst hpk'
              have hci : c ≠ idx := by omega
              have hcp : c ≠ p := by omega
              simp only [hne.symm, if_false, if_true] at hx
              simp only [hci, hcp, if_false] at hy
              cases hx
              exact hA idx (by omega) hne c hc hcn _ y (List.getElem?_eq_getElem hil) hy)
          refine ⟨l', h1, h2.trans (swap_perm hkl hil), ?_, h4⟩
          intro i hi
          rw [h3 i hi, hget]
          have e1 : i ≠ idx := by omega
          have e2 : i ≠ k := by omega
          simp [e1, e2]
        have hchild : ∀ c, (c = 2 * k + 1 ∨ c = 2 * k + 2) → c < n → ∀ y, l[c]? = some y →
            ∀ z, (∀ h1 : 2 * k + 1 < l.length, ole o l[2 * k + 1] z) →
              (∀ h2 : 2 * k + 2 < l.length, 2 * k + 2 < n → ole o l[2 * k + 2] z) → ole o y z := by
          intro c hc hcn y hy z h1 h2
          rcases hc with rfl | rfl
          · rw [List.getElem?_eq_getElem hll] at hy
            cases hy
            exact h1 hll
          · have hrl : 2 * k + 2 < l.length := by omega
            rw [List.getElem?_eq_getElem hrl] at hy
            cases hy
            exact h2 hrl hcn
        by_cases hc1 : Compare o l[k] l[2 * k + 1] = true
        · simp only [hc1, if_true]
          rw [List.getElem?_eq_getElem hll]
          simp only [Option.some_bind]
          by_cases hr : 2 * k + 2 < n
          · simp only [hr, if_true]
            have hrl : 2 * k + 2 < l.length := by omega
            rw [List.getElem?_eq_getElem hrl]
            simp only [Option.some_bind, Option.pure_def]
            by_cases hc2 : Compare o l[2 * k + 1] l[2 * k + 2] = true
            · simp only [hc2, if_true]
              refine step (2 * k + 2) (Or.inr rfl) hr (Compare_trans o hc1 hc2) ?_
              intro c hc hcn y hy
              exact hchild c hc hcn y hy _ (fun _ => ole_of_Compare o hc2) (fun _ _ => ole_refl o _)
            · have hc2f : Compare o l[2 * k + 1] l[2 * k + 2] = false := by simpa using hc2
              simp only [hc2f, Bool.false_eq_true, if_false]
              refine step (2 * k + 1) (Or.inl rfl) (by omega) hc1 ?_
              intro c hc hcn y hy
              exact hchild c hc hcn y hy _ (fun _ => ole_refl o _)
                (fun _ _ => by simpa [ole] using hc2)
          · simp only [hr, if_false, Option.pure_def, Option.some_bind]
            refine step (2 * k + 1) (Or.inl rfl) (by omega) hc1 ?_
            intro c hc hcn y hy
            exact hchild c hc hcn y hy _ (fun _ => ole_refl o _) (fun _ h => absurd h hr)
        · have hc1f : Compare o l[k] l[2 * k + 1] = false := by simpa using hc1
          simp only [hc1f, Bool.false_eq_true, if_false]
          rw [List.getElem?_eq_getElem hkl]
          simp only [Option.some_bind]
          have hc1' : ole o l[2 * k + 1] l[k] := by simpa [ole] using hc1
          by_cases hr : 2 * k + 2 < n
          · simp only [hr, if_true]
            have hrl : 2 * k + 2 < l.length := by omega
            rw [List.getElem?_eq_getElem hrl]
            simp only [Option.some_bind, Option.pure_def]
            by_cases hc2 : Compare o l[k] l[2 * k + 2] = true
            · simp only [hc2, if_true]
              refine step (2 * k + 2) (Or.inr rfl) hr hc2 ?_
              intro c hc hcn y hy
              exact hchild c hc hcn y hy _ (fun _ => ole_trans o hc1' (ole_of_Compare o hc2))
                (fun _ _ => ole_refl o _)
            · have hc2f : Compare o l[k] l[2 * k + 2] = false := by simpa using hc2
              simp only [hc2f, Bool.false_eq_true, if_false, if_true]
              refine stop ?_
              intro c hc hcn y hy
              exact hchild c hc hcn y hy _ (fun _ => hc1') (fun _ _ => by simpa [ole] using hc2)
          · simp only [hr, if_false, Option.pure_def, Option.some_bind, if_true]
            refine stop ?_
            intro c hc hcn y hy
            exact hchild c hc hcn y hy _ (fun _ => hc1') (fun _ h => absurd h hr)
    · simp only [hk, if_false]
      refine ⟨l, rfl, List.Perm.refl _, fun _ _ => rfl, ?_⟩
      intro i hi
      by_cases hik : i = k
      · subst hik
        intro c hc hcn; omega
      · exact hA i hi hik

theorem perm_take_of_tail_eq {l l2 : List α} (m : Nat) (hp : l2.Perm l)
    (ht : ∀ i, m ≤ i → l2[i]? = l[i]?) :
    l2.drop m = l.drop m ∧ (l2.take m).Perm (l.take m) := by
  have hd : l2.drop m = l.drop m := by
    apply List.ext_getElem?
    intro j
    rw [List.getElem?_drop, List.getElem?_drop]
    exact ht _ (by omega)
  refine ⟨hd, ?_⟩
  have h := hp
  rw [← List.take_append_drop m l2, ← List.take_append_drop m l, hd] at h
  exact (List.perm_append_right_iff _).1 h

theorem HeapSort.build_spec (o : Order) (n : Nat) :
    ∀ (cnt : Nat) (l : List α), n ≤ l.length → (∀ i, cnt ≤ i → HeapAt o l n i) →
    ∃ l2, HeapSort.build o n cnt l = some l2 ∧ l2.Perm l ∧
      (∀ i, n ≤ i → l2[i]? = l[i]?) ∧ (∀ i, HeapAt o l2 n i) := by
  intro cnt
  induction cnt with
  | zero =>
    intro l _ h
    exact ⟨l, rfl, List.Perm.refl _, fun _ _ => rfl, fun i => h i (Nat.zero_le _)⟩
  | succ i ih =>
    intro l hn h
    obtain ⟨l1, e1, p1, t1, h1⟩ := SiftDown_spec o n i (n + 1) l i hn (le_refl _)
      (by omega) (by omega) (fun j hj hne => h j (by omega)) (by intro p hp hpk; omega)
    obtain ⟨l2, e2, p2, t2, h2⟩ := ih l1 (by rw [p1.length_eq]; exact hn) h1
    refine ⟨l2, ?_, p2.trans p1, fun j hj => (t2 j hj).trans (t1 j hj), h2⟩
    simp [HeapSort.build, e1, e2]

theorem heap_root_max (o : Order) (l : List α) (n : Nat) (hn : n ≤ l.length)
    (h : ∀ i, HeapAt o l n i) (h0 : 0 < l.length) :
    ∀ j, (hj : j < n) → ole o l[j] l[0] := by
  intro j
  induction j using Nat.strong_induction_on with
  | _ j ih =>
    intro hj
    by_cases hz : j = 0
    · subst hz; exact ole_refl o _
    · have hp : (j - 1) / 2 < j := by omega
      have := ih ((j - 1) / 2) hp (by omega)
      refine ole_trans o ?_ this
      exact h ((j - 1) / 2) j (by omega) hj _ _ (List.getElem?_eq_getElem (by omega))
        (List.getElem?_eq_getElem (by omega))

theorem HeapSort.extract_spec (o : Order) :
    ∀ (i : Nat) (l : List α), i + 1 ≤ l.length → (∀ j, HeapAt o l (i + 1) j) →
    ∃ l2, HeapSort.extract o i l = some l2 ∧ l2.drop (i + 1) = l.drop (i + 1) ∧
      (l2.take (i + 1)).Perm (l.take (i + 1)) ∧ (l2.take (i + 1)).Sorted (ole o) := by
  intro i
  induction i with
  | zero =>
    intro l hl _
    refine ⟨l, rfl, rfl, List.Perm.refl _, ?_⟩
    match l, hl with
    | a :: t, _ => simp
  | succ i ih =>
    intro l hl hh
    have h0 : 0 < l.length := by omega
    have hi : i + 1 < l.length := by omega
    have hsw := Swap_eq_some h0 hi
    have hget := swap_getElem? h0 hi
    have hperm := swap_perm h0 hi
    generalize hl1 : (l.set 0 l[i + 1]).set (i + 1) l[0] = l1 at hsw hget hperm
    have hlen1 : l1.length = l.length := hperm.length_eq
    obtain ⟨l2, e2, p2, t2, h2⟩ := SiftDown_spec o (i + 1) 0 (i + 2) l1 0 (by omega)
      (le_refl _) (by omega) (by omega)
      (by
        intro j _ hj c hc hcn x y hx hy
        rw [hget] at hx hy
        have e1 : j ≠ i + 1 := by omega
        have e2 : c ≠ i + 1 := by omega
        have e3 : c ≠ 0 := by omega
        simp only [e1, hj, e2, e3, if_false] at hx hy
        exact hh j c hc (by omega) x y hx hy)
      (by intro p _ hpk; omega)
    have hlen2 : l2.length = l.length := by rw [p2.length_eq, hlen1]
    obtain ⟨l3, e3, d3, p3, s3⟩ := ih l2 (by omega) (fun j => h2 j (Nat.zero_le _))
    obtain ⟨d2, p2t⟩ := perm_take_of_tail_eq (i + 1) p2 t2
    obtain ⟨d1, p1t⟩ := perm_take_of_tail_eq (i + 2) hperm (by
      intro j hj
      rw [hget]
      have e1 : j ≠ i + 1 := by omega
      have e2 : j ≠ 0 := by omega
      simp [e1, e2])
    have hlen3 : l3.length = l.length := by
      have := congrArg List.length d3
      have := p3.length_eq
      simp only [List.length_drop, List.length_take] at *
      omega
    -- the element at position `i + 1` is the former root
    have hlast : ∀ m : List α, m.drop (i + 1) = l1.drop (i + 1) → m[i + 1]? = some l[0] := by
      intro m hm
      have := congrArg (fun z => z[0]?) hm
      simp only [List.getElem?_drop, Nat.add_zero] at this
      rw [this, hget]; simp
    have hl3 : l3[i + 1]? = some l[0] := hlast l3 (d3.trans d2)
    have hl1 : l1[i + 1]? = some l[0] := hlast l1 rfl
    have ht3 : l3.take (i + 2) = l3.take (i + 1) ++ [l[0]] := by
      rw [List.take_succ, hl3]; rfl
    have ht1 : l1.take (i + 2) = l1.take (i + 1) ++ [l[0]] := by
      rw [List.take_succ, hl1]; rfl
    have pfin : (l3.take (i + 1)).Perm (l1.take (i + 1)) := p3.trans p2t
    refine ⟨l3, ?_, ?_, ?_, ?_⟩
    · simp [HeapSort.extract, hsw, e2, e3]
    · have := congrArg (List.drop 1) (d3.trans d2)
      simp only [List.drop_drop] at this
      rw [this]; exact d1
    · rw [ht3]
      refine List.Perm.trans ?_ p1t
      rw [ht1]
      exact pfin.append_right _
    · rw [ht3]
      refine List.pairwise_append.2 ⟨s3, by simp, ?_⟩
      intro a ha b hb
      simp only [List.mem_singleton] at hb
      subst hb
      have ha1 : a ∈ l.take (i + 2) := by
        apply p1t.mem_iff.1
        rw [ht1]
        exact List.mem_append_left _ (pfin.mem_iff.1 ha)
      obtain ⟨j, hj, rfl⟩ := List.mem_take_iff_getElem.1 ha1
      exact heap_root_max o l (i + 2) (by omega) hh h0 j (by
        have := Nat.lt_min.1 hj; omega)

theorem HeapSort_spec (o : Order) (l : List α) (n : Nat) (hn : n ≤ l.length) :
    ∃ l2, HeapSort o l n = some l2 ∧ l2.drop n = l.drop n ∧
      (l2.take n).Perm (l.take n) ∧ (l2.take n).Sorted (ole o) := by
  unfold HeapSort
  by_cases h2 : n < 2
  · simp only [h2, if_true]
    refine ⟨l, rfl, rfl, List.Perm.refl _, ?_⟩
    have hlen : (l.take n).length ≤ 1 := by simp; omega
    match hm : l.take n, hlen with
    | [], _ => simp
    | [a], _ => simp
  · simp only [h2, if_false]
    obtain ⟨l1, e1, p1, t1, h1⟩ := HeapSort.build_spec o n ((n - 1) / 2 + 1) l hn (by
      intro i hi c hc hcn; omega)
    obtain ⟨l2, e2, d2, p2, s2⟩ := HeapSort.extract_spec o (n - 1) l1
      (by rw [p1.length_eq]; omega) (by
        have : n - 1 + 1 = n := by omega
        rw [this]; exact h1)
    have hnn : n - 1 + 1 = n := by omega
    rw [hnn] at d2 p2 s2
    obtain ⟨d1, p1t⟩ := perm_take_of_tail_eq n p1 t1
    exact ⟨l2, by simp [e1, e2], d2.trans d1, p2.trans p1t, s2⟩

end

section

variable {α : Type}

theorem LoadU_eq (N : Nat) (mem pre seg post : List α) (i : Nat)
    (hm : mem = pre ++ (seg ++ post)) (hi : i = pre.length) (hl : seg.length = N) :
    LoadU N mem i = some seg := by
  subst hm hi hl
  simp [LoadU]

theorem StoreU_eq (v mem pre old post : List α) (i : Nat)
    (hm : mem = pre ++ (old ++ post)) (hi : i = pre.length) (hl : old.length = v.length) :
    StoreU v mem i = some (pre ++ (v ++ post)) := by
  subst hm hi
  simp [StoreU, ← hl]

theorem split_at (G : List α) (k : Nat) (hk : k ≤ G.length) :
    ∃ Ga Gb, G = Ga ++ Gb ∧ Ga.length = k :=
  ⟨G.take k, G.drop k, (List.take_append_drop k G).symm, by simp [hk]⟩

theorem split_at_end (G : List α) (k : Nat) (hk : k ≤ G.length) :
    ∃ Ga Gb, G = Ga ++ Gb ∧ Gb.length = k :=
  ⟨G.take (G.length - k), G.drop (G.length - k), (List.take_append_drop _ G).symm,
    by simp; omega⟩

theorem Compress_map (v : List α) (f : α → Bool) : Compress v (v.map f) = v.filter f := by
  induction v with
  | nil => rfl
  | cons a v ih =>
    simp only [Compress] at ih
    by_cases h : f a <;> simp [Compress, List.filter_cons, h, ih]

theorem Compress_MaskNot_map (v : List α) (f : α → Bool) :
    Compress v (MaskNot (v.map f)) = v.filter (fun x => !f x) := by
  have : MaskNot (v.map f) = v.map (fun x => !f x) := by simp [MaskNot]
  rw [this, Compress_map]

theorem CountTrue_map (v : List α) (f : α → Bool) :
    CountTrue (v.map f) = (v.filter f).length := by
  induction v with
  | nil => rfl
  | cons a v ih =>
    simp only [CountTrue] at ih
    by_cases h : f a <;> simp [CountTrue, List.filter_cons, h, ih]

theorem filter_length_add (v : List α) (f : α → Bool) :
    (v.filter (fun x => !f x)).length + (v.filter f).length = v.length := by
  induction v with
  | nil => rfl
  | cons a v ih => by_cases h : f a <;> simp [List.filter_cons, h] <;> omega

end

section

variable {α : Type} [LinearOrder α]

theorem CompareV_SetKey (o : Order) (N : Nat) (p : α) (v : List α) (hv : v.length = N) :
    CompareV o (SetKey N p) v = v.map (Compare o p) := by
  subst hv
  induction v with
  | nil => simp [CompareV, SetKey]
  | cons a v ih =>
    simp only [CompareV, SetKey] at ih
    simp [CompareV, SetKey, List.replicate_succ, ih]

theorem leftOf_length_add (o : Order) (p : α) (v : List α) :
    (leftOf o p v).length + (rightOf o p v).length = v.length :=
  filter_length_add v _

theorem Compress_right (o : Order) (p : α) (v : List α) :
    Compress v (v.map (Compare o p)) = rightOf o p v := Compress_map v _

theorem Compress_left (o : Order) (p : α) (v : List α) :
    Compress v (MaskNot (v.map (Compare o p))) = leftOf o p v := Compress_MaskNot_map v _

theorem CountTrue_right (o : Order) (p : α) (v : List α) :
    CountTrue (v.map (Compare o p)) = (rightOf o p v).length := CountTrue_map v _

theorem CountTrue_left (o : Order) (p : α) (v : List α) :
    CountTrue (MaskNot (v.map (Compare o p))) = (leftOf o p v).length := by
  have : MaskNot (v.map (Compare o p)) = v.map (fun x => !Compare o p x) := by simp [MaskNot]
  rw [this, CountTrue_map]; rfl

theorem StoreLeftRight_gen (t : Target α) (o : Order) (p : α) (v : List α)
    (hv : v.length = t.lanes) (pre G1 U G2 post : List α)
    (h1 : t.lanes ≤ G1.length) (h2 : t.lanes ≤ G2.length) :
    ∃ G1' G2', StoreLeftRight t o v (SetKey t.lanes p) (pre ++ (G1 ++ (U ++ (G2 ++ post))))
        pre.length (G1.length + U.length + G2.length)
      = some (pre ++ (leftOf o p v ++ (G1' ++ (U ++ (G2' ++ (rightOf o p v ++ post))))),
          pre.length + (leftOf o p v).length, G1.length + U.length + G2.length - t.lanes) ∧
      G1'.length + (leftOf o p v).length = G1.length ∧
      G2'.length + (rightOf o p v).length = G2.length := by
  have hlr := leftOf_length_add o p v
  unfold StoreLeftRight
  simp only [CompareV_SetKey o _ p v hv]
  by_cases hd : t.compressIsPartition = true
  · simp only [hd, if_true, CompressKeys, Compress_left, Compress_right, CountTrue_right]
    obtain ⟨G1a, G1b, rfl, ha⟩ := split_at G1 t.lanes h1
    obtain ⟨G2a, G2b, rfl, hb⟩ := split_at_end G2 t.lanes h2
    simp only [List.length_append] at *
    refine ⟨rightOf o p v ++ G1b, G2a ++ leftOf o p v, ?_, ?_, ?_⟩
    · rw [StoreU_eq _ _ pre G1a (G1b ++ (U ++ ((G2a ++ G2b) ++ post))) _
        (by simp only [List.append_assoc]) rfl (by simp only [List.length_append]; omega)]
      simp only [Option.some_bind, Option.bind_eq_bind]
      rw [StoreU_eq _ _ (pre ++ (leftOf o p v ++ rightOf o p v) ++ G1b ++ U ++ G2a) G2b post _
        (by simp only [List.append_assoc])
        (by simp only [List.length_append]; omega)
        (by simp only [List.length_append]; omega)]
      simp only [Option.some_bind, Option.pure_def, List.append_assoc, Option.some.injEq,
        Prod.mk.injEq, true_and, and_true]
      omega
    · simp only [List.length_append]; omega
    · simp only [List.length_append]; omega
  · simp only [hd, Bool.false_eq_true, if_false, CompressStore, CompressBlendedStore,
      Compress_left, Compress_right, CountTrue_left]
    have hW : (leftOf o p v ++ t.compressTail v (MaskNot (v.map (Compare o p)))).take t.lanes
        = leftOf o p v ++ (t.compressTail v (MaskNot (v.map (Compare o p)))).take
            (t.lanes - (leftOf o p v).length) := by
      rw [List.take_append_eq_append_take, List.take_of_length_le (by omega)]
    rw [hW]
    have hT0 : (leftOf o p v).length + ((t.compressTail v (MaskNot (v.map (Compare o p)))).take
            (t.lanes - (leftOf o p v).length)).length ≤ t.lanes := by
      simp only [List.length_take]; omega
    revert hT0
    generalize (t.compressTail v (MaskNot (v.map (Compare o p)))).take
            (t.lanes - (leftOf o p v).length) = T
    intro hT
    obtain ⟨G1a, G1b, rfl, ha⟩ := split_at G1 ((leftOf o p v).length + T.length) (by omega)
    obtain ⟨G2a, G2b, rfl, hb⟩ := split_at_end G2 (rightOf o p v).length (by omega)
    simp only [List.length_append] at *
    refine ⟨T ++ G1b, G2a, ?_, ?_, ?_⟩
    · rw [StoreU_eq _ _ pre G1a (G1b ++ (U ++ ((G2a ++ G2b) ++ post))) _
        (by simp only [List.append_assoc]) rfl (by simp only [List.length_append]; omega)]
      simp only [Option.some_bind, Option.bind_eq_bind, Option.pure_def]
      rw [StoreU_eq _ _ (pre ++ (leftOf o p v ++ T) ++ G1b ++ U ++ G2a) G2b post _
        (by simp only [List.append_assoc])
        (by simp only [List.length_append]; omega)
        hb]
      simp only [Option.some_bind, Option.pure_def, List.append_assoc]
    · simp only [List.length_append]; omega
    · omega

theorem StoreLeftRight_fin (t : Target α) (o : Order) (p : α) (v : List α)
    (hv : v.length = t.lanes) (pre G post : List α) (hG : G.length = t.lanes) :
    StoreLeftRight t o v (SetKey t.lanes p) (pre ++ (G ++ post)) pre.length t.lanes
      = some (pre ++ (leftOf o p v ++ (rightOf o p v ++ post)),
          pre.length + (leftOf o p v).length, 0) := by
  have hlr := leftOf_length_add o p v
  unfold StoreLeftRight
  simp only [CompareV_SetKey o _ p v hv]
  by_cases hd : t.compressIsPartition = true
  · simp only [hd, if_true, CompressKeys, Compress_left, Compress_right, CountTrue_right]
    rw [StoreU_eq _ _ pre G post _ rfl rfl (by simp only [List.length_append]; omega)]
    simp only [Option.some_bind, Option.bind_eq_bind]
    rw [StoreU_eq _ _ pre (leftOf o p v ++ rightOf o p v) post _ rfl (by omega) rfl]
    simp only [Option.some_bind, Option.pure_def, List.append_assoc, Option.some.injEq,
      Prod.mk.injEq, true_and]
    omega
  · simp only [hd, Bool.false_eq_true, if_false, CompressStore, CompressBlendedStore,
      Compress_left, Compress_right, CountTrue_left]
    have hW : (leftOf o p v ++ t.compressTail v (MaskNot (v.map (Compare o p)))).take t.lanes
        = leftOf o p v ++ (t.compressTail v (MaskNot (v.map (Compare o p)))).take
            (t.lanes - (leftOf o p v).length) := by
      rw [List.take_append_eq_append_take, List.take_of_length_le (by omega)]
    rw [hW]
    have hT0 : (leftOf o p v).length + ((t.compressTail v (MaskNot (v.map (Compare o p)))).take
            (t.lanes - (leftOf o p v).length)).length ≤ t.lanes := by
      simp only [List.length_take]; omega
    revert hT0
    generalize (t.compressTail v (MaskNot (v.map (Compare o p)))).take
            (t.lanes - (leftOf o p v).length) = T
    intro hT
    obtain ⟨Ga, Gb, rfl, ha⟩ := split_at G ((leftOf o p v).length + T.length) (by omega)
    simp only [List.length_append] at *
    rw [StoreU_eq _ _ pre Ga (Gb ++ post) _
        (by simp only [List.append_assoc]) rfl (by simp only [List.length_append]; omega)]
    simp only [Option.some_bind, Option.bind_eq_bind, Option.pure_def]
    rw [StoreU_eq _ _ (pre ++ leftOf o p v) (T ++ Gb) post _
        (by simp only [List.append_assoc])
        (by simp only [List.length_append]; omega)
        (by simp only [List.length_append]; omega)]
    simp only [Option.some_bind, Option.pure_def, List.append_assoc, Option.some.injEq,
      Prod.mk.injEq, true_and]
    omega

theorem allLeft_leftOf (o : Order) (p : α) (v : List α) : allLeft o p (leftOf o p v) := by
  intro x hx
  simpa [leftOf] using (List.mem_filter.1 hx).2

theorem allRight_rightOf (o : Order) (p : α) (v : List α) : allRight o p (rightOf o p v) := by
  intro x hx
  simpa [rightOf] using (List.mem_filter.1 hx).2

theorem allLeft_append {o : Order} {p : α} {A B : List α} (hA : allLeft o p A)
    (hB : allLeft o p B) : allLeft o p (A ++ B) := by
  intro x hx
  rcases List.mem_append.1 hx with h | h
  · exact hA x h
  · exact hB x h

theorem allRight_append {o : Order} {p : α} {A B : List α} (hA : allRight o p A)
    (hB : allRight o p B) : allRight o p (A ++ B) := by
  intro x hx
  rcases List.mem_append.1 hx with h | h
  · exact hA x h
  · exact hB x h

theorem leftOf_rightOf_perm (o : Order) (p : α) (v : List α) :
    (leftOf o p v ++ rightOf o p v).Perm v := by
  induction v with
  | nil => simp [leftOf, rightOf]
  | cons a v ih =>
    simp only [leftOf, rightOf] at ih ⊢
    by_cases h : Compare o p a = true
    · simp only [List.filter_cons, h, Bool.not_true, Bool.false_eq_true, if_false, if_true]
      exact (List.perm_middle).trans (ih.cons a)
    · simp only [List.filter_cons, h, Bool.not_eq_true] at *
      simp only [h, Bool.not_false, if_true, Bool.false_eq_true, if_false, List.cons_append]
      exact ih.cons a

theorem PartState.step (t : Target α) (o : Order) (p : α) (v : List α)
    (hv : v.length = t.lanes) {keys : List α} {writeL remaining : Nat} {pre P : List α}
    {g1 : Nat} {U : List α} {g2 : Nat} {S post : List α}
    (h : PartState keys writeL remaining pre P g1 U g2 S post)
    (h1 : t.lanes ≤ g1) (h2 : t.lanes ≤ g2) :
    ∃ keys', StoreLeftRight t o v (SetKey t.lanes p) keys writeL remaining
        = some (keys', writeL + (leftOf o p v).length, remaining - t.lanes) ∧
      PartState keys' (writeL + (leftOf o p v).length) (remaining - t.lanes) pre
        (P ++ leftOf o p v) (g1 - (leftOf o p v).length) U (g2 - (rightOf o p v).length)
        (rightOf o p v ++ S) post := by
  obtain ⟨G1, G2, rfl, rfl, rfl, rfl, rfl⟩ := h
  have hlr := leftOf_length_add o p v
  obtain ⟨G1', G2', e, e1, e2⟩ := StoreLeftRight_gen t o p v hv (pre ++ P) G1 U G2 (S ++ post)
    h1 h2
  refine ⟨_, ?_, G1', G2', rfl, by omega, by omega, ?_, by omega⟩
  · simp only [List.append_assoc, List.length_append] at e ⊢
    rw [e]
  · simp only [List.length_append]; omega

theorem PartState.flush (t : Target α) (o : Order) (p : α) (v : List α)
    (hv : v.length = t.lanes) {keys : List α} {writeL remaining : Nat} {pre P : List α}
    {S post : List α} (h : PartState keys writeL remaining pre P remaining [] 0 S post)
    (hpos : 0 < remaining) (hdvd : t.lanes ∣ remaining) (hN : 0 < t.lanes) :
    ∃ keys', StoreLeftRight t o v (SetKey t.lanes p) keys writeL remaining
        = some (keys', writeL + (leftOf o p v).length, remaining - t.lanes) ∧
      PartState keys' (writeL + (leftOf o p v).length) (remaining - t.lanes) pre
        (P ++ leftOf o p v) (remaining - t.lanes) [] 0 (rightOf o p v ++ S) post := by
  have hlr := leftOf_length_add o p v
  obtain ⟨k, hk⟩ := hdvd
  have hk1 : 1 ≤ k := by
    rcases Nat.eq_zero_or_pos k with h0 | h0
    · subst h0; omega
    · exact h0
  by_cases hk2 : k = 1
  · obtain ⟨G1, G2, rfl, e1, e2, rfl, _⟩ := h
    have hG2 : G2 = [] := List.length_eq_zero.1 e2
    subst hG2
    have hrem : remaining = t.lanes := by rw [hk, hk2]; simp
    have := StoreLeftRight_fin t o p v hv (pre ++ P) G1 (S ++ post) (by omega)
    refine ⟨_, ?_, [], [], rfl, by simp; omega, rfl, by simp only [List.length_append]; omega,
      by simp⟩
    simp only [List.append_assoc, List.length_append, List.nil_append] at this ⊢
    rw [hrem, this]
    simp
  · have h2N : 2 * t.lanes ≤ remaining := by
      have : 2 ≤ k := by omega
      calc 2 * t.lanes = t.lanes * 2 := Nat.mul_comm _ _
        _ ≤ t.lanes * k := Nat.mul_le_mul_left _ this
        _ = remaining := hk.symm
    obtain ⟨G1, G2, rfl, e1, e2, rfl, _⟩ := h
    have hG2 : G2 = [] := List.length_eq_zero.1 e2
    subst hG2
    obtain ⟨Ga, Gb, rfl, ha⟩ := split_at G1 t.lanes (by omega)
    simp only [List.length_append] at e1
    obtain ⟨G1', G2', e, e1', e2'⟩ := StoreLeftRight_gen t o p v hv (pre ++ P) Ga [] Gb
      (S ++ post) (by omega) (by omega)
    refine ⟨_, ?_, G1' ++ G2', [], rfl, by simp only [List.length_append]; omega, rfl,
      by simp only [List.length_append]; omega, by simp⟩
    simp only [List.append_assoc, List.length_append, List.nil_append, List.length_nil,
      Nat.add_zero] at e ⊢
    rw [← e1, e]

theorem allLeft_left4 (o : Order) (p : α) (v0 v1 v2 v3 : List α) :
    allLeft o p (left4 o p v0 v1 v2 v3) :=
  allLeft_append (allLeft_leftOf _ _ _) (allLeft_append (allLeft_leftOf _ _ _)
    (allLeft_append (allLeft_leftOf _ _ _) (allLeft_leftOf _ _ _)))

theorem allRight_right4 (o : Order) (p : α) (v0 v1 v2 v3 : List α) :
    allRight o p (right4 o p v0 v1 v2 v3) :=
  allRight_append (allRight_rightOf _ _ _) (allRight_append (allRight_rightOf _ _ _)
    (allRight_append (allRight_rightOf _ _ _) (allRight_rightOf _ _ _)))

theorem left4_right4_perm (o : Order) (p : α) (v0 v1 v2 v3 : List α) :
    (left4 o p v0 v1 v2 v3 ++ right4 o p v0 v1 v2 v3).Perm (v0 ++ (v1 ++ (v2 ++ v3))) := by
  have p0 := leftOf_rightOf_perm o p v0
  have p1 := leftOf_rightOf_perm o p v1
  have p2 := leftOf_rightOf_perm o p v2
  have p3 := leftOf_rightOf_perm o p v3
  refine List.Perm.trans ?_ (p0.append (p1.append (p2.append p3)))
  rw [List.perm_iff_count]
  intro a
  simp only [left4, right4, List.count_append]
  omega

/-- Four calls of `StoreLeftRight` away from the ends of the gaps: the lanes written to the
two sides do not depend on the compress dialect nor on the stale lanes. -/
theorem StoreLeftRight4_step_exact (t : Target α) (o : Order) (p : α) (v0 v1 v2 v3 : List α)
    (hv0 : v0.length = t.lanes) (hv1 : v1.length = t.lanes) (hv2 : v2.length = t.lanes)
    (hv3 : v3.length = t.lanes) {keys : List α} {writeL remaining : Nat} {pre P : List α}
    {g1 : Nat} {U : List α} {g2 : Nat} {S post : List α}
    (h : PartState keys writeL remaining pre P g1 U g2 S post)
    (h1 : 4 * t.lanes ≤ g1) (h2 : 4 * t.lanes ≤ g2) :
    ∃ keys', StoreLeftRight4 t o v0 v1 v2 v3 (SetKey t.lanes p) keys writeL remaining
        = some (keys', writeL + (left4 o p v0 v1 v2 v3).length, remaining - 4 * t.lanes) ∧
      PartState keys' (writeL + (left4 o p v0 v1 v2 v3).length) (remaining - 4 * t.lanes) pre
        (P ++ left4 o p v0 v1 v2 v3) (g1 - (left4 o p v0 v1 v2 v3).length) U
        (g2 - (right4 o p v0 v1 v2 v3).length) (right4 o p v0 v1 v2 v3 ++ S) post := by
  have l0 := leftOf_length_add o p v0
  have l1 := leftOf_length_add o p v1
  have l2 := leftOf_length_add o p v2
  have l3 := leftOf_length_add o p v3
  obtain ⟨k1, e1, s1⟩ := h.step t o p v0 hv0 (by omega) (by omega)
  obtain ⟨k2, e2, s2⟩ := s1.step t o p v1 hv1 (by omega) (by omega)
  obtain ⟨k3, e3, s3⟩ := s2.step t o p v2 hv2 (by omega) (by omega)
  obtain ⟨k4, e4, s4⟩ := s3.step t o p v3 hv3 (by omega) (by omega)
  unfold left4 right4
  refine ⟨k4, ?_, ?_⟩
  · simp only [StoreLeftRight4, e1, e2, e3, e4, Option.some_bind, Option.bind_eq_bind,
      List.length_append]
    simp only [Option.some.injEq, Prod.mk.injEq, true_and]
    omega
  · simp only [List.append_assoc, List.length_append] at s4 ⊢
    have ea : writeL + (leftOf o p v0).length + (leftOf o p v1).length +
        (leftOf o p v2).length + (leftOf o p v3).length = writeL + ((leftOf o p v0).length +
        ((leftOf o p v1).length + ((leftOf o p v2).length + (leftOf o p v3).length))) := by
      omega
    have eb : remaining - t.lanes - t.lanes - t.lanes - t.lanes = remaining - 4 * t.lanes := by
      omega
    have ec : g1 - (leftOf o p v0).length - (leftOf o p v1).length -
        (leftOf o p v2).length - (leftOf o p v3).length = g1 - ((leftOf o p v0).length +
        ((leftOf o p v1).length + ((leftOf o p v2).length + (leftOf o p v3).length))) := by
      omega
    have ed : g2 - (rightOf o p v0).length - (rightOf o p v1).length -
        (rightOf o p v2).length - (rightOf o p v3).length = g2 - ((rightOf o p v3).length +
        ((rightOf o p v2).length + ((rightOf o p v1).length + (rightOf o p v0).length))) := by
      omega
    rw [ea, eb, ec, ed] at s4
    exact s4

theorem StoreLeftRight4_step (t : Target α) (o : Order) (p : α) (v0 v1 v2 v3 : List α)
    (hv0 : v0.length = t.lanes) (hv1 : v1.length = t.lanes) (hv2 : v2.length = t.lanes)
    (hv3 : v3.length = t.lanes) {keys : List α} {writeL remaining : Nat} {pre P : List α}
    {g1 : Nat} {U : List α} {g2 : Nat} {S post : List α}
    (h : PartState keys writeL remaining pre P g1 U g2 S post)
    (h1 : 4 * t.lanes ≤ g1) (h2 : 4 * t.lanes ≤ g2) :
    ∃ keys' Lw Rw, StoreLeftRight4 t o v0 v1 v2 v3 (SetKey t.lanes p) keys writeL remaining
        = some (keys', writeL + Lw.length, remaining - 4 * t.lanes) ∧
      PartState keys' (writeL + Lw.length) (remaining - 4 * t.lanes) pre
        (P ++ Lw) (g1 - Lw.length) U (g2 - Rw.length) (Rw ++ S) post ∧
      allLeft o p Lw ∧ allRight o p Rw ∧ (Lw ++ Rw).Perm (v0 ++ (v1 ++ (v2 ++ v3))) := by
  obtain ⟨k, e, s⟩ := StoreLeftRight4_step_exact t o p v0 v1 v2 v3 hv0 hv1 hv2 hv3 h h1 h2
  exact ⟨k, _, _, e, s, allLeft_left4 o p v0 v1 v2 v3, allRight_right4 o p v0 v1 v2 v3,
    left4_right4_perm o p v0 v1 v2 v3⟩

/-- Four calls of `StoreLeftRight` that use up the gap, with the same lanes written as in
`StoreLeftRight4_step_exact`. -/
theorem StoreLeftRight4_flush_exact (t : Target α) (o : Order) (p : α) (v0 v1 v2 v3 : List α)
    (hv0 : v0.length = t.lanes) (hv1 : v1.length = t.lanes) (hv2 : v2.length = t.lanes)
    (hv3 : v3.length = t.lanes) {keys : List α} {writeL remaining : Nat} {pre P : List α}
    {S post : List α}
    (h : PartState keys writeL remaining pre P remaining [] 0 S post)
    (h1 : 4 * t.lanes ≤ remaining) (hdvd : t.lanes ∣ remaining) (hN : 0 < t.lanes) :
    ∃ keys', StoreLeftRight4 t o v0 v1 v2 v3 (SetKey t.lanes p) keys writeL remaining
        = some (keys', writeL + (left4 o p v0 v1 v2 v3).length, remaining - 4 * t.lanes) ∧
      PartState keys' (writeL + (left4 o p v0 v1 v2 v3).length) (remaining - 4 * t.lanes) pre
        (P ++ left4 o p v0 v1 v2 v3) (remaining - 4 * t.lanes) [] 0
        (right4 o p v0 v1 v2 v3 ++ S) post := by
  have l0 := leftOf_length_add o p v0
  have l1 := leftOf_length_add o p v1
  have l2 := leftOf_length_add o p v2
  have l3 := leftOf_length_add o p v3
  have hd : ∀ r, t.lanes ∣ r → t.lanes ≤ r → t.lanes ∣ r - t.lanes := fun r hr hle =>
    (Nat.dvd_sub' hr (dvd_refl _))
  obtain ⟨k1, e1, s1⟩ := h.flush t o p v0 hv0 (by omega) hdvd hN
  have d1 := hd _ hdvd (by omega)
  obtain ⟨k2, e2, s2⟩ := s1.flush t o p v1 hv1 (by omega) d1 hN
  have d2 := hd _ d1 (by omega)
  obtain ⟨k3, e3, s3⟩ := s2.flush t o p v2 hv2 (by omega) d2 hN
  have d3 := hd _ d2 (by omega)
  obtain ⟨k4, e4, s4⟩ := s3.flush t o p v3 hv3 (by omega) d3 hN
  unfold left4 right4
  refine ⟨k4, ?_, ?_⟩
  · simp only [StoreLeftRight4, e1, e2, e3, e4, Option.some_bind, Option.bind_eq_bind,
      List.length_append]
    simp only [Option.some.injEq, Prod.mk.injEq, true_and]
    omega
  · simp only [List.append_assoc, List.length_append] at s4 ⊢
    have ea : writeL + (leftOf o p v0).length + (leftOf o p v1).length +
        (leftOf o p v2).length + (leftOf o p v3).length = writeL + ((leftOf o p v0).length +
        ((leftOf o p v1).length + ((leftOf o p v2).length + (leftOf o p v3).length))) := by
      omega
    have eb : remaining - t.lanes - t.lanes - t.lanes - t.lanes = remaining - 4 * t.lanes := by
      omega
    rw [ea, eb] at s4
    exact s4

theorem StoreLeftRight4_flush (t : Target α) (o : Order) (p : α) (v0 v1 v2 v3 : List α)
    (hv0 : v0.length = t.lanes) (hv1 : v1.length = t.lanes) (hv2 : v2.length = t.lanes)
    (hv3 : v3.length = t.lanes) {keys : List α} {writeL remaining : Nat} {pre P : List α}
    {S post : List α}
    (h : PartState keys writeL remaining pre P remaining [] 0 S post)
    (h1 : 4 * t.lanes ≤ remaining) (hdvd : t.lanes ∣ remaining) (hN : 0 < t.lanes) :
    ∃ keys' Lw Rw, StoreLeftRight4 t o v0 v1 v2 v3 (SetKey t.lanes p) keys writeL remaining
        = some (keys', writeL + Lw.length, remaining - 4 * t.lanes) ∧
      PartState keys' (writeL + Lw.length) (remaining - 4 * t.lanes) pre
        (P ++ Lw) (remaining - 4 * t.lanes) [] 0 (Rw ++ S) post ∧
      allLeft o p Lw ∧ allRight o p Rw ∧ (Lw ++ Rw).Perm (v0 ++ (v1 ++ (v2 ++ v3))) := by
  obtain ⟨k, e, s⟩ := StoreLeftRight4_flush_exact t o p v0 v1 v2 v3 hv0 hv1 hv2 hv3 h h1 hdvd hN
  exact ⟨k, _, _, e, s, allLeft_left4 o p v0 v1 v2 v3, allRight_right4 o p v0 v1 v2 v3,
    left4_right4_perm o p v0 v1 v2 v3⟩

theorem split4 (W : List α) (N : Nat) (hW : W.length = 4 * N) :
    ∃ v0 v1 v2 v3, W = v0 ++ (v1 ++ (v2 ++ v3)) ∧ v0.length = N ∧ v1.length = N ∧
      v2.length = N ∧ v3.length = N := by
  obtain ⟨v0, r0, rfl, h0⟩ := split_at W N (by omega)
  simp only [List.length_append] at hW
  obtain ⟨v1, r1, rfl, h1⟩ := split_at r0 N (by omega)
  simp only [List.length_append] at hW
  obtain ⟨v2, v3, rfl, h2⟩ := split_at r1 N (by omega)
  simp only [List.length_append] at hW
  exact ⟨v0, v1, v2, v3, rfl, h0, h1, h2, by omega⟩

theorem PartState.load {keys : List α} {writeL remaining : Nat} {pre P : List α}
    {g1 : Nat} {U : List α} {g2 : Nat} {S post : List α}
    (h : PartState keys writeL remaining pre P g1 U g2 S post) (N : Nat) (Ua seg Ub : List α)
    (hU : U = Ua ++ (seg ++ Ub)) (hs : seg.length = N) (i : Nat)
    (hi : i = pre.length + P.length + g1 + Ua.length) : LoadU N keys i = some seg := by
  obtain ⟨G1, G2, rfl, rfl, rfl, rfl, rfl⟩ := h
  subst hU
  exact LoadU_eq N _ (pre ++ P ++ G1 ++ Ua) seg (Ub ++ (G2 ++ (S ++ post))) i
    (by simp only [List.append_assoc]) (by simp only [List.length_append]; omega) hs

theorem PartState.takeLeft {keys : List α} {writeL remaining : Nat} {pre P : List α}
    {g1 : Nat} {W U : List α} {g2 : Nat} {S post : List α}
    (h : PartState keys writeL remaining pre P g1 (W ++ U) g2 S post) :
    PartState keys writeL remaining pre P (g1 + W.length) U g2 S post := by
  obtain ⟨G1, G2, rfl, rfl, rfl, rfl, rfl⟩ := h
  exact ⟨G1 ++ W, G2, by simp only [List.append_assoc], by simp, rfl, rfl,
    by simp only [List.length_append]; omega⟩

theorem PartState.takeRight {keys : List α} {writeL remaining : Nat} {pre P : List α}
    {g1 : Nat} {W U : List α} {g2 : Nat} {S post : List α}
    (h : PartState keys writeL remaining pre P g1 (U ++ W) g2 S post) :
    PartState keys writeL remaining pre P g1 U (g2 + W.length) S post := by
  obtain ⟨G1, G2, rfl, rfl, rfl, rfl, rfl⟩ := h
  exact ⟨G1, W ++ G2, by simp only [List.append_assoc], rfl,
    by simp only [List.length_append]; omega, rfl,
    by simp only [List.length_append]; omega⟩

theorem PartState.merge {keys : List α} {writeL remaining : Nat} {pre P : List α}
    {g1 : Nat} {g2 : Nat} {S post : List α}
    (h : PartState keys writeL remaining pre P g1 [] g2 S post) :
    PartState keys writeL remaining pre P (g1 + g2) [] 0 S post := by
  obtain ⟨G1, G2, rfl, rfl, rfl, rfl, rfl⟩ := h
  exact ⟨G1 ++ G2, [], by simp only [List.append_assoc, List.nil_append], by simp, rfl, rfl,
    by simp⟩

/-- The main loop of `Partition` from a state with `g1 + g2 = 8N` lanes of slack: the two
sides `P'` and `S'` it ends with are fixed by the keys of the state alone, the same for
every target with `N` lanes (whatever its compress dialect), every content of the stale
lanes and every content of the memory before and behind the range.  The cursors are given
relative to the start of the range. -/
theorem Partition.mainLoop_local (N : Nat) (o : Order) (p : α) (hN : 0 < N) :
    ∀ (fuel : Nat) (left right writeL remaining : Nat) (P : List α) (g1 : Nat)
      (U : List α) (g2 : Nat) (S : List α),
      writeL = P.length → remaining = g1 + U.length + g2 →
      left = P.length + g1 → right = left + U.length →
      g1 + g2 = 8 * N → 4 * N ∣ U.length → U.length < fuel →
      ∃ P' S', (P' ++ S').Perm (P ++ (S ++ U)) ∧ (allLeft o p P → allLeft o p P') ∧
        (allRight o p S → allRight o p S') ∧
        ∀ (t : Target α) (keys pre post : List α), t.lanes = N →
          PartState keys (pre.length + writeL) remaining pre P g1 U g2 S post →
          ∃ keys', Partition.loop t o (SetKey N p) fuel keys (pre.length + left)
              (pre.length + right) (pre.length + writeL) remaining
              = some (keys', pre.length + P'.length, 8 * N) ∧
            PartState keys' (pre.length + P'.length) (8 * N) pre P' (8 * N) [] 0 S' post := by
  intro fuel
  induction fuel with
  | zero => intro _ _ _ _ _ _ _ _ _ _ _ _ _ _ _ h; omega
  | succ fuel ih =>
    intro left right writeL remaining P g1 U g2 S hwL hrem hleft hright hg hdvd hfuel
    by_cases hU : U.length = 0
    · have hU' : U = [] := List.length_eq_zero.1 hU
      subst hU'
      have hlr : left = right := by simp at hright; omega
      have hrem8 : remaining = 8 * N := by simp at hrem; omega
      refine ⟨P, S, by simp, id, id, fun t keys pre post ht hst => ?_⟩
      subst ht
      rw [Partition.loop]
      simp only [hlr, ne_eq, not_true_eq_false, if_false]
      have := hst.merge
      rw [hg] at this
      refine ⟨keys, ?_, ?_⟩
      · rw [hwL, hrem8]
      · rw [← hwL, ← hrem8]; rw [hrem8] at this ⊢; exact this
    · have hlr : ∀ a : Nat, ¬ a + left = a + right := by intro a; omega
      have h4 : 4 * N ≤ U.length := Nat.le_of_dvd (by omega) hdvd
      have hcap : ∀ a : Nat, a + left - (a + writeL) = g1 := by intro a; omega
      by_cases hc : 4 * N < g1
      · obtain ⟨U', W, rfl, hW⟩ := split_at_end U (4 * N) h4
        obtain ⟨v0, v1, v2, v3, rfl, e0, e1, e2, e3⟩ := split4 W N hW
        simp only [List.length_append] at hright hdvd hfuel hrem h4 hW
        have hl := (left4_right4_perm o p v0 v1 v2 v3).length_eq
        simp only [List.length_append] at hl
        obtain ⟨P', S', hperm', hP', hS', H⟩ := ih left (right - 4 * N)
          (writeL + (left4 o p v0 v1 v2 v3).length) (remaining - 4 * N)
          (P ++ left4 o p v0 v1 v2 v3) (g1 - (left4 o p v0 v1 v2 v3).length) U'
          (g2 + (v0.length + (v1.length + (v2.length + v3.length)))
            - (right4 o p v0 v1 v2 v3).length)
          (right4 o p v0 v1 v2 v3 ++ S)
          (by simp only [List.length_append]; omega) (by omega)
          (by simp only [List.length_append]; omega) (by omega) (by omega)
          (by
            have : U'.length = U'.length + (v0.length + (v1.length + (v2.length + v3.length)))
                - 4 * N := by omega
            rw [this]
            exact Nat.dvd_sub' hdvd (dvd_refl _))
          (by omega)
        refine ⟨P', S', hperm'.trans ?_,
          fun h => hP' (allLeft_append h (allLeft_left4 o p v0 v1 v2 v3)),
          fun h => hS' (allRight_append (allRight_right4 o p v0 v1 v2 v3) h),
          fun t keys pre post ht hst => ?_⟩
        · have hperm := left4_right4_perm o p v0 v1 v2 v3
          rw [List.perm_iff_count] at hperm ⊢
          intro a
          have := hperm a
          simp only [List.count_append] at this ⊢
          omega
        · subst ht
          rw [Partition.loop]
          simp only [hlr, ne_eq, not_false_eq_true, if_true, kPartitionUnroll]
          rw [hcap]
          simp only [hc, if_true]
          rw [hst.load t.lanes U' v0 (v1 ++ (v2 ++ v3)) (by simp only [List.append_assoc]) e0 _
            (by omega)]
          rw [hst.load t.lanes (U' ++ v0) v1 (v2 ++ v3) (by simp only [List.append_assoc]) e1 _
            (by simp only [List.length_append]; omega)]
          rw [hst.load t.lanes (U' ++ v0 ++ v1) v2 v3 (by simp only [List.append_assoc]) e2 _
            (by simp only [List.length_append]; omega)]
          rw [hst.load t.lanes (U' ++ v0 ++ v1 ++ v2) v3 []
            (by simp only [List.append_assoc, List.append_nil]) e3 _
            (by simp only [List.length_append]; omega)]
          simp only [Option.some_bind, Option.bind_eq_bind]
          have hst2 := hst.takeRight
          obtain ⟨k', e, st'⟩ := StoreLeftRight4_step_exact t o p v0 v1 v2 v3
            e0 e1 e2 e3 hst2 (by omega) (by simp only [List.length_append]; omega)
          rw [e]
          simp only [Option.some_bind]
          simp only [List.length_append] at st'
          have hA : pre.length + writeL + (left4 o p v0 v1 v2 v3).length
              = pre.length + (writeL + (left4 o p v0 v1 v2 v3).length) := Nat.add_assoc _ _ _
          have hB : pre.length + right - 4 * t.lanes = pre.length + (right - 4 * t.lanes) := by
            omega
          rw [hA] at st' ⊢
          try rw [hB]
          exact H t k' pre post rfl st'
      · obtain ⟨W, U', rfl, hW⟩ := split_at U (4 * N) h4
        obtain ⟨v0, v1, v2, v3, rfl, e0, e1, e2, e3⟩ := split4 W N hW
        simp only [List.length_append] at hright hdvd hfuel hrem h4 hW
        have hl := (left4_right4_perm o p v0 v1 v2 v3).length_eq
        simp only [List.length_append] at hl
        obtain ⟨P', S', hperm', hP', hS', H⟩ := ih (left + 4 * N) right
          (writeL + (left4 o p v0 v1 v2 v3).length) (remaining - 4 * N)
          (P ++ left4 o p v0 v1 v2 v3)
          (g1 + (v0.length + (v1.length + (v2.length + v3.length)))
            - (left4 o p v0 v1 v2 v3).length) U'
          (g2 - (right4 o p v0 v1 v2 v3).length)
          (right4 o p v0 v1 v2 v3 ++ S)
          (by simp only [List.length_append]; omega) (by omega)
          (by simp only [List.length_append]; omega) (by omega) (by omega)
          (by
            have : U'.length = (v0.length + (v1.length + (v2.length + v3.length))) + U'.length
                - 4 * N := by omega
            rw [this]
            exact Nat.dvd_sub' hdvd (dvd_refl _))
          (by omega)
        refine ⟨P', S', hperm'.trans ?_,
          fun h => hP' (allLeft_append h (allLeft_left4 o p v0 v1 v2 v3)),
          fun h => hS' (allRight_append (allRight_right4 o p v0 v1 v2 v3) h),
          fun t keys pre post ht hst => ?_⟩
        · have hperm := left4_right4_perm o p v0 v1 v2 v3
          rw [List.perm_iff_count] at hperm ⊢
          intro a
          have := hperm a
          simp only [List.count_append] at this ⊢
          omega
        · subst ht
          rw [Partition.loop]
          simp only [hlr, ne_eq, not_false_eq_true, if_true, kPartitionUnroll]
          rw [hcap]
          simp only [hc, if_false]
          rw [hst.load t.lanes [] v0 (v1 ++ (v2 ++ v3) ++ U')
            (by simp only [List.append_assoc, List.nil_append]) e0 _
            (by simp only [List.length_nil]; omega)]
          rw [hst.load t.lanes v0 v1 (v2 ++ v3 ++ U') (by simp only [List.append_assoc]) e1 _
            (by omega)]
          rw [hst.load t.lanes (v0 ++ v1) v2 (v3 ++ U') (by simp only [List.append_assoc]) e2 _
            (by simp only [List.length_append]; omega)]
          rw [hst.load t.lanes (v0 ++ v1 ++ v2) v3 U' (by simp only [List.append_assoc]) e3 _
            (by simp only [List.length_append]; omega)]
          simp only [Option.some_bind, Option.bind_eq_bind]
          have hst2 := hst.takeLeft
          obtain ⟨k', e, st'⟩ := StoreLeftRight4_step_exact t o p v0 v1 v2 v3
            e0 e1 e2 e3 hst2 (by simp only [List.length_append]; omega) (by omega)
          rw [e]
          simp only [Option.some_bind]
          simp only [List.length_append] at st'
          have hA : pre.length + writeL + (left4 o p v0 v1 v2 v3).length
              = pre.length + (writeL + (left4 o p v0 v1 v2 v3).length) := Nat.add_assoc _ _ _
          have hB : pre.length + left + 4 * t.lanes = pre.length + (left + 4 * t.lanes) :=
            Nat.add_assoc _ _ _
          rw [hA] at st' ⊢
          try rw [hB]
          exact H t k' pre post rfl st'

/-- The main loop of `Partition` from a state with `g1 + g2 = 8N` lanes of slack: the two
sides `P'` and `S'` it ends with are fixed by the numbers and the keys of the state alone, the
same for every target with `N` lanes (whatever its compress dialect) and every content of
the stale lanes. -/
theorem Partition.mainLoop_uniform (N : Nat) (o : Order) (p : α) (hN : 0 < N)
    (pre post : List α) :
    ∀ (fuel : Nat) (left right writeL remaining : Nat) (P : List α) (g1 : Nat)
      (U : List α) (g2 : Nat) (S : List α),
      writeL = pre.length + P.length → remaining = g1 + U.length + g2 →
      left = pre.length + P.length + g1 → right = left + U.length →
      g1 + g2 = 8 * N → 4 * N ∣ U.length → U.length < fuel →
      ∃ P' S', (P' ++ S').Perm (P ++ (S ++ U)) ∧ (allLeft o p P → allLeft o p P') ∧
        (allRight o p S → allRight o p S') ∧
        ∀ (t : Target α) (keys : List α), t.lanes = N →
          PartState keys writeL remaining pre P g1 U g2 S post →
          ∃ keys', Partition.loop t o (SetKey N p) fuel keys left right writeL remaining
              = some (keys', pre.length + P'.length, 8 * N) ∧
            PartState keys' (pre.length + P'.length) (8 * N) pre P' (8 * N) [] 0 S' post := by
  intro fuel left right writeL remaining P g1 U g2 S hwL hrem hleft hright hg hdvd hfuel
  obtain ⟨P', S', hperm, hP', hS', H⟩ := Partition.mainLoop_local N o p hN fuel
    (P.length + g1) (P.length + g1 + U.length) P.length remaining P g1 U g2 S rfl hrem rfl rfl
    hg hdvd hfuel
  refine ⟨P', S', hperm, hP', hS', fun t keys ht hst => ?_⟩
  have e1 : left = pre.length + (P.length + g1) := by omega
  have e2 : right = pre.length + (P.length + g1 + U.length) := by omega
  rw [e1, e2, hwL]
  rw [hwL] at hst
  exact H t keys pre post ht hst

theorem Partition.mainLoop_spec (t : Target α) (o : Order) (p : α) (hN : 0 < t.lanes)
    (pre post : List α) :
    ∀ (fuel : Nat) (keys : List α) (left right writeL remaining : Nat) (P : List α) (g1 : Nat)
      (U : List α) (g2 : Nat) (S : List α),
      PartState keys writeL remaining pre P g1 U g2 S post →
      left = pre.length + P.length + g1 → right = left + U.length →
      g1 + g2 = 8 * t.lanes → 4 * t.lanes ∣ U.length → U.length < fuel →
      allLeft o p P → allRight o p S →
      ∃ keys' P' S', Partition.loop t o (SetKey t.lanes p) fuel keys left right writeL remaining
          = some (keys', pre.length + P'.length, 8 * t.lanes) ∧
        PartState keys' (pre.length + P'.length) (8 * t.lanes) pre P' (8 * t.lanes) [] 0 S' post ∧
        allLeft o p P' ∧ allRight o p S' ∧ (P' ++ S').Perm (P ++ (S ++ U)) := by
  intro fuel keys left right writeL remaining P g1 U g2 S hst hleft hright hg hdvd hfuel hP hS
  have hwL : writeL = pre.length + P.length := by
    obtain ⟨_, _, _, _, _, e, _⟩ := hst; exact e
  have hrem : remaining = g1 + U.length + g2 := by
    obtain ⟨_, _, _, _, _, _, e⟩ := hst; exact e
  obtain ⟨P', S', hperm, hP', hS', H⟩ := Partition.mainLoop_uniform t.lanes o p hN pre post fuel
    left right writeL remaining P g1 U g2 S hwL hrem hleft hright hg hdvd hfuel
  obtain ⟨keys', e, st⟩ := H t keys rfl hst
  exact ⟨keys', P', S', e, st, hP' hP, hS' hS, hperm⟩

end

section

variable {α : Type}

theorem FirstN_succ (n m : Nat) :
    FirstN (n + 1) m = decide (0 < m) :: FirstN n (m - 1) := by
  simp only [FirstN, List.range_succ_eq_map, List.map_cons, List.map_map]
  congr 1
  apply List.map_congr_left
  intro i _
  simp only [Function.comp]
  by_cases h : i + 1 < m
  · have : i < m - 1 := by omega
    simp [h, this]
  · have : ¬ i < m - 1 := by omega
    simp [h, this]

theorem Compress_masked (op : Bool → Bool → Bool) (hop : ∀ b, op b false = false)
    (f : α → Bool) : ∀ (v : List α) (m : Nat),
    Compress v (List.zipWith op (v.map f) (FirstN v.length m)) =
      (v.take m).filter (fun x => op (f x) true) ∧
    CountTrue (List.zipWith op (v.map f) (FirstN v.length m)) =
      ((v.take m).filter (fun x => op (f x) true)).length := by
  intro v
  induction v with
  | nil => intro m; simp [Compress, CountTrue, FirstN]
  | cons a v ih =>
    intro m
    rw [List.length_cons, FirstN_succ]
    cases m with
    | zero =>
      have := ih 0
      simp only [Nat.zero_sub, List.take_zero, List.filter_nil, List.length_nil] at this
      simp only [Compress, CountTrue] at this ⊢
      simp [hop, this.1, this.2]
    | succ m =>
      have := ih m
      simp only [Compress, CountTrue] at this ⊢
      by_cases h : op (f a) true = true
      · simp [h, this.1, this.2, List.filter_cons]
      · simp [h, this.1, this.2, List.filter_cons]

end

section

variable {α : Type} [LinearOrder α]

theorem Compress_masked_left (o : Order) (p : α) (v : List α) (N m : Nat) (hv : v.length = N) :
    Compress v (MaskAndNot (v.map (Compare o p)) (FirstN N m)) = leftOf o p (v.take m) ∧
    CountTrue (MaskAndNot (v.map (Compare o p)) (FirstN N m)) = (leftOf o p (v.take m)).length := by
  subst hv
  have := Compress_masked (fun x y => !x && y) (by simp) (Compare o p) v m
  simpa [MaskAndNot, leftOf] using this

theorem Compress_masked_right (o : Order) (p : α) (v : List α) (N m : Nat) (hv : v.length = N) :
    Compress v (MaskAnd (v.map (Compare o p)) (FirstN N m)) = rightOf o p (v.take m) := by
  subst hv
  have := (Compress_masked (fun x y => x && y) (by simp) (Compare o p) v m).1
  simpa [MaskAnd, rightOf] using this

/-- The full-vector loop of `PartitionToMultipleOfUnroll`: what it leaves in the range is
fixed by the keys of the range alone, whatever lies before and behind it in memory. -/
theorem PartitionToMultipleOfUnroll.loop_local (o : Order) (p : α) (N num_rem : Nat)
    (hN : 0 < N) :
    ∀ (fuel : Nat) (buf : List α) (i : Nat) (P H Rest : List α),
      H.length = buf.length → i = P.length + H.length →
      num_rem ≤ i + Rest.length → num_rem < i + fuel → i ≤ num_rem →
      allLeft o p P → allRight o p buf →
      ∃ P' H' buf' Rest',
        H'.length = buf'.length ∧
        P'.length + H'.length ≤ num_rem ∧ num_rem < P'.length + H'.length + N ∧
        allLeft o p P' ∧ allRight o p buf' ∧
        (P' ++ (buf' ++ Rest')).Perm (P ++ (buf ++ Rest)) ∧
        P'.length + H'.length + Rest'.length = P.length + H.length + Rest.length ∧
        ∀ pre post : List α,
          PartitionToMultipleOfUnroll.loop o N num_rem (SetKey N p) fuel
              (pre ++ (P ++ (H ++ (Rest ++ post)))) (pre.length + P.length)
              (pre.length + P.length + H.length) buf i
            = some (pre ++ (P' ++ (H' ++ (Rest' ++ post))), pre.length + P'.length,
                pre.length + P'.length + H'.length, buf', P'.length + H'.length) := by
  intro fuel
  induction fuel with
  | zero => intro _ _ _ _ _ _ _ _ h1 h2; omega
  | succ fuel ih =>
    intro buf i P H Rest hH hi hrest hfuel hile hP hB
    by_cases hc : i + N ≤ num_rem
    · obtain ⟨v, Rest', rfl, hv⟩ := split_at Rest N (by omega)
      have hlr := leftOf_length_add o p v
      obtain ⟨Oa, Ob, hO, hOa⟩ := split_at (H ++ v) (leftOf o p v).length
        (by simp only [List.length_append]; omega)
      have hOlen := congrArg List.length hO
      simp only [List.length_append] at hOlen hrest
      obtain ⟨P', H', buf', Rest'', hH', hle', hlt', hP', hB', hperm, hlen, E⟩ :=
        ih (buf ++ rightOf o p v) (i + N) (P ++ leftOf o p v) Ob Rest'
          (by simp only [List.length_append]; omega)
          (by simp only [List.length_append]; omega)
          (by omega) (by omega) hc
          (allLeft_append hP (allLeft_leftOf _ _ _))
          (allRight_append hB (allRight_rightOf _ _ _))
      refine ⟨P', H', buf', Rest'', hH', hle', hlt', hP', hB', ?_, ?_, fun pre post => ?_⟩
      · refine hperm.trans ?_
        have := leftOf_rightOf_perm o p v
        rw [List.perm_iff_count] at this ⊢
        intro a
        have := this a
        simp only [List.count_append] at this ⊢
        omega
      · simp only [List.length_append] at hlen ⊢; omega
      · rw [PartitionToMultipleOfUnroll.loop]
        simp only [hc, if_true]
        rw [LoadU_eq N _ (pre ++ P ++ H) v (Rest' ++ post) _
          (by simp only [List.append_assoc])
          (by simp only [List.length_append]) hv]
        simp only [Option.some_bind, Option.bind_eq_bind, CompareV_SetKey o N p v hv,
          CompressBlendedStore, Compress_left, Compress_right, CountTrue_left]
        rw [StoreU_eq (leftOf o p v) _ (pre ++ P) Oa (Ob ++ (Rest' ++ post)) _
          (by
            have : H ++ (v ++ Rest' ++ post) = (H ++ v) ++ (Rest' ++ post) := by
              simp only [List.append_assoc]
            rw [this, hO]; simp only [List.append_assoc])
          (by simp only [List.length_append]) hOa]
        simp only [Option.some_bind, Option.pure_def]
        have := E pre post
        have e1 : pre.length + (P ++ leftOf o p v).length
            = pre.length + P.length + (leftOf o p v).length := by
          simp only [List.length_append]; omega
        have e2 : pre.length + P.length + (leftOf o p v).length + Ob.length
            = pre.length + P.length + H.length + N := by omega
        rw [e1, e2] at this
        simp only [List.append_assoc] at this ⊢
        exact this
    · refine ⟨P, H, buf, Rest, hH, by omega, by omega, hP, hB, List.Perm.refl _, rfl,
        fun pre post => ?_⟩
      rw [PartitionToMultipleOfUnroll.loop]
      simp only [hc, if_false, Option.some.injEq, Prod.mk.injEq, true_and]
      omega

theorem PartitionToMultipleOfUnroll.loop_spec (o : Order) (p : α) (N num_rem : Nat)
    (hN : 0 < N) (pre post : List α) :
    ∀ (fuel : Nat) (keys : List α) (left readL : Nat) (buf : List α) (i : Nat)
      (P H Rest : List α),
      keys = pre ++ (P ++ (H ++ (Rest ++ post))) → left = pre.length + P.length →
      readL = left + H.length → H.length = buf.length → i = P.length + H.length →
      num_rem ≤ i + Rest.length → num_rem < i + fuel → i ≤ num_rem →
      allLeft o p P → allRight o p buf →
      ∃ keys' P' H' buf' Rest',
        PartitionToMultipleOfUnroll.loop o N num_rem (SetKey N p) fuel keys left readL buf i
          = some (keys', pre.length + P'.length, pre.length + P'.length + H'.length, buf',
              P'.length + H'.length) ∧
        keys' = pre ++ (P' ++ (H' ++ (Rest' ++ post))) ∧ H'.length = buf'.length ∧
        P'.length + H'.length ≤ num_rem ∧ num_rem < P'.length + H'.length + N ∧
        allLeft o p P' ∧ allRight o p buf' ∧
        (P' ++ (buf' ++ Rest')).Perm (P ++ (buf ++ Rest)) ∧
        P'.length + H'.length + Rest'.length = P.length + H.length + Rest.length := by
  intro fuel keys left readL buf i P H Rest hk hleft hread hH hi hrest hfuel hile hP hB
  obtain ⟨P', H', buf', Rest', hH', hle', hlt', hP', hB', hperm, hlen, E⟩ :=
    PartitionToMultipleOfUnroll.loop_local o p N num_rem hN fuel buf i
      P H Rest hH hi hrest hfuel hile hP hB
  subst hk hleft hread
  exact ⟨_, P', H', buf', Rest', E pre post, rfl, hH', hle', hlt', hP', hB', hperm, hlen⟩

theorem num_rem_eq (N num : Nat) (hN : ∃ k, N = 2 ^ k) :
    (if num < 2 * kPartitionUnroll * N then num else num &&& (kPartitionUnroll * N - 1)) =
      if num < 8 * N then num else num % (4 * N) := by
  obtain ⟨k, rfl⟩ := hN
  have : 4 * 2 ^ k = 2 ^ (k + 2) := by rw [pow_add]; omega
  simp only [kPartitionUnroll, this, Nat.and_pow_two_sub_one_eq_mod]

theorem mod_block (N num : Nat) (hN : 0 < N) (h : 8 * N ≤ num) :
    num % (4 * N) < 4 * N ∧ 8 * N ≤ num - num % (4 * N) ∧ num % (4 * N) ≤ num ∧
      4 * N ∣ num - num % (4 * N) := by
  have h4 : 0 < 4 * N := by omega
  have hm := Nat.mod_lt num h4
  have hd := Nat.div_add_mod num (4 * N)
  have h2 : 2 ≤ num / (4 * N) := by
    rw [Nat.le_div_iff_mul_le h4]; omega
  have h3 : 4 * N * 2 ≤ 4 * N * (num / (4 * N)) := Nat.mul_le_mul_left _ h2
  refine ⟨hm, by omega, Nat.mod_le _ _, ?_⟩
  exact ⟨num / (4 * N), by omega⟩

/-- The end of `PartitionToMultipleOfUnroll` (moving the buffered right-side keys behind the
unread keys): the result in the range does not depend on the memory around it. -/
theorem PartitionToMultipleOfUnroll.tail_local (t : Target α) (o : Order) (p : α)
    (hNpos : 0 < t.lanes) (X : List α) (P2 H2 buf2 Rest2 : List α)
    (hH2 : H2.length = buf2.length)
    (hi2 : P2.length + H2.length =
      if X.length < 8 * t.lanes then X.length else X.length % (4 * t.lanes))
    (hP2 : allLeft o p P2) (hB2 : allRight o p buf2) (hperm2 : (P2 ++ (buf2 ++ Rest2)).Perm X)
    (hlen2 : P2.length + H2.length + Rest2.length = X.length) :
    ∃ P U S, allLeft o p P ∧ allRight o p S ∧ (P ++ (S ++ U)).Perm X ∧
      U.length = (if X.length < 8 * t.lanes then 0 else X.length - X.length % (4 * t.lanes)) ∧
      ∀ pre post : List α,
        ((LoadU buf2.length (pre ++ (P2 ++ (H2 ++ (Rest2 ++ post))))
            (pre.length + X.length - buf2.length)).bind fun moved =>
          (StoreU moved (pre ++ (P2 ++ (H2 ++ (Rest2 ++ post))))
              (pre.length + P2.length)).bind fun keys =>
            (StoreU buf2 keys (pre.length + X.length - buf2.length)).bind fun keys =>
              some (keys, pre.length + P2.length, pre.length + X.length - buf2.length))
        = some (pre ++ (P ++ (U ++ (S ++ post))), pre.length + P.length,
            pre.length + P.length + U.length) := by
  by_cases hsmall : X.length < 8 * t.lanes
  · simp only [hsmall, if_true] at hi2 ⊢
    have hR : Rest2 = [] := List.length_eq_zero.1 (by omega)
    subst hR
    refine ⟨P2, [], buf2, hP2, hB2, by simpa using hperm2, rfl, fun pre post => ?_⟩
    rw [LoadU_eq buf2.length _ (pre ++ P2) H2 post _
      (by simp only [List.append_assoc, List.nil_append])
      (by simp only [List.length_append]; omega) hH2]
    simp only [Option.some_bind]
    rw [StoreU_eq H2 _ (pre ++ P2) H2 post _
      (by simp only [List.append_assoc, List.nil_append])
      (by simp only [List.length_append]) rfl]
    simp only [Option.some_bind]
    rw [StoreU_eq buf2 _ (pre ++ P2) H2 post _ rfl
      (by simp only [List.length_append]; omega) hH2]
    simp only [Option.some_bind, Option.pure_def]
    simp only [List.append_assoc, List.nil_append, List.length_nil, Nat.add_zero,
      Option.some.injEq, Prod.mk.injEq, true_and]
    omega
  · simp only [hsmall, if_false] at hi2 ⊢
    obtain ⟨hb1, hb2, hb3, hb4⟩ := mod_block t.lanes X.length hNpos (by omega)
    obtain ⟨Ra, Rb, rfl, hRb⟩ := split_at_end Rest2 buf2.length (by omega)
    simp only [List.length_append] at hlen2
    refine ⟨P2, Rb ++ Ra, buf2, hP2, hB2, ?_, ?_, fun pre post => ?_⟩
    · refine List.Perm.trans ?_ hperm2
      rw [List.perm_iff_count]
      intro a
      simp only [List.count_append]
      omega
    · simp only [List.length_append]; omega
    · rw [LoadU_eq buf2.length _ (pre ++ P2 ++ H2 ++ Ra) Rb post _
        (by simp only [List.append_assoc])
        (by simp only [List.length_append]; omega) hRb]
      simp only [Option.some_bind]
      rw [StoreU_eq Rb _ (pre ++ P2) H2 (Ra ++ Rb ++ post) _
        (by simp only [List.append_assoc])
        (by simp only [List.length_append]) (by omega)]
      simp only [Option.some_bind]
      rw [StoreU_eq buf2 _ (pre ++ P2 ++ Rb ++ Ra) Rb post _
        (by simp only [List.append_assoc])
        (by simp only [List.length_append]; omega) hRb]
      simp only [Option.some_bind, Option.pure_def]
      simp only [List.append_assoc, List.length_append, Option.some.injEq, Prod.mk.injEq,
        true_and]
      omega

theorem PartitionToMultipleOfUnroll.tail_spec (t : Target α) (o : Order) (p : α)
    (hNpos : 0 < t.lanes) (pre X post : List α) (keys2 P2 H2 buf2 Rest2 : List α)
    (hk2 : keys2 = pre ++ (P2 ++ (H2 ++ (Rest2 ++ post)))) (hH2 : H2.length = buf2.length)
    (hi2 : P2.length + H2.length =
      if X.length < 8 * t.lanes then X.length else X.length % (4 * t.lanes))
    (hP2 : allLeft o p P2) (hB2 : allRight o p buf2) (hperm2 : (P2 ++ (buf2 ++ Rest2)).Perm X)
    (hlen2 : P2.length + H2.length + Rest2.length = X.length) :
    ∃ P U S, ((LoadU buf2.length keys2 (pre.length + X.length - buf2.length)).bind fun moved =>
        (StoreU moved keys2 (pre.length + P2.length)).bind fun keys =>
          (StoreU buf2 keys (pre.length + X.length - buf2.length)).bind fun keys =>
            some (keys, pre.length + P2.length, pre.length + X.length - buf2.length))
      = some (pre ++ (P ++ (U ++ (S ++ post))), pre.length + P.length,
          pre.length + P.length + U.length) ∧
      allLeft o p P ∧ allRight o p S ∧ (P ++ (S ++ U)).Perm X ∧
      U.length = (if X.length < 8 * t.lanes then 0 else X.length - X.length % (4 * t.lanes)) := by
  obtain ⟨P, U, S, h1, h2, h3, h4, E⟩ := PartitionToMultipleOfUnroll.tail_local t o p hNpos X
    P2 H2 buf2 Rest2 hH2 hi2 hP2 hB2 hperm2 hlen2
  subst hk2
  exact ⟨P, U, S, E pre post, h1, h2, h3, h4⟩

/-- `PartitionToMultipleOfUnroll` acts on its range alone: the keys it leaves there are the
same whatever lies before the range and behind it, provided one vector is readable behind
it. -/
theorem PartitionToMultipleOfUnroll_local (t : Target α) (o : Order) (p : α)
    (hN : ∃ k, t.lanes = 2 ^ k) (X : List α) :
    ∃ P U S, allLeft o p P ∧ allRight o p S ∧ (P ++ (S ++ U)).Perm X ∧
      U.length = (if X.length < 8 * t.lanes then 0 else X.length - X.length % (4 * t.lanes)) ∧
      ∀ pre post : List α, t.lanes ≤ post.length →
        PartitionToMultipleOfUnroll t o (pre ++ (X ++ post)) pre.length
          (pre.length + X.length) (SetKey t.lanes p)
        = some (pre ++ (P ++ (U ++ (S ++ post))), pre.length + P.length,
            pre.length + P.length + U.length) := by
  have hNpos : 0 < t.lanes := by
    obtain ⟨k, hk⟩ := hN; rw [hk]; exact Nat.pos_pow_of_pos _ (by omega)
  generalize hnr : (if X.length < 8 * t.lanes then X.length else X.length % (4 * t.lanes))
    = num_rem
  have hnle : num_rem ≤ X.length := by
    rw [← hnr]; split_ifs
    · exact le_refl _
    · exact Nat.mod_le _ _
  obtain ⟨P1, H1, buf1, Rest1, hH1, hle1, hlt1, hP1, hB1, hperm1, hlen1, E1⟩ :=
    PartitionToMultipleOfUnroll.loop_local o p t.lanes num_rem hNpos (num_rem + 1)
      [] 0 [] [] X rfl (by simp) (by simpa using hnle) (by omega)
      (Nat.zero_le _) (by intro x hx; simp at hx) (by intro x hx; simp at hx)
  simp only [List.nil_append, List.length_nil, Nat.zero_add, Nat.add_zero] at hperm1 hlen1 E1
  by_cases hi : P1.length + H1.length = num_rem
  · obtain ⟨P, U, S, h1, h2, h3, h4, E⟩ := PartitionToMultipleOfUnroll.tail_local t o p hNpos
      X P1 H1 buf1 Rest1 hH1 (by rw [hnr]; exact hi) hP1 hB1 hperm1 hlen1
    refine ⟨P, U, S, h1, h2, h3, h4, fun pre post hpost => ?_⟩
    unfold PartitionToMultipleOfUnroll
    simp only [Nat.add_sub_cancel_left, num_rem_eq t.lanes X.length hN, hnr]
    rw [E1 pre post]
    simp only [Option.some_bind, Option.bind_eq_bind]
    simp only [hi, ne_eq, not_true_eq_false, if_false, Option.pure_def, Option.some_bind]
    exact E pre post
  · obtain ⟨w, Rest2, rfl, hw⟩ := split_at Rest1 (num_rem - (P1.length + H1.length))
      (by omega)
    have hlr := leftOf_length_add o p w
    obtain ⟨Oa, Ob, hO, hOa⟩ := split_at (H1 ++ w) (leftOf o p w).length
      (by simp only [List.length_append]; omega)
    have hOlen := congrArg List.length hO
    simp only [List.length_append] at hOlen hlen1
    obtain ⟨P, U, S, h1, h2, h3, h4, E⟩ := PartitionToMultipleOfUnroll.tail_local t o p hNpos
      X (P1 ++ leftOf o p w) Ob (buf1 ++ rightOf o p w) Rest2
      (by simp only [List.length_append]; omega)
      (by rw [hnr]; simp only [List.length_append]; omega)
      (allLeft_append hP1 (allLeft_leftOf _ _ _)) (allRight_append hB1 (allRight_rightOf _ _ _))
      (by
        refine List.Perm.trans ?_ hperm1
        have := leftOf_rightOf_perm o p w
        rw [List.perm_iff_count] at this ⊢
        intro a
        have := this a
        simp only [List.count_append] at this ⊢
        omega)
      (by simp only [List.length_append]; omega)
    refine ⟨P, U, S, h1, h2, h3, h4, fun pre post hpost => ?_⟩
    unfold PartitionToMultipleOfUnroll
    simp only [Nat.add_sub_cancel_left, num_rem_eq t.lanes X.length hN, hnr]
    rw [E1 pre post]
    simp only [Option.some_bind, Option.bind_eq_bind]
    simp only [hi, ne_eq, not_false_eq_true, if_true]
    obtain ⟨v, tl, hvt, hv⟩ := split_at (w ++ Rest2 ++ post) t.lanes
      (by simp only [List.length_append]; omega)
    have hvw : v.take (num_rem - (P1.length + H1.length)) = w := by
      have := congrArg (List.take (num_rem - (P1.length + H1.length))) hvt
      rw [List.append_assoc, List.take_left' hw, List.take_append_of_le_length (by omega)]
        at this
      exact this.symm
    rw [LoadU_eq t.lanes _ (pre ++ P1 ++ H1) v tl _
      (by simp only [List.append_assoc] at hvt ⊢; rw [hvt])
      (by simp only [List.length_append]) hv]
    simp only [Option.some_bind, Option.bind_eq_bind, CompareV_SetKey o t.lanes p v hv,
      CompressBlendedStore, (Compress_masked_left o p v t.lanes _ hv).1,
      (Compress_masked_left o p v t.lanes _ hv).2, Compress_masked_right o p v t.lanes _ hv,
      hvw]
    rw [StoreU_eq (leftOf o p w) _ (pre ++ P1) Oa (Ob ++ (Rest2 ++ post)) _
      (by
        have : H1 ++ (w ++ Rest2 ++ post) = (H1 ++ w) ++ (Rest2 ++ post) := by
          simp only [List.append_assoc]
        rw [this, hO]; simp only [List.append_assoc])
      (by simp only [List.length_append]) hOa]
    simp only [Option.some_bind, Option.pure_def]
    have := E pre post
    simp only [List.length_append, Nat.add_assoc, List.append_assoc] at this ⊢
    exact this

theorem PartitionToMultipleOfUnroll_spec (t : Target α) (o : Order) (p : α)
    (hN : ∃ k, t.lanes = 2 ^ k) (pre X post : List α) (hpost : t.lanes ≤ post.length) :
    ∃ P U S, PartitionToMultipleOfUnroll t o (pre ++ (X ++ post)) pre.length
        (pre.length + X.length) (SetKey t.lanes p)
      = some (pre ++ (P ++ (U ++ (S ++ post))), pre.length + P.length,
          pre.length + P.length + U.length) ∧
      allLeft o p P ∧ allRight o p S ∧ (P ++ (S ++ U)).Perm X ∧
      U.length = (if X.length < 8 * t.lanes then 0 else X.length - X.length % (4 * t.lanes)) := by
  obtain ⟨P, U, S, h1, h2, h3, h4, E⟩ := PartitionToMultipleOfUnroll_local t o p hN X
  exact ⟨P, U, S, E pre post hpost, h1, h2, h3, h4⟩

theorem PartState.init (pre P U S post : List α) :
    PartState (pre ++ (P ++ (U ++ (S ++ post)))) (pre.length + P.length) U.length pre P 0 U 0
      S post :=
  ⟨[], [], by simp, rfl, rfl, rfl, by simp⟩

theorem PartState.done {keys : List α} {writeL remaining : Nat} {pre P S post : List α}
    (h : PartState keys writeL remaining pre P 0 [] 0 S post) :
    keys = pre ++ (P ++ (S ++ post)) ∧ writeL = pre.length + P.length ∧ remaining = 0 := by
  obtain ⟨G1, G2, rfl, e1, e2, rfl, rfl⟩ := h
  have h1 : G1 = [] := List.length_eq_zero.1 e1
  have h2 : G2 = [] := List.length_eq_zero.1 e2
  subst h1 h2
  simp

/-- The block of `Partition` after `PartitionToMultipleOfUnroll`: the keys it returns are the
same for every target with `N` lanes, whatever its compress dialect, and whatever lies
before and behind the range in memory; `remaining` ends at `0`. -/
theorem Partition.main_local (N : Nat) (o : Order) (p : α) (hN : 0 < N)
    (P0 U S0 : List α)
    (hU : U.length = 0 ∨ (8 * N ≤ U.length ∧ 4 * N ∣ U.length)) :
    ∃ P S, (P ++ S).Perm (P0 ++ (S0 ++ U)) ∧ (allLeft o p P0 → allLeft o p P) ∧
      (allRight o p S0 → allRight o p S) ∧
      ∀ (t : Target α) (pre post : List α), t.lanes = N →
        Partition.main t o (SetKey N p) (pre ++ (P0 ++ (U ++ (S0 ++ post))))
          (pre.length + P0.length) (pre.length + P0.length + U.length)
        = some (pre ++ (P ++ (S ++ post)), pre.length + P.length, 0) := by
  rcases hU with hU | ⟨h8, hdvd⟩
  · have : U = [] := List.length_eq_zero.1 hU
    subst this
    refine ⟨P0, S0, by simp, id, id, fun t pre post ht => ?_⟩
    unfold Partition.main
    simp only [Nat.add_sub_cancel_left, List.length_nil, ne_eq, not_true_eq_false, if_false,
      Option.pure_def, List.nil_append, Nat.add_zero, Nat.sub_self]
  · have hne : U.length ≠ 0 := by omega
    obtain ⟨WL, U1, rfl, hWL⟩ := split_at U (4 * N) (by omega)
    simp only [List.length_append] at h8 hdvd hne
    obtain ⟨Um, WR, rfl, hWR⟩ := split_at_end U1 (4 * N) (by omega)
    simp only [List.length_append] at h8 hdvd hne
    obtain ⟨a0, a1, a2, a3, rfl, ea0, ea1, ea2, ea3⟩ := split4 WL N hWL
    obtain ⟨b0, b1, b2, b3, rfl, eb0, eb1, eb2, eb3⟩ := split4 WR N hWR
    simp only [List.length_append] at hWL hWR h8 hdvd hne
    obtain ⟨P1, S1, hperm1, hP1, hS1, H⟩ := Partition.mainLoop_local N o p hN
      (a0.length + (a1.length + (a2.length + a3.length)) +
          (Um.length + (b0.length + (b1.length + (b2.length + b3.length)))) + 1)
      (P0.length + 4 * N)
      (P0.length +
        (a0.length + (a1.length + (a2.length + a3.length)) +
          (Um.length + (b0.length + (b1.length + (b2.length + b3.length))))) - 4 * N)
      P0.length
      (a0.length + (a1.length + (a2.length + a3.length)) +
          (Um.length + (b0.length + (b1.length + (b2.length + b3.length)))))
      P0 (a0.length + (a1.length + (a2.length + a3.length))) Um
      (b0.length + (b1.length + (b2.length + b3.length))) S0
      rfl (by omega) (by omega) (by omega) (by omega)
      (by
        have : Um.length = a0.length + (a1.length + (a2.length + a3.length)) +
            (Um.length + (b0.length + (b1.length + (b2.length + b3.length)))) - 4 * N
            - 4 * N := by omega
        rw [this]
        exact Nat.dvd_sub' (Nat.dvd_sub' hdvd (dvd_refl _)) (dvd_refl _))
      (by omega)
    refine ⟨P1 ++ left4 o p a0 a1 a2 a3 ++ left4 o p b0 b1 b2 b3,
      right4 o p b0 b1 b2 b3 ++ (right4 o p a0 a1 a2 a3 ++ S1), ?_, ?_, ?_, fun t pre post ht => ?_⟩
    · have hperm2 := left4_right4_perm o p a0 a1 a2 a3
      have hperm3 := left4_right4_perm o p b0 b1 b2 b3
      rw [List.perm_iff_count] at hperm1 hperm2 hperm3 ⊢
      intro a
      have h1 := hperm1 a
      have h2 := hperm2 a
      have h3 := hperm3 a
      simp only [List.count_append] at h1 h2 h3 ⊢
      omega
    · exact fun h => allLeft_append (allLeft_append (hP1 h) (allLeft_left4 o p a0 a1 a2 a3))
        (allLeft_left4 o p b0 b1 b2 b3)
    · exact fun h => allRight_append (allRight_right4 o p b0 b1 b2 b3)
        (allRight_append (allRight_right4 o p a0 a1 a2 a3) (hS1 h))
    · subst ht
      unfold Partition.main
      simp only [Nat.add_sub_cancel_left]
      simp only [List.length_append, hne, ne_eq, not_false_eq_true, if_true, kPartitionUnroll]
      have hst := PartState.init pre P0
        ((a0 ++ (a1 ++ (a2 ++ a3))) ++ (Um ++ (b0 ++ (b1 ++ (b2 ++ b3))))) S0 post
      simp only [List.length_append] at hst
      rw [hst.load t.lanes [] a0 (a1 ++ (a2 ++ a3) ++ (Um ++ (b0 ++ (b1 ++ (b2 ++ b3)))))
        (by simp only [List.append_assoc, List.nil_append]) ea0 _ (by simp)]
      rw [hst.load t.lanes a0 a1 (a2 ++ a3 ++ (Um ++ (b0 ++ (b1 ++ (b2 ++ b3)))))
        (by simp only [List.append_assoc]) ea1 _ (by omega)]
      rw [hst.load t.lanes (a0 ++ a1) a2 (a3 ++ (Um ++ (b0 ++ (b1 ++ (b2 ++ b3)))))
        (by simp only [List.append_assoc]) ea2 _ (by simp only [List.length_append]; omega)]
      rw [hst.load t.lanes (a0 ++ a1 ++ a2) a3 (Um ++ (b0 ++ (b1 ++ (b2 ++ b3))))
        (by simp only [List.append_assoc]) ea3 _ (by simp only [List.length_append]; omega)]
      rw [hst.load t.lanes ((a0 ++ (a1 ++ (a2 ++ a3))) ++ Um) b0 (b1 ++ (b2 ++ b3))
        (by simp only [List.append_assoc]) eb0 _ (by simp only [List.length_append]; omega)]
      rw [hst.load t.lanes ((a0 ++ (a1 ++ (a2 ++ a3))) ++ Um ++ b0) b1 (b2 ++ b3)
        (by simp only [List.append_assoc]) eb1 _ (by simp only [List.length_append]; omega)]
      rw [hst.load t.lanes ((a0 ++ (a1 ++ (a2 ++ a3))) ++ Um ++ b0 ++ b1) b2 b3
        (by simp only [List.append_assoc]) eb2 _ (by simp only [List.length_append]; omega)]
      rw [hst.load t.lanes ((a0 ++ (a1 ++ (a2 ++ a3))) ++ Um ++ b0 ++ b1 ++ b2) b3 []
        (by simp only [List.append_assoc, List.append_nil]) eb3 _
        (by simp only [List.length_append]; omega)]
      simp only [Option.some_bind, Option.bind_eq_bind]
      have hst1 := hst.takeLeft
      have hst2 := hst1.takeRight
      simp only [List.length_append, Nat.zero_add] at hst2
      obtain ⟨k1, e1, st1⟩ := H t _ pre post rfl hst2
      have hA : pre.length + (P0.length + 4 * t.lanes) = pre.length + P0.length + 4 * t.lanes :=
        (Nat.add_assoc _ _ _).symm
      have hB : pre.length + (P0.length +
          (a0.length + (a1.length + (a2.length + a3.length)) +
            (Um.length + (b0.length + (b1.length + (b2.length + b3.length))))) - 4 * t.lanes)
          = pre.length + P0.length +
          (a0.length + (a1.length + (a2.length + a3.length)) +
            (Um.length + (b0.length + (b1.length + (b2.length + b3.length))))) - 4 * t.lanes := by
        omega
      rw [hA, hB] at e1
      rw [e1]
      simp only [Option.some_bind]
      obtain ⟨k2, e2, st2⟩ := StoreLeftRight4_flush_exact t o p a0 a1 a2 a3
        ea0 ea1 ea2 ea3 st1 (by omega) ⟨8, by omega⟩ hN
      rw [e2]
      simp only [Option.some_bind]
      have h84 : 8 * t.lanes - 4 * t.lanes = 4 * t.lanes := by omega
      rw [h84] at st2 ⊢
      obtain ⟨k3, e3, st3⟩ := StoreLeftRight4_flush_exact t o p b0 b1 b2 b3
        eb0 eb1 eb2 eb3 st2 (by omega) ⟨4, by omega⟩ hN
      rw [e3]
      have h44 : 4 * t.lanes - 4 * t.lanes = 0 := by omega
      rw [h44] at st3
      obtain ⟨hk, hw, _⟩ := st3.done
      rw [hk]
      simp only [List.append_assoc, List.length_append, h44, Nat.add_assoc]

/-- The block of `Partition` after `PartitionToMultipleOfUnroll`: the keys it returns are the
same for every target with `N` lanes, whatever its compress dialect, and `remaining` ends
at `0`. -/
theorem Partition.main_uniform (N : Nat) (o : Order) (p : α) (hN : 0 < N)
    (pre P0 U S0 post : List α)
    (hU : U.length = 0 ∨ (8 * N ≤ U.length ∧ 4 * N ∣ U.length)) :
    ∃ P S, (P ++ S).Perm (P0 ++ (S0 ++ U)) ∧ (allLeft o p P0 → allLeft o p P) ∧
      (allRight o p S0 → allRight o p S) ∧
      ∀ t : Target α, t.lanes = N →
        Partition.main t o (SetKey N p) (pre ++ (P0 ++ (U ++ (S0 ++ post))))
          (pre.length + P0.length) (pre.length + P0.length + U.length)
        = some (pre ++ (P ++ (S ++ post)), pre.length + P.length, 0) := by
  obtain ⟨P, S, h1, h2, h3, H⟩ := Partition.main_local N o p hN P0 U S0 hU
  exact ⟨P, S, h1, h2, h3, fun t ht => H t pre post ht⟩

theorem Partition.main_spec (t : Target α) (o : Order) (p : α) (hN : 0 < t.lanes)
    (pre P0 U S0 post : List α)
    (hU : U.length = 0 ∨ (8 * t.lanes ≤ U.length ∧ 4 * t.lanes ∣ U.length))
    (hP0 : allLeft o p P0) (hS0 : allRight o p S0) :
    ∃ P S rem, Partition.main t o (SetKey t.lanes p) (pre ++ (P0 ++ (U ++ (S0 ++ post))))
        (pre.length + P0.length) (pre.length + P0.length + U.length)
      = some (pre ++ (P ++ (S ++ post)), pre.length + P.length, rem) ∧
      allLeft o p P ∧ allRight o p S ∧ (P ++ S).Perm (P0 ++ (S0 ++ U)) := by
  obtain ⟨P, S, hperm, hP, hS, H⟩ := Partition.main_uniform t.lanes o p hN pre P0 U S0 post hU
  exact ⟨P, S, 0, H t rfl, hP hP0, hS hS0, hperm⟩

/-- The end of `Partition`: the right side it leaves is fixed by the two sides and `vlast`
alone, whatever lies before the range, in the slot at `last` and behind the range. -/
theorem Partition.insertLast_local (t : Target α) (o : Order) (p : α)
    (P S vlast : List α) (hv : vlast.length = t.lanes)
    (hPS : t.lanes < P.length + S.length) (hS : allRight o p S) :
    ∃ S', allRight o p S' ∧ S'.Perm (rightOf o p vlast ++ S) ∧
      ∀ A V B : List α, V.length = t.lanes →
        Partition.insertLast t o (SetKey t.lanes p) (A ++ (P ++ (S ++ (V ++ B)))) vlast
          (A.length + P.length + S.length) (A.length + P.length)
        = some (A ++ ((P ++ leftOf o p vlast) ++ (S' ++ B)),
            A.length + P.length + (leftOf o p vlast).length) := by
  have hlr := leftOf_length_add o p vlast
  by_cases hc : S.length < t.lanes
  · obtain ⟨Pa, Pb, rfl, hPb⟩ := split_at_end P (t.lanes - S.length) (by omega)
    obtain ⟨Oa, Ob, hO, hOa⟩ := split_at (S ++ Pb) (leftOf o p vlast).length
      (by simp only [List.length_append]; omega)
    have hOlen := congrArg List.length hO
    simp only [List.length_append] at hOlen
    refine ⟨rightOf o p vlast ++ S, allRight_append (allRight_rightOf _ _ _) hS,
      List.Perm.refl _, fun A V B hV => ?_⟩
    unfold Partition.insertLast Partition.startR
    simp only [Nat.add_sub_cancel_left, CompareV_SetKey o t.lanes p vlast hv,
      CompressBlendedStore, Compress_left, Compress_right, CountTrue_left]
    simp only [hc, if_true]
    simp only [List.length_append] at hPS ⊢
    rw [LoadU_eq t.lanes _ (A ++ Pa) (Pb ++ S) (V ++ B) _
      (by simp only [List.append_assoc])
      (by simp only [List.length_append]; omega)
      (by simp only [List.length_append]; omega)]
    simp only [Option.some_bind, Option.bind_eq_bind]
    rw [StoreU_eq (Pb ++ S) _ (A ++ Pa ++ Pb ++ S) V B _
      (by simp only [List.append_assoc])
      (by simp only [List.length_append]; omega)
      (by simp only [List.length_append]; omega)]
    simp only [Option.some_bind]
    rw [StoreU_eq (leftOf o p vlast) _ (A ++ Pa ++ Pb) Oa (Ob ++ (S ++ B)) _
      (by
        have : A ++ Pa ++ Pb ++ S ++ (Pb ++ S ++ B) = A ++ Pa ++ Pb ++ ((S ++ Pb) ++ (S ++ B)) := by
          simp only [List.append_assoc]
        rw [this, hO]; simp only [List.append_assoc])
      (by simp only [List.length_append]; omega) hOa]
    simp only [Option.some_bind, Option.pure_def]
    rw [StoreU_eq (rightOf o p vlast) _ (A ++ Pa ++ Pb ++ leftOf o p vlast) Ob (S ++ B) _
      (by simp only [List.append_assoc])
      (by simp only [List.length_append]; omega) (by omega)]
    simp only [Option.some_bind]
    simp only [List.append_assoc]
  · obtain ⟨S0, S1, rfl, hS0⟩ := split_at S t.lanes (by omega)
    obtain ⟨Oa, Ob, rfl, hOa⟩ := split_at S0 (leftOf o p vlast).length (by omega)
    simp only [List.length_append] at hS0
    refine ⟨rightOf o p vlast ++ (S1 ++ (Oa ++ Ob)), ?_, ?_, fun A V B hV => ?_⟩
    · refine allRight_append (allRight_rightOf _ _ _) ?_
      intro x hx
      apply hS
      simp only [List.mem_append] at hx ⊢
      tauto
    · refine List.Perm.append_left _ ?_
      exact List.perm_append_comm
    · unfold Partition.insertLast Partition.startR
      simp only [Nat.add_sub_cancel_left, CompareV_SetKey o t.lanes p vlast hv,
        CompressBlendedStore, Compress_left, Compress_right, CountTrue_left]
      simp only [hc, if_false]
      simp only [List.length_append] at hPS ⊢
      rw [LoadU_eq t.lanes _ (A ++ P) (Oa ++ Ob) (S1 ++ (V ++ B)) _
        (by simp only [List.append_assoc])
        (by simp only [List.length_append]) (by simp only [List.length_append]; omega)]
      simp only [Option.some_bind, Option.bind_eq_bind]
      rw [StoreU_eq (Oa ++ Ob) _ (A ++ P ++ (Oa ++ Ob) ++ S1) V B _
        (by simp only [List.append_assoc])
        (by simp only [List.length_append]; omega) (by simp only [List.length_append]; omega)]
      simp only [Option.some_bind]
      rw [StoreU_eq (leftOf o p vlast) _ (A ++ P) Oa (Ob ++ (S1 ++ ((Oa ++ Ob) ++ B))) _
        (by simp only [List.append_assoc])
        (by simp only [List.length_append]) hOa]
      simp only [Option.some_bind, Option.pure_def]
      rw [StoreU_eq (rightOf o p vlast) _ (A ++ P ++ leftOf o p vlast) Ob
        (S1 ++ ((Oa ++ Ob) ++ B)) _
        (by simp only [List.append_assoc])
        (by simp only [List.length_append]) (by omega)]
      simp only [Option.some_bind]
      simp only [List.append_assoc]

theorem Partition.insertLast_spec (t : Target α) (o : Order) (p : α)
    (A P S V B vlast : List α) (hV : V.length = t.lanes) (hv : vlast.length = t.lanes)
    (hPS : t.lanes < P.length + S.length) (hS : allRight o p S) :
    ∃ S', Partition.insertLast t o (SetKey t.lanes p) (A ++ (P ++ (S ++ (V ++ B)))) vlast
        (A.length + P.length + S.length) (A.length + P.length)
      = some (A ++ ((P ++ leftOf o p vlast) ++ (S' ++ B)),
          A.length + P.length + (leftOf o p vlast).length) ∧
      allRight o p S' ∧ S'.Perm (rightOf o p vlast ++ S) := by
  obtain ⟨S', h1, h2, H⟩ := Partition.insertLast_local t o p P S vlast hv hPS hS
  exact ⟨S', H A V B hV, h1, h2⟩

theorem PartitionToMultipleOfUnroll_lanes (t1 t2 : Target α) (h : t1.lanes = t2.lanes)
    (o : Order) (keys : List α) (left right : Nat) (pivot : List α) :
    PartitionToMultipleOfUnroll t1 o keys left right pivot
      = PartitionToMultipleOfUnroll t2 o keys left right pivot := by
  unfold PartitionToMultipleOfUnroll
  rw [h]

theorem Partition.insertLast_lanes (t1 t2 : Target α) (h : t1.lanes = t2.lanes)
    (o : Order) (pivot keys vlast : List α) (last writeL : Nat) :
    Partition.insertLast t1 o pivot keys vlast last writeL
      = Partition.insertLast t2 o pivot keys vlast last writeL := by
  unfold Partition.insertLast
  rw [h]

/-- `Partition` acts on its range alone: the keys it leaves in the range `M` and the
boundary relative to the start of the range are the same whatever lies before the range and
behind it in memory, for every target with as many lanes as `t`, whatever its compress
dialect and whatever `CompressStore` leaves in the lanes behind the valid ones. -/
theorem Partition_local (t : Target α) (o : Order) (p : α) (hN : ∃ k, t.lanes = 2 ^ k)
    (M : List α) (hM : 2 * t.lanes < M.length) :
    ∃ P S, allLeft o p P ∧ allRight o p S ∧ (P ++ S).Perm M ∧
      ∀ (t2 : Target α) (A B : List α), t2.lanes = t.lanes →
        Partition t2 o (A ++ (M ++ B)) A.length (A.length + M.length) (SetKey t.lanes p)
          = some (A ++ (P ++ (S ++ B)), A.length + P.length) := by
  have hNpos : 0 < t.lanes := by
    obtain ⟨k, hk⟩ := hN; rw [hk]; exact Nat.pos_pow_of_pos _ (by omega)
  obtain ⟨X, V, rfl, hV⟩ := split_at_end M t.lanes (by omega)
  simp only [List.length_append] at hM
  obtain ⟨P0, U, S0, hP0, hS0, hperm0, hU, E1⟩ := PartitionToMultipleOfUnroll_local t o p hN X
  obtain ⟨P1, S1, hperm1, hP1, hS1, H⟩ := Partition.main_local t.lanes o p hNpos P0 U S0
    (by
      by_cases h8 : X.length < 8 * t.lanes
      · left; simpa [h8] using hU
      · right
        simp only [h8, if_false] at hU
        obtain ⟨_, hb2, _, hb4⟩ := mod_block t.lanes X.length hNpos (by omega)
        rw [hU]; exact ⟨hb2, hb4⟩)
  have hlen0 := hperm0.length_eq
  have hlen1 := hperm1.length_eq
  simp only [List.length_append] at hlen0 hlen1
  obtain ⟨S2, hS2, hperm2, E3⟩ := Partition.insertLast_local t o p P1 S1 V hV
    (by omega) (hS1 hS0)
  refine ⟨P1 ++ leftOf o p V, S2, allLeft_append (hP1 hP0) (allLeft_leftOf _ _ _), hS2, ?_,
    fun t2 A B ht2 => ?_⟩
  · have := leftOf_rightOf_perm o p V
    rw [List.perm_iff_count] at hperm0 hperm1 hperm2 this ⊢
    intro a
    have h0 := hperm0 a
    have h1 := hperm1 a
    have h2 := hperm2 a
    have h3 := this a
    simp only [List.count_append] at h0 h1 h2 h3 ⊢
    omega
  · have e0 : A.length + (X ++ V).length - t.lanes = A.length + X.length := by
      simp only [List.length_append]; omega
    have e1' : A ++ (X ++ V ++ B) = A ++ (X ++ (V ++ B)) := by simp only [List.append_assoc]
    have hlast : A.length + X.length = A.length + P1.length + S1.length := by omega
    unfold Partition
    simp only []
    rw [ht2, e0]
    rw [LoadU_eq t.lanes _ (A ++ X) V B _ (by simp only [List.append_assoc])
      (by simp only [List.length_append]) hV]
    simp only [Option.some_bind, Option.bind_eq_bind]
    rw [PartitionToMultipleOfUnroll_lanes t2 t ht2, e1',
      E1 A (V ++ B) (by simp only [List.length_append]; omega)]
    simp only [Option.some_bind]
    rw [H t2 A (V ++ B) ht2]
    simp only [Option.some_bind]
    rw [hlast, Partition.insertLast_lanes t2 t ht2, E3 A V B hV]
    simp only [List.append_assoc, List.length_append, Nat.add_assoc]

/-- `Partition` on a range `M` framed by `A` and `B`: the array and the boundary it returns
are the same for every target with as many lanes as `t`, whatever its compress dialect and
whatever `CompressStore` leaves in the lanes behind the valid ones. -/
theorem Partition_uniform (t : Target α) (o : Order) (p : α) (hN : ∃ k, t.lanes = 2 ^ k)
    (A M B : List α) (hM : 2 * t.lanes < M.length) :
    ∃ P S, allLeft o p P ∧ allRight o p S ∧ (P ++ S).Perm M ∧
      ∀ t2 : Target α, t2.lanes = t.lanes →
        Partition t2 o (A ++ (M ++ B)) A.length (A.length + M.length) (SetKey t.lanes p)
          = some (A ++ (P ++ (S ++ B)), A.length + P.length) := by
  obtain ⟨P, S, h1, h2, h3, H⟩ := Partition_local t o p hN M hM
  exact ⟨P, S, h1, h2, h3, fun t2 ht2 => H t2 A B ht2⟩

/-- Specification of `Partition` on a range `M` framed by `A` and `B`. -/
theorem Partition_spec (t : Target α) (o : Order) (p : α) (hN : ∃ k, t.lanes = 2 ^ k)
    (A M B : List α) (hM : 2 * t.lanes < M.length) :
    ∃ P S, Partition t o (A ++ (M ++ B)) A.length (A.length + M.length) (SetKey t.lanes p)
      = some (A ++ (P ++ (S ++ B)), A.length + P.length) ∧
      allLeft o p P ∧ allRight o p S ∧ (P ++ S).Perm M := by
  obtain ⟨P, S, hP, hS, hperm, H⟩ := Partition_uniform t o p hN A M B hM
  exact ⟨P, S, H t rfl, hP, hS, hperm⟩

theorem CutStable.refl (o : Order) (m : Nat) (X : List α) : CutStable o m X X :=
  fun _ _ _ => ⟨List.Perm.refl _, List.Perm.refl _⟩

theorem CutStable.perm {o : Order} {m : Nat} {X X' : List α} (h : CutStable o m X X') :
    X'.Perm X := by
  have := (h (max m X.length) (le_max_left _ _) (by
    intro x _ y hy
    rw [List.drop_of_length_le (le_max_right _ _)] at hy
    simp at hy)).1
  rw [List.take_of_length_le (le_max_right _ _)] at this
  have hl : X'.length = X.length := by
    have h1 := this.length_eq
    simp only [List.length_take] at h1
    have h2 := (h (max m X.length) (le_max_left _ _) (by
      intro x _ y hy
      rw [List.drop_of_length_le (le_max_right _ _)] at hy
      simp at hy)).2.length_eq
    simp only [List.length_drop] at h2
    omega
  rwa [List.take_of_length_le (by rw [hl]; exact le_max_right _ _)] at this

theorem CutOK.of_perm {o : Order} {X X' : List α} {j : Nat}
    (h1 : (X'.take j).Perm (X.take j)) (h2 : (X'.drop j).Perm (X.drop j))
    (h : CutOK o X j) : CutOK o X' j :=
  fun x hx y hy => h x (h1.mem_iff.1 hx) y (h2.mem_iff.1 hy)

theorem CutStable.trans {o : Order} {m : Nat} {X X' X'' : List α}
    (h1 : CutStable o m X X') (h2 : CutStable o m X' X'') : CutStable o m X X'' := by
  intro j hj hc
  obtain ⟨a1, b1⟩ := h1 j hj hc
  obtain ⟨a2, b2⟩ := h2 j hj (hc.of_perm a1 b1)
  exact ⟨a2.trans a1, b2.trans b1⟩

theorem CutStable.mono {o : Order} {m m' : Nat} {X X' : List α} (hm : m ≤ m')
    (h : CutStable o m X X') : CutStable o m' X X' :=
  fun j hj hc => h j (le_trans hm hj) hc

theorem take_append_ge (P T : List α) (j : Nat) (h : P.length ≤ j) :
    (P ++ T).take j = P ++ T.take (j - P.length) := by
  rw [List.take_append_eq_append_take, List.take_of_length_le h]

theorem drop_append_ge (P T : List α) (j : Nat) (h : P.length ≤ j) :
    (P ++ T).drop j = T.drop (j - P.length) := by
  rw [List.drop_append_eq_append_drop, List.drop_of_length_le h, List.nil_append]

/-- Rearranging a prefix of length `m` is stable for every cut at or after `m`. -/
theorem CutStable.of_prefix (o : Order) {P P' T : List α} (h : P'.Perm P) :
    CutStable o P.length (P ++ T) (P' ++ T) := by
  intro j hj _
  have hl := h.length_eq
  rw [take_append_ge P T j hj, take_append_ge P' T j (by omega), drop_append_ge P T j hj,
    drop_append_ge P' T j (by omega), hl]
  exact ⟨h.append_right _, List.Perm.refl _⟩

/-- Stability of a rearrangement of the part after a fixed prefix. -/
theorem CutStable.shift {o : Order} {m : Nat} {P Y Y' : List α} (h : CutStable o m Y Y') :
    CutStable o (P.length + m) (P ++ Y) (P ++ Y') := by
  intro j hj hc
  have hjP : P.length ≤ j := by omega
  rw [CutOK, take_append_ge P Y j hjP, drop_append_ge P Y j hjP] at hc
  have hc' : CutOK o Y (j - P.length) := by
    intro x hx y hy
    exact hc x (List.mem_append_right _ hx) y hy
  obtain ⟨a, b⟩ := h (j - P.length) (by omega) hc'
  rw [take_append_ge P Y j hjP, drop_append_ge P Y j hjP, take_append_ge P Y' j hjP,
    drop_append_ge P Y' j hjP]
  exact ⟨a.append_left _, b⟩

theorem insertionSort_append (o : Order) (L O : List α)
    (h : ∀ x ∈ L, ∀ y ∈ O, ole o x y) :
    (L ++ O).insertionSort (ole o) = L.insertionSort (ole o) ++ O.insertionSort (ole o) := by
  apply List.eq_of_perm_of_sorted (r := ole o)
  · exact (List.perm_insertionSort _ _).trans
      (((List.perm_insertionSort _ L).append (List.perm_insertionSort _ O)).symm)
  · exact List.sorted_insertionSort _ _
  · refine List.pairwise_append.2 ⟨List.sorted_insertionSort _ _, List.sorted_insertionSort _ _, ?_⟩
    intro x hx y hy
    exact h x ((List.perm_insertionSort _ L).mem_iff.1 hx) y
      ((List.perm_insertionSort _ O).mem_iff.1 hy)

/-- Sorting a block that starts at the beginning of the region is stable for every cut. -/
theorem CutStable.of_block (o : Order) (B : Nat) (X : List α) (m : Nat) :
    CutStable o m X ((X.take B).insertionSort (ole o) ++ X.drop B) := by
  intro j _ hc
  by_cases hj : B ≤ j
  · have hp : ((X.take B).insertionSort (ole o)).Perm (X.take B) := List.perm_insertionSort _ _
    have := CutStable.of_prefix o (T := X.drop B) hp j
      (by simp only [List.length_take]; omega) (by rw [List.take_append_drop]; exact hc)
    rw [List.take_append_drop] at this
    exact this
  · have hB : B = j + (B - j) := by omega
    have hsplit : X.take B = X.take j ++ (X.drop j).take (B - j) := by
      conv_lhs => rw [hB]
      exact List.take_add _ _ _
    have hdrop : X.drop j = (X.drop j).take (B - j) ++ X.drop B := by
      conv_lhs => rw [← List.take_append_drop (B - j) (X.drop j)]
      rw [List.drop_drop, ← hB]
    have hsort : (X.take B).insertionSort (ole o) =
        (X.take j).insertionSort (ole o) ++ ((X.drop j).take (B - j)).insertionSort (ole o) := by
      rw [hsplit]
      exact insertionSort_append o _ _ (fun x hx y hy => hc x hx y (List.mem_of_mem_take hy))
    rw [hsort, List.append_assoc]
    by_cases hjX : j ≤ X.length
    · have hlen : ((X.take j).insertionSort (ole o)).length = j := by
        rw [List.length_insertionSort, List.length_take]; omega
      rw [List.take_left' hlen, List.drop_left' hlen]
      refine ⟨List.perm_insertionSort _ _, ?_⟩
      conv_rhs => rw [hdrop]
      exact (List.perm_insertionSort _ _).append_right _
    · have h1 : X.drop j = [] := List.drop_of_length_le (by omega)
      have h2 : X.drop B = [] := List.drop_of_length_le (by omega)
      have h3 : X.take j = X := List.take_of_length_le (by omega)
      rw [h1, h2, h3]
      simp only [List.take_nil, List.insertionSort, List.append_nil, List.drop_nil]
      rw [List.take_of_length_le (by rw [List.length_insertionSort]; omega),
        List.drop_of_length_le (by rw [List.length_insertionSort]; omega)]
      exact ⟨List.perm_insertionSort _ _, List.Perm.refl _⟩

end

theorem bitLength_spec : ∀ (f x : Nat), x < 2 ^ f →
    x < 2 ^ bitLength f x ∧ bitLength f x ≤ f ∧ (x ≠ 0 → 2 ^ (bitLength f x - 1) ≤ x) := by
  intro f
  induction f with
  | zero => intro x hx; simp at hx; subst hx; simp [bitLength]
  | succ f ih =>
    intro x hx
    rw [bitLength]
    by_cases h0 : x = 0
    · simp [h0]
    · simp only [h0, if_false]
      have hx2 : x / 2 < 2 ^ f := by
        rw [Nat.div_lt_iff_lt_mul (by omega)]; rw [pow_succ] at hx; exact hx
      obtain ⟨h1, h2, h3⟩ := ih (x / 2) hx2
      refine ⟨?_, by omega, fun _ => ?_⟩
      · have : 2 ^ (1 + bitLength f (x / 2)) = 2 * 2 ^ bitLength f (x / 2) := by
          rw [pow_add]; simp
        rw [this]; omega
      · simp only [Nat.add_sub_cancel_left]
        by_cases hz : x / 2 = 0
        · have : bitLength f (x / 2) = 0 := by
            rw [hz]; cases f <;> simp [bitLength]
          rw [this]; simp; omega
        · have := h3 hz
          have hpos : 0 < bitLength f (x / 2) := by
            rcases Nat.eq_zero_or_pos (bitLength f (x / 2)) with h | h
            · rw [h] at h1; simp at h1; omega
            · exact h
          have e : bitLength f (x / 2) = (bitLength f (x / 2) - 1) + 1 := by omega
          rw [e, pow_succ]
          omega

theorem kMaxRows_eq : kMaxRows = 16 := by decide

/-- The number of columns `BaseCase` chooses covers all `num` keys. -/
theorem BaseCase_cols (num : Nat) (h2 : 2 ≤ num) (h32 : num ≤ 2 ^ 32) :
    num ≤ max 1 ((1 <<< (32 - Num0BitsAboveMS1Bit_Nonzero32 ((num - 1) % 2 ^ 32)))
      >>> kMaxRowsLog2) * 16 := by
  have hlt : num - 1 < 2 ^ 32 := by omega
  rw [Nat.mod_eq_of_lt hlt]
  obtain ⟨h1, hle, _⟩ := bitLength_spec 32 (num - 1) hlt
  simp only [Num0BitsAboveMS1Bit_Nonzero32, kMaxRowsLog2, Nat.one_shiftLeft,
    Nat.shiftRight_eq_div_pow]
  have e : 32 - (32 - bitLength 32 (num - 1)) = bitLength 32 (num - 1) := by omega
  rw [e]
  generalize bitLength 32 (num - 1) = b at h1 hle
  have h16 : (2 : Nat) ^ 4 = 16 := by norm_num
  rw [h16]
  by_cases hb : 4 ≤ b
  · have hq : 2 ^ b = 2 ^ (b - 4) * 16 := by
      rw [← h16, ← pow_add]; congr 1; omega
    have hpos : 0 < 2 ^ (b - 4) := Nat.pos_pow_of_pos _ (by omega)
    rw [hq] at h1 ⊢
    rw [Nat.mul_div_cancel _ (by norm_num)]
    generalize 2 ^ (b - 4) = q at h1 hpos
    have : max 1 q = q := max_eq_right hpos
    rw [this]; omega
  · have hb' : b ≤ 3 := by omega
    have h8 : (2 : Nat) ^ 3 = 8 := by norm_num
    have : 2 ^ b ≤ 2 ^ 3 := Nat.pow_le_pow_right (by omega) hb'
    have hz : 2 ^ b / 16 = 0 := by
      rw [Nat.div_eq_zero_iff (by norm_num)]; omega
    rw [hz]
    simp only [Nat.zero_le, max_eq_left]
    omega

section

variable {α : Type} [LinearOrder α] [BoundedOrder α]

theorem ole_LastValue (o : Order) (x : α) : ole o x (LastValue o) := by
  cases o <;> simp [ole, Compare, LastValue]

theorem ole_FirstValue (o : Order) (x : α) : ole o (FirstValue o) x := by
  cases o <;> simp [ole, Compare, FirstValue]

theorem SortingNetwork_eq (o : Order) (A Blk T : List α) (cols : Nat)
    (h : Blk.length = kMaxRows * cols) :
    SortingNetwork o (A ++ (Blk ++ T)) A.length cols
      = some (A ++ (Blk.insertionSort (ole o) ++ T)) := by
  unfold SortingNetwork
  rw [LoadU_eq _ _ A Blk T _ rfl rfl h]
  simp only [Option.some_bind, Option.bind_eq_bind]
  exact StoreU_eq _ _ A Blk T _ rfl rfl (by rw [List.length_insertionSort])

theorem BaseCase.pad_spec (o : Order) (N limit : Nat) (hN : 0 < N) :
    ∀ (fuel : Nat) (buf : List α) (i : Nat), limit < i + fuel → 0 < fuel →
      ∃ pad, BaseCase.pad o N limit fuel buf i = some (buf ++ pad) ∧
        (∀ x ∈ pad, x = LastValue o) ∧ limit ≤ i + pad.length := by
  intro fuel
  induction fuel with
  | zero => intro buf i _ h; omega
  | succ fuel ih =>
    intro buf i h _
    rw [BaseCase.pad]
    by_cases hc : i < limit
    · simp only [hc, if_true]
      obtain ⟨pad, e, hp, hl⟩ := ih (buf ++ SetKey N (LastValue o)) (i + N) (by omega)
        (by omega)
      refine ⟨SetKey N (LastValue o) ++ pad, ?_, ?_, ?_⟩
      · rw [e, List.append_assoc]
      · intro x hx
        rcases List.mem_append.1 hx with h1 | h1
        · exact List.eq_of_mem_replicate h1
        · exact hp x h1
      · simp only [List.length_append, SetKey, List.length_replicate]; omega
    · simp only [hc, if_false]
      exact ⟨[], by simp, by simp, by simp; omega⟩

theorem sorted_of_length_le_one (o : Order) (l : List α) (h : l.length ≤ 1) :
    l.Sorted (ole o) := by
  match l, h with
  | [], _ => simp
  | [a], _ => simp

/-- The padded path of `BaseCase` sorts the `num` keys it copies and stores nothing else:
the padding stays behind the keys in the scratch buffer. -/
theorem BaseCase.padded_spec (t : Target α) (o : Order) (hN : 0 < t.lanes) (A L R : List α)
    (cols : Nat) (hcov : L.length ≤ cols * 16) :
    BaseCase.padded t o (A ++ (L ++ R)) A.length L.length cols
      = some (A ++ (L.insertionSort (ole o) ++ R)) := by
  unfold BaseCase.padded
  rw [kMaxRows_eq]
  rw [LoadU_eq L.length _ A L R _ rfl rfl rfl]
  simp only [Option.some_bind, Option.bind_eq_bind]
  obtain ⟨pad, e, hp, hl⟩ := BaseCase.pad_spec o t.lanes (cols * 16 + t.lanes) hN
    (cols * 16 + t.lanes + 1) L L.length (by omega) (by omega)
  rw [e]
  simp only [Option.some_bind]
  obtain ⟨pa, pb, rfl, hpa⟩ := split_at pad (cols * 16 - L.length) (by omega)
  have hblk : (L ++ pa).length = kMaxRows * cols := by
    rw [kMaxRows_eq]; simp only [List.length_append]; omega
  have := SortingNetwork_eq o [] (L ++ pa) pb cols hblk
  simp only [List.nil_append, List.length_nil] at this
  rw [← List.append_assoc, this]
  simp only [Option.some_bind]
  have hs : (L ++ pa).insertionSort (ole o) = L.insertionSort (ole o) ++ pa := by
    rw [insertionSort_append o L pa (fun x _ y hy => by
      rw [hp y (List.mem_append_left _ hy)]; exact ole_LastValue o x)]
    congr 1
    apply List.Sorted.insertionSort_eq
    rw [List.Sorted, List.pairwise_iff_forall_sublist]
    intro a b hab
    have ha : a ∈ pa := hab.subset (by simp)
    have hb' : b ∈ pa := hab.subset (by simp)
    rw [hp a (List.mem_append_left _ ha), hp b (List.mem_append_left _ hb')]
    exact ole_refl o _
  rw [hs]
  rw [LoadU_eq L.length _ [] (L.insertionSort (ole o)) (pa ++ pb) 0
    (by simp only [List.nil_append, List.append_assoc]) rfl
    (by rw [List.length_insertionSort])]
  simp only [Option.some_bind]
  rw [StoreU_eq _ _ A L R _ rfl rfl
    (by rw [List.length_insertionSort])]

/-- Specification of `BaseCase` on the region `X` that extends from the pointer to the end
of the array. -/
theorem BaseCase_spec (t : Target α) (o : Order) (hN : 0 < t.lanes) (A X Z : List α)
    (num : Nat) (hnum : num ≤ X.length) (hb : num ≤ kMaxRows * min t.fullLanes kMaxCols)
    (hc : CutOK o X num) :
    ∃ X', BaseCase t o (A ++ (X ++ Z)) A.length (A.length + X.length) num
        = some (A ++ (X' ++ Z)) ∧
      CutStable o num X X' ∧ (X'.take num).Sorted (ole o) := by
  unfold BaseCase
  rw [kMaxRows_eq] at hb ⊢
  by_cases h1 : num ≤ 1
  · simp only [h1, if_true]
    exact ⟨X, rfl, CutStable.refl _ _ _,
      sorted_of_length_le_one o _ (by simp only [List.length_take]; omega)⟩
  · simp only [h1, if_false]
    by_cases hin : A.length + min t.fullLanes kMaxCols * 16 ≤ A.length + X.length
    · simp only [hin, if_true]
      obtain ⟨Blk, T, rfl, hB⟩ := split_at X (16 * min t.fullLanes kMaxCols) (by omega)
      rw [List.append_assoc, SortingNetwork_eq o A Blk (T ++ Z) _ (by rw [kMaxRows_eq, hB])]
      refine ⟨Blk.insertionSort (ole o) ++ T, by simp only [List.append_assoc], ?_, ?_⟩
      · have := CutStable.of_block o (16 * min t.fullLanes kMaxCols) (Blk ++ T) num
        rwa [List.take_left' hB, List.drop_left' hB] at this
      · rw [List.take_append_of_le_length (by rw [List.length_insertionSort]; omega)]
        exact (List.sorted_insertionSort (ole o) Blk).sublist (List.take_sublist _ _)
    · simp only [hin, if_false]
      obtain ⟨L, T, rfl, hL⟩ := split_at X num hnum
      have hcov := BaseCase_cols num (by omega) (by
        have : min t.fullLanes kMaxCols ≤ 16 := min_le_right _ _
        have : (16 * 16 : Nat) ≤ 2 ^ 32 := by norm_num
        omega)
      subst hL
      rw [List.append_assoc, BaseCase.padded_spec t o hN A L (T ++ Z) _ hcov]
      refine ⟨L.insertionSort (ole o) ++ T, by simp only [List.append_assoc], ?_, ?_⟩
      · exact CutStable.of_prefix o (T := T) (List.perm_insertionSort (ole o) L)
      · rw [List.take_left' (by rw [List.length_insertionSort])]
        exact List.sorted_insertionSort _ _

theorem First_mem (o : Order) (a b : α) : First o a b = a ∨ First o a b = b := by
  cases o <;> simp only [First]
  · rcases le_total a b with h | h
    · left; exact min_eq_left h
    · right; exact min_eq_right h
  · rcases le_total a b with h | h
    · right; exact max_eq_right h
    · left; exact max_eq_left h

theorem First_le (o : Order) (a b : α) : ole o (First o a b) a ∧ ole o (First o a b) b := by
  cases o <;> simp [First, ole, Compare]

theorem Last_mem (o : Order) (a b : α) : Last o a b = a ∨ Last o a b = b := by
  cases o <;> simp only [Last]
  · rcases le_total a b with h | h
    · right; exact max_eq_right h
    · left; exact max_eq_left h
  · rcases le_total a b with h | h
    · left; exact min_eq_left h
    · right; exact min_eq_right h

theorem Last_ge (o : Order) (a b : α) : ole o a (Last o a b) ∧ ole o b (Last o a b) := by
  cases o <;> simp [Last, ole, Compare]

theorem Covers.congr {r : α → α → Prop} {init : α} {N : Nat} {acc S S' : List α}
    (h : Covers r init N acc S) (hS : ∀ x, x ∈ S ↔ x ∈ S') : Covers r init N acc S' :=
  ⟨h.1, fun y hy => (h.2.1 y hy).imp id (hS y).1, fun x hx => h.2.2 x ((hS x).2 hx)⟩

theorem Covers.extend {r : α → α → Prop} {init : α} {N : Nat} {acc S : List α}
    (f : α → α → α) (hmem : ∀ a b, f a b = a ∨ f a b = b)
    (hle : ∀ a b, r (f a b) a ∧ r (f a b) b) (htrans : ∀ a b c, r a b → r b c → r a c)
    (h : Covers r init N acc S) (v : List α) (hv : v.length = N) :
    Covers r init N (List.zipWith f v acc) (S ++ v) := by
  obtain ⟨h1, h2, h3⟩ := h
  refine ⟨by simp [hv, h1], ?_, ?_⟩
  · intro y hy
    obtain ⟨k, hk, rfl⟩ := List.mem_iff_getElem.1 hy
    simp only [List.length_zipWith, Nat.lt_min] at hk
    simp only [List.getElem_zipWith]
    rcases hmem v[k] acc[k] with e | e
    · right; rw [e]; exact List.mem_append_right _ (List.getElem_mem _)
    · rw [e]
      exact (h2 _ (List.getElem_mem _)).imp id (fun h => List.mem_append_left _ h)
  · intro x hx
    rcases List.mem_append.1 hx with hx | hx
    · obtain ⟨y, hy, hyx⟩ := h3 x hx
      obtain ⟨k, hk, rfl⟩ := List.mem_iff_getElem.1 hy
      have hkv : k < v.length := by omega
      refine ⟨f v[k] acc[k], ?_, htrans _ _ _ (hle _ _).2 hyx⟩
      apply List.mem_iff_getElem.2
      exact ⟨k, by simp [hkv, hk], by simp⟩
    · obtain ⟨k, hk, rfl⟩ := List.mem_iff_getElem.1 hx
      have hka : k < acc.length := by omega
      refine ⟨f v[k] acc[k], ?_, (hle _ _).1⟩
      apply List.mem_iff_getElem.2
      exact ⟨k, by simp [hk, hka], by simp⟩

theorem foldl_select {r : α → α → Prop} (f : α → α → α) (hmem : ∀ a b, f a b = a ∨ f a b = b)
    (hle : ∀ a b, r (f a b) a ∧ r (f a b) b) (hrefl : ∀ a, r a a)
    (htrans : ∀ a b c, r a b → r b c → r a c) :
    ∀ (xs : List α) (x : α), xs.foldl f x ∈ x :: xs ∧ ∀ y ∈ x :: xs, r (xs.foldl f x) y := by
  intro xs
  induction xs with
  | nil => intro x; simp [hrefl]
  | cons a xs ih =>
    intro x
    simp only [List.foldl_cons]
    obtain ⟨h1, h2⟩ := ih (f x a)
    constructor
    · rcases List.mem_cons.1 h1 with e | e
      · rw [e]
        rcases hmem x a with e' | e' <;> rw [e'] <;> simp
      · exact List.mem_cons_of_mem _ (List.mem_cons_of_mem _ e)
    · intro y hy
      have hfx := h2 (f x a) (List.mem_cons_self _ _)
      rcases List.mem_cons.1 hy with e | e
      · rw [e]; exact htrans _ _ _ hfx (hle x a).1
      · rcases List.mem_cons.1 e with e | e
        · rw [e]; exact htrans _ _ _ hfx (hle x a).2
        · exact h2 y (List.mem_cons_of_mem _ e)

theorem ScanMinMax.scan_spec (o : Order) (N num : Nat) (hN : 0 < N) (A X Z : List α)
    (hnum : num ≤ X.length) :
    ∀ (fuel i : Nat) (first last : List α), i ≤ num → num < i + fuel → 0 < fuel →
      Covers (ole o) (LastValue o) N first (X.take i) →
      Covers (oge o) (FirstValue o) N last (X.take i) →
      ∃ i' first' last',
        ScanMinMax.loop o N num (A ++ (X ++ Z)) A.length fuel i first last
          = some (i', first', last') ∧ i' ≤ num ∧ num < i' + N ∧
        Covers (ole o) (LastValue o) N first' (X.take i') ∧
        Covers (oge o) (FirstValue o) N last' (X.take i') := by
  intro fuel
  induction fuel with
  | zero => intro _ _ _ _ _ h; omega
  | succ fuel ih =>
    intro i first last hi hf _ hF hL
    rw [ScanMinMax.loop]
    by_cases hc : i + N ≤ num
    · simp only [hc, if_true]
      have hv : ((X.drop i).take N).length = N := by
        simp only [List.length_take, List.length_drop]; omega
      rw [LoadU_eq N _ (A ++ X.take i) ((X.drop i).take N) ((X.drop i).drop N ++ Z) _
        (by simp only [List.append_assoc]; rw [← List.append_assoc (List.take N _),
          List.take_append_drop, ← List.append_assoc (List.take i X), List.take_append_drop])
        (by simp only [List.length_append, List.length_take]; omega) hv]
      simp only [Option.some_bind, Option.bind_eq_bind]
      have hstep : X.take (i + N) = X.take i ++ (X.drop i).take N := List.take_add _ _ _
      obtain ⟨i', f', l', e, h1, h2, h3, h4⟩ := ih (i + N) _ _ hc (by omega) (by omega)
        (by rw [hstep]; exact hF.extend (First o) (First_mem o) (First_le o)
              (fun _ _ _ => ole_trans o) _ hv)
        (by rw [hstep]; exact Covers.extend (r := oge o) (Last o) (Last_mem o)
              (fun a b => ⟨(Last_ge o a b).1, (Last_ge o a b).2⟩)
              (fun _ _ _ h1 h2 => ole_trans o h2 h1) hL _ hv)
      exact ⟨i', f', l', e, h1, h2, h3, h4⟩
    · simp only [hc, if_false]
      exact ⟨i, first, last, rfl, hi, by omega, hF, hL⟩

theorem ScanMinMax.finish (o : Order) (N : Nat) (hN : 0 < N) (S first last : List α)
    (hS : S ≠ []) (hF : Covers (ole o) (LastValue o) N first S)
    (hL : Covers (oge o) (FirstValue o) N last S) :
    ∃ f l, (FirstOfLanes o first, LastOfLanes o last) = (SetKey N f, SetKey N l) ∧
      f ∈ S ∧ l ∈ S ∧ ∀ x ∈ S, ole o f x ∧ ole o x l := by
  obtain ⟨x0, hx0⟩ := List.exists_mem_of_ne_nil S hS
  match first, last, hF, hL with
  | [], _, hF, _ => exact absurd hF.1 (by simp; omega)
  | _ :: _, [], _, hL => exact absurd hL.1 (by simp; omega)
  | a :: as, b :: bs, hF, hL =>
    obtain ⟨fm, fle⟩ := foldl_select (r := ole o) (First o) (First_mem o) (First_le o)
      (ole_refl o) (fun _ _ _ => ole_trans o) as a
    obtain ⟨lm, lle⟩ := foldl_select (r := oge o) (Last o) (Last_mem o)
      (fun a b => ⟨(Last_ge o a b).1, (Last_ge o a b).2⟩)
      (ole_refl o) (fun _ _ _ h1 h2 => ole_trans o h2 h1) bs b
    have hfall : ∀ x ∈ S, ole o (as.foldl (First o) a) x := by
      intro x hx
      obtain ⟨y, hy, hyx⟩ := hF.2.2 x hx
      exact ole_trans o (fle y hy) hyx
    have hlall : ∀ x ∈ S, ole o x (bs.foldl (Last o) b) := by
      intro x hx
      obtain ⟨y, hy, hyx⟩ := hL.2.2 x hx
      exact ole_trans o hyx (lle y hy)
    refine ⟨as.foldl (First o) a, bs.foldl (Last o) b, ?_, ?_, ?_,
      fun x hx => ⟨hfall x hx, hlall x hx⟩⟩
    · simp only [FirstOfLanes, LastOfLanes, hF.1, hL.1]
    · rcases hF.2.1 _ fm with h | h
      · have := ole_antisymm o (hfall x0 hx0) (by rw [h]; exact ole_LastValue o x0)
        rw [this]; exact hx0
      · exact h
    · rcases hL.2.1 _ lm with h | h
      · have := ole_antisymm o (hlall x0 hx0) (by rw [h]; exact ole_FirstValue o x0)
        rw [← this]; exact hx0
      · exact h

/-- Specification of `ScanMinMax` on the `num` keys at the start of the region `X`. -/
theorem ScanMinMax_spec (t : Target α) (o : Order) (hN : 0 < t.lanes) (A X Z : List α)
    (num : Nat) (h1 : t.lanes ≤ num) (h2 : num ≤ X.length) :
    ∃ f l, ScanMinMax t o (A ++ (X ++ Z)) A.length num
        = some (SetKey t.lanes f, SetKey t.lanes l) ∧
      f ∈ X.take num ∧ l ∈ X.take num ∧ ∀ x ∈ X.take num, ole o f x ∧ ole o x l := by
  unfold ScanMinMax
  obtain ⟨i, first, last, e, hi1, hi2, hF, hL⟩ := ScanMinMax.scan_spec o t.lanes num hN A X Z h2
    (num + 1) 0 (SetKey t.lanes (LastValue o)) (SetKey t.lanes (FirstValue o))
    (Nat.zero_le _) (by omega) (by omega)
    ⟨by simp [SetKey], fun y hy => Or.inl (List.eq_of_mem_replicate hy), by simp⟩
    ⟨by simp [SetKey], fun y hy => Or.inl (List.eq_of_mem_replicate hy), by simp⟩
  have hS : X.take num ≠ [] := by
    intro h
    have := congrArg List.length h
    simp only [List.length_take, List.length_nil] at this
    omega
  simp only []
  rw [e]
  simp only [Option.some_bind, Option.bind_eq_bind]
  by_cases hin : i = num
  · subst hin
    simp only [ne_eq, not_true_eq_false, if_false, Option.pure_def, Option.some_bind]
    obtain ⟨f, l, e2, r⟩ := ScanMinMax.finish o t.lanes hN _ first last hS hF hL
    exact ⟨f, l, by rw [e2], r⟩
  · simp only [hin, ne_eq, not_false_eq_true, if_true]
    have hv : ((X.drop (num - t.lanes)).take t.lanes).length = t.lanes := by
      simp only [List.length_take, List.length_drop]; omega
    rw [LoadU_eq t.lanes _ (A ++ X.take (num - t.lanes)) ((X.drop (num - t.lanes)).take t.lanes)
      ((X.drop (num - t.lanes)).drop t.lanes ++ Z) _
      (by simp only [List.append_assoc]; rw [← List.append_assoc (List.take t.lanes _),
        List.take_append_drop, ← List.append_assoc (List.take _ X), List.take_append_drop])
      (by simp only [List.length_append, List.length_take]; omega) hv]
    simp only [Option.some_bind, Option.pure_def]
    have hsplit : X.take num = X.take (num - t.lanes) ++ (X.drop (num - t.lanes)).take t.lanes := by
      have : num = (num - t.lanes) + t.lanes := by omega
      conv_lhs => rw [this]
      exact List.take_add _ _ _
    have hmem : ∀ x, x ∈ X.take i ++ (X.drop (num - t.lanes)).take t.lanes ↔ x ∈ X.take num := by
      intro x
      constructor
      · intro hx
        rcases List.mem_append.1 hx with h | h
        · exact List.take_subset_take_left X hi1 h
        · rw [hsplit]; exact List.mem_append_right _ h
      · intro hx
        rw [hsplit] at hx
        rcases List.mem_append.1 hx with h | h
        · exact List.mem_append_left _ (List.take_subset_take_left X (by omega) h)
        · exact List.mem_append_right _ h
    obtain ⟨f, l, e2, r⟩ := ScanMinMax.finish o t.lanes hN _ _ _ hS
      ((hF.extend (First o) (First_mem o) (First_le o) (fun _ _ _ => ole_trans o) _ hv).congr hmem)
      ((Covers.extend (r := oge o) (Last o) (Last_mem o)
        (fun a b => ⟨(Last_ge o a b).1, (Last_ge o a b).2⟩)
        (fun _ _ _ h1 h2 => ole_trans o h2 h1) hL _ hv).congr hmem)
    exact ⟨f, l, by rw [e2], r⟩

end

section

variable {α : Type} [LinearOrder α]

theorem zipWith3_length (f : α → α → α → α) : ∀ (N : Nat) (v0 v1 v2 : List α),
    v0.length = N → v1.length = N → v2.length = N → (List.zipWith3 f v0 v1 v2).length = N := by
  intro N
  induction N with
  | zero =>
    intro v0 v1 v2 h0 h1 h2
    rw [List.length_eq_zero.1 h0]; rfl
  | succ N ih =>
    intro v0 v1 v2 h0 h1 h2
    match v0, v1, v2, h0, h1, h2 with
    | a :: v0, b :: v1, c :: v2, h0, h1, h2 =>
      simp only [List.zipWith3, List.length_cons]
      rw [ih v0 v1 v2 (by simpa using h0) (by simpa using h1) (by simpa using h2)]

theorem MedianOf3_length (o : Order) (v0 v1 v2 : List α) (N : Nat) (h0 : v0.length = N)
    (h1 : v1.length = N) (h2 : v2.length = N) : (MedianOf3 o v0 v1 v2).length = N :=
  zipWith3_length _ N v0 v1 v2 h0 h1 h2

theorem LoadU_some (N : Nat) (mem : List α) (i : Nat) (h : i + N ≤ mem.length) :
    ∃ v, LoadU N mem i = some v ∧ v.length = N := by
  refine ⟨(mem.drop i).take N, by simp [LoadU, h], ?_⟩
  simp only [List.length_take, List.length_drop]; omega

theorem RecursiveMedianOf3.vectors_spec (o : Order) (N num : Nat) (hN : 0 < N)
    (keys : List α) (hk : num ≤ keys.length) :
    ∀ (fuel read : Nat) (out : List α), read ≤ num → num < read + fuel → 0 < fuel →
      3 * out.length = read →
      ∃ read' out', RecursiveMedianOf3.vectors o N num keys fuel read out = some (read', out') ∧
        read' ≤ num ∧ 3 * out'.length = read' := by
  intro fuel
  induction fuel with
  | zero => intro _ _ _ _ h; omega
  | succ fuel ih =>
    intro read out hr hf _ ho
    rw [RecursiveMedianOf3.vectors]
    by_cases hc : read + 3 * N ≤ num
    · simp only [hc, if_true]
      obtain ⟨v0, e0, l0⟩ := LoadU_some N keys (read + 0 * N) (by omega)
      obtain ⟨v1, e1, l1⟩ := LoadU_some N keys (read + 1 * N) (by omega)
      obtain ⟨v2, e2, l2⟩ := LoadU_some N keys (read + 2 * N) (by omega)
      simp only [e0, e1, e2, Option.some_bind, Option.bind_eq_bind]
      exact ih _ _ hc (by omega) (by omega)
        (by simp only [List.length_append, MedianOf3_length o v0 v1 v2 N l0 l1 l2]; omega)
    · simp only [hc, if_false]
      exact ⟨read, out, rfl, hr, ho⟩

theorem RecursiveMedianOf3.singles_spec (o : Order) (num : Nat)
    (keys : List α) (hk : num ≤ keys.length) :
    ∀ (fuel read : Nat) (out : List α), read ≤ num → num < read + fuel → 0 < fuel →
      3 * out.length = read →
      ∃ read' out', RecursiveMedianOf3.singles o num keys fuel read out = some (read', out') ∧
        read' ≤ num ∧ num < read' + 3 ∧ 3 * out'.length = read' := by
  intro fuel
  induction fuel with
  | zero => intro _ _ _ _ h; omega
  | succ fuel ih =>
    intro read out hr hf _ ho
    rw [RecursiveMedianOf3.singles]
    by_cases hc : read + 3 ≤ num
    · simp only [hc, if_true]
      rw [List.getElem?_eq_getElem (show read + 0 < keys.length by omega),
        List.getElem?_eq_getElem (show read + 1 < keys.length by omega),
        List.getElem?_eq_getElem (show read + 2 < keys.length by omega)]
      simp only [Option.some_bind, Option.bind_eq_bind]
      exact ih _ _ hc (by omega) (by omega) (by simp only [List.length_append, List.length_singleton]; omega)
    · simp only [hc, if_false]
      exact ⟨read, out, rfl, hr, by omega, ho⟩

/-- `RecursiveMedianOf3` returns the broadcast of one key whenever it is given at least one
key and enough fuel. -/
theorem RecursiveMedianOf3_spec (o : Order) (N : Nat) (hN : 0 < N) :
    ∀ (fuel : Nat) (keys : List α) (num : Nat), num = keys.length → 1 ≤ num → num < fuel →
      ∃ p, RecursiveMedianOf3 o N fuel keys num = some (SetKey N p) := by
  intro fuel
  induction fuel with
  | zero => intro _ _ _ _ h; omega
  | succ fuel ih =>
    intro keys num hk h1 hf
    rw [RecursiveMedianOf3]
    by_cases h3 : num < 3
    · simp only [h3, if_true]
      rw [List.getElem?_eq_getElem (show 0 < keys.length by omega)]
      exact ⟨_, rfl⟩
    · simp only [h3, if_false]
      obtain ⟨r1, o1, e1, hr1, ho1⟩ := RecursiveMedianOf3.vectors_spec o N num hN keys
        (by omega) (num + 1) 0 [] (Nat.zero_le _) (by omega) (by omega) rfl
      obtain ⟨r2, o2, e2, hr2, hlt2, ho2⟩ := RecursiveMedianOf3.singles_spec o num keys
        (by omega) (num + 1) r1 o1 hr1 (by omega) (by omega) ho1
      simp only [e1, e2, Option.some_bind, Option.bind_eq_bind]
      exact ih o2 o2.length rfl (by omega) (by omega)

theorem ChoosePivot.sample_spec (o : Order) (N lpc : Nat) (hN : 0 < N) (hdvd : N ∣ lpc)
    (keys : List α) (base : Nat) (ofs : Nat → Nat)
    (hofs : ∀ j, base + ofs j + lpc ≤ keys.length) :
    ∀ (fuel i : Nat) (m0 m1 m2 : List α), N ∣ i → i ≤ lpc → lpc < i + fuel →
      m0.length = i → m1.length = i → m2.length = i →
      ∃ a b c, ChoosePivot.sample o N lpc keys base ofs fuel i m0 m1 m2 = some (a, b, c) ∧
        a.length = lpc ∧ b.length = lpc ∧ c.length = lpc := by
  intro fuel
  induction fuel with
  | zero => intro _ _ _ _ _ _ h; omega
  | succ fuel ih =>
    intro i m0 m1 m2 hdi hi hf h0 h1 h2
    rw [ChoosePivot.sample]
    by_cases hc : i < lpc
    · simp only [hc, if_true]
      have hstep : i + N ≤ lpc := by
        obtain ⟨a, rfl⟩ := hdi
        obtain ⟨b, rfl⟩ := hdvd
        have hab : a < b := by
          by_contra hh
          have : N * b ≤ N * a := Nat.mul_le_mul_left _ (by omega)
          omega
        calc N * a + N = N * (a + 1) := by ring
          _ ≤ N * b := Nat.mul_le_mul_left _ hab
      have hl : ∀ j, ∃ v, LoadU N keys (base + ofs j + i) = some v ∧ v.length = N :=
        fun j => LoadU_some N keys _ (by have := hofs j; omega)
      obtain ⟨v0, e0, l0⟩ := hl 0
      obtain ⟨v1, e1, l1⟩ := hl 1
      obtain ⟨v2, e2, l2⟩ := hl 2
      obtain ⟨v3, e3, l3⟩ := hl 3
      obtain ⟨v4, e4, l4⟩ := hl 4
      obtain ⟨v5, e5, l5⟩ := hl 5
      obtain ⟨v6, e6, l6⟩ := hl 6
      obtain ⟨v7, e7, l7⟩ := hl 7
      obtain ⟨v8, e8, l8⟩ := hl 8
      simp only [e0, e1, e2, e3, e4, e5, e6, e7, e8, Option.some_bind, Option.bind_eq_bind]
      exact ih _ _ _ _ (Dvd.dvd.add hdi (dvd_refl _)) hstep (by omega)
        (by simp only [List.length_append, MedianOf3_length o _ _ _ N l0 l1 l2]; omega)
        (by simp only [List.length_append, MedianOf3_length o _ _ _ N l3 l4 l5]; omega)
        (by simp only [List.length_append, MedianOf3_length o _ _ _ N l6 l7 l8]; omega)
    · simp only [hc, if_false]
      exact ⟨m0, m1, m2, rfl, by omega, by omega, by omega⟩

end

theorem RandomChunkIndex_lt (num_chunks bits : Nat) (hb : bits < 2 ^ 32)
    (h0 : 0 < num_chunks) (h1 : num_chunks < 2 ^ 32) :
    RandomChunkIndex num_chunks bits < num_chunks := by
  unfold RandomChunkIndex
  have hprod : bits * num_chunks < 2 ^ 32 * num_chunks := Nat.mul_lt_mul_of_pos_right hb h0
  have h64 : (2 : Nat) ^ 32 * 2 ^ 32 = 2 ^ 64 := by norm_num
  have hlt : bits * num_chunks < 2 ^ 64 := by
    have : 2 ^ 32 * num_chunks < 2 ^ 32 * 2 ^ 32 := Nat.mul_lt_mul_of_pos_left h1 (by norm_num)
    omega
  rw [Nat.mod_eq_of_lt hlt, Nat.shiftRight_eq_div_pow, Nat.div_lt_iff_lt_mul (by norm_num)]
  rw [Nat.mul_comm (2 ^ 32)] at hprod
  exact hprod

section

variable {α : Type} [LinearOrder α]

theorem Target.Valid.facts {t : Target α} (h : t.Valid) :
    0 < t.lanes ∧ t.lanes ≤ 32 ∧
    (∃ j, j ≤ 5 ∧ LanesPerChunk t.sizeofT t.lanes = 2 ^ j ∧
      Num0BitsBelowLS1Bit_Nonzero32 (LanesPerChunk t.sizeofT t.lanes % 2 ^ 32) = j) ∧
    t.lanes ∣ LanesPerChunk t.sizeofT t.lanes ∧
    2 * t.lanes ≤ BaseCaseNum t.lanes ∧
    2 * LanesPerChunk t.sizeofT t.lanes ≤ BaseCaseNum t.lanes ∧
    BaseCaseNum t.lanes ≤ kMaxRows * min t.fullLanes kMaxCols ∧
    BaseCaseNum t.lanes ≤ 256 := by
  obtain ⟨⟨k, hk⟩, hs, h16, h64, hfull⟩ := h
  have hpos : 0 < t.lanes := by rw [hk]; exact Nat.pos_pow_of_pos _ (by omega)
  have h32 : t.lanes ≤ 32 := by rcases hs with e | e | e <;> rw [e] at h64 <;> omega
  have hmin : min t.lanes 16 ≤ min t.fullLanes 16 := min_le_min_right _ hfull
  have hlpc : ∃ j, j ≤ 5 ∧ LanesPerChunk t.sizeofT t.lanes = 2 ^ j ∧
      Num0BitsBelowLS1Bit_Nonzero32 (LanesPerChunk t.sizeofT t.lanes % 2 ^ 32) = j ∧
      t.lanes ≤ 2 ^ j ∧ 2 * 2 ^ j ≤ 16 * min t.lanes 16 := by
    rcases hs with e | e | e
    · refine ⟨5, by omega, ?_, ?_, ?_, ?_⟩
      · rw [e, LanesPerChunk]; norm_num; omega
      · rw [e, LanesPerChunk]
        have : max (64 / 2) t.lanes = 32 := by norm_num; omega
        rw [this]; decide
      · norm_num; omega
      · rw [e] at h16; norm_num; omega
    · refine ⟨4, by omega, ?_, ?_, ?_, ?_⟩
      · rw [e] at h64; rw [e, LanesPerChunk]; norm_num; omega
      · rw [e] at h64; rw [e, LanesPerChunk]
        have : max (64 / 4) t.lanes = 16 := by norm_num; omega
        rw [this]; decide
      · rw [e] at h64; norm_num; omega
      · rw [e] at h16; norm_num; omega
    · refine ⟨3, by omega, ?_, ?_, ?_, ?_⟩
      · rw [e] at h64; rw [e, LanesPerChunk]; norm_num; omega
      · rw [e] at h64; rw [e, LanesPerChunk]
        have : max (64 / 8) t.lanes = 8 := by norm_num; omega
        rw [this]; decide
      · rw [e] at h64; norm_num; omega
      · rw [e] at h16; norm_num; omega
  obtain ⟨j, hj5, hj, hctz, hle, h2⟩ := hlpc
  have hkj : k ≤ j := by
    rw [hk] at hle
    exact (Nat.pow_le_pow_iff_right (by omega)).1 hle
  refine ⟨hpos, h32, ⟨j, hj5, hj, hctz⟩, ?_, ?_, ?_, ?_, ?_⟩
  · rw [hj, hk]; exact pow_dvd_pow 2 hkj
  · rw [BaseCaseNum, kMaxRows_eq, kMaxCols]; omega
  · rw [hj, BaseCaseNum, kMaxRows_eq, kMaxCols]; exact h2
  · rw [BaseCaseNum, kMaxRows_eq, kMaxCols]; omega
  · rw [BaseCaseNum, kMaxRows_eq, kMaxCols]; omega

theorem ChoosePivot.reduce_spec (t : Target α) (o : Order) (hN : 0 < t.lanes) (lpc : Nat)
    (hlpc : 0 < lpc) (hdvd : t.lanes ∣ lpc) (keys : List α) (base : Nat) (ofs : Nat → Nat)
    (hofs : ∀ j, base + ofs j + lpc ≤ keys.length) (rng : Generator) :
    ∃ p, ((ChoosePivot.sample o t.lanes lpc keys base ofs (lpc + 1) 0 [] [] []).bind fun x =>
        (RecursiveMedianOf3 o t.lanes (3 * lpc + 1) (x.1 ++ x.2.1 ++ x.2.2) (3 * lpc)).bind
          fun pivot => some (pivot, rng)) = some (SetKey t.lanes p, rng) := by
  obtain ⟨a, b, c, e, la, lb, lc⟩ := ChoosePivot.sample_spec o t.lanes lpc hN hdvd keys base ofs
    hofs (lpc + 1) 0 [] [] [] (dvd_zero _) (Nat.zero_le _) (by omega) rfl rfl rfl
  rw [e]
  simp only [Option.some_bind]
  obtain ⟨p, hp⟩ := RecursiveMedianOf3_spec o t.lanes hN (3 * lpc + 1) (a ++ b ++ c) (3 * lpc)
    (by simp only [List.length_append]; omega) (by omega) (by omega)
  rw [hp]
  exact ⟨p, rfl⟩

/-- `ChoosePivot` returns a broadcast key whenever the range holds at least two chunks. -/
theorem ChoosePivot_spec (t : Target α) (o : Order) (hV : t.Valid) (addr : Nat)
    (keys : List α) (begin end_ : Nat) (rng : Generator) (hend : end_ ≤ keys.length)
    (hnum : 2 * LanesPerChunk t.sizeofT t.lanes ≤ end_ - begin) :
    ∃ p rng', ChoosePivot t o addr keys begin end_ rng = some (SetKey t.lanes p, rng') := by
  obtain ⟨hpos, h32, ⟨j, hj5, hj, hctz⟩, hdvd, _, _, _, _⟩ := hV.facts
  unfold ChoosePivot
  simp only [hctz, Option.bind_eq_bind, Option.pure_def]
  rw [hj] at hnum hdvd ⊢
  have hlpos : 0 < 2 ^ j := Nat.pos_pow_of_pos _ (by omega)
  have hl32 : 2 ^ j ≤ 2 ^ 5 := Nat.pow_le_pow_right (by omega) hj5
  have key : ∀ (base num : Nat), base + num = end_ → 2 ^ j ≤ num → ∀ bits, bits < 2 ^ 32 →
      base + (RandomChunkIndex (min (num >>> j) 0xFFFFFFFF) bits <<< j) + 2 ^ j
        ≤ keys.length := by
    intro base num hb hn bits hbits
    rw [Nat.shiftRight_eq_div_pow]
    have h1 : 0 < num / 2 ^ j := Nat.div_pos hn hlpos
    have hlt := RandomChunkIndex_lt (min (num / 2 ^ j) 0xFFFFFFFF) bits hbits
      (by rw [Nat.lt_min]; exact ⟨h1, by norm_num⟩)
      (lt_of_le_of_lt (min_le_right _ _) (by norm_num))
    have hle : RandomChunkIndex (min (num / 2 ^ j) 0xFFFFFFFF) bits + 1 ≤ num / 2 ^ j := by
      have := min_le_left (num / 2 ^ j) 0xFFFFFFFF
      omega
    rw [Nat.shiftLeft_eq]
    have h2 : (RandomChunkIndex (min (num / 2 ^ j) 0xFFFFFFFF) bits + 1) * 2 ^ j
        ≤ num / 2 ^ j * 2 ^ j := Nat.mul_le_mul_right _ hle
    have h3 : num / 2 ^ j * 2 ^ j ≤ num := Nat.div_mul_le_self _ _
    rw [Nat.add_mul] at h2
    omega
  have hbits : ∀ (l : List Nat) (i : Nat),
      (if i % 2 = 0 then l[i / 2]! % 2 ^ 32 else (l[i / 2]! >>> 32) % 2 ^ 32) < 2 ^ 32 := by
    intro l i
    split_ifs <;> exact Nat.mod_lt _ (by norm_num)
  have hmis : (addr + begin * t.sizeofT) / t.sizeofT &&& (2 ^ j - 1) ≤ 2 ^ j - 1 :=
    Nat.and_le_right
  by_cases hm : (addr + begin * t.sizeofT) / t.sizeofT &&& (2 ^ j - 1) = 0
  · simp only [hm, ne_eq, not_true_eq_false, if_false]
    obtain ⟨p, hp⟩ := ChoosePivot.reduce_spec t o hpos (2 ^ j) hlpos hdvd keys begin _
      (fun i => key begin (end_ - begin) (by omega) (by omega) _ (hbits _ i)) _
    exact ⟨p, _, hp⟩
  · simp only [hm, ne_eq, not_false_eq_true, if_true]
    obtain ⟨p, hp⟩ := ChoosePivot.reduce_spec t o hpos (2 ^ j) hlpos hdvd keys _ _
      (fun i => key (begin + (2 ^ j - ((addr + begin * t.sizeofT) / t.sizeofT &&& (2 ^ j - 1))))
        (end_ - begin - (2 ^ j - ((addr + begin * t.sizeofT) / t.sizeofT &&& (2 ^ j - 1))))
        (by omega) (by omega) _ (hbits _ i)) _
    exact ⟨p, _, hp⟩

end

section

variable {α : Type} [LinearOrder α] [BoundedOrder α]

/-- `Recurse` with levels remaining is `Recurse.level` with `Partition` and itself. -/
theorem Recurse_succ (t : Target α) (o : Order) (addr keys_end rl : Nat) (keys : List α)
    (begin end_ : Nat) (pivot : List α) (rng : Generator) (g : Globals α) :
    Recurse t o addr keys_end (rl + 1) keys begin end_ pivot rng g
      = Recurse.level t o addr keys_end (Partition t o) (Recurse t o addr keys_end rl)
          keys begin end_ pivot rng g := by
  rw [Recurse]
  rfl

theorem Recurse.side_spec (t : Target α) (o : Order) (hV : t.Valid) (addr keys_end : Nat)
    (recurse : List α → Nat → Nat → List α → Generator → Globals α →
      Option (List α × Generator × Globals α))
    (hrec : RecSpec t o keys_end recurse)
    (A X Z : List α) (m : Nat) (rng : Generator) (g : Globals α)
    (hke : keys_end = A.length + X.length) (hm : m ≤ X.length) (hc : CutOK o X m) :
    ∃ X' rng' g', Recurse.side t o addr keys_end recurse (A ++ (X ++ Z)) A.length
        (A.length + m) (m : Int) rng g = some (A ++ (X' ++ Z), rng', g') ∧
      CutStable o m X X' ∧ (X'.take m).Sorted (ole o) := by
  obtain ⟨hpos, h32, _, _, h2N, h2lpc, hbc, _⟩ := hV.facts
  unfold Recurse.side
  by_cases hb : m ≤ BaseCaseNum t.lanes
  · have hb' : (m : Int) ≤ ((BaseCaseNum t.lanes : Nat) : Int) := by exact_mod_cast hb
    simp only [hb', if_true, Int.toNat_ofNat]
    rw [hke]
    obtain ⟨X', e, hs, hsorted⟩ := BaseCase_spec t o hpos A X Z m hm (by omega) hc
    rw [e]
    exact ⟨X', rng, g, rfl, hs, hsorted⟩
  · have hb' : ¬ (m : Int) ≤ ((BaseCaseNum t.lanes : Nat) : Int) := by
      intro h; exact hb (by exact_mod_cast h)
    simp only [hb', if_false]
    obtain ⟨p, rng1, e1⟩ := ChoosePivot_spec t o hV addr (A ++ (X ++ Z)) A.length
      (A.length + m) rng (by simp only [List.length_append]; omega) (by omega)
    rw [e1]
    simp only [Option.some_bind, Option.bind_eq_bind]
    obtain ⟨X', rng', g', e2, hs, hsorted⟩ := hrec A X Z m p rng1
      { g with choices := g.choices ++ [(rng, SetKey t.lanes p)], depth := g.depth + 1 }
      hke (by omega) hm hc
    rw [e2]
    exact ⟨X', rng', _, rfl, hs, hsorted⟩

theorem ole_of_left_right (o : Order) {p a b : α} (ha : Compare o p a = false)
    (hb : Compare o p b = true) : ole o a b :=
  ole_trans o ha (ole_of_Compare o hb)

theorem SetKey_inj {N : Nat} (hN : 0 < N) {a b : α} (h : SetKey N a = SetKey N b) : a = b := by
  have := congrArg (fun l => l[0]?) h
  simp only [SetKey] at this
  rw [List.getElem?_eq_getElem (by simpa using hN),
    List.getElem?_eq_getElem (by simpa using hN)] at this
  simpa using this

/-- One level of `Recurse` sorts its range if the recursive call does, with any function
in place of `Partition` that agrees with it on ranges longer than two vectors. -/
theorem Recurse.level_spec (t : Target α) (o : Order) (hV : t.Valid) (addr keys_end : Nat)
    (part : List α → Nat → Nat → List α → Option (List α × Nat))
    (hpart : ∀ keys l r pivot, 2 * t.lanes < r - l →
      part keys l r pivot = Partition t o keys l r pivot)
    (recurse : List α → Nat → Nat → List α → Generator → Globals α →
      Option (List α × Generator × Globals α))
    (hrec : RecSpec t o keys_end recurse) :
    RecSpec t o keys_end (Recurse.level t o addr keys_end part recurse) := by
  obtain ⟨hpos, h32, _, _, h2N, h2lpc, hbc, _⟩ := hV.facts
  intro A X Z m p rng g hke hbm hm hc
  unfold Recurse.level
  obtain ⟨M, R, rfl, hM⟩ := split_at X m hm
  subst hM
  rw [hpart _ _ _ _ (by omega)]
  obtain ⟨P, S, e1, hP, hS, hperm⟩ := Partition_spec t o p hV.1 A M (R ++ Z) (by omega)
  rw [List.append_assoc, e1]
  simp only [Option.some_bind, Option.bind_eq_bind]
  have hlen := hperm.length_eq
  simp only [List.length_append] at hlen hm hke
  -- the partitioned region
  have hst1 : CutStable o M.length (M ++ R) ((P ++ S) ++ R) := by
    exact CutStable.of_prefix o (T := R) hperm
  have hcM : ∀ x ∈ M, ∀ y ∈ R, ole o x y := by
    intro x hx y hy
    apply hc
    · rw [List.take_left' rfl]; exact hx
    · rw [List.drop_left' rfl]; exact hy
  by_cases hS0 : S.length = 0
  · -- degenerate partition
    have hSnil : S = [] := List.length_eq_zero.1 hS0
    subst hSnil
    have hr0 : ((A.length + M.length : Nat) : Int) - ((A.length + P.length : Nat) : Int) = 0 := by
      simp only [List.length_nil] at hlen; omega
    simp only [hr0, if_true, Nat.add_sub_cancel_left, List.nil_append]
    simp only [List.append_nil, List.length_nil, Nat.add_zero] at hlen hst1 hperm
    obtain ⟨f, l, e2, hf, hl, hfl⟩ := ScanMinMax_spec t o hpos A (P ++ R) Z M.length (by omega)
      (by simp only [List.length_append]; omega)
    rw [List.take_left' hlen] at hf hl hfl
    rw [← List.append_assoc P R Z, e2]
    simp only [Option.some_bind]
    by_cases hEq : SetKey t.lanes f = SetKey t.lanes l
    · simp only [hEq, if_true, Option.pure_def]
      refine ⟨P ++ R, rng, _, rfl, hst1, ?_⟩
      rw [List.take_left' hlen]
      have hfl' := SetKey_inj hpos hEq
      rw [List.Sorted, List.pairwise_iff_forall_sublist]
      intro a b hab
      have ha : a ∈ P := hab.subset (by simp)
      have hb : b ∈ P := hab.subset (by simp)
      have ea : a = f := ole_antisymm o (by rw [hfl']; exact (hfl a ha).2) (hfl a ha).1
      have eb : b = f := ole_antisymm o (by rw [hfl']; exact (hfl b hb).2) (hfl b hb).1
      rw [ea, eb]; exact ole_refl o _
    · simp only [hEq, if_false]
      obtain ⟨X', rng', g', e3, hs3, hsorted⟩ := hrec A (P ++ R) Z M.length f rng
        { g with max_depth := max g.max_depth g.depth, depth := g.depth + 1 }
        (by simp only [List.length_append]; omega) hbm
        (by simp only [List.length_append]; omega)
        (by
          intro x hx y hy
          rw [List.take_left' hlen] at hx
          rw [List.drop_left' hlen] at hy
          exact hcM x (hperm.mem_iff.1 hx) y hy)
      rw [e3]
      exact ⟨X', rng', _, rfl, hst1.trans hs3, hsorted⟩
  · have hr0 : ¬ ((A.length + M.length : Nat) : Int) - ((A.length + P.length : Nat) : Int) = 0 := by
      omega
    simp only [hr0, if_false]
    have hnl : ((A.length + P.length : Nat) : Int) - ((A.length : Nat) : Int)
        = ((P.length : Nat) : Int) := by omega
    have hnr : ((A.length + M.length : Nat) : Int) - ((A.length + P.length : Nat) : Int)
        = ((S.length : Nat) : Int) := by omega
    rw [hnl, hnr]
    -- left side
    have hcut1 : CutOK o ((P ++ S) ++ R) P.length := by
      intro x hx y hy
      rw [List.append_assoc, List.take_left' rfl] at hx
      rw [List.append_assoc, List.drop_left' rfl] at hy
      rcases List.mem_append.1 hy with h | h
      · exact ole_of_left_right o (hP x hx) (hS y h)
      · exact hcM x (hperm.mem_iff.1 (List.mem_append_left _ hx)) y h
    obtain ⟨X2, rng2, g2, e2, hs2, hsorted2⟩ := Recurse.side_spec t o hV addr keys_end _ hrec A
      ((P ++ S) ++ R) Z P.length rng { g with max_depth := max g.max_depth g.depth }
      (by simp only [List.length_append]; omega)
      (by simp only [List.length_append]; omega) hcut1
    have e2' : A ++ (P ++ (S ++ (R ++ Z))) = A ++ ((P ++ S) ++ R ++ Z) := by
      simp only [List.append_assoc]
    rw [e2', e2]
    simp only [Option.some_bind]
    -- what the left side left behind
    have hlenX2 : X2.length = P.length + S.length + R.length := by
      have := hs2.perm.length_eq
      simpa only [List.length_append] using this
    obtain ⟨hp2a, hp2b⟩ := hs2 P.length (le_refl _) hcut1
    rw [List.append_assoc, List.take_left' rfl] at hp2a
    rw [List.append_assoc, List.drop_left' rfl] at hp2b
    have hcutm : CutOK o ((P ++ S) ++ R) M.length := by
      intro x hx y hy
      rw [List.take_left' (by simp only [List.length_append]; omega)] at hx
      rw [List.drop_left' (by simp only [List.length_append]; omega)] at hy
      exact hcM x (hperm.mem_iff.1 hx) y hy
    obtain ⟨hp2c, hp2d⟩ := hs2 M.length (by omega) hcutm
    rw [List.take_left' (by simp only [List.length_append]; omega)] at hp2c
    rw [List.drop_left' (by simp only [List.length_append]; omega)] at hp2d
    have htake : X2.take M.length = X2.take P.length ++ (X2.drop P.length).take S.length := by
      have : M.length = P.length + S.length := by omega
      rw [this]; exact List.take_add _ _ _
    have hdropm : (X2.drop P.length).drop S.length = X2.drop M.length := by
      rw [List.drop_drop, hlen]
    have hpS : ((X2.drop P.length).take S.length).Perm S := by
      have := hp2c
      rw [htake] at this
      have h2 : (X2.take P.length ++ (X2.drop P.length).take S.length).Perm
          (X2.take P.length ++ S) := this.trans (hp2a.symm.append_right S)
      exact (List.perm_append_left_iff _).1 h2
    have hcutY : CutOK o (X2.drop P.length) S.length := by
      intro x hx y hy
      rw [hdropm] at hy
      exact hcM x (hperm.mem_iff.1 (List.mem_append_right _ (hpS.mem_iff.1 hx))) y
        (hp2d.mem_iff.1 hy)
    have hlenPl : (X2.take P.length).length = P.length := by
      rw [List.length_take]; omega
    obtain ⟨Y', rng3, g3, e3, hs3, hsorted3⟩ := Recurse.side_spec t o hV addr keys_end _ hrec
      (A ++ X2.take P.length) (X2.drop P.length) Z S.length rng2 g2
      (by simp only [List.length_append, List.length_take, List.length_drop]; omega)
      (by simp only [List.length_drop]; omega) hcutY
    have e3' : A ++ (X2 ++ Z) = (A ++ X2.take P.length) ++ (X2.drop P.length ++ Z) := by
      simp only [List.append_assoc]
      rw [← List.append_assoc (List.take _ X2), List.take_append_drop]
    have hbound : A.length + P.length = (A ++ X2.take P.length).length := by
      simp only [List.length_append, hlenPl]
    have hend : A.length + M.length = (A ++ X2.take P.length).length + S.length := by
      simp only [List.length_append, hlenPl]; omega
    rw [e3', hbound, hend, e3]
    refine ⟨X2.take P.length ++ Y', rng3, g3, by simp only [List.append_assoc], ?_, ?_⟩
    · have hsh := CutStable.shift (P := X2.take P.length) hs3
      rw [List.take_append_drop, hlenPl] at hsh
      have hm' : P.length + S.length = M.length := by omega
      rw [hm'] at hsh
      exact hst1.trans ((hs2.mono (by omega)).trans hsh)
    · have : M.length = (X2.take P.length).length + S.length := by rw [hlenPl]; omega
      rw [this, List.take_append]
      refine List.pairwise_append.2 ⟨hsorted2, hsorted3, ?_⟩
      intro a ha b hb
      have ha' : a ∈ P := hp2a.mem_iff.1 ha
      have hb' : b ∈ S := hpS.mem_iff.1 ((hs3 S.length (le_refl _) hcutY).1.mem_iff.1 hb)
      exact ole_of_left_right o (hP a ha') (hS b hb')

/-- `Recurse` sorts its range and moves no key across a cut behind the range, whatever the
pivot and the number of remaining levels. -/
theorem Recurse_spec (t : Target α) (o : Order) (hV : t.Valid) (addr keys_end : Nat) :
    ∀ rl, RecSpec t o keys_end (Recurse t o addr keys_end rl) := by
  obtain ⟨hpos, h32, _, _, h2N, h2lpc, hbc, _⟩ := hV.facts
  intro rl
  induction rl with
  | zero =>
    intro A X Z m p rng g hke hbm hm hc
    rw [Recurse]
    simp only [Nat.add_sub_cancel_left, List.drop_left, List.take_left]
    obtain ⟨l2, e, d, pm, hs⟩ := HeapSort_spec o (X ++ Z) m
      (by simp only [List.length_append]; omega)
    rw [e]
    rw [List.take_append_of_le_length hm] at pm
    rw [List.drop_append_of_le_length hm] at d
    simp only [Option.some_bind, Option.bind_eq_bind, Option.pure_def]
    have hl2 : A ++ l2 = A ++ (l2.take m ++ X.drop m ++ Z) := by
      conv_lhs => rw [← List.take_append_drop m l2, d]
      simp only [List.append_assoc]
    rw [hl2]
    refine ⟨l2.take m ++ X.drop m, rng, _, rfl, ?_, ?_⟩
    · have := CutStable.of_prefix o (T := X.drop m) pm
      rw [List.take_append_drop, List.length_take, min_eq_left hm] at this
      exact this
    · have hl : (l2.take m).length = m := by
        rw [pm.length_eq, List.length_take, min_eq_left hm]
      rw [List.take_left' hl]
      exact hs
  | succ rl ih =>
    intro A X Z m p rng g hke hbm hm hc
    rw [Recurse_succ]
    exact Recurse.level_spec t o hV addr keys_end _ (fun _ _ _ _ _ => rfl) _ ih A X Z m p rng g
      hke hbm hm hc

theorem SortedResult.of_region (o : Order) (keys X' : List α) (num : Nat)
    (hnum : num ≤ keys.length) (hs : CutStable o num (keys.take num) X')
    (hsorted : (X'.take num).Sorted (ole o)) :
    SortedResult o keys (X' ++ keys.drop num) num := by
  have hperm := hs.perm
  have hlen : X'.length = num := by
    rw [hperm.length_eq, List.length_take, min_eq_left hnum]
  refine ⟨List.drop_left' hlen, ?_, ?_⟩
  · rw [List.take_left' hlen]; exact hperm
  · rw [List.take_left' hlen]
    rwa [List.take_of_length_le (by omega)] at hsorted

theorem CutOK_take_self (o : Order) (keys : List α) (num : Nat) :
    CutOK o (keys.take num) num := by
  intro x _ y hy
  rw [List.drop_of_length_le (by simp only [List.length_take]; omega)] at hy
  simp at hy

theorem HandleSpecialCases_spec (t : Target α) (o : Order) (hpos : 0 < t.lanes)
    (hfull : t.lanes ≤ t.fullLanes) (keys : List α) (num : Nat) (g : Globals α)
    (hnum : num ≤ keys.length) :
    (∃ keys' g', HandleSpecialCases t o keys num g = some (true, keys', g') ∧
        SortedResult o keys keys' num) ∨
    (HandleSpecialCases t o keys num g = some (false, keys, g) ∧ BaseCaseNum t.lanes < num) := by
  unfold HandleSpecialCases
  by_cases hh : (decide (t.maxBytes / t.sizeofT > kMaxRows * kMaxCols) &&
      decide (2 * t.lanes > BaseCaseNum t.lanes)) = true
  · simp only [hh, if_true]
    obtain ⟨l2, e, d, pm, hs⟩ := HeapSort_spec o keys num hnum
    left
    rw [e]
    exact ⟨l2, _, rfl, d, pm, hs⟩
  · simp only [hh, if_false]
    by_cases hb : num ≤ BaseCaseNum t.lanes
    · simp only [hb, if_true]
      left
      have hmin : min t.lanes 16 ≤ min t.fullLanes 16 := min_le_min_right _ hfull
      obtain ⟨X', e, hs, hsorted⟩ := BaseCase_spec t o hpos [] (keys.take num) (keys.drop num)
        num (by simp only [List.length_take]; omega)
        (by
          have : BaseCaseNum t.lanes ≤ kMaxRows * min t.fullLanes kMaxCols := by
            rw [BaseCaseNum, kMaxCols]; exact Nat.mul_le_mul_left _ hmin
          omega)
        (CutOK_take_self o keys num)
      simp only [List.nil_append, List.length_nil, Nat.zero_add, List.take_append_drop,
        List.length_take, min_eq_left hnum] at e
      rw [e]
      exact ⟨_, g, rfl, SortedResult.of_region o keys X' num hnum hs hsorted⟩
    · simp only [hb, if_false]
      right
      exact ⟨rfl, by omega⟩

/-- `Sort` on a valid target whose vectors need no capping, with any continuation for the
capped instantiation. -/
theorem SortBody_spec (t : Target α) (o : Order) (hV : t.Valid)
    (hcap : ¬ (t.maxBytes > 64 ∧ t.lanes > 64 / t.sizeofT)) (addr : Nat) (keys : List α)
    (num : Nat) (g : Globals α)
    (reentry : Target α → List α → Globals α → Option (List α × Globals α))
    (hnum : num ≤ keys.length) :
    ∃ keys' g', SortBody t o addr keys num g reentry = some (keys', g') ∧
      SortedResult o keys keys' num := by
  obtain ⟨hpos, h32, _, _, h2N, h2lpc, hbc, _⟩ := hV.facts
  unfold SortBody
  by_cases hen : t.vqsortEnabled = true
  · simp only [hen, if_true]
    rcases HandleSpecialCases_spec t o hpos hV.2.2.2.2 keys num
      { g with max_depth := -1, depth := 1 } hnum with ⟨k', g', e, hr⟩ | ⟨e, hlt⟩
    · rw [e]
      simp only [Option.some_bind, Option.bind_eq_bind, if_true, Option.pure_def]
      exact ⟨k', g', rfl, hr⟩
    · rw [e]
      simp only [Option.some_bind, Option.bind_eq_bind, Bool.false_eq_true, if_false, hcap]
      obtain ⟨p, rng1, e1⟩ := ChoosePivot_spec t o hV addr keys 0 num
        { a := (t.Fill24Bytes addr num).1, b := (t.Fill24Bytes addr num).2.1,
          w := (t.Fill24Bytes addr num).2.2, k := 1 } hnum (by omega)
      rw [e1]
      simp only [Option.some_bind]
      obtain ⟨X', rng', g', e2, hs, hsorted⟩ := Recurse_spec t o hV addr num
        (2 * CeilLog2 num + 4) [] (keys.take num) (keys.drop num) num p rng1
        { g with max_depth := -1, depth := 1, choices := g.choices ++
          [({ a := (t.Fill24Bytes addr num).1, b := (t.Fill24Bytes addr num).2.1,
              w := (t.Fill24Bytes addr num).2.2, k := 1 }, SetKey t.lanes p)] }
        (by simp only [List.length_nil, List.length_take]; omega) hlt
        (by simp only [List.length_take]; omega) (CutOK_take_self o keys num)
      simp only [List.nil_append, List.length_nil, Nat.zero_add, List.take_append_drop] at e2
      rw [e2]
      simp only [Option.some_bind, Option.pure_def]
      exact ⟨_, _, rfl, SortedResult.of_region o keys X' num hnum hs hsorted⟩
  · simp only [hen, Bool.false_eq_true, if_false]
    obtain ⟨l2, e, d, pm, hs⟩ := HeapSort_spec o keys num hnum
    rw [e]
    exact ⟨l2, _, rfl, d, pm, hs⟩

theorem Target.WellFormed.valid {t : Target α} (h : t.WellFormed)
    (hcap : ¬ (t.maxBytes > 64 ∧ t.lanes > 64 / t.sizeofT)) : t.Valid := by
  obtain ⟨hk, _, hs, h16, hfull, hmax⟩ := h
  refine ⟨hk, hs, h16, ?_, hfull⟩
  by_cases hb : t.maxBytes > 64
  · have hl : t.lanes ≤ 64 / t.sizeofT := by
      by_contra hh; exact hcap ⟨hb, by omega⟩
    rcases hs with e | e | e <;> rw [e] at hl ⊢ <;> omega
  · have : t.lanes * t.sizeofT ≤ t.fullLanes * t.sizeofT := Nat.mul_le_mul_right _ hfull
    omega

theorem Target.WellFormed.capped {t : Target α} (h : t.WellFormed)
    (hcap : t.maxBytes > 64 ∧ t.lanes > 64 / t.sizeofT) :
    ({ t with lanes := min (64 / t.sizeofT) t.fullLanes } : Target α).Valid ∧
    ¬ (({ t with lanes := min (64 / t.sizeofT) t.fullLanes } : Target α).maxBytes > 64 ∧
      ({ t with lanes := min (64 / t.sizeofT) t.fullLanes } : Target α).lanes >
        64 / ({ t with lanes := min (64 / t.sizeofT) t.fullLanes } : Target α).sizeofT) := by
  obtain ⟨hk, _, hs, h16, hfull, hmax⟩ := h
  have hmin : min (64 / t.sizeofT) t.fullLanes = 64 / t.sizeofT := by
    apply min_eq_left; omega
  constructor
  · refine ⟨?_, hs, ?_, ?_, ?_⟩
    · show ∃ k, min (64 / t.sizeofT) t.fullLanes = 2 ^ k
      rw [hmin]
      rcases hs with e | e | e <;> rw [e]
      · exact ⟨5, by norm_num⟩
      · exact ⟨4, by norm_num⟩
      · exact ⟨3, by norm_num⟩
    · show 16 ≤ min (64 / t.sizeofT) t.fullLanes * t.sizeofT
      rw [hmin]
      rcases hs with e | e | e <;> rw [e] <;> norm_num
    · show min (64 / t.sizeofT) t.fullLanes * t.sizeofT ≤ 64
      rw [hmin]
      rcases hs with e | e | e <;> rw [e] <;> norm_num
    · show min (64 / t.sizeofT) t.fullLanes ≤ t.fullLanes
      exact min_le_right _ _
  · intro hh
    have : min (64 / t.sizeofT) t.fullLanes > 64 / t.sizeofT := hh.2
    rw [hmin] at this
    omega

/-- `Sort` on any well-formed target returns the sorted rearrangement of `keys[0, num)` and
leaves the lanes behind it untouched. -/
theorem Sort_spec (t : Target α) (o : Order) (hW : t.WellFormed) (addr : Nat)
    (keys : List α) (num : Nat) (g : Globals α) (hnum : num ≤ keys.length) :
    ∃ keys' g', Sort' t o addr keys num g = some (keys', g') ∧
      SortedResult o keys keys' num := by
  unfold Sort'
  by_cases hcap : t.maxBytes > 64 ∧ t.lanes > 64 / t.sizeofT
  · have hpos : 0 < t.lanes := by
      obtain ⟨k, hk⟩ := hW.1; rw [hk]; exact Nat.pos_pow_of_pos _ (by omega)
    generalize hre : (fun (t2 : Target α) (keys2 : List α) (g2 : Globals α) =>
      SortBody t2 o addr keys2 num g2 fun _ _ _ => none) = reentry
    rw [SortBody]
    by_cases hen : t.vqsortEnabled = true
    · rw [if_pos hen]
      rcases HandleSpecialCases_spec t o hpos hW.2.2.2.2.1 keys num
        { g with max_depth := -1, depth := 1 } hnum with ⟨k', g', e, hr⟩ | ⟨e, hlt⟩
      · rw [e]
        simp only [Option.some_bind, Option.bind_eq_bind, if_true, Option.pure_def]
        exact ⟨k', g', rfl, hr⟩
      · rw [e]
        simp only [Option.some_bind, Option.bind_eq_bind, Bool.false_eq_true, if_false, hcap,
          and_self, if_true]
        obtain ⟨hV2, hcap2⟩ := hW.capped hcap
        rw [← hre]
        exact SortBody_spec _ o hV2 hcap2 addr keys num _ _ hnum
    · rw [if_neg hen]
      obtain ⟨l2, e, d, pm, hs⟩ := HeapSort_spec o keys num hnum
      rw [e]
      exact ⟨l2, _, rfl, d, pm, hs⟩
  · exact SortBody_spec t o (hW.valid hcap) hcap addr keys num g _ hnum

theorem MedianOf3Lane_sel (o : Order) (Q : α → Prop) {a b c : α} (ha : Q a) (hb : Q b)
    (hc : Q c) : Q (MedianOf3Lane o a b c) := by
  unfold MedianOf3Lane
  have h1 : Q (First o a c) := by rcases First_mem o a c with e | e <;> rw [e] <;> assumption
  have h2 : Q (Last o a c) := by rcases Last_mem o a c with e | e <;> rw [e] <;> assumption
  have h3 : Q (Last o (First o a c) b) := by
    rcases Last_mem o (First o a c) b with e | e <;> rw [e] <;> assumption
  rcases First_mem o (Last o (First o a c) b) (Last o a c) with e | e <;> rw [e] <;> assumption

theorem zipWith3_sel (f : α → α → α → α) (Q : α → Prop)
    (hf : ∀ a b c, Q a → Q b → Q c → Q (f a b c)) :
    ∀ (v0 v1 v2 : List α), (∀ x ∈ v0, Q x) → (∀ x ∈ v1, Q x) → (∀ x ∈ v2, Q x) →
      ∀ x ∈ List.zipWith3 f v0 v1 v2, Q x := by
  intro v0
  induction v0 with
  | nil => intro v1 v2 _ _ _ x hx; simp [List.zipWith3] at hx
  | cons a v0 ih =>
    intro v1 v2 h0 h1 h2 x hx
    match v1, v2, h1, h2, hx with
    | [], _, _, _, hx => simp [List.zipWith3] at hx
    | _ :: _, [], _, _, hx => simp [List.zipWith3] at hx
    | b :: v1, c :: v2, h1, h2, hx =>
      simp only [List.zipWith3, List.mem_cons] at hx
      rcases hx with e | hx
      · rw [e]
        exact hf _ _ _ (h0 a (List.mem_cons_self _ _)) (h1 b (List.mem_cons_self _ _))
          (h2 c (List.mem_cons_self _ _))
      · exact ih v1 v2 (fun y hy => h0 y (List.mem_cons_of_mem _ hy))
          (fun y hy => h1 y (List.mem_cons_of_mem _ hy))
          (fun y hy => h2 y (List.mem_cons_of_mem _ hy)) x hx

theorem MedianOf3_sel (o : Order) (Q : α → Prop) (v0 v1 v2 : List α)
    (h0 : ∀ x ∈ v0, Q x) (h1 : ∀ x ∈ v1, Q x) (h2 : ∀ x ∈ v2, Q x) :
    ∀ x ∈ MedianOf3 o v0 v1 v2, Q x :=
  zipWith3_sel _ Q (fun _ _ _ => MedianOf3Lane_sel o Q) v0 v1 v2 h0 h1 h2

theorem LoadU_sel (Q : α → Prop) (N : Nat) (mem : List α) (i : Nat) (v : List α)
    (h : LoadU N mem i = some v) (hQ : ∀ x ∈ mem, Q x) : ∀ x ∈ v, Q x := by
  unfold LoadU at h
  split_ifs at h
  cases h
  intro x hx
  exact hQ x (List.mem_of_mem_drop (List.mem_of_mem_take hx))

/-- A load inside `[lo, hi)` returns keys of that range. -/
theorem LoadU_range (N : Nat) (mem : List α) (lo hi i : Nat) (v : List α)
    (h : LoadU N mem i = some v) (hlo : lo ≤ i) (hhi : i + N ≤ hi) :
    ∀ x ∈ v, x ∈ (mem.drop lo).take (hi - lo) := by
  unfold LoadU at h
  split_ifs at h
  cases h
  intro x hx
  have e : (mem.drop i).take N = ((mem.drop lo).drop (i - lo)).take N := by
    rw [List.drop_drop]; congr 2; omega
  rw [e] at hx
  have hsub : (((mem.drop lo).drop (i - lo)).take N).Sublist ((mem.drop lo).take (hi - lo)) := by
    have h1 : ((mem.drop lo).take (hi - lo)).drop (i - lo)
        = ((mem.drop lo).drop (i - lo)).take (hi - lo - (i - lo)) := by
      rw [List.drop_take]
    have h2 : (((mem.drop lo).drop (i - lo)).take N)
        = ((((mem.drop lo).drop (i - lo)).take (hi - lo - (i - lo))).take N) := by
      rw [List.take_take, min_eq_left (by omega)]
    rw [h2, ← h1]
    exact (List.take_sublist _ _).trans (List.drop_sublist _ _)
  exact hsub.subset hx

theorem RecursiveMedianOf3.vectors_sel (o : Order) (Q : α → Prop) (N num : Nat)
    (keys : List α) (hQ : ∀ x ∈ keys, Q x) :
    ∀ (fuel read : Nat) (out : List α) (r : Nat × List α), (∀ x ∈ out, Q x) →
      RecursiveMedianOf3.vectors o N num keys fuel read out = some r → ∀ x ∈ r.2, Q x := by
  intro fuel
  induction fuel with
  | zero => intro _ _ _ _ h; simp [RecursiveMedianOf3.vectors] at h
  | succ fuel ih =>
    intro read out r ho h
    rw [RecursiveMedianOf3.vectors] at h
    split_ifs at h
    · simp only [Option.bind_eq_bind, Option.bind_eq_some] at h
      obtain ⟨v0, h0, v1, h1, v2, h2, h⟩ := h
      refine ih _ _ r ?_ h
      intro x hx
      rcases List.mem_append.1 hx with hx | hx
      · exact ho x hx
      · exact MedianOf3_sel o Q v0 v1 v2 (LoadU_sel Q _ _ _ _ h0 hQ)
          (LoadU_sel Q _ _ _ _ h1 hQ) (LoadU_sel Q _ _ _ _ h2 hQ) x hx
    · cases h; exact ho

theorem RecursiveMedianOf3.singles_sel (o : Order) (Q : α → Prop) (num : Nat)
    (keys : List α) (hQ : ∀ x ∈ keys, Q x) :
    ∀ (fuel read : Nat) (out : List α) (r : Nat × List α), (∀ x ∈ out, Q x) →
      RecursiveMedianOf3.singles o num keys fuel read out = some r → ∀ x ∈ r.2, Q x := by
  intro fuel
  induction fuel with
  | zero => intro _ _ _ _ h; simp [RecursiveMedianOf3.singles] at h
  | succ fuel ih =>
    intro read out r ho h
    rw [RecursiveMedianOf3.singles] at h
    split_ifs at h
    · simp only [Option.bind_eq_bind, Option.bind_eq_some] at h
      obtain ⟨v0, h0, v1, h1, v2, h2, h⟩ := h
      refine ih _ _ r ?_ h
      intro x hx
      rcases List.mem_append.1 hx with hx | hx
      · exact ho x hx
      · simp only [List.mem_singleton] at hx
        rw [hx]
        exact MedianOf3Lane_sel o Q (hQ _ (List.getElem?_mem h0))
          (hQ _ (List.getElem?_mem h1)) (hQ _ (List.getElem?_mem h2))
    · cases h; exact ho

/-- The key that `RecursiveMedianOf3` broadcasts is one of the keys it was given. -/
theorem RecursiveMedianOf3_sel (o : Order) (Q : α → Prop) (N : Nat) :
    ∀ (fuel : Nat) (keys : List α) (num : Nat) (p : α), (∀ x ∈ keys, Q x) →
      RecursiveMedianOf3 o N fuel keys num = some (SetKey N p) → 0 < N → Q p := by
  intro fuel
  induction fuel with
  | zero => intro _ _ _ _ h; simp [RecursiveMedianOf3] at h
  | succ fuel ih =>
    intro keys num p hQ h hN
    rw [RecursiveMedianOf3] at h
    split_ifs at h
    · simp only [Option.bind_eq_bind, Option.bind_eq_some, Option.pure_def,
        Option.some.injEq] at h
      obtain ⟨v0, h0, h⟩ := h
      rw [← SetKey_inj hN h]
      exact hQ _ (List.getElem?_mem h0)
    · simp only [Option.bind_eq_bind, Option.bind_eq_some] at h
      obtain ⟨r1, h1, r2, h2, h⟩ := h
      refine ih _ _ p ?_ h hN
      exact RecursiveMedianOf3.singles_sel o Q num keys hQ _ _ _ r2
        (RecursiveMedianOf3.vectors_sel o Q N num keys hQ _ _ _ r1 (by simp) h1) h2

theorem ChoosePivot.sample_sel (o : Order) (Q : α → Prop) (N lpc : Nat) (hN : 0 < N)
    (hdvd : N ∣ lpc) (keys : List α) (base : Nat) (ofs : Nat → Nat)
    (hQ : ∀ j i v, i + N ≤ lpc → LoadU N keys (base + ofs j + i) = some v → ∀ x ∈ v, Q x) :
    ∀ (fuel i : Nat) (m0 m1 m2 : List α) (r : List α × List α × List α), N ∣ i →
      (∀ x ∈ m0, Q x) → (∀ x ∈ m1, Q x) → (∀ x ∈ m2, Q x) →
      ChoosePivot.sample o N lpc keys base ofs fuel i m0 m1 m2 = some r →
      (∀ x ∈ r.1, Q x) ∧ (∀ x ∈ r.2.1, Q x) ∧ (∀ x ∈ r.2.2, Q x) := by
  intro fuel
  induction fuel with
  | zero => intro _ _ _ _ _ _ _ _ _ h; simp [ChoosePivot.sample] at h
  | succ fuel ih =>
    intro i m0 m1 m2 r hdi h0 h1 h2 h
    rw [ChoosePivot.sample] at h
    by_cases hc : i < lpc
    · have hstep : i + N ≤ lpc := by
        obtain ⟨a, rfl⟩ := hdi
        obtain ⟨b, rfl⟩ := hdvd
        have hab : a < b := by
          by_contra hh
          have : N * b ≤ N * a := Nat.mul_le_mul_left _ (by omega)
          omega
        calc N * a + N = N * (a + 1) := by ring
          _ ≤ N * b := Nat.mul_le_mul_left _ hab
      rw [if_pos hc] at h
      simp only [Option.bind_eq_bind, Option.bind_eq_some] at h
      obtain ⟨v0, e0, v1, e1, v2, e2, v3, e3, v4, e4, v5, e5, v6, e6, v7, e7, v8, e8, h⟩ := h
      have app : ∀ (m a b c : List α), (∀ x ∈ m, Q x) → (∀ x ∈ a, Q x) → (∀ x ∈ b, Q x) →
          (∀ x ∈ c, Q x) → ∀ x ∈ m ++ MedianOf3 o a b c, Q x := by
        intro m a b c hm ha hb hc x hx
        rcases List.mem_append.1 hx with hx | hx
        · exact hm x hx
        · exact MedianOf3_sel o Q a b c ha hb hc x hx
      exact ih _ _ _ _ r (Dvd.dvd.add hdi (dvd_refl _))
        (app _ _ _ _ h0 (hQ 0 i v0 hstep e0) (hQ 1 i v1 hstep e1) (hQ 2 i v2 hstep e2))
        (app _ _ _ _ h1 (hQ 3 i v3 hstep e3) (hQ 4 i v4 hstep e4) (hQ 5 i v5 hstep e5))
        (app _ _ _ _ h2 (hQ 6 i v6 hstep e6) (hQ 7 i v7 hstep e7) (hQ 8 i v8 hstep e8)) h
    · rw [if_neg hc] at h
      cases h
      exact ⟨h0, h1, h2⟩

theorem ChoosePivot.tail_sel (t : Target α) (o : Order) (Q : α → Prop) (hN : 0 < t.lanes)
    (lpc : Nat) (hdvd : t.lanes ∣ lpc) (keys : List α) (base : Nat) (ofs : Nat → Nat)
    (hQ : ∀ j i v, i + t.lanes ≤ lpc → LoadU t.lanes keys (base + ofs j + i) = some v →
      ∀ x ∈ v, Q x) (rng rng' : Generator) (p : α)
    (h : ((ChoosePivot.sample o t.lanes lpc keys base ofs (lpc + 1) 0 [] [] []).bind fun x =>
        (RecursiveMedianOf3 o t.lanes (3 * lpc + 1) (x.1 ++ x.2.1 ++ x.2.2) (3 * lpc)).bind
          fun pivot => some (pivot, rng)) = some (SetKey t.lanes p, rng')) : Q p := by
  simp only [Option.bind_eq_some] at h
  obtain ⟨r, hr, piv, hp, e⟩ := h
  simp only [Option.some.injEq, Prod.mk.injEq] at e
  obtain ⟨hs0, hs1, hs2⟩ := ChoosePivot.sample_sel o Q t.lanes lpc hN hdvd keys base ofs hQ
    (lpc + 1) 0 [] [] [] r (dvd_zero _) (by simp) (by simp) (by simp) hr
  rw [e.1] at hp
  refine RecursiveMedianOf3_sel o Q t.lanes _ _ _ p ?_ hp hN
  intro x hx
  simp only [List.mem_append] at hx
  rcases hx with (hx | hx) | hx
  · exact hs0 x hx
  · exact hs1 x hx
  · exact hs2 x hx

/-- The pivot that `ChoosePivot` returns is a key of the range `[begin, end_)`. -/
theorem ChoosePivot_mem (t : Target α) (o : Order) (hV : t.Valid) (addr : Nat)
    (keys : List α) (begin end_ : Nat) (rng rng' : Generator) (p : α)
    (hnum : 2 * LanesPerChunk t.sizeofT t.lanes ≤ end_ - begin)
    (h : ChoosePivot t o addr keys begin end_ rng = some (SetKey t.lanes p, rng')) :
    p ∈ (keys.drop begin).take (end_ - begin) := by
  obtain ⟨hpos, h32, ⟨j, hj5, hj, hctz⟩, hdvd, _, _, _, _⟩ := hV.facts
  unfold ChoosePivot at h
  simp only [hctz, Option.bind_eq_bind, Option.pure_def] at h
  rw [hj] at hnum hdvd h
  have hlpos : 0 < 2 ^ j := Nat.pos_pow_of_pos _ (by omega)
  have key : ∀ (base num : Nat), base + num = end_ → 2 ^ j ≤ num → ∀ bits, bits < 2 ^ 32 →
      base + (RandomChunkIndex (min (num >>> j) 0xFFFFFFFF) bits <<< j) + 2 ^ j ≤ end_ := by
    intro base num hb hn bits hbits
    rw [Nat.shiftRight_eq_div_pow]
    have h1 : 0 < num / 2 ^ j := Nat.div_pos hn hlpos
    have hlt := RandomChunkIndex_lt (min (num / 2 ^ j) 0xFFFFFFFF) bits hbits
      (by rw [Nat.lt_min]; exact ⟨h1, by norm_num⟩)
      (lt_of_le_of_lt (min_le_right _ _) (by norm_num))
    have hle : RandomChunkIndex (min (num / 2 ^ j) 0xFFFFFFFF) bits + 1 ≤ num / 2 ^ j := by
      have := min_le_left (num / 2 ^ j) 0xFFFFFFFF
      omega
    rw [Nat.shiftLeft_eq]
    have h2 : (RandomChunkIndex (min (num / 2 ^ j) 0xFFFFFFFF) bits + 1) * 2 ^ j
        ≤ num / 2 ^ j * 2 ^ j := Nat.mul_le_mul_right _ hle
    have h3 : num / 2 ^ j * 2 ^ j ≤ num := Nat.div_mul_le_self _ _
    rw [Nat.add_mul] at h2
    omega
  have hbits : ∀ (l : List Nat) (i : Nat),
      (if i % 2 = 0 then l[i / 2]! % 2 ^ 32 else (l[i / 2]! >>> 32) % 2 ^ 32) < 2 ^ 32 := by
    intro l i
    split_ifs <;> exact Nat.mod_lt _ (by norm_num)
  have hmis : (addr + begin * t.sizeofT) / t.sizeofT &&& (2 ^ j - 1) ≤ 2 ^ j - 1 :=
    Nat.and_le_right
  generalize [rng.next.1, rng.next.2.next.1, rng.next.2.next.2.next.1,
    rng.next.2.next.2.next.2.next.1, rng.next.2.next.2.next.2.next.2.next.1] = l at h
  by_cases hm : (addr + begin * t.sizeofT) / t.sizeofT &&& (2 ^ j - 1) = 0
  · simp only [hm, ne_eq, not_true_eq_false, if_false] at h
    refine ChoosePivot.tail_sel t o _ hpos (2 ^ j) hdvd keys begin _ ?_ _ _ p h
    intro i k v hk hv
    have := key begin (end_ - begin) (by omega) (by omega) _ (hbits l i)
    exact LoadU_range t.lanes keys begin end_ _ v hv
      (by simp only [Nat.add_assoc]; exact Nat.le_add_right _ _) (by omega)
  · simp only [hm, ne_eq, not_false_eq_true, if_true] at h
    refine ChoosePivot.tail_sel t o _ hpos (2 ^ j) hdvd keys _ _ ?_ _ _ p h
    intro i k v hk hv
    have := key (begin + (2 ^ j - ((addr + begin * t.sizeofT) / t.sizeofT &&& (2 ^ j - 1))))
        (end_ - begin - (2 ^ j - ((addr + begin * t.sizeofT) / t.sizeofT &&& (2 ^ j - 1))))
        (by omega) (by omega) _ (hbits l i)
    exact LoadU_range t.lanes keys begin end_ _ v hv
      (by simp only [Nat.add_assoc]; exact Nat.le_add_right _ _) (by omega)

theorem Globals.after_unit (g : Globals α) (d : Int) (h : d ≤ g.max_depth) :
    g.after ⟨d, [], 0, []⟩ = g := by
  cases g
  simp only [Globals.after, List.append_nil, Nat.add_zero, Globals.mk.injEq, and_true]
  exact max_eq_left h

theorem Recurse.side_tracks (t : Target α) (o : Order) (addr keys_end : Nat)
    (recurse : List α → Nat → Nat → List α → Generator → Globals α →
      Option (List α × Generator × Globals α)) (d top : Int) (hd : d ≤ top)
    (hrec : ∀ keys lo hi p rng,
      Tracks (fun g => g.depth = d + 1) (recurse keys lo hi p rng) (d + 1) top)
    (keys : List α) (lo hi : Nat) (num_side : Int) (rng : Generator) :
    Tracks (fun g => g.depth = d ∧ d ≤ g.max_depth)
      (Recurse.side t o addr keys_end recurse keys lo hi num_side rng) d top := by
  unfold Tracks Recurse.side
  by_cases hb : num_side ≤ ((BaseCaseNum t.lanes : Nat) : Int)
  · simp only [hb, if_true]
    cases hB : BaseCase t o keys lo keys_end num_side.toNat with
    | none => exact ⟨none, fun g _ => by simp, by simp⟩
    | some k =>
      refine ⟨some (k, rng, ⟨d, [], 0, []⟩), fun g hg => ?_, ?_⟩
      · simp only [Option.some_bind, Option.bind_eq_bind, Option.pure_def, Option.map_some']
        rw [Globals.after_unit g d hg.2]
      · intro x hx
        cases hx
        exact ⟨le_refl _, hd⟩
  · simp only [hb, if_false]
    cases hC : ChoosePivot t o addr keys lo hi rng with
    | none => exact ⟨none, fun g _ => by simp, by simp⟩
    | some pr =>
      obtain ⟨p, rng2⟩ := pr
      obtain ⟨res, h, hbd⟩ := hrec keys lo hi p rng2
      cases res with
      | none =>
        refine ⟨none, fun g hg => ?_, by simp⟩
        simp only [Option.some_bind, Option.bind_eq_bind]
        rw [h _ (by simp only [hg.1])]
        simp
      | some x =>
        obtain ⟨k, r, x⟩ := x
        refine ⟨some (k, r, ⟨x.md, x.ev, x.hs, (rng, p) :: x.ch⟩), fun g hg => ?_, ?_⟩
        · simp only [Option.some_bind, Option.bind_eq_bind]
          rw [h _ (by simp only [hg.1])]
          simp only [Option.map_some', Option.some_bind, Option.pure_def, Option.some.injEq,
            Prod.mk.injEq, true_and, Globals.after, List.append_assoc, List.singleton_append,
            Globals.mk.injEq, and_true]
          omega
        · intro y hy
          cases hy
          have := hbd _ rfl
          exact ⟨by simp only at this ⊢; omega, this.2⟩

/-- `Recurse` entered at depth `d` with `rl` remaining levels returns the same keys and
generator whatever the other globals are, and is never nested deeper than `d + rl`. -/
theorem Recurse_tracks (t : Target α) (o : Order) (addr keys_end : Nat) :
    ∀ (rl : Nat) (d : Int) (keys : List α) (begin end_ : Nat) (pivot : List α)
      (rng : Generator),
      Tracks (fun g => g.depth = d) (Recurse t o addr keys_end rl keys begin end_ pivot rng)
        d (d + rl) := by
  intro rl
  induction rl with
  | zero =>
    intro d keys begin end_ pivot rng
    cases hH : HeapSort o (keys.drop begin) (end_ - begin) with
    | none =>
      refine ⟨none, fun g _ => ?_, by simp⟩
      rw [Recurse]
      simp [hH]
    | some sorted =>
      refine ⟨some (keys.take begin ++ sorted, rng,
        ⟨d, [Event.heapsort d (end_ - begin)], 1, []⟩), fun g hg => ?_, ?_⟩
      · rw [Recurse]
        simp only [hH, Option.some_bind, Option.bind_eq_bind, Option.pure_def,
          Option.map_some', Globals.after, hg, List.append_nil]
      · intro x hx
        cases hx
        simp
  | succ rl ih =>
    intro d keys begin end_ pivot rng
    have hside := fun (keys : List α) (lo hi : Nat) (ns : Int) (rng : Generator) =>
      Recurse.side_tracks t o addr keys_end (Recurse t o addr keys_end rl) d (d + (rl + 1 : Nat))
        (by omega) (fun keys lo hi p rng => by
          have := ih (d + 1) keys lo hi p rng
          have e : d + 1 + (rl : Int) = d + ((rl + 1 : Nat) : Int) := by push_cast; ring
          rw [e] at this
          exact this) keys lo hi ns rng
    cases hP : Partition t o keys begin end_ pivot with
    | none =>
      refine ⟨none, fun g _ => ?_, by simp⟩
      rw [Recurse]
      simp [hP]
    | some pb =>
      obtain ⟨keys1, bound⟩ := pb
      by_cases hnr : (end_ : Int) - (bound : Int) = 0
      · cases hS : ScanMinMax t o keys1 begin (end_ - begin) with
        | none =>
          refine ⟨none, fun g _ => ?_, by simp⟩
          rw [Recurse]
          simp [hP, hnr, hS]
        | some fl =>
          obtain ⟨first, last⟩ := fl
          by_cases hfl : first = last
          · refine ⟨some (keys1, rng, ⟨d, [], 0, []⟩), fun g hg => ?_, ?_⟩
            · rw [Recurse]
              simp only [hP, hnr, hS, hfl, Option.some_bind, Option.bind_eq_bind, if_true,
                Option.pure_def, Option.map_some', Globals.after, hg, List.append_nil,
                Nat.add_zero]
            · intro x hx
              cases hx
              simp only [le_refl, true_and]
              omega
          · obtain ⟨res, h, hbd⟩ := ih (d + 1) keys1 begin end_ first rng
            cases res with
            | none =>
              refine ⟨none, fun g hg => ?_, by simp⟩
              rw [Recurse]
              simp only [hP, hnr, hS, hfl, Option.some_bind, Option.bind_eq_bind, if_true,
                if_false]
              rw [h _ (by simp only [hg])]
              simp
            | some x =>
              obtain ⟨k, r, x⟩ := x
              refine ⟨some (k, r, ⟨max d x.md, x.ev, x.hs, x.ch⟩), fun g hg => ?_, ?_⟩
              · rw [Recurse]
                simp only [hP, hnr, hS, hfl, Option.some_bind, Option.bind_eq_bind, if_true,
                  if_false]
                rw [h _ (by simp only [hg])]
                simp only [Option.map_some', Option.some_bind, Option.pure_def,
                  Option.some.injEq, Prod.mk.injEq, true_and, Globals.after,
                  Globals.mk.injEq, and_true, hg, max_assoc]
                omega
              · intro y hy
                cases hy
                have := hbd _ rfl
                simp only at this ⊢
                push_cast
                omega
      · obtain ⟨res1, h1, hb1⟩ := hside keys1 begin bound ((bound : Int) - (begin : Int)) rng
        cases res1 with
        | none =>
          refine ⟨none, fun g hg => ?_, by simp⟩
          rw [Recurse]
          simp only [hP, hnr, Option.some_bind, Option.bind_eq_bind, if_false]
          rw [h1 _ ⟨by simp only [hg], by simp only [hg]; exact le_max_right _ _⟩]
          simp
        | some x1 =>
          obtain ⟨k1, r1, x1⟩ := x1
          obtain ⟨res2, h2, hb2⟩ := hside k1 bound end_ ((end_ : Int) - (bound : Int)) r1
          have hg1 : ∀ g : Globals α, g.depth = d →
              (fun g => g.depth = d ∧ d ≤ g.max_depth)
                (Globals.after { g with max_depth := max g.max_depth g.depth } x1) := by
            intro g hg
            simp only [Globals.after, hg, true_and]
            exact le_trans (le_max_right _ _) (le_max_left _ _)
          cases res2 with
          | none =>
            refine ⟨none, fun g hg => ?_, by simp⟩
            rw [Recurse]
            simp only [hP, hnr, Option.some_bind, Option.bind_eq_bind, if_false]
            rw [h1 _ ⟨by simp only [hg], by simp only [hg]; exact le_max_right _ _⟩]
            simp only [Option.map_some', Option.some_bind]
            rw [h2 _ (hg1 g hg)]
            simp
          | some x2 =>
            obtain ⟨k2, r2, x2⟩ := x2
            refine ⟨some (k2, r2, ⟨max d (max x1.md x2.md), x1.ev ++ x2.ev, x1.hs + x2.hs,
              x1.ch ++ x2.ch⟩), fun g hg => ?_, ?_⟩
            · rw [Recurse]
              simp only [hP, hnr, Option.some_bind, Option.bind_eq_bind, if_false]
              rw [h1 _ ⟨by simp only [hg], by simp only [hg]; exact le_max_right _ _⟩]
              simp only [Option.map_some', Option.some_bind]
              rw [h2 _ (hg1 g hg)]
              simp only [Option.map_some', Option.some.injEq, Prod.mk.injEq, true_and,
                Globals.after, Globals.mk.injEq, and_true, hg, max_assoc, List.append_assoc,
                Nat.add_assoc]
            · intro y hy
              cases hy
              have := hb1 _ rfl
              have := hb2 _ rfl
              simp only at *
              push_cast at *
              omega

theorem HandleSpecialCases_tracks (t : Target α) (o : Order) (keys : List α) (num : Nat) :
    ∃ res : Option (Bool × List α × Nat),
      (∀ g, HandleSpecialCases t o keys num g = res.map fun x =>
        (x.1, x.2.1, { g with heapSortCalls := g.heapSortCalls + x.2.2 })) ∧
      ∀ x, res = some x → x.1 = false → x.2.1 = keys ∧ x.2.2 = 0 := by
  unfold HandleSpecialCases
  by_cases hh : (decide (t.maxBytes / t.sizeofT > kMaxRows * kMaxCols) &&
      decide (2 * t.lanes > BaseCaseNum t.lanes)) = true
  · simp only [hh, if_true]
    cases hH : HeapSort o keys num with
    | none => exact ⟨none, fun g => by simp, by simp⟩
    | some k =>
      refine ⟨some (true, k, 1), fun g => by simp, ?_⟩
      intro x hx hf
      cases hx
      simp at hf
  · simp only [hh, if_false]
    by_cases hb : num ≤ BaseCaseNum t.lanes
    · simp only [hb, if_true]
      cases hB : BaseCase t o keys 0 num num with
      | none => exact ⟨none, fun g => by simp, by simp⟩
      | some k =>
        refine ⟨some (true, k, 0), fun g => by simp, ?_⟩
        intro x hx hf
        cases hx
        simp at hf
    · simp only [hb, if_false]
      refine ⟨some (false, keys, 0), fun g => by simp, ?_⟩
      intro x hx _
      cases hx
      exact ⟨rfl, rfl⟩

theorem SortBody_tracks (t : Target α) (o : Order) (addr : Nat) (keys : List α) (num : Nat)
    (reentry : Target α → List α → Globals α → Option (List α × Globals α))
    (hre : ∀ t2 keys2, SortTracks (reentry t2 keys2) (2 * CeilLog2 num + 5)) :
    SortTracks (fun g => SortBody t o addr keys num g reentry) (2 * CeilLog2 num + 5) := by
  unfold SortTracks SortBody
  by_cases hen : t.vqsortEnabled = true
  · simp only [if_pos hen]
    obtain ⟨resH, hH, hHf⟩ := HandleSpecialCases_tracks t o keys num
    cases resH with
    | none => exact ⟨none, fun g => by rw [hH]; simp, by simp⟩
    | some x =>
      obtain ⟨done, k, n⟩ := x
      cases done with
      | true =>
        refine ⟨some (k, ⟨-1, [], n, []⟩), fun g => ?_, ?_⟩
        · rw [hH]
          simp [Globals.after, Globals.reset]
        · intro x hx
          cases hx
          exact Or.inl rfl
      | false =>
        obtain ⟨hk, hn⟩ := hHf _ rfl rfl
        simp only at hk hn
        subst k n
        by_cases hcap : t.maxBytes > 64 ∧ t.lanes > 64 / t.sizeofT
        · obtain ⟨res2, h2, hb2⟩ := hre { t with lanes := min (64 / t.sizeofT) t.fullLanes } keys
          refine ⟨res2, fun g => ?_, hb2⟩
          rw [hH]
          simp only [Option.map_some', Option.some_bind, Option.bind_eq_bind,
            Bool.false_eq_true, if_false, hcap, and_self, if_true, Nat.add_zero]
          rw [h2]
          rfl
        · cases hC : ChoosePivot t o addr keys 0 num
            { a := (t.Fill24Bytes addr num).1, b := (t.Fill24Bytes addr num).2.1,
              w := (t.Fill24Bytes addr num).2.2, k := 1 } with
          | none =>
            refine ⟨none, fun g => ?_, by simp⟩
            rw [hH]
            simp [hcap, hC]
          | some pr =>
            obtain ⟨pivot, rng2⟩ := pr
            obtain ⟨resR, hR, hbR⟩ := Recurse_tracks t o addr num (2 * CeilLog2 num + 4) 1
              keys 0 num pivot rng2
            cases resR with
            | none =>
              refine ⟨none, fun g => ?_, by simp⟩
              rw [hH]
              simp only [Option.map_some', Option.some_bind, Option.bind_eq_bind,
                Bool.false_eq_true, if_false, hcap, hC, Nat.add_zero]
              rw [hR (Globals.mk (-1) 1 g.out g.heapSortCalls (g.choices ++
                  [(Generator.mk (t.Fill24Bytes addr num).1 (t.Fill24Bytes addr num).2.1
                    (t.Fill24Bytes addr num).2.2 1, pivot)])) rfl]
              simp
            | some x =>
              obtain ⟨k, r, x⟩ := x
              refine ⟨some (k, ⟨x.md, x.ev ++ [Event.maxDepth (max (-1) x.md)], x.hs,
                ({ a := (t.Fill24Bytes addr num).1, b := (t.Fill24Bytes addr num).2.1,
                   w := (t.Fill24Bytes addr num).2.2, k := 1 }, pivot) :: x.ch⟩),
                fun g => ?_, ?_⟩
              · rw [hH]
                simp only [Option.map_some', Option.some_bind, Option.bind_eq_bind,
                  Bool.false_eq_true, if_false, hcap, hC, Nat.add_zero]
                rw [hR (Globals.mk (-1) 1 g.out g.heapSortCalls (g.choices ++
                  [(Generator.mk (t.Fill24Bytes addr num).1 (t.Fill24Bytes addr num).2.1
                    (t.Fill24Bytes addr num).2.2 1, pivot)])) rfl]
                simp [Globals.after, Globals.reset]
              · intro y hy
                cases hy
                have := hbR _ rfl
                simp only at this ⊢
                push_cast at this
                right
                omega
  · simp only [if_neg hen]
    cases hH : HeapSort o keys num with
    | none => exact ⟨none, fun g => by simp, by simp⟩
    | some k =>
      refine ⟨some (k, ⟨-1, [], 1, []⟩), fun g => by simp [Globals.after, Globals.reset], ?_⟩
      intro x hx
      cases hx
      exact Or.inl rfl

/-- The result of `Sort` is independent of the incoming globals, which it resets; the
nesting depth it records is `-1` or between `1` and `2 * CeilLog2 num + 5`. -/
theorem Sort_tracks (t : Target α) (o : Order) (addr : Nat) (keys : List α) (num : Nat) :
    SortTracks (Sort' t o addr keys num) (2 * CeilLog2 num + 5) := by
  unfold Sort'
  exact SortBody_tracks t o addr keys num _ fun t2 keys2 =>
    SortBody_tracks t2 o addr keys2 num _ fun _ _ => ⟨none, fun _ => rfl, by simp⟩

theorem Compare_irrefl (o : Order) (a : α) : Compare o a a = false := by
  cases o <;> simp [Compare]

theorem eq_of_perm_allEq {c : α} {M P : List α} (hall : ∀ x ∈ M, x = c) (hp : P.Perm M) :
    P = M := by
  have h1 : M = List.replicate M.length c := List.eq_replicate_iff.2 ⟨rfl, hall⟩
  have h2 : P = List.replicate M.length c :=
    List.eq_replicate_iff.2 ⟨hp.length_eq, fun x hx => hall x (hp.subset hx)⟩
  rw [h2]
  exact h1.symm

theorem SortedResult.allEqual {o : Order} {keys keys' : List α} {num : Nat} {c : α}
    (h : SortedResult o keys keys' num) (hall : ∀ x ∈ keys.take num, x = c) : keys' = keys := by
  rw [← List.take_append_drop num keys', ← List.take_append_drop num keys, h.1,
    eq_of_perm_allEq hall h.2.1]

/-- Partitioning a range of equal keys around that key moves nothing and returns the end of
the range. -/
theorem Partition_allEqual (t : Target α) (o : Order) (c : α) (hN : ∃ k, t.lanes = 2 ^ k)
    (A M B : List α) (hM : 2 * t.lanes < M.length) (hall : ∀ x ∈ M, x = c) :
    Partition t o (A ++ (M ++ B)) A.length (A.length + M.length) (SetKey t.lanes c)
      = some (A ++ (M ++ B), A.length + M.length) := by
  obtain ⟨P, S, e, _, hS, hperm⟩ := Partition_spec t o c hN A M B hM
  have hS0 : S = [] := by
    cases S with
    | nil => rfl
    | cons x S =>
      have hx : x ∈ M := hperm.subset (List.mem_append_right _ (List.mem_cons_self _ _))
      have h1 := hS x (List.mem_cons_self _ _)
      rw [hall x hx, Compare_irrefl] at h1
      cases h1
  subst hS0
  rw [List.append_nil] at hperm
  have hP := eq_of_perm_allEq hall hperm
  subst hP
  rw [e, List.nil_append]

theorem ScanMinMax_allEqual (t : Target α) (o : Order) (c : α) (hN : 0 < t.lanes)
    (A M B : List α) (h1 : t.lanes ≤ M.length) (hall : ∀ x ∈ M, x = c) :
    ScanMinMax t o (A ++ (M ++ B)) A.length M.length
      = some (SetKey t.lanes c, SetKey t.lanes c) := by
  obtain ⟨f, l, e, hf, hl, _⟩ := ScanMinMax_spec t o hN A M B M.length h1 (le_refl _)
  rw [List.take_length] at hf hl
  rw [e, hall f hf, hall l hl]

/-- On a range of equal keys with that key as pivot, `Recurse` with at least one remaining
level returns after one partition and one scan, leaving keys and generator as they were. -/
theorem Recurse_allEqual (t : Target α) (o : Order) (hV : t.Valid) (addr keys_end : Nat)
    (c : α) (A M B : List α) (hM : BaseCaseNum t.lanes < M.length) (hall : ∀ x ∈ M, x = c)
    (rl : Nat) (rng : Generator) (g : Globals α) :
    Recurse t o addr keys_end (rl + 1) (A ++ (M ++ B)) A.length (A.length + M.length)
        (SetKey t.lanes c) rng g
      = some (A ++ (M ++ B), rng, { g with max_depth := max g.max_depth g.depth }) := by
  obtain ⟨hpos, _, _, _, h2N, _, _, _⟩ := hV.facts
  rw [Recurse]
  simp only [Option.bind_eq_bind]
  rw [Partition_allEqual t o c hV.1 A M B (by omega) hall]
  simp only [Option.some_bind, sub_self, if_true, Nat.add_sub_cancel_left]
  rw [ScanMinMax_allEqual t o c hpos A M B (by omega) hall]
  simp only [Option.some_bind, if_true, Option.pure_def]

theorem HandleSpecialCases_not_huge (t : Target α) (o : Order) (keys : List α) (num : Nat)
    (g : Globals α)
    (hnh : ¬ (t.maxBytes / t.sizeofT > kMaxRows * kMaxCols ∧ 2 * t.lanes > BaseCaseNum t.lanes)) :
    HandleSpecialCases t o keys num g =
      if num ≤ BaseCaseNum t.lanes then (BaseCase t o keys 0 num num).map fun k => (true, k, g)
      else some (false, keys, g) := by
  unfold HandleSpecialCases
  have hh : (decide (t.maxBytes / t.sizeofT > kMaxRows * kMaxCols) &&
      decide (2 * t.lanes > BaseCaseNum t.lanes)) = false := by
    rw [Bool.and_eq_false_iff, decide_eq_false_iff_not, decide_eq_false_iff_not]
    by_cases h1 : t.maxBytes / t.sizeofT > kMaxRows * kMaxCols
    · exact Or.inr fun h2 => hnh ⟨h1, h2⟩
    · exact Or.inl h1
  simp only [hh, Bool.false_eq_true, if_false]
  split_ifs
  · cases BaseCase t o keys 0 num num <;> rfl
  · rfl

/-- On equal keys `HandleSpecialCases` leaves keys and globals as they are when the vectors
are not huge; it reports the sort finished exactly when the base case applies. -/
theorem HandleSpecialCases_allEqual (t : Target α) (o : Order) (hpos : 0 < t.lanes)
    (hfull : t.lanes ≤ t.fullLanes)
    (hnh : ¬ (t.maxBytes / t.sizeofT > kMaxRows * kMaxCols ∧ 2 * t.lanes > BaseCaseNum t.lanes))
    (keys : List α) (num : Nat) (g : Globals α) (hnum : num ≤ keys.length) (c : α)
    (hall : ∀ x ∈ keys.take num, x = c) :
    HandleSpecialCases t o keys num g = some (decide (num ≤ BaseCaseNum t.lanes), keys, g) := by
  rcases HandleSpecialCases_spec t o hpos hfull keys num g hnum with ⟨k', g', e, hr⟩ | ⟨e, hlt⟩
  · have hk := hr.allEqual hall
    subst hk
    rw [HandleSpecialCases_not_huge t o k' num _ hnh] at e ⊢
    by_cases hb : num ≤ BaseCaseNum t.lanes
    · rw [if_pos hb] at e ⊢
      cases hB : BaseCase t o k' 0 num num with
      | none => rw [hB] at e; simp at e
      | some k =>
        rw [hB] at e
        simp only [Option.map_some', Option.some.injEq, Prod.mk.injEq, true_and] at e
        simp only [Option.map_some', e.1, hb, decide_True]
    · rw [if_neg hb] at e
      simp at e
  · rw [e]
    have hb : ¬ num ≤ BaseCaseNum t.lanes := by omega
    simp only [hb, decide_False]

theorem SortBody_allEqual (t : Target α) (o : Order) (hV : t.Valid)
    (hcap : ¬ (t.maxBytes > 64 ∧ t.lanes > 64 / t.sizeofT)) (hen : t.vqsortEnabled = true)
    (addr : Nat) (keys : List α) (num : Nat) (g : Globals α)
    (reentry : Target α → List α → Globals α → Option (List α × Globals α))
    (hnum : num ≤ keys.length) (c : α) (hall : ∀ x ∈ keys.take num, x = c) :
    ∃ g', SortBody t o addr keys num g reentry = some (keys, g') ∧
      g'.heapSortCalls = g.heapSortCalls := by
  obtain ⟨hpos, h32, _, _, h2N, h2lpc, hbc, _⟩ := hV.facts
  unfold SortBody
  simp only [hen, if_true]
  rw [HandleSpecialCases_allEqual t o hpos hV.2.2.2.2 (fun h => by omega) keys num _ hnum c hall]
  by_cases hb : num ≤ BaseCaseNum t.lanes
  · simp only [hb, decide_True, Option.some_bind, Option.bind_eq_bind, if_true, Option.pure_def]
    exact ⟨_, rfl, rfl⟩
  · simp only [hb, decide_False, Option.some_bind, Option.bind_eq_bind, Bool.false_eq_true,
      if_false, hcap]
    obtain ⟨p, rng1, e1⟩ := ChoosePivot_spec t o hV addr keys 0 num
      { a := (t.Fill24Bytes addr num).1, b := (t.Fill24Bytes addr num).2.1,
        w := (t.Fill24Bytes addr num).2.2, k := 1 } hnum (by omega)
    have hp := ChoosePivot_mem t o hV addr keys 0 num _ _ p (by omega) e1
    rw [List.drop_zero, Nat.sub_zero] at hp
    rw [hall p hp] at e1
    rw [e1]
    simp only [Option.some_bind]
    have hR := Recurse_allEqual t o hV addr num c [] (keys.take num) (keys.drop num)
      (by simp only [List.length_take]; omega) hall (2 * CeilLog2 num + 3) rng1
    simp only [List.nil_append, List.length_nil, Nat.zero_add, List.take_append_drop,
      List.length_take, min_eq_left hnum] at hR
    rw [show 2 * CeilLog2 num + 4 = 2 * CeilLog2 num + 3 + 1 from rfl, hR]
    exact ⟨_, rfl, rfl⟩

/-- On equal keys `Sort` returns the keys as they were without calling `HeapSort`, provided
vqsort is enabled and the vectors are not huge. -/
theorem Sort_allEqual (t : Target α) (o : Order) (hW : t.WellFormed)
    (hen : t.vqsortEnabled = true)
    (hnh : ¬ (t.maxBytes / t.sizeofT > kMaxRows * kMaxCols ∧ 2 * t.lanes > BaseCaseNum t.lanes))
    (addr : Nat) (keys : List α) (num : Nat) (g : Globals α)
    (hnum : num ≤ keys.length) (c : α) (hall : ∀ x ∈ keys.take num, x = c) :
    ∃ g', Sort' t o addr keys num g = some (keys, g') ∧
      g'.heapSortCalls = g.heapSortCalls := by
  unfold Sort'
  by_cases hcap : t.maxBytes > 64 ∧ t.lanes > 64 / t.sizeofT
  · have hpos : 0 < t.lanes := by
      obtain ⟨k, hk⟩ := hW.1
      rw [hk]
      exact Nat.pos_pow_of_pos _ (by omega)
    generalize hre : (fun (t2 : Target α) (keys2 : List α) (g2 : Globals α) =>
      SortBody t2 o addr keys2 num g2 fun _ _ _ => none) = reentry
    rw [SortBody, if_pos hen]
    rw [HandleSpecialCases_allEqual t o hpos hW.2.2.2.2.1 hnh keys num _ hnum c hall]
    by_cases hb : num ≤ BaseCaseNum t.lanes
    · simp only [hb, decide_True, Option.some_bind, Option.bind_eq_bind, if_true,
        Option.pure_def]
      exact ⟨_, rfl, rfl⟩
    · simp only [hb, decide_False, Option.some_bind, Option.bind_eq_bind, Bool.false_eq_true,
        if_false, hcap, and_self, if_true]
      obtain ⟨hV2, hcap2⟩ := hW.capped hcap
      rw [← hre]
      exact SortBody_allEqual _ o hV2 hcap2 hen addr keys num _ _ hnum c hall
  · exact SortBody_allEqual t o (hW.valid hcap) hcap hen addr keys num g _ hnum c hall

theorem leftOf_of_parts (o : Order) (p : α) (P S M : List α) (hP : allLeft o p P)
    (hS : allRight o p S) (hperm : (P ++ S).Perm M) : (leftOf o p M).length = P.length := by
  have h1 : (leftOf o p M).Perm (leftOf o p (P ++ S)) := (hperm.filter _).symm
  rw [h1.length_eq]
  unfold leftOf
  rw [List.filter_append]
  have e1 : P.filter (fun x => !Compare o p x) = P :=
    List.filter_eq_self.2 fun x hx => by rw [hP x hx]; rfl
  have e2 : S.filter (fun x => !Compare o p x) = [] :=
    List.filter_eq_nil_iff.2 fun x hx => by rw [hS x hx]; simp
  rw [e1, e2, List.append_nil]

/-- `Partition` in terms of indices into the whole array. -/
theorem Partition_index (t : Target α) (o : Order) (p : α) (hN : ∃ k, t.lanes = 2 ^ k)
    (keys : List α) (l r : Nat) (hr : r ≤ keys.length) (hlr : l + 2 * t.lanes < r) :
    ∃ keys' b, Partition t o keys l r (SetKey t.lanes p) = some (keys', b) ∧
      l ≤ b ∧ b ≤ r ∧ keys'.length = keys.length ∧
      keys'.take l = keys.take l ∧ keys'.drop r = keys.drop r ∧
      allLeft o p ((keys'.drop l).take (b - l)) ∧
      allRight o p ((keys'.drop b).take (r - b)) ∧
      ((keys'.drop l).take (r - l)).Perm ((keys.drop l).take (r - l)) ∧
      b - l = (leftOf o p ((keys.drop l).take (r - l))).length := by
  obtain ⟨A, rest, rfl, hA⟩ := split_at keys l (by omega)
  simp only [List.length_append] at hr
  obtain ⟨M, B, rfl, hM⟩ := split_at rest (r - l) (by omega)
  subst hA
  obtain rfl : r = A.length + M.length := by omega
  obtain ⟨P, S, e, hP, hS, hperm⟩ := Partition_spec t o p hN A M B (by omega)
  have hlen : P.length + S.length = M.length := by
    rw [← List.length_append]; exact hperm.length_eq
  refine ⟨_, _, e, by omega, by omega, ?_, ?_, ?_, ?_, ?_, ?_, ?_⟩
  · simp only [List.length_append]; omega
  · rw [List.take_left, List.take_left]
  · rw [List.drop_append, List.drop_append, ← List.append_assoc,
      List.drop_left' (by rw [List.length_append]; exact hlen), List.drop_left]
  · rw [List.drop_left, Nat.add_sub_cancel_left, List.take_left]
    exact hP
  · rw [List.drop_append, List.drop_left,
      show A.length + M.length - (A.length + P.length) = S.length by omega, List.take_left]
    exact hS
  · rw [List.drop_left, List.drop_left, Nat.add_sub_cancel_left, ← List.append_assoc,
      List.take_left' (by rw [List.length_append]; exact hlen), List.take_left]
    exact hperm
  · rw [List.drop_left, Nat.add_sub_cancel_left, Nat.add_sub_cancel_left, List.take_left]
    exact (leftOf_of_parts o p P S M hP hS hperm).symm

theorem StoreU_frame (v mem mem' : List α) (i : Nat) (h : StoreU v mem i = some mem') :
    mem'.length = mem.length ∧ mem'.take i = mem.take i ∧
      ∀ j, i + v.length ≤ j → mem'.drop j = mem.drop j := by
  unfold StoreU at h
  split_ifs at h with hb
  cases h
  have hi : (mem.take i).length = i := by rw [List.length_take]; omega
  refine ⟨?_, ?_, ?_⟩
  · simp only [List.length_append, List.length_take, List.length_drop]; omega
  · rw [List.append_assoc, List.take_left' hi]
  · intro j hj
    obtain ⟨k, rfl⟩ : ∃ k, j = (mem.take i ++ v).length + k :=
      ⟨j - (i + v.length), by rw [List.length_append, hi]; omega⟩
    rw [List.drop_append, List.drop_drop, List.length_append, hi]

theorem LoadU_length (N : Nat) (mem v : List α) (i : Nat) (h : LoadU N mem i = some v) :
    v.length = N := by
  unfold LoadU at h
  split_ifs at h
  cases h
  rw [List.length_take, List.length_drop]
  omega

theorem SortingNetwork_frame (o : Order) (mem mem' : List α) (ofs cols : Nat)
    (h : SortingNetwork o mem ofs cols = some mem') :
    mem'.length = mem.length ∧ mem'.take ofs = mem.take ofs ∧
      ∀ j, ofs + kMaxRows * cols ≤ j → mem'.drop j = mem.drop j := by
  unfold SortingNetwork at h
  simp only [Option.bind_eq_bind, Option.bind_eq_some] at h
  obtain ⟨block, hb, hs⟩ := h
  have := StoreU_frame _ _ _ _ hs
  rw [List.length_insertionSort, LoadU_length _ _ _ _ hb] at this
  exact this

/-- `BaseCase` stores only inside `[keys, keys_end)`. -/
theorem BaseCase_frame (t : Target α) (o : Order) (mem mem' : List α)
    (keys keys_end num : Nat) (hke : keys + num ≤ keys_end)
    (h : BaseCase t o mem keys keys_end num = some mem') :
    mem'.length = mem.length ∧ mem'.take keys = mem.take keys ∧
      mem'.drop keys_end = mem.drop keys_end := by
  unfold BaseCase at h
  simp only [] at h
  split_ifs at h with h1 h2
  · cases h
    exact ⟨rfl, rfl, rfl⟩
  · obtain ⟨a, b, c⟩ := SortingNetwork_frame o mem mem' keys _ h
    exact ⟨a, b, c keys_end (by rw [Nat.mul_comm]; exact h2)⟩
  · unfold BaseCase.padded at h
    simp only [Option.bind_eq_bind, Option.bind_eq_some] at h
    obtain ⟨buf, _, buf2, _, buf3, _, sorted, hl, hs⟩ := h
    obtain ⟨a, b, c⟩ := StoreU_frame _ _ _ _ hs
    rw [LoadU_length _ _ _ _ hl] at c
    exact ⟨a, b, c keys_end hke⟩

theorem sorted_adjacent (o : Order) (L : List α) (h : L.Sorted (ole o)) (i : Nat) (a b : α)
    (ha : L[i]? = some a) (hb : L[i + 1]? = some b) : Compare o b a = false := by
  obtain ⟨hi, rfl⟩ := List.getElem?_eq_some.1 ha
  obtain ⟨hj, rfl⟩ := List.getElem?_eq_some.1 hb
  exact List.pairwise_iff_getElem.1 h i (i + 1) hi hj (Nat.lt_succ_self i)

theorem sorted_reverse (L : List α) (h : L.Sorted (ole Order.Ascending)) :
    L.reverse.Sorted (ole Order.Descending) := by
  rw [List.Sorted, List.pairwise_reverse]
  exact h

/-- For at most one key `Sort` returns the array as it is. -/
theorem Sort_le_one (t : Target α) (o : Order) (hpos : 0 < t.lanes) (addr : Nat)
    (keys : List α) (num : Nat) (g : Globals α) (h1 : num ≤ 1) :
    ∃ g', Sort' t o addr keys num g = some (keys, g') := by
  have hH : HeapSort o keys num = some keys := by
    unfold HeapSort
    rw [if_pos (by omega)]
  have hB : BaseCase t o keys 0 num num = some keys := by
    unfold BaseCase
    rw [if_pos h1]
  have hb : num ≤ BaseCaseNum t.lanes := by
    have : 1 ≤ min t.lanes 16 := le_min hpos (by norm_num)
    have : 16 * 1 ≤ 16 * min t.lanes 16 := Nat.mul_le_mul_left _ this
    rw [BaseCaseNum, kMaxRows_eq, kMaxCols]
    omega
  unfold Sort'
  rw [SortBody]
  by_cases hen : t.vqsortEnabled = true
  · rw [if_pos hen]
    unfold HandleSpecialCases
    simp only [hH, hB, hb, if_true]
    split_ifs <;> exact ⟨_, rfl⟩
  · rw [if_neg hen, hH]
    exact ⟨_, rfl⟩

theorem HandleSpecialCases_small (t : Target α) (o : Order) (keys : List α) (num : Nat)
    (g : Globals α) (hb : num ≤ BaseCaseNum t.lanes) (x : Bool × List α × Globals α)
    (h : HandleSpecialCases t o keys num g = some x) :
    x.1 = true ∧ x.2.2.max_depth = g.max_depth ∧ x.2.2.depth = g.depth ∧
      x.2.2.out = g.out ∧ x.2.2.choices = g.choices := by
  unfold HandleSpecialCases at h
  simp only [hb, if_true] at h
  by_cases hh : (decide (t.maxBytes / t.sizeofT > kMaxRows * kMaxCols) &&
      decide (2 * t.lanes > BaseCaseNum t.lanes)) = true
  · simp only [hh, if_true, Option.bind_eq_bind, Option.bind_eq_some, Option.pure_def,
      Option.some.injEq] at h
    obtain ⟨k, _, rfl⟩ := h
    exact ⟨rfl, rfl, rfl, rfl, rfl⟩
  · simp only [hh, if_false] at h
    cases hB : BaseCase t o keys 0 num num with
    | none => rw [hB] at h; simp at h
    | some k =>
      rw [hB] at h
      simp only [Option.some_bind, Option.bind_eq_bind, Option.pure_def,
        Bool.false_eq_true, if_false, Option.some.injEq] at h
      rw [← h]
      exact ⟨rfl, rfl, rfl, rfl, rfl⟩

/-- An input that fits the base case never enters `Recurse`: the recorded depth stays `-1`
and nothing is printed. -/
theorem Sort_small (t : Target α) (o : Order) (addr : Nat) (keys keys' : List α) (num : Nat)
    (g g' : Globals α) (hb : num ≤ BaseCaseNum t.lanes)
    (h : Sort' t o addr keys num g = some (keys', g')) :
    g'.max_depth = -1 ∧ g'.depth = 1 ∧ g'.out = g.out ∧ g'.choices = g.choices := by
  unfold Sort' at h
  rw [SortBody] at h
  by_cases hen : t.vqsortEnabled = true
  · rw [if_pos hen] at h
    simp only [Option.bind_eq_bind, Option.bind_eq_some] at h
    obtain ⟨x, hx, h⟩ := h
    obtain ⟨h1, h2, h3, h4, h5⟩ := HandleSpecialCases_small t o keys num _ hb x hx
    obtain ⟨d, k, gx⟩ := x
    simp only at h1 h2 h3 h4 h5
    subst h1
    simp only [if_true, Option.pure_def, Option.some.injEq, Prod.mk.injEq] at h
    rw [← h.2]
    exact ⟨h2, h3, h4, h5⟩
  · rw [if_neg hen] at h
    simp only [Option.bind_eq_bind, Option.bind_eq_some, Option.pure_def, Option.some.injEq,
      Prod.mk.injEq] at h
    obtain ⟨k, _, _, h⟩ := h
    rw [← h]
    exact ⟨rfl, rfl, rfl, rfl⟩

theorem sample128_wellFormed : (sample128 α).WellFormed :=
  ⟨⟨1, rfl⟩, ⟨1, rfl⟩, Or.inr (Or.inr rfl), by simp [sample128], by simp [sample128],
    by simp [sample128]⟩

theorem sample128_valid : (sample128 α).Valid :=
  ⟨⟨1, rfl⟩, Or.inr (Or.inr rfl), by simp [sample128], by simp [sample128],
    by simp [sample128]⟩

/-- C1: on every well-formed target, for both orders and every input, `Sort` returns, and
afterwards no key of `keys[0, num)` strictly precedes its left neighbour (equal neighbours
are allowed). -/
theorem C1_Sort_sorted (t : Target α) (o : Order) (hW : t.WellFormed) (addr : Nat)
    (keys : List α) (num : Nat) (g : Globals α) (hnum : num ≤ keys.length) :
    ∃ keys' g', Sort' t o addr keys num g = some (keys', g') ∧
      ∀ i a b, i + 1 < num → keys'[i]? = some a → keys'[i + 1]? = some b →
        Compare o b a = false := by
  obtain ⟨keys', g', e, _, _, hs⟩ := Sort_spec t o hW addr keys num g hnum
  refine ⟨keys', g', e, fun i a b hi ha hb => ?_⟩
  refine sorted_adjacent o _ hs i a b ?_ ?_
  · rw [List.getElem?_take_of_lt (by omega)]; exact ha
  · rw [List.getElem?_take_of_lt hi]; exact hb

theorem C1_Sort_sorted_witness :
    (sample128 (Fin 256)).WellFormed ∧ 3 ≤ [3, 1, 2].length ∧
      ∃ keys' g', Sort' (sample128 (Fin 256)) Order.Descending 0 [3, 1, 2] 3
          (Globals.initial _) = some (keys', g') ∧
        ∀ i a b, i + 1 < 3 → keys'[i]? = some a → keys'[i + 1]? = some b →
          Compare Order.Descending b a = false :=
  ⟨sample128_wellFormed, by decide,
    C1_Sort_sorted (sample128 (Fin 256)) Order.Descending sample128_wellFormed 0 [3, 1, 2] 3
      (Globals.initial _) (by decide)⟩

/-- C2: on every well-formed target, for both orders and every input, the keys of
`keys[0, num)` after `Sort` are a rearrangement of those before it (the same multiset), and
the lanes behind them are untouched. -/
theorem C2_Sort_perm (t : Target α) (o : Order) (hW : t.WellFormed) (addr : Nat)
    (keys : List α) (num : Nat) (g : Globals α) (hnum : num ≤ keys.length) :
    ∃ keys' g', Sort' t o addr keys num g = some (keys', g') ∧
      (keys'.take num).Perm (keys.take num) ∧ keys'.drop num = keys.drop num := by
  obtain ⟨keys', g', e, hd, hp, _⟩ := Sort_spec t o hW addr keys num g hnum
  exact ⟨keys', g', e, hp, hd⟩

theorem C2_Sort_perm_witness :
    (sample128 (Fin 256)).WellFormed ∧ 4 ≤ [3, 1, 3, 2].length ∧
      ∃ keys' g', Sort' (sample128 (Fin 256)) Order.Ascending 0 [3, 1, 3, 2] 4
          (Globals.initial _) = some (keys', g') ∧
        (keys'.take 4).Perm (([3, 1, 3, 2] : List (Fin 256)).take 4) ∧
        keys'.drop 4 = ([3, 1, 3, 2] : List (Fin 256)).drop 4 :=
  ⟨sample128_wellFormed, by decide,
    C2_Sort_perm (sample128 (Fin 256)) Order.Ascending sample128_wellFormed 0 [3, 1, 3, 2] 4
      (Globals.initial _) (by decide)⟩

/-- C3: if `keys[0, num)` is already sorted under the order, `Sort` under the same order
leaves every element unchanged. -/
theorem C3_Sort_idempotent (t : Target α) (o : Order) (hW : t.WellFormed) (addr : Nat)
    (keys : List α) (num : Nat) (g : Globals α) (hnum : num ≤ keys.length)
    (hsorted : (keys.take num).Sorted (ole o)) :
    ∃ g', Sort' t o addr keys num g = some (keys, g') := by
  obtain ⟨keys', g', e, hd, hp, hs⟩ := Sort_spec t o hW addr keys num g hnum
  have h1 : keys'.take num = keys.take num := List.eq_of_perm_of_sorted hp hs hsorted
  have h2 : keys' = keys := by
    rw [← List.take_append_drop num keys', ← List.take_append_drop num keys, h1, hd]
  rw [h2] at e
  exact ⟨g', e⟩

theorem C3_Sort_idempotent_witness :
    (sample128 (Fin 256)).WellFormed ∧ 3 ≤ [1, 2, 2].length ∧
      (([1, 2, 2] : List (Fin 256)).take 3).Sorted (ole Order.Ascending) ∧
      ∃ g', Sort' (sample128 (Fin 256)) Order.Ascending 0 [1, 2, 2] 3 (Globals.initial _)
        = some ([1, 2, 2], g') :=
  ⟨sample128_wellFormed, by decide, by decide,
    C3_Sort_idempotent (sample128 (Fin 256)) Order.Ascending sample128_wellFormed 0 [1, 2, 2] 3
      (Globals.initial _) (by decide) (by decide)⟩

/-- C4: reversing the result of `Sort` in ascending order gives exactly the result of
`Sort` in descending order on the same input. -/
theorem C4_Sort_reverse (t : Target α) (hW : t.WellFormed) (addr : Nat) (keys : List α)
    (num : Nat) (g1 g2 : Globals α) (hnum : num ≤ keys.length) :
    ∃ ka ga kd gd, Sort' t Order.Ascending addr keys num g1 = some (ka, ga) ∧
      Sort' t Order.Descending addr keys num g2 = some (kd, gd) ∧
      (ka.take num).reverse = kd.take num ∧ ka.drop num = kd.drop num := by
  obtain ⟨ka, ga, ea, hda, hpa, hsa⟩ := Sort_spec t Order.Ascending hW addr keys num g1 hnum
  obtain ⟨kd, gd, ed, hdd, hpd, hsd⟩ := Sort_spec t Order.Descending hW addr keys num g2 hnum
  refine ⟨ka, ga, kd, gd, ea, ed, ?_, by rw [hda, hdd]⟩
  exact List.eq_of_perm_of_sorted ((List.reverse_perm _).trans (hpa.trans hpd.symm))
    (sorted_reverse _ hsa) hsd

theorem C4_Sort_reverse_witness :
    (sample128 (Fin 256)).WellFormed ∧ 3 ≤ [3, 1, 2].length ∧
      ∃ ka ga kd gd, Sort' (sample128 (Fin 256)) Order.Ascending 0 [3, 1, 2] 3
          (Globals.initial _) = some (ka, ga) ∧
        Sort' (sample128 (Fin 256)) Order.Descending 0 [3, 1, 2] 3 (Globals.initial _)
          = some (kd, gd) ∧
        (ka.take 3).reverse = kd.take 3 ∧ ka.drop 3 = kd.drop 3 :=
  ⟨sample128_wellFormed, by decide,
    C4_Sort_reverse (sample128 (Fin 256)) sample128_wellFormed 0 [3, 1, 2] 3
      (Globals.initial _) (Globals.initial _) (by decide)⟩

/-- C5: for `num = 0` and `num = 1`, `Sort` returns the array unchanged, whether the call
goes to `BaseCase` or to `HeapSort`; both return before their first store. -/
theorem C5_Sort_trivial (t : Target α) (o : Order) (hpos : 0 < t.lanes) (addr : Nat)
    (keys : List α) (num : Nat) (g : Globals α) (h1 : num ≤ 1) :
    (∃ g', Sort' t o addr keys num g = some (keys, g')) ∧
      BaseCase t o keys 0 num num = some keys ∧ HeapSort o keys num = some keys := by
  refine ⟨Sort_le_one t o hpos addr keys num g h1, ?_, ?_⟩
  · unfold BaseCase
    rw [if_pos h1]
  · unfold HeapSort
    rw [if_pos (by omega)]

theorem C5_Sort_trivial_witness :
    0 < (sample128 (Fin 256)).lanes ∧ 1 ≤ 1 ∧
      ((∃ g', Sort' (sample128 (Fin 256)) Order.Ascending 0 [5] 1 (Globals.initial _)
          = some ([5], g')) ∧
        BaseCase (sample128 (Fin 256)) Order.Ascending [5] 0 1 1 = some [5] ∧
        HeapSort Order.Ascending ([5] : List (Fin 256)) 1 = some [5]) :=
  ⟨by decide, by decide,
    C5_Sort_trivial (sample128 (Fin 256)) Order.Ascending (by decide) 0 [5] 1
      (Globals.initial _) (by decide)⟩

/-- C6: for every range `[l, r)` with `r - l > 2N`, every broadcast pivot and every array,
`Partition` returns a boundary `b`, and afterwards the pivot does not precede any key of
`[l, b)` (they are `≤ pivot`) and precedes every key of `[b, r)` (they are `> pivot`). -/
theorem C6_Partition_post (t : Target α) (o : Order) (p : α) (hN : ∃ k, t.lanes = 2 ^ k)
    (keys : List α) (l r : Nat) (hr : r ≤ keys.length) (hlr : l + 2 * t.lanes < r) :
    ∃ keys' b, Partition t o keys l r (SetKey t.lanes p) = some (keys', b) ∧
      ∀ i x, keys'[i]? = some x →
        (l ≤ i → i < b → Compare o p x = false) ∧ (b ≤ i → i < r → Compare o p x = true) := by
  obtain ⟨keys', b, e, hlb, hbr, _, _, _, hL, hR, _, _⟩ :=
    Partition_index t o p hN keys l r hr hlr
  refine ⟨keys', b, e, fun i x hx => ⟨fun h1 h2 => hL x ?_, fun h1 h2 => hR x ?_⟩⟩
  · refine List.getElem?_mem (n := i - l) ?_
    rw [List.getElem?_take_of_lt (by omega), List.getElem?_drop,
      show l + (i - l) = i by omega]
    exact hx
  · refine List.getElem?_mem (n := i - b) ?_
    rw [List.getElem?_take_of_lt (by omega), List.getElem?_drop,
      show b + (i - b) = i by omega]
    exact hx

theorem C6_Partition_post_witness :
    (∃ k, (sample128 (Fin 256)).lanes = 2 ^ k) ∧ 6 ≤ [5, 3, 8, 1, 9, 2].length ∧
      0 + 2 * (sample128 (Fin 256)).lanes < 6 ∧
      ∃ keys' b, Partition (sample128 (Fin 256)) Order.Ascending [5, 3, 8, 1, 9, 2] 0 6
          (SetKey (sample128 (Fin 256)).lanes 3) = some (keys', b) ∧
        ∀ i x, keys'[i]? = some x →
          (0 ≤ i → i < b → Compare Order.Ascending 3 x = false) ∧
          (b ≤ i → i < 6 → Compare Order.Ascending 3 x = true) :=
  ⟨⟨1, rfl⟩, by decide, by decide,
    C6_Partition_post (sample128 (Fin 256)) Order.Ascending 3 ⟨1, rfl⟩ [5, 3, 8, 1, 9, 2] 0 6
      (by decide) (by decide)⟩

/-- C7: for every range `[l, r)` with `r - l > 2N` and every pivot, the keys of `[l, r)`
after `Partition` are a rearrangement of the keys of `[l, r)` before it, and no lane outside
the range changes. -/
theorem C7_Partition_perm (t : Target α) (o : Order) (p : α) (hN : ∃ k, t.lanes = 2 ^ k)
    (keys : List α) (l r : Nat) (hr : r ≤ keys.length) (hlr : l + 2 * t.lanes < r) :
    ∃ keys' b, Partition t o keys l r (SetKey t.lanes p) = some (keys', b) ∧
      ((keys'.drop l).take (r - l)).Perm ((keys.drop l).take (r - l)) ∧
      keys'.take l = keys.take l ∧ keys'.drop r = keys.drop r := by
  obtain ⟨keys', b, e, _, _, _, h1, h2, _, _, hp, _⟩ :=
    Partition_index t o p hN keys l r hr hlr
  exact ⟨keys', b, e, hp, h1, h2⟩

theorem C7_Partition_perm_witness :
    (∃ k, (sample128 (Fin 256)).lanes = 2 ^ k) ∧ 7 ≤ [0, 5, 3, 8, 1, 9, 2].length ∧
      1 + 2 * (sample128 (Fin 256)).lanes < 7 ∧
      ∃ keys' b, Partition (sample128 (Fin 256)) Order.Descending [0, 5, 3, 8, 1, 9, 2] 1 7
          (SetKey (sample128 (Fin 256)).lanes 4) = some (keys', b) ∧
        ((keys'.drop 1).take (7 - 1)).Perm
          ((([0, 5, 3, 8, 1, 9, 2] : List (Fin 256)).drop 1).take (7 - 1)) ∧
        keys'.take 1 = ([0, 5, 3, 8, 1, 9, 2] : List (Fin 256)).take 1 ∧
        keys'.drop 7 = ([0, 5, 3, 8, 1, 9, 2] : List (Fin 256)).drop 7 :=
  ⟨⟨1, rfl⟩, by decide, by decide,
    C7_Partition_perm (sample128 (Fin 256)) Order.Descending 4 ⟨1, rfl⟩
      [0, 5, 3, 8, 1, 9, 2] 1 7 (by decide) (by decide)⟩

/-- C8: for every range `[l, r)` with `r - l > 2N` and every pivot, the boundary `b` that
`Partition` returns satisfies `l ≤ b ≤ r`, and `b - l` is the number of keys of the input
range that the pivot does not precede (the keys `≤ pivot`). -/
theorem C8_Partition_bound (t : Target α) (o : Order) (p : α) (hN : ∃ k, t.lanes = 2 ^ k)
    (keys : List α) (l r : Nat) (hr : r ≤ keys.length) (hlr : l + 2 * t.lanes < r) :
    ∃ keys' b, Partition t o keys l r (SetKey t.lanes p) = some (keys', b) ∧
      l ≤ b ∧ b ≤ r ∧
      b - l = ((keys.drop l).take (r - l)).countP (fun x => !Compare o p x) := by
  obtain ⟨keys', b, e, h1, h2, _, _, _, _, _, _, hc⟩ :=
    Partition_index t o p hN keys l r hr hlr
  refine ⟨keys', b, e, h1, h2, ?_⟩
  rw [hc, leftOf, List.countP_eq_length_filter]

theorem C8_Partition_bound_witness :
    (∃ k, (sample128 (Fin 256)).lanes = 2 ^ k) ∧ 6 ≤ [5, 3, 8, 1, 9, 2].length ∧
      0 + 2 * (sample128 (Fin 256)).lanes < 6 ∧
      ∃ keys' b, Partition (sample128 (Fin 256)) Order.Ascending [5, 3, 8, 1, 9, 2] 0 6
          (SetKey (sample128 (Fin 256)).lanes 3) = some (keys', b) ∧
        0 ≤ b ∧ b ≤ 6 ∧
        b - 0 = ((([5, 3, 8, 1, 9, 2] : List (Fin 256)).drop 0).take (6 - 0)).countP
          (fun x => !Compare Order.Ascending 3 x) :=
  ⟨⟨1, rfl⟩, by decide, by decide,
    C8_Partition_bound (sample128 (Fin 256)) Order.Ascending 3 ⟨1, rfl⟩ [5, 3, 8, 1, 9, 2] 0 6
      (by decide) (by decide)⟩

/-- C9: for every array of every length (0 and 1 included) and both orders, `HeapSort`
returns, and the lanes it leaves are the rearrangement of its input that is sorted under
the order. -/
theorem C9_HeapSort_sorts (o : Order) (lanes : List α) :
    ∃ sorted, HeapSort o lanes lanes.length = some sorted ∧ sorted.Perm lanes ∧
      sorted.Sorted (ole o) := by
  obtain ⟨l2, e, hd, hp, hs⟩ := HeapSort_spec o lanes lanes.length (le_refl _)
  rw [List.drop_length] at hd
  have h2 : l2.take lanes.length = l2 := by
    conv_rhs => rw [← List.take_append_drop lanes.length l2, hd, List.append_nil]
  rw [h2, List.take_length] at hp
  rw [h2] at hs
  exact ⟨l2, e, hp, hs⟩

/-- C10 fails as stated: on a target with huge vectors (256 lanes of 16 bits, so that two
vectors exceed `BaseCaseNum`), `Sort` of the two equal keys `[7, 7]` leaves them unchanged but
does call `HeapSort` once. -/
theorem C10_counterexample :
    (sampleHuge (Fin 65536)).WellFormed ∧
      (Sort' (sampleHuge (Fin 65536)) Order.Ascending 0 [7, 7] 2 (Globals.initial _)).map
        (fun r => (r.1, r.2.heapSortCalls)) = some ([7, 7], 1) :=
  ⟨⟨⟨8, rfl⟩, ⟨8, rfl⟩, Or.inl rfl, by simp [sampleHuge], by simp [sampleHuge],
    by simp [sampleHuge]⟩, by decide⟩

/-- C10 (amended): when vqsort is enabled and the vectors are not huge, `Sort` of an input
whose keys are all equal returns the keys unchanged without calling `HeapSort`; and when the
input is longer than `BaseCaseNum`, on the target `tc` on which `Recurse` runs, the first
`Partition` returns `b = r`, `ScanMinMax` finds `first = last`, and `Recurse` returns after
that single partition. -/
theorem C10_Sort_allEqual (t : Target α) (o : Order) (hW : t.WellFormed)
    (hen : t.vqsortEnabled = true)
    (hnh : ¬ (t.maxBytes / t.sizeofT > kMaxRows * kMaxCols ∧ 2 * t.lanes > BaseCaseNum t.lanes))
    (addr : Nat) (keys : List α) (c : α) (hall : ∀ x ∈ keys, x = c) (g : Globals α) :
    (∃ g', Sort' t o addr keys keys.length g = some (keys, g') ∧
        g'.heapSortCalls = g.heapSortCalls) ∧
      ∀ tc : Target α, tc.Valid → BaseCaseNum tc.lanes < keys.length →
        Partition tc o keys 0 keys.length (SetKey tc.lanes c) = some (keys, keys.length) ∧
        ScanMinMax tc o keys 0 keys.length = some (SetKey tc.lanes c, SetKey tc.lanes c) ∧
        ∀ rl rng g1, Recurse tc o addr keys.length (rl + 1) keys 0 keys.length
            (SetKey tc.lanes c) rng g1
          = some (keys, rng, { g1 with max_depth := max g1.max_depth g1.depth }) := by
  refine ⟨Sort_allEqual t o hW hen hnh addr keys keys.length g (le_refl _) c
    (by rw [List.take_length]; exact hall), fun tc hV hlen => ?_⟩
  obtain ⟨hpos, _, _, _, h2N, _, _, _⟩ := hV.facts
  have hP := Partition_allEqual tc o c hV.1 [] keys [] (by omega) hall
  have hS := ScanMinMax_allEqual tc o c hpos [] keys [] (by omega) hall
  have hR := fun rl rng g1 =>
    Recurse_allEqual tc o hV addr keys.length c [] keys [] hlen hall rl rng g1
  simp only [List.nil_append, List.append_nil, List.length_nil, Nat.zero_add] at hP hS hR
  exact ⟨hP, hS, hR⟩

theorem C10_Sort_allEqual_witness :
    (sample128 (Fin 256)).WellFormed ∧ (sample128 (Fin 256)).vqsortEnabled = true ∧
      ¬ ((sample128 (Fin 256)).maxBytes / (sample128 (Fin 256)).sizeofT > kMaxRows * kMaxCols ∧
        2 * (sample128 (Fin 256)).lanes > BaseCaseNum (sample128 (Fin 256)).lanes) ∧
      (∀ x ∈ sevens, x = 7) ∧
      ((∃ g', Sort' (sample128 (Fin 256)) Order.Ascending 0 sevens
            sevens.length (Globals.initial _) = some (sevens, g') ∧
          g'.heapSortCalls = (Globals.initial (Fin 256)).heapSortCalls) ∧
        ∀ tc : Target (Fin 256), tc.Valid →
          BaseCaseNum tc.lanes < sevens.length →
          Partition tc Order.Ascending sevens 0 sevens.length
            (SetKey tc.lanes 7) = some (sevens, sevens.length) ∧
          ScanMinMax tc Order.Ascending sevens 0 sevens.length
            = some (SetKey tc.lanes 7, SetKey tc.lanes 7) ∧
          ∀ rl rng g1, Recurse tc Order.Ascending 0 sevens.length
              (rl + 1) sevens 0 sevens.length (SetKey tc.lanes 7)
              rng g1
            = some (sevens, rng, { g1 with max_depth := max g1.max_depth g1.depth })) :=
  ⟨sample128_wellFormed, rfl, by simp [sample128, kMaxRows, kMaxRowsLog2, kMaxCols],
    by simp [sevens],
    C10_Sort_allEqual (sample128 (Fin 256)) Order.Ascending sample128_wellFormed rfl
      (by simp [sample128, kMaxRows, kMaxRowsLog2, kMaxCols]) 0 sevens 7 (by simp [sevens])
      (Globals.initial _)⟩

/-- C11: on every well-formed target and every input `Sort` (and with it every call of
`Recurse`) returns, and the nesting depth of `Recurse` that the program records in
`max_depth` (the top-level call is at depth 1) is at most `2 * CeilLog2 num + 5`. -/
theorem C11_Recurse_depth (t : Target α) (o : Order) (hW : t.WellFormed) (addr : Nat)
    (keys : List α) (num : Nat) (g : Globals α) (hnum : num ≤ keys.length) :
    ∃ keys' g', Sort' t o addr keys num g = some (keys', g') ∧ g'.depth = 1 ∧
      g'.max_depth ≤ 2 * (CeilLog2 num : Int) + 5 := by
  obtain ⟨keys', g', e, _⟩ := Sort_spec t o hW addr keys num g hnum
  obtain ⟨res, h, hb⟩ := Sort_tracks t o addr keys num
  rw [h g] at e
  cases res with
  | none => simp at e
  | some x =>
    simp only [Option.map_some', Option.some.injEq, Prod.mk.injEq] at e
    refine ⟨keys', g', by rw [h g, ← e.1, ← e.2]; rfl, by rw [← e.2]; rfl, ?_⟩
    rw [← e.2]
    simp only [Globals.after, Globals.reset]
    rcases hb x rfl with h1 | h1
    · rw [h1]; simp only [max_self]; omega
    · rw [max_eq_right (by omega)]; exact h1.2

theorem C11_Recurse_depth_witness :
    (sample128 (Fin 256)).WellFormed ∧ 3 ≤ [3, 1, 2].length ∧
      ∃ keys' g', Sort' (sample128 (Fin 256)) Order.Ascending 0 [3, 1, 2] 3
          (Globals.initial _) = some (keys', g') ∧ g'.depth = 1 ∧
        g'.max_depth ≤ 2 * (CeilLog2 3 : Int) + 5 :=
  ⟨sample128_wellFormed, by decide,
    C11_Recurse_depth (sample128 (Fin 256)) Order.Ascending sample128_wellFormed 0 [3, 1, 2] 3
      (Globals.initial _) (by decide)⟩

/-- C12 fails as stated: sorting 33 keys on the 128-bit target overwrites the file-scope
variables (`max_depth` goes from `-1` to `1`, `depth` from `0` to `1`) and prints a
`Max depth` line. -/
theorem C12_counterexample :
    (Sort' (sample128 (Fin 256)) Order.Ascending 0 sampleKeys 33 (Globals.initial _)).map
      (fun r => (r.2.max_depth, r.2.depth, r.2.out)) = some (1, 1, [Event.maxDepth 1]) := by
  decide

/-- C12 (amended): besides `keys[0, num)` a `Sort` invocation writes the file-scope variables
`max_depth` and `depth` and appends to standard output, and nothing else: lanes at or behind
`num` keep their value, `depth` is `1` on return, and the keys returned, the final `max_depth`
(at least `-1`) and the text printed are the same whatever those variables held on entry. -/
theorem C12_Sort_effects (t : Target α) (o : Order) (hW : t.WellFormed) (addr : Nat)
    (keys : List α) (num : Nat) (hnum : num ≤ keys.length) :
    ∃ (keys' : List α) (md : Int) (ev : List Event),
      keys'.drop num = keys.drop num ∧ -1 ≤ md ∧
      ∀ g : Globals α, ∃ g', Sort' t o addr keys num g = some (keys', g') ∧
        g'.max_depth = md ∧ g'.depth = 1 ∧ g'.out = g.out ++ ev := by
  obtain ⟨res, h, _⟩ := Sort_tracks t o addr keys num
  obtain ⟨keys', g', e, hd, _⟩ := Sort_spec t o hW addr keys num (Globals.initial α) hnum
  rw [h] at e
  cases res with
  | none => simp at e
  | some x =>
    simp only [Option.map_some', Option.some.injEq, Prod.mk.injEq] at e
    refine ⟨x.1, max (-1) x.2.md, x.2.ev, by rw [e.1]; exact hd, le_max_left _ _, fun g => ?_⟩
    exact ⟨_, by rw [h g]; rfl, rfl, rfl, rfl⟩

theorem C12_Sort_effects_witness :
    (sample128 (Fin 256)).WellFormed ∧ 33 ≤ sampleKeys.length ∧
      ∃ (keys' : List (Fin 256)) (md : Int) (ev : List Event),
        keys'.drop 33 = sampleKeys.drop 33 ∧ -1 ≤ md ∧
        ∀ g : Globals (Fin 256), ∃ g',
          Sort' (sample128 (Fin 256)) Order.Ascending 0 sampleKeys 33 g = some (keys', g') ∧
          g'.max_depth = md ∧ g'.depth = 1 ∧ g'.out = g.out ++ ev :=
  ⟨sample128_wellFormed, by decide,
    C12_Sort_effects (sample128 (Fin 256)) Order.Ascending sample128_wellFormed 0 sampleKeys 33
      (by decide)⟩

/-- C13: the keys `Sort` returns and the sequence of `ChoosePivot` calls it makes, each with
the generator state it draws from (which fixes the five outputs drawn) and the pivot it
returns, are a function of the target, the order, the address, the length and the keys only:
the same for every state left behind by earlier invocations. -/
theorem C13_Sort_deterministic (t : Target α) (o : Order) (addr : Nat) (keys : List α)
    (num : Nat) :
    ∃ res : Option (List α × List (Generator × List α)), ∀ g : Globals α,
      (Sort' t o addr keys num g).map (fun r => (r.1, r.2.choices))
        = res.map fun x => (x.1, g.choices ++ x.2) := by
  obtain ⟨res, h, _⟩ := Sort_tracks t o addr keys num
  refine ⟨res.map fun x => (x.1, x.2.ch), fun g => ?_⟩
  rw [h g]
  cases res <;> rfl

/-- C14: when `BaseCase` takes the padded scratch path on `2 ≤ num ≤ BaseCaseNum` keys, the
keys it leaves in `keys[0, num)` are the sorted rearrangement of the input, also when the
input holds the padding value itself; the lanes around them are unchanged. -/
theorem C14_BaseCase_padded (t : Target α) (o : Order) (hN : 0 < t.lanes) (A L R : List α)
    (keys_end : Nat) (h2 : 2 ≤ L.length) (hb : L.length ≤ BaseCaseNum t.lanes)
    (hpad : ¬ A.length + min t.fullLanes kMaxCols * kMaxRows ≤ keys_end) :
    ∃ L', BaseCase t o (A ++ (L ++ R)) A.length keys_end L.length = some (A ++ (L' ++ R)) ∧
      L'.Perm L ∧ L'.Sorted (ole o) := by
  have h256 : BaseCaseNum t.lanes ≤ 256 := by
    have : min t.lanes 16 ≤ 16 := min_le_right _ _
    rw [BaseCaseNum, kMaxRows_eq, kMaxCols]
    omega
  have hcov := BaseCase_cols L.length h2 (by
    have : (256 : Nat) ≤ 2 ^ 32 := by norm_num
    omega)
  unfold BaseCase
  simp only [show ¬ L.length ≤ 1 by omega, hpad, if_false]
  rw [BaseCase.padded_spec t o hN A L R _ hcov]
  exact ⟨_, rfl, List.perm_insertionSort _ _, List.sorted_insertionSort _ _⟩

theorem C14_BaseCase_padded_witness :
    0 < (sample128 (Fin 256)).lanes ∧ 2 ≤ ([255, 3, 255, 0] : List (Fin 256)).length ∧
      ([255, 3, 255, 0] : List (Fin 256)).length ≤ BaseCaseNum (sample128 (Fin 256)).lanes ∧
      (¬ ([9] : List (Fin 256)).length + min (sample128 (Fin 256)).fullLanes kMaxCols * kMaxRows
        ≤ 5) ∧
      ∃ L', BaseCase (sample128 (Fin 256)) Order.Ascending ([9] ++ ([255, 3, 255, 0] ++ []))
          ([9] : List (Fin 256)).length 5 ([255, 3, 255, 0] : List (Fin 256)).length
          = some ([9] ++ (L' ++ [])) ∧
        L'.Perm [255, 3, 255, 0] ∧ L'.Sorted (ole Order.Ascending) :=
  ⟨by decide, by decide, by simp [sample128, BaseCaseNum, kMaxRows, kMaxRowsLog2, kMaxCols],
    by simp [sample128, kMaxRows, kMaxRowsLog2, kMaxCols],
    C14_BaseCase_padded (sample128 (Fin 256)) Order.Ascending (by decide) [9]
      [255, 3, 255, 0] [] 5 (by decide)
      (by simp [sample128, BaseCaseNum, kMaxRows, kMaxRowsLog2, kMaxCols])
      (by simp [sample128, kMaxRows, kMaxRowsLog2, kMaxCols])⟩

/-- C15 fails as stated: with two lanes, `last = 10` and `writeL = 4` (the state `Partition`
reaches on the twelve keys below, where it returns the boundary 4) there are
`totalR = 6` right-side keys and the code loads from `startR = writeL = 4`, whereas
`writeL + max(0, totalR - N)` is `8`. -/
theorem C15_counterexample :
    (Partition (sample128 (Fin 256)) Order.Ascending [1, 2, 3, 4, 9, 9, 9, 9, 9, 9, 9, 9] 0 12
        (SetKey 2 5)).map Prod.snd = some 4 ∧
      Partition.startR 2 10 4 = 4 ∧
      (Partition.startR 2 10 4 : Int) ≠ 4 + max 0 (((10 : Int) - 4) - 2) := by
  decide

/-- C15 (amended): when inserting the reserved last vector, `Partition` chooses
`startR = writeL + min(0, totalR - N)` with `totalR = last - writeL`: `writeL` itself when at
least `N` right-side keys exist, and otherwise `last - N`, so that the right-side keys are
the last lanes of the vector it copies to `keys[last..)`. -/
theorem C15_Partition_startR (N last writeL : Nat) (h1 : writeL ≤ last) (h2 : N ≤ last) :
    (Partition.startR N last writeL : Int)
        = (writeL : Int) + min 0 (((last : Int) - (writeL : Int)) - (N : Int)) ∧
      (N ≤ last - writeL → Partition.startR N last writeL = writeL) ∧
      (last - writeL < N → Partition.startR N last writeL = last - N) := by
  unfold Partition.startR
  simp only []
  split_ifs with h
  · refine ⟨?_, fun h3 => by omega, fun _ => by omega⟩
    rw [min_eq_right (by omega)]
    omega
  · refine ⟨?_, fun _ => rfl, fun h3 => by omega⟩
    rw [min_eq_left (by omega)]
    omega

theorem C15_Partition_startR_witness :
    4 ≤ 10 ∧ 2 ≤ 10 ∧
      ((Partition.startR 2 10 4 : Int) = (4 : Nat) + min 0 (((10 : Nat) : Int) - (4 : Nat)
          - (2 : Nat)) ∧
        (2 ≤ 10 - 4 → Partition.startR 2 10 4 = 4) ∧
        (10 - 4 < 2 → Partition.startR 2 10 4 = 10 - 2)) :=
  ⟨by decide, by decide, C15_Partition_startR 2 10 4 (by decide) (by decide)⟩

/-- C16 fails as stated: sorting the 8-element u64 array `[1,1,1,1,1,1,1,1]` in descending
order on the 128-bit target returns it unchanged with `max_depth` still `-1` and nothing
printed, so `Recurse` (which raises `max_depth` to at least 1 on entry) was never entered. -/
theorem C16_counterexample :
    (Sort' (sample128 U64) Order.Descending 0 [1, 1, 1, 1, 1, 1, 1, 1] 8
        (Globals.initial _)).map (fun r => (r.1, r.2.max_depth, r.2.out))
      = some ([1, 1, 1, 1, 1, 1, 1, 1], -1, []) := by
  decide

/-- C16 (amended): sorting an 8-element array of equal keys in descending order leaves it
unchanged without entering `Recurse`: on every well-formed target 8 is at most `BaseCaseNum`,
so `HandleSpecialCases` finishes the sort, the recorded depth stays `-1` and nothing is
printed. -/
theorem C16_eight_equal_keys (t : Target α) (hW : t.WellFormed) (addr : Nat) (c : α)
    (g : Globals α) :
    8 ≤ BaseCaseNum t.lanes ∧
      ∃ g', Sort' t Order.Descending addr (List.replicate 8 c) 8 g
          = some (List.replicate 8 c, g') ∧
        g'.max_depth = -1 ∧ g'.out = g.out := by
  have hb : 8 ≤ BaseCaseNum t.lanes := by
    obtain ⟨_, _, hs, h16, _, _⟩ := hW
    have h2 : 2 ≤ t.lanes := by
      rcases hs with h | h | h <;> rw [h] at h16 <;> omega
    have : 2 ≤ min t.lanes 16 := le_min h2 (by norm_num)
    rw [BaseCaseNum, kMaxRows_eq, kMaxCols]
    omega
  obtain ⟨keys', g', e, hr⟩ := Sort_spec t Order.Descending hW addr (List.replicate 8 c) 8 g
    (by simp)
  have hk : keys' = List.replicate 8 c :=
    hr.allEqual (c := c) fun x hx => List.eq_of_mem_replicate (List.mem_of_mem_take hx)
  rw [hk] at e
  obtain ⟨h1, _, h3, _⟩ := Sort_small t Order.Descending addr _ _ 8 g g' hb e
  exact ⟨hb, g', e, h1, h3⟩

theorem C16_eight_equal_keys_witness :
    (sample128 U64).WellFormed ∧ (8 ≤ BaseCaseNum (sample128 U64).lanes ∧
      ∃ g', Sort' (sample128 U64) Order.Descending 0 (List.replicate 8 1) 8
          (Globals.initial _) = some (List.replicate 8 1, g') ∧
        g'.max_depth = -1 ∧ g'.out = (Globals.initial U64).out) :=
  ⟨sample128_wellFormed,
    C16_eight_equal_keys (sample128 U64) sample128_wellFormed 0 1 (Globals.initial _)⟩

/-- C17 fails as stated, in both directions: with 18 lanes of tail room behind a range of
2 keys `BaseCase` takes the padded path (the in-place network would need 32 lanes from
`keys`), and with no tail room at all behind a range of 32 keys it sorts in place. -/
theorem C17_counterexample :
    (kMaxCols ≤ 20 - (0 + 2) ∧
      BaseCase (sample128 (Fin 256)) Order.Ascending twentyKeys 0 20 2
        = BaseCase.padded (sample128 (Fin 256)) Order.Ascending twentyKeys 0 2 1 ∧
      BaseCase (sample128 (Fin 256)) Order.Ascending twentyKeys 0 20 2
        ≠ SortingNetwork Order.Ascending twentyKeys 0 (min 2 kMaxCols)) ∧
    (¬ kMaxCols ≤ 32 - (0 + 32) ∧
      BaseCase (sample128 (Fin 256)) Order.Ascending thirtyTwoKeys 0 32 32
        = SortingNetwork Order.Ascending thirtyTwoKeys 0 (min 2 kMaxCols)) := by
  decide

/-- C17 (amended): for `num ≥ 2`, `BaseCase` sorts in place directly (`SortingNetwork` on
`keys` itself with `N_sn` columns) exactly when a whole network block fits before the end of
the original array, `keys + N_sn * kMaxRows ≤ keys_end`, whatever `num` is, and takes the
padded scratch path otherwise. -/
theorem C17_BaseCase_path (t : Target α) (o : Order) (mem : List α)
    (keys keys_end num : Nat) (h : 2 ≤ num) :
    BaseCase t o mem keys keys_end num =
      if keys + min t.fullLanes kMaxCols * kMaxRows ≤ keys_end then
        SortingNetwork o mem keys (min t.fullLanes kMaxCols)
      else
        BaseCase.padded t o mem keys num
          (max 1 ((1 <<< (32 - Num0BitsAboveMS1Bit_Nonzero32 ((num - 1) % 2 ^ 32)))
            >>> kMaxRowsLog2)) := by
  unfold BaseCase
  rw [if_neg (by omega)]

theorem C17_BaseCase_path_witness :
    2 ≤ 2 ∧
      BaseCase (sample128 (Fin 256)) Order.Ascending twentyKeys 0 20 2 =
        if 0 + min (sample128 (Fin 256)).fullLanes kMaxCols * kMaxRows ≤ 20 then
          SortingNetwork Order.Ascending twentyKeys 0
            (min (sample128 (Fin 256)).fullLanes kMaxCols)
        else
          BaseCase.padded (sample128 (Fin 256)) Order.Ascending twentyKeys 0 2
            (max 1 ((1 <<< (32 - Num0BitsAboveMS1Bit_Nonzero32 ((2 - 1) % 2 ^ 32)))
              >>> kMaxRowsLog2)) :=
  ⟨by decide,
    C17_BaseCase_path (sample128 (Fin 256)) Order.Ascending twentyKeys 0 20 2 (by decide)⟩

/-- C18: `BaseCase` called on a range inside the original array (`keys + num ≤ keys_end`)
changes no lane at or beyond `keys_end`, and none before `keys`; the array keeps its
length. -/
theorem C18_BaseCase_frame (t : Target α) (o : Order) (mem mem' : List α)
    (keys keys_end num : Nat) (hke : keys + num ≤ keys_end)
    (h : BaseCase t o mem keys keys_end num = some mem') :
    mem'.length = mem.length ∧ mem'.drop keys_end = mem.drop keys_end ∧
      mem'.take keys = mem.take keys := by
  obtain ⟨a, b, c⟩ := BaseCase_frame t o mem mem' keys keys_end num hke h
  exact ⟨a, c, b⟩

theorem C18_BaseCase_frame_witness :
    0 + 2 ≤ 20 ∧
      BaseCase (sample128 (Fin 256)) Order.Ascending twentyKeys 0 20 2
        = some ([1, 2] ++ List.replicate 18 9) ∧
      (([1, 2] ++ List.replicate 18 9 : List (Fin 256)).length = twentyKeys.length ∧
        ([1, 2] ++ List.replicate 18 9 : List (Fin 256)).drop 20 = twentyKeys.drop 20 ∧
        ([1, 2] ++ List.replicate 18 9 : List (Fin 256)).take 0 = twentyKeys.take 0) :=
  ⟨by decide, by decide,
    C18_BaseCase_frame (sample128 (Fin 256)) Order.Ascending twentyKeys _ 0 20 2 (by decide)
      (by decide)⟩

/-- C19: on a range `[begin, end_)` longer than `BaseCaseNum` (the ranges on which `Recurse`
is called), `ChoosePivot` returns a vector whose lanes all equal one key of the range, and
`ScanMinMax` returns as `first` the broadcast of a key of the range that no key of the range
precedes (its minimum in sort order). -/
theorem C19_pivot_is_key (t : Target α) (o : Order) (hV : t.Valid) (addr : Nat)
    (keys : List α) (begin end_ : Nat) (rng : Generator) (hend : end_ ≤ keys.length)
    (hnum : BaseCaseNum t.lanes < end_ - begin) :
    (∃ p rng', ChoosePivot t o addr keys begin end_ rng = some (SetKey t.lanes p, rng') ∧
        p ∈ (keys.drop begin).take (end_ - begin)) ∧
      ∃ f l, ScanMinMax t o keys begin (end_ - begin)
          = some (SetKey t.lanes f, SetKey t.lanes l) ∧
        f ∈ (keys.drop begin).take (end_ - begin) ∧
        ∀ x ∈ (keys.drop begin).take (end_ - begin), ole o f x := by
  obtain ⟨hpos, _, _, _, h2N, h2lpc, _, _⟩ := hV.facts
  constructor
  · obtain ⟨p, rng', e⟩ := ChoosePivot_spec t o hV addr keys begin end_ rng hend (by omega)
    exact ⟨p, rng', e, ChoosePivot_mem t o hV addr keys begin end_ rng rng' p (by omega) e⟩
  · obtain ⟨f, l, e, hf, _, hall⟩ := ScanMinMax_spec t o hpos (keys.take begin)
      (keys.drop begin) [] (end_ - begin) (by omega)
      (by rw [List.length_drop]; omega)
    rw [List.append_nil, List.take_append_drop, List.length_take,
      min_eq_left (by omega)] at e
    exact ⟨f, l, e, hf, fun x hx => (hall x hx).1⟩

theorem C19_pivot_is_key_witness :
    (sample128 (Fin 256)).Valid ∧ 33 ≤ sampleKeys.length ∧
      BaseCaseNum (sample128 (Fin 256)).lanes < 33 - 0 ∧
      ((∃ p rng', ChoosePivot (sample128 (Fin 256)) Order.Ascending 64 sampleKeys 0 33
            ⟨1, 2, 3, 1⟩ = some (SetKey (sample128 (Fin 256)).lanes p, rng') ∧
          p ∈ (sampleKeys.drop 0).take (33 - 0)) ∧
        ∃ f l, ScanMinMax (sample128 (Fin 256)) Order.Ascending sampleKeys 0 (33 - 0)
            = some (SetKey (sample128 (Fin 256)).lanes f, SetKey (sample128 (Fin 256)).lanes l) ∧
          f ∈ (sampleKeys.drop 0).take (33 - 0) ∧
          ∀ x ∈ (sampleKeys.drop 0).take (33 - 0), ole Order.Ascending f x) :=
  ⟨sample128_valid, by decide,
    by simp [sample128, BaseCaseNum, kMaxRows, kMaxRowsLog2, kMaxCols],
    C19_pivot_is_key (sample128 (Fin 256)) Order.Ascending sample128_valid 64 sampleKeys 0 33
      ⟨1, 2, 3, 1⟩ (by decide)
      (by simp [sample128, BaseCaseNum, kMaxRows, kMaxRowsLog2, kMaxCols])⟩

/-- C20: for every range `[l, r)` with `r - l > 2N` and every pivot that equals some key of
`keys[l, r)`, `Partition` returns a boundary `b > l`: the left side is never empty. -/
theorem C20_Partition_left_nonempty (t : Target α) (o : Order) (p : α)
    (hN : ∃ k, t.lanes = 2 ^ k) (keys : List α) (l r : Nat) (hr : r ≤ keys.length)
    (hlr : l + 2 * t.lanes < r) (hp : p ∈ (keys.drop l).take (r - l)) :
    ∃ keys' b, Partition t o keys l r (SetKey t.lanes p) = some (keys', b) ∧ l < b := by
  obtain ⟨keys', b, e, _, _, _, _, _, _, _, _, hc⟩ := Partition_index t o p hN keys l r hr hlr
  refine ⟨keys', b, e, ?_⟩
  have hmem : p ∈ leftOf o p ((keys.drop l).take (r - l)) := by
    unfold leftOf
    rw [List.mem_filter]
    exact ⟨hp, by rw [Compare_irrefl]; rfl⟩
  have := List.length_pos_of_mem hmem
  omega

theorem C20_Partition_left_nonempty_witness :
    (∃ k, (sample128 (Fin 256)).lanes = 2 ^ k) ∧ 6 ≤ [5, 3, 8, 1, 9, 2].length ∧
      0 + 2 * (sample128 (Fin 256)).lanes < 6 ∧
      (1 : Fin 256) ∈ (([5, 3, 8, 1, 9, 2] : List (Fin 256)).drop 0).take (6 - 0) ∧
      ∃ keys' b, Partition (sample128 (Fin 256)) Order.Ascending [5, 3, 8, 1, 9, 2] 0 6
          (SetKey (sample128 (Fin 256)).lanes 1) = some (keys', b) ∧ 0 < b :=
  ⟨⟨1, rfl⟩, by decide, by decide, by decide,
    C20_Partition_left_nonempty (sample128 (Fin 256)) Order.Ascending 1 ⟨1, rfl⟩
      [5, 3, 8, 1, 9, 2] 0 6 (by decide) (by decide) (by decide)⟩

end

theorem Generator.next_lt (g : Generator) (ha : g.a < 2 ^ 64) (hb : g.b < 2 ^ 64) :
    g.next.1 < 2 ^ 64 ∧ g.next.2.a < 2 ^ 64 ∧ g.next.2.b < 2 ^ 64 ∧ g.next.2.w < 2 ^ 64 := by
  have h64 : (0 : Nat) < 2 ^ 64 := by norm_num
  have hw : (g.w + g.k) % 2 ^ 64 < 2 ^ 64 := Nat.mod_lt _ h64
  have h11 : g.b >>> 11 < 2 ^ 64 :=
    lt_of_le_of_lt (by rw [Nat.shiftRight_eq_div_pow]; exact Nat.div_le_self _ _) hb
  refine ⟨Nat.xor_lt_two_pow ha hw, Nat.xor_lt_two_pow (Nat.mod_lt _ h64) h11,
    Nat.mod_lt _ h64, hw⟩

theorem Generator.iterate_k (g : Generator) (m : Nat) :
    ((fun s : Generator => s.next.2)^[m] g).k = g.k := by
  induction m with
  | zero => rfl
  | succ m ih =>
    rw [Function.iterate_succ_apply']
    exact ih

theorem Generator.iterate_w (g : Generator) (hw : g.w < 2 ^ 64) (m : Nat) :
    ((fun s : Generator => s.next.2)^[m] g).w = (g.w + m * g.k) % 2 ^ 64 := by
  induction m with
  | zero =>
    show g.w = (g.w + 0 * g.k) % 2 ^ 64
    rw [Nat.zero_mul, Nat.add_zero, Nat.mod_eq_of_lt hw]
  | succ m ih =>
    rw [Function.iterate_succ_apply']
    show (((fun s : Generator => s.next.2)^[m] g).w + ((fun s : Generator => s.next.2)^[m] g).k)
      % 2 ^ 64 = _
    rw [ih, Generator.iterate_k, Nat.mod_add_mod]
    congr 1
    ring

/-- C25: for every 64-bit state `(a, b, w, k)`, one call of the generator returns
`next = a XOR (w + k)` and leaves `a' = (b + (b << 3)) XOR (b >> 11)`,
`b' = ((b << 24) | (b >> 40)) + next`, `w' = w + k` and `k' = k`, all modulo `2^64` and all
again 64-bit values; so `k` never changes, and after `m` calls `w = w0 + m * k` modulo
`2^64`, which is `w0 + m` for the stream index `k = 1` that both constructors set. -/
theorem C25_Generator_next (g : Generator) (ha : g.a < 2 ^ 64) (hb : g.b < 2 ^ 64)
    (hw : g.w < 2 ^ 64) :
    g.next.1 = g.a ^^^ ((g.w + g.k) % 2 ^ 64) ∧
      g.next.2.a = ((g.b + (g.b <<< 3) % 2 ^ 64) % 2 ^ 64) ^^^ (g.b >>> 11) ∧
      g.next.2.b = ((((g.b <<< 24) % 2 ^ 64) ||| (g.b >>> 40)) + g.next.1) % 2 ^ 64 ∧
      g.next.2.w = (g.w + g.k) % 2 ^ 64 ∧ g.next.2.k = g.k ∧
      (g.next.1 < 2 ^ 64 ∧ g.next.2.a < 2 ^ 64 ∧ g.next.2.b < 2 ^ 64 ∧ g.next.2.w < 2 ^ 64) ∧
      ∀ m, ((fun s : Generator => s.next.2)^[m] g).k = g.k ∧
        ((fun s : Generator => s.next.2)^[m] g).w = (g.w + m * g.k) % 2 ^ 64 ∧
        (g.k = 1 → ((fun s : Generator => s.next.2)^[m] g).w = (g.w + m) % 2 ^ 64) := by
  refine ⟨rfl, ?_, rfl, rfl, rfl, Generator.next_lt g ha hb, fun m => ?_⟩
  · show ((g.b + (g.b <<< 3)) % 2 ^ 64) ^^^ (g.b >>> 11) = _
    rw [Nat.add_mod_mod]
  · refine ⟨Generator.iterate_k g m, Generator.iterate_w g hw m, fun hk => ?_⟩
    rw [Generator.iterate_w g hw m, hk, Nat.mul_one]

theorem C25_Generator_next_witness :
    (1 : Nat) < 2 ^ 64 ∧ (2 : Nat) < 2 ^ 64 ∧ (3 : Nat) < 2 ^ 64 ∧
      ((⟨1, 2, 3, 1⟩ : Generator).next.1 = 1 ^^^ ((3 + 1) % 2 ^ 64) ∧
      (⟨1, 2, 3, 1⟩ : Generator).next.2.a = ((2 + (2 <<< 3) % 2 ^ 64) % 2 ^ 64) ^^^ (2 >>> 11) ∧
      (⟨1, 2, 3, 1⟩ : Generator).next.2.b
        = ((((2 <<< 24) % 2 ^ 64) ||| (2 >>> 40)) + (⟨1, 2, 3, 1⟩ : Generator).next.1) % 2 ^ 64 ∧
      (⟨1, 2, 3, 1⟩ : Generator).next.2.w = (3 + 1) % 2 ^ 64 ∧
      (⟨1, 2, 3, 1⟩ : Generator).next.2.k = 1 ∧
      ((⟨1, 2, 3, 1⟩ : Generator).next.1 < 2 ^ 64 ∧ (⟨1, 2, 3, 1⟩ : Generator).next.2.a < 2 ^ 64 ∧
        (⟨1, 2, 3, 1⟩ : Generator).next.2.b < 2 ^ 64 ∧
        (⟨1, 2, 3, 1⟩ : Generator).next.2.w < 2 ^ 64) ∧
      ∀ m, ((fun s : Generator => s.next.2)^[m] ⟨1, 2, 3, 1⟩).k = 1 ∧
        ((fun s : Generator => s.next.2)^[m] ⟨1, 2, 3, 1⟩).w = (3 + m * 1) % 2 ^ 64 ∧
        ((1 : Nat) = 1 → ((fun s : Generator => s.next.2)^[m] ⟨1, 2, 3, 1⟩).w
          = (3 + m) % 2 ^ 64)) :=
  ⟨by norm_num, by norm_num, by norm_num,
    C25_Generator_next ⟨1, 2, 3, 1⟩ (by norm_num) (by norm_num) (by norm_num)⟩

/-- C26: for `1 ≤ num_chunks < 2^32` and every 32-bit `bits`, `RandomChunkIndex` is
`⌊bits * num_chunks / 2^32⌋`, is strictly less than `num_chunks`, and does not decrease when
`bits` grows. -/
theorem C26_RandomChunkIndex (num_chunks bits : Nat) (h1 : 1 ≤ num_chunks)
    (h2 : num_chunks < 2 ^ 32) (hb : bits < 2 ^ 32) :
    RandomChunkIndex num_chunks bits = bits * num_chunks / 2 ^ 32 ∧
      RandomChunkIndex num_chunks bits < num_chunks ∧
      ∀ bits', bits ≤ bits' → bits' < 2 ^ 32 →
        RandomChunkIndex num_chunks bits ≤ RandomChunkIndex num_chunks bits' := by
  have key : ∀ b, b < 2 ^ 32 → RandomChunkIndex num_chunks b = b * num_chunks / 2 ^ 32 := by
    intro b hb
    unfold RandomChunkIndex
    have h64 : (2 : Nat) ^ 32 * 2 ^ 32 = 2 ^ 64 := by norm_num
    have hlt : b * num_chunks < 2 ^ 64 := by
      have := Nat.mul_lt_mul'' hb h2
      omega
    rw [Nat.mod_eq_of_lt hlt, Nat.shiftRight_eq_div_pow]
  refine ⟨key bits hb, RandomChunkIndex_lt num_chunks bits hb h1 h2, fun bits' hle hb' => ?_⟩
  rw [key bits hb, key bits' hb']
  exact Nat.div_le_div_right (Nat.mul_le_mul_right _ hle)

theorem C26_RandomChunkIndex_witness :
    1 ≤ 5 ∧ 5 < 2 ^ 32 ∧ 3000000000 < 2 ^ 32 ∧
      (RandomChunkIndex 5 3000000000 = 3000000000 * 5 / 2 ^ 32 ∧
        RandomChunkIndex 5 3000000000 < 5 ∧
        ∀ bits', 3000000000 ≤ bits' → bits' < 2 ^ 32 →
          RandomChunkIndex 5 3000000000 ≤ RandomChunkIndex 5 bits') :=
  ⟨by norm_num, by norm_num, by norm_num,
    C26_RandomChunkIndex 5 3000000000 (by norm_num) (by norm_num) (by norm_num)⟩

/-- C28: for `2 ≤ num ≤ 2^31`, `num_pow2 = 1 << (32 - clz32(num - 1))` is the smallest power
of two that is at least `num`, and with `cols = max(1, num_pow2 >> kMaxRowsLog2)` the network
covers every key: `cols * kMaxRows ≥ num`. -/
theorem C28_num_pow2 (num : Nat) (h2 : 2 ≤ num) (h31 : num ≤ 2 ^ 31) :
    (∃ k, 1 <<< (32 - Num0BitsAboveMS1Bit_Nonzero32 ((num - 1) % 2 ^ 32)) = 2 ^ k) ∧
      num ≤ 1 <<< (32 - Num0BitsAboveMS1Bit_Nonzero32 ((num - 1) % 2 ^ 32)) ∧
      (∀ j, num ≤ 2 ^ j →
        1 <<< (32 - Num0BitsAboveMS1Bit_Nonzero32 ((num - 1) % 2 ^ 32)) ≤ 2 ^ j) ∧
      num ≤ max 1 ((1 <<< (32 - Num0BitsAboveMS1Bit_Nonzero32 ((num - 1) % 2 ^ 32)))
        >>> kMaxRowsLog2) * kMaxRows := by
  have h3132 : (2 : Nat) ^ 31 ≤ 2 ^ 32 := by norm_num
  have hcols := BaseCase_cols num h2 (by omega)
  have hlt : num - 1 < 2 ^ 32 := by omega
  obtain ⟨hb1, hle, hb3⟩ := bitLength_spec 32 (num - 1) hlt
  have e : 32 - (32 - bitLength 32 (num - 1)) = bitLength 32 (num - 1) := by omega
  have enp : 1 <<< (32 - Num0BitsAboveMS1Bit_Nonzero32 ((num - 1) % 2 ^ 32))
      = 2 ^ bitLength 32 (num - 1) := by
    rw [Nat.mod_eq_of_lt hlt, Num0BitsAboveMS1Bit_Nonzero32, e, Nat.one_shiftLeft]
  refine ⟨⟨_, enp⟩, by rw [enp]; omega, fun j hj => ?_, by rw [kMaxRows_eq]; exact hcols⟩
  rw [enp]
  apply Nat.pow_le_pow_right (by norm_num)
  by_contra hcon
  have hjb : j ≤ bitLength 32 (num - 1) - 1 := by omega
  have hp : 2 ^ j ≤ 2 ^ (bitLength 32 (num - 1) - 1) := Nat.pow_le_pow_right (by norm_num) hjb
  have := hb3 (by omega)
  omega

theorem C28_num_pow2_witness :
    2 ≤ 33 ∧ 33 ≤ 2 ^ 31 ∧
      ((∃ k, 1 <<< (32 - Num0BitsAboveMS1Bit_Nonzero32 ((33 - 1) % 2 ^ 32)) = 2 ^ k) ∧
      33 ≤ 1 <<< (32 - Num0BitsAboveMS1Bit_Nonzero32 ((33 - 1) % 2 ^ 32)) ∧
      (∀ j, 33 ≤ 2 ^ j →
        1 <<< (32 - Num0BitsAboveMS1Bit_Nonzero32 ((33 - 1) % 2 ^ 32)) ≤ 2 ^ j) ∧
      33 ≤ max 1 ((1 <<< (32 - Num0BitsAboveMS1Bit_Nonzero32 ((33 - 1) % 2 ^ 32)))
        >>> kMaxRowsLog2) * kMaxRows) :=
  ⟨by norm_num, by norm_num, C28_num_pow2 33 (by norm_num) (by norm_num)⟩

section

variable {α : Type} [LinearOrder α] [BoundedOrder α]

theorem median_asc (a b c : α) :
    (min (max (min a c) b) (max a c) = a ∧ ((b ≤ a ∧ a ≤ c) ∨ (c ≤ a ∧ a ≤ b))) ∨
    (min (max (min a c) b) (max a c) = b ∧ ((a ≤ b ∧ b ≤ c) ∨ (c ≤ b ∧ b ≤ a))) ∨
    (min (max (min a c) b) (max a c) = c ∧ ((a ≤ c ∧ c ≤ b) ∨ (b ≤ c ∧ c ≤ a))) := by
  rcases le_total a c with hac | hac
  · rw [min_eq_left hac, max_eq_right hac]
    rcases le_total a b with hab | hab
    · rw [max_eq_right hab]
      rcases le_total b c with hbc | hbc
      · rw [min_eq_left hbc]; exact Or.inr (Or.inl ⟨rfl, Or.inl ⟨hab, hbc⟩⟩)
      · rw [min_eq_right hbc]; exact Or.inr (Or.inr ⟨rfl, Or.inl ⟨hac, hbc⟩⟩)
    · rw [max_eq_left hab, min_eq_left hac]; exact Or.inl ⟨rfl, Or.inl ⟨hab, hac⟩⟩
  · rw [min_eq_right hac, max_eq_left hac]
    rcases le_total c b with hcb | hcb
    · rw [max_eq_right hcb]
      rcases le_total b a with hba | hba
      · rw [min_eq_left hba]; exact Or.inr (Or.inl ⟨rfl, Or.inr ⟨hcb, hba⟩⟩)
      · rw [min_eq_right hba]; exact Or.inl ⟨rfl, Or.inr ⟨hac, hba⟩⟩
    · rw [max_eq_left hcb, min_eq_left hac]; exact Or.inr (Or.inr ⟨rfl, Or.inr ⟨hcb, hac⟩⟩)

theorem ole_asc_iff (a b : α) : ole Order.Ascending a b ↔ a ≤ b := by
  simp [ole, Compare]

theorem ole_desc_iff (a b : α) : ole Order.Descending a b ↔ b ≤ a := by
  simp [ole, Compare]

/-- `MedianOf3Lane` returns the middle one of its three arguments. -/
theorem MedianOf3Lane_median (o : Order) (a b c : α) :
    (MedianOf3Lane o a b c = a ∧ Between o b a c) ∨
    (MedianOf3Lane o a b c = b ∧ Between o a b c) ∨
    (MedianOf3Lane o a b c = c ∧ Between o a c b) := by
  cases o
  · simp only [MedianOf3Lane, First, Last, Between, ole_asc_iff]
    exact median_asc a b c
  · simp only [MedianOf3Lane, First, Last, Between, ole_desc_iff]
    have := @median_asc αᵒᵈ _ _ (OrderDual.toDual a) (OrderDual.toDual b) (OrderDual.toDual c)
    exact this

theorem zipWith3_getElem? (f : α → α → α → α) :
    ∀ (v0 v1 v2 : List α) (i : Nat) (a b c : α), v0[i]? = some a → v1[i]? = some b →
      v2[i]? = some c → (List.zipWith3 f v0 v1 v2)[i]? = some (f a b c) := by
  intro v0
  induction v0 with
  | nil => intro v1 v2 i a b c h; simp at h
  | cons x v0 ih =>
    intro v1 v2 i a b c h0 h1 h2
    match v1, v2, h1, h2 with
    | [], _, h1, _ => simp at h1
    | _ :: _, [], _, h2 => simp at h2
    | y :: v1, z :: v2, h1, h2 =>
      cases i with
      | zero =>
        simp only [List.getElem?_cons_zero, Option.some.injEq] at h0 h1 h2
        simp [List.zipWith3, h0, h1, h2]
      | succ i =>
        simp only [List.getElem?_cons_succ] at h0 h1 h2
        simp only [List.zipWith3, List.getElem?_cons_succ]
        exact ih v1 v2 i a b c h0 h1 h2

/-- C27: in every lane in which the three vectors have a key, `MedianOf3` returns the median
of the three keys of that lane: one of the three, lying in sort order between the other
two. -/
theorem C27_MedianOf3 (o : Order) (v0 v1 v2 : List α) (i : Nat) (a b c : α)
    (h0 : v0[i]? = some a) (h1 : v1[i]? = some b) (h2 : v2[i]? = some c) :
    ∃ m, (MedianOf3 o v0 v1 v2)[i]? = some m ∧
      ((m = a ∧ Between o b a c) ∨ (m = b ∧ Between o a b c) ∨ (m = c ∧ Between o a c b)) :=
  ⟨MedianOf3Lane o a b c, zipWith3_getElem? _ v0 v1 v2 i a b c h0 h1 h2,
    MedianOf3Lane_median o a b c⟩

theorem C27_MedianOf3_witness :
    ([5, 1] : List (Fin 256))[1]? = some 1 ∧ ([2, 9] : List (Fin 256))[1]? = some 9 ∧
      ([7, 4] : List (Fin 256))[1]? = some 4 ∧
      ∃ m, (MedianOf3 Order.Descending ([5, 1] : List (Fin 256)) [2, 9] [7, 4])[1]? = some m ∧
        ((m = 1 ∧ Between Order.Descending (9 : Fin 256) 1 4) ∨
          (m = 9 ∧ Between Order.Descending (1 : Fin 256) 9 4) ∨
          (m = 4 ∧ Between Order.Descending (1 : Fin 256) 4 9)) :=
  ⟨by decide, by decide, by decide,
    C27_MedianOf3 Order.Descending [5, 1] [2, 9] [7, 4] 1 1 9 4 (by decide) (by decide)
      (by decide)⟩

end

section

variable {α : Type} [LinearOrder α]

/-- C29: called on a range of `num` keys that is followed by a readable vector (as at its
call in `Partition`), `PartitionToMultipleOfUnroll` returns `left'` and `right'` such that
the unpartitioned length `right' - left'` is a multiple of `kUnroll * N` (its low bits are
zero), is `0` when `num < 2 * kUnroll * N` and at least `2 * kUnroll * N` otherwise; the keys
of `[left, left')` do not come after the pivot, those of `[right', right)` come after it,
and the range holds the same keys as before. -/
theorem C29_PartitionToMultipleOfUnroll (t : Target α) (o : Order) (p : α)
    (hN : ∃ k, t.lanes = 2 ^ k) (pre X post : List α) (hpost : t.lanes ≤ post.length) :
    ∃ P U S, PartitionToMultipleOfUnroll t o (pre ++ (X ++ post)) pre.length
        (pre.length + X.length) (SetKey t.lanes p)
      = some (pre ++ (P ++ (U ++ (S ++ post))), pre.length + P.length,
          pre.length + P.length + U.length) ∧
      kPartitionUnroll * t.lanes ∣ U.length ∧
      U.length &&& (kPartitionUnroll * t.lanes - 1) = 0 ∧
      (X.length < 2 * kPartitionUnroll * t.lanes → U.length = 0) ∧
      (2 * kPartitionUnroll * t.lanes ≤ X.length → 2 * kPartitionUnroll * t.lanes ≤ U.length) ∧
      allLeft o p P ∧ allRight o p S ∧ (P ++ (U ++ S)).Perm X := by
  obtain ⟨P, U, S, h, hL, hR, hperm, hU⟩ :=
    PartitionToMultipleOfUnroll_spec t o p hN pre X post hpost
  have hNpos : 0 < t.lanes := by
    obtain ⟨k, hk⟩ := hN; rw [hk]; exact Nat.pos_pow_of_pos _ (by omega)
  have hdvd : kPartitionUnroll * t.lanes ∣ U.length := by
    rw [hU, kPartitionUnroll]
    by_cases hlt : X.length < 8 * t.lanes
    · rw [if_pos hlt]; exact Nat.dvd_zero _
    · rw [if_neg hlt]; exact (mod_block t.lanes X.length hNpos (by omega)).2.2.2
  refine ⟨P, U, S, h, hdvd, ?_, ?_, ?_, hL, hR, ?_⟩
  · obtain ⟨k, hk⟩ := hN
    have h4 : kPartitionUnroll * t.lanes = 2 ^ (k + 2) := by
      rw [hk, kPartitionUnroll, pow_add]; omega
    rw [h4] at hdvd ⊢
    rw [Nat.and_pow_two_sub_one_eq_mod]
    exact Nat.mod_eq_zero_of_dvd hdvd
  · intro hlt
    rw [kPartitionUnroll] at hlt
    rw [hU, if_pos (by omega)]
  · intro hge
    rw [kPartitionUnroll] at hge ⊢
    rw [hU, if_neg (by omega)]
    have := (mod_block t.lanes X.length hNpos (by omega)).2.1
    omega
  · exact (List.Perm.append_left P List.perm_append_comm).trans hperm

theorem C29_PartitionToMultipleOfUnroll_witness :
    (sample128 (Fin 256)).lanes ≤ ([0, 0] : List (Fin 256)).length ∧
      ∃ P U S, PartitionToMultipleOfUnroll (sample128 (Fin 256)) Order.Ascending
          ([] ++ (twentyKeys ++ [0, 0])) ([] : List (Fin 256)).length
          (([] : List (Fin 256)).length + twentyKeys.length)
          (SetKey (sample128 (Fin 256)).lanes 5)
        = some ([] ++ (P ++ (U ++ (S ++ [0, 0]))), ([] : List (Fin 256)).length + P.length,
            ([] : List (Fin 256)).length + P.length + U.length) ∧
        kPartitionUnroll * (sample128 (Fin 256)).lanes ∣ U.length ∧
        U.length &&& (kPartitionUnroll * (sample128 (Fin 256)).lanes - 1) = 0 ∧
        (twentyKeys.length < 2 * kPartitionUnroll * (sample128 (Fin 256)).lanes →
          U.length = 0) ∧
        (2 * kPartitionUnroll * (sample128 (Fin 256)).lanes ≤ twentyKeys.length →
          2 * kPartitionUnroll * (sample128 (Fin 256)).lanes ≤ U.length) ∧
        allLeft Order.Ascending 5 P ∧ allRight Order.Ascending 5 S ∧
        (P ++ (U ++ S)).Perm twentyKeys :=
  ⟨by decide, C29_PartitionToMultipleOfUnroll (sample128 (Fin 256)) Order.Ascending 5
    ⟨1, rfl⟩ [] twentyKeys [0, 0] (by decide)⟩

end

section

variable {α : Type} [LinearOrder α] [BoundedOrder α]

/-- A sorted rearrangement of `L ++ R`, where no key of `L` comes after a key of `R`, is the
sorted `L` followed by the sorted `R`. -/
theorem sorted_block_eq (o : Order) (L R B : List α) (hperm : B.Perm (L ++ R))
    (hs : B.Sorted (ole o)) (hcut : ∀ x ∈ L, ∀ y ∈ R, ole o x y) :
    B = L.insertionSort (ole o) ++ R.insertionSort (ole o) := by
  rw [← insertionSort_append o L R hcut]
  exact List.eq_of_perm_of_sorted (hperm.trans (List.perm_insertionSort _ _).symm) hs
    (List.sorted_insertionSort _ _)

/-- C24: when every key of `keys[a, b)` (the list `L`) precedes or equals every key of
`keys[b, c)` (the list `R`) and the block `keys[a, c)` has the footprint of the sorting
network, the in-place `BaseCase` called on the range `[a, b)` leaves in `[a, b)` the sorted
rearrangement of `L` and in `[b, c)` a rearrangement of `R`, all other lanes unchanged; and
the same holds for every sorted rearrangement of the block, so no key crosses `b`. -/
theorem C24_BaseCase_block (t : Target α) (o : Order) (A L R Z : List α) (keys_end : Nat)
    (hlen : L.length + R.length = min t.fullLanes kMaxCols * kMaxRows)
    (hend : A.length + min t.fullLanes kMaxCols * kMaxRows ≤ keys_end)
    (hcut : ∀ x ∈ L, ∀ y ∈ R, ole o x y) :
    (∃ L' R', BaseCase t o (A ++ (L ++ (R ++ Z))) A.length keys_end L.length
        = some (A ++ (L' ++ (R' ++ Z))) ∧
      L'.Perm L ∧ L'.Sorted (ole o) ∧ R'.Perm R) ∧
    ∀ B : List α, B.Perm (L ++ R) → B.Sorted (ole o) →
      (B.take L.length).Perm L ∧ (B.take L.length).Sorted (ole o) ∧
        (B.drop L.length).Perm R := by
  constructor
  · unfold BaseCase
    by_cases h1 : L.length ≤ 1
    · rw [if_pos h1]
      exact ⟨L, R, rfl, List.Perm.refl _, sorted_of_length_le_one o L h1, List.Perm.refl _⟩
    · rw [if_neg h1]
      simp only [hend, if_true]
      have e : A ++ (L ++ (R ++ Z)) = A ++ ((L ++ R) ++ Z) := by
        simp only [List.append_assoc]
      rw [e, SortingNetwork_eq o A (L ++ R) Z _
        (by rw [List.length_append, hlen, Nat.mul_comm]),
        insertionSort_append o L R hcut]
      exact ⟨L.insertionSort (ole o), R.insertionSort (ole o),
        by simp only [List.append_assoc], List.perm_insertionSort _ _,
        List.sorted_insertionSort _ _, List.perm_insertionSort _ _⟩
  · intro B hperm hs
    have hB := sorted_block_eq o L R B hperm hs hcut
    have hl : (L.insertionSort (ole o)).length = L.length := List.length_insertionSort _ _
    rw [hB, List.take_left' hl, List.drop_left' hl]
    exact ⟨List.perm_insertionSort _ _, List.sorted_insertionSort _ _,
      List.perm_insertionSort _ _⟩

theorem C24_BaseCase_block_witness :
    ([3, 1, 2] : List (Fin 256)).length + (List.replicate 29 (9 : Fin 256)).length
        = min (sample128 (Fin 256)).fullLanes kMaxCols * kMaxRows ∧
      ([7] : List (Fin 256)).length + min (sample128 (Fin 256)).fullLanes kMaxCols * kMaxRows
        ≤ 40 ∧
      (∀ x ∈ ([3, 1, 2] : List (Fin 256)), ∀ y ∈ List.replicate 29 (9 : Fin 256),
        ole Order.Ascending x y) ∧
      (∃ L' R', BaseCase (sample128 (Fin 256)) Order.Ascending
          ([7] ++ ([3, 1, 2] ++ (List.replicate 29 9 ++ [0, 0]))) ([7] : List (Fin 256)).length
          40 ([3, 1, 2] : List (Fin 256)).length
          = some ([7] ++ (L' ++ (R' ++ [0, 0]))) ∧
        L'.Perm [3, 1, 2] ∧ L'.Sorted (ole Order.Ascending) ∧
        R'.Perm (List.replicate 29 9)) ∧
      ∀ B : List (Fin 256), B.Perm ([3, 1, 2] ++ List.replicate 29 9) →
        B.Sorted (ole Order.Ascending) →
        (B.take ([3, 1, 2] : List (Fin 256)).length).Perm [3, 1, 2] ∧
          (B.take ([3, 1, 2] : List (Fin 256)).length).Sorted (ole Order.Ascending) ∧
          (B.drop ([3, 1, 2] : List (Fin 256)).length).Perm (List.replicate 29 9) :=
  ⟨by simp [sample128, kMaxRows, kMaxRowsLog2, kMaxCols],
    by simp [sample128, kMaxRows, kMaxRowsLog2, kMaxCols],
    by simp [ole, Compare],
    C24_BaseCase_block (sample128 (Fin 256)) Order.Ascending [7] [3, 1, 2]
      (List.replicate 29 9) [0, 0] 40
      (by simp [sample128, kMaxRows, kMaxRowsLog2, kMaxCols])
      (by simp [sample128, kMaxRows, kMaxRowsLog2, kMaxCols])
      (by simp [ole, Compare])⟩

end

section

variable {α : Type} [LinearOrder α]

/-- One call of `StoreLeftRight` on `remaining ≥ N` lanes starting at `writeL`: the left
lanes of `v` follow the finished left region, the right lanes precede the finished right
region, and `remaining - N` lanes lie between them. -/
theorem StoreLeftRight_regions (t : Target α) (o : Order) (p : α) (v : List α)
    (hv : v.length = t.lanes) (keys : List α) (writeL remaining : Nat)
    (hd : t.lanes ∣ remaining) (hle : t.lanes ≤ remaining)
    (hb : writeL + remaining ≤ keys.length) :
    ∃ G, StoreLeftRight t o v (SetKey t.lanes p) keys writeL remaining
        = some (keys.take writeL ++ (leftOf o p v ++ (G ++ (rightOf o p v ++
            keys.drop (writeL + remaining)))),
          writeL + (leftOf o p v).length, remaining - t.lanes) ∧
      G.length = remaining - t.lanes := by
  obtain ⟨pre, rest, rfl, hpre⟩ := split_at keys writeL (by omega)
  rw [List.length_append] at hb
  obtain ⟨mid, post, rfl, hmid⟩ := split_at rest remaining (by omega)
  subst hpre
  rw [List.take_left, ← List.drop_drop, List.drop_left, ← hmid, List.drop_left]
  by_cases heq : remaining = t.lanes
  · rw [← heq, hmid, heq, StoreLeftRight_fin t o p v hv pre mid post (by omega)]
    exact ⟨[], by simp, by simp⟩
  · have h2 : 2 * t.lanes ≤ remaining := by
      obtain ⟨c, hc⟩ := hd
      have hc2 : 2 ≤ c := by
        rcases c with _ | _ | c
        · simp at hc; omega
        · simp at hc; omega
        · omega
      calc 2 * t.lanes = t.lanes * 2 := Nat.mul_comm _ _
        _ ≤ t.lanes * c := Nat.mul_le_mul_left _ hc2
        _ = remaining := hc.symm
    obtain ⟨G1, rest2, rfl, hG1⟩ := split_at mid t.lanes (by omega)
    rw [List.length_append] at hmid
    obtain ⟨U, G2, rfl, hG2⟩ := split_at_end rest2 t.lanes (by omega)
    rw [List.length_append] at hmid
    obtain ⟨G1', G2', e, hg1, hg2⟩ := StoreLeftRight_gen t o p v hv pre G1 U G2 post
      (by omega) (by omega)
    have hrem : (G1 ++ (U ++ G2)).length = G1.length + U.length + G2.length := by
      simp only [List.length_append]; omega
    have hlr := leftOf_length_add o p v
    refine ⟨G1' ++ (U ++ G2'), ?_, ?_⟩
    · rw [hrem]
      simp only [List.append_assoc] at e ⊢
      exact e
    · simp only [List.length_append]; omega

/-- C22: on two targets with the same vector length, one where `Compress` is a partition
and one with native `CompressStore`, a call of `StoreLeftRight` with a vector `v`, a
broadcast pivot and `remaining` a multiple of `N`, at least `N`, returns the same `writeL'`
and `remaining'` and the same keys in `[0, writeL')` and from `writeL' + remaining'` on; and
`Partition` returns the same array and the same boundary on both. -/
theorem C22_StoreLeftRight_dialects (t1 t2 : Target α) (o : Order)
    (hl : t2.lanes = t1.lanes) (h1 : t1.compressIsPartition = true)
    (h2 : t2.compressIsPartition = false) (hN : ∃ k, t1.lanes = 2 ^ k) :
    (∀ (v keys : List α) (p : α) (writeL remaining : Nat), v.length = t1.lanes →
      t1.lanes ∣ remaining → t1.lanes ≤ remaining → writeL + remaining ≤ keys.length →
      ∃ k1 k2 w r,
        StoreLeftRight t1 o v (SetKey t1.lanes p) keys writeL remaining = some (k1, w, r) ∧
        StoreLeftRight t2 o v (SetKey t1.lanes p) keys writeL remaining = some (k2, w, r) ∧
        r = remaining - t1.lanes ∧ k1.take w = k2.take w ∧
        k1.drop (w + r) = k2.drop (w + r)) ∧
    (∀ (keys : List α) (p : α) (l r : Nat), r ≤ keys.length → l + 2 * t1.lanes < r →
      ∃ keys' b, Partition t1 o keys l r (SetKey t1.lanes p) = some (keys', b) ∧
        Partition t2 o keys l r (SetKey t1.lanes p) = some (keys', b)) := by
  constructor
  · intro v keys p writeL remaining hv hd hle hb
    obtain ⟨Ga, ea, hga⟩ := StoreLeftRight_regions t1 o p v hv keys writeL remaining hd hle hb
    obtain ⟨Gb, eb, hgb⟩ := StoreLeftRight_regions t2 o p v (by rw [hl]; exact hv) keys writeL
      remaining (by rw [hl]; exact hd) (by rw [hl]; exact hle) hb
    rw [hl] at eb hgb
    refine ⟨_, _, _, _, ea, eb, rfl, ?_, ?_⟩
    · have hlen : (keys.take writeL ++ leftOf o p v).length
          = writeL + (leftOf o p v).length := by
        rw [List.length_append, List.length_take]; omega
      rw [← List.append_assoc, ← List.append_assoc (keys.take writeL),
        List.take_left' hlen, List.take_left' hlen]
    · have hlen : ∀ G : List α, G.length = remaining - t1.lanes →
          (keys.take writeL ++ leftOf o p v ++ G).length
            = writeL + (leftOf o p v).length + (remaining - t1.lanes) := by
        intro G hG
        rw [List.length_append, List.length_append, List.length_take, hG]; omega
      have ha : keys.take writeL ++ (leftOf o p v ++ (Ga ++ (rightOf o p v ++
            keys.drop (writeL + remaining))))
          = (keys.take writeL ++ leftOf o p v ++ Ga) ++ (rightOf o p v ++
            keys.drop (writeL + remaining)) := by simp only [List.append_assoc]
      have hb2 : keys.take writeL ++ (leftOf o p v ++ (Gb ++ (rightOf o p v ++
            keys.drop (writeL + remaining))))
          = (keys.take writeL ++ leftOf o p v ++ Gb) ++ (rightOf o p v ++
            keys.drop (writeL + remaining)) := by simp only [List.append_assoc]
      rw [ha, hb2, List.drop_left' (hlen Ga hga), List.drop_left' (hlen Gb hgb)]
  · intro keys p l r hr hlr
    obtain ⟨A, rest, rfl, hA⟩ := split_at keys l (by omega)
    rw [List.length_append] at hr
    obtain ⟨M, B, rfl, hM⟩ := split_at rest (r - l) (by omega)
    subst hA
    obtain rfl : r = A.length + M.length := by omega
    obtain ⟨P, S, _, _, _, h⟩ := Partition_uniform t1 o p hN A M B (by omega)
    exact ⟨_, _, h t1 rfl, h t2 hl⟩

theorem C22_StoreLeftRight_dialects_witness :
    (sample128 (Fin 256)).lanes = (sample128P (Fin 256)).lanes ∧
      (sample128P (Fin 256)).compressIsPartition = true ∧
      (sample128 (Fin 256)).compressIsPartition = false ∧
      (∃ k, (sample128P (Fin 256)).lanes = 2 ^ k) ∧
      (∀ (v keys : List (Fin 256)) (p : Fin 256) (writeL remaining : Nat),
        v.length = (sample128P (Fin 256)).lanes →
        (sample128P (Fin 256)).lanes ∣ remaining → (sample128P (Fin 256)).lanes ≤ remaining →
        writeL + remaining ≤ keys.length →
        ∃ k1 k2 w r,
          StoreLeftRight (sample128P (Fin 256)) Order.Ascending v
            (SetKey (sample128P (Fin 256)).lanes p) keys writeL remaining = some (k1, w, r) ∧
          StoreLeftRight (sample128 (Fin 256)) Order.Ascending v
            (SetKey (sample128P (Fin 256)).lanes p) keys writeL remaining = some (k2, w, r) ∧
          r = remaining - (sample128P (Fin 256)).lanes ∧ k1.take w = k2.take w ∧
          k1.drop (w + r) = k2.drop (w + r)) ∧
      (∀ (keys : List (Fin 256)) (p : Fin 256) (l r : Nat), r ≤ keys.length →
        l + 2 * (sample128P (Fin 256)).lanes < r →
        ∃ keys' b, Partition (sample128P (Fin 256)) Order.Ascending keys l r
            (SetKey (sample128P (Fin 256)).lanes p) = some (keys', b) ∧
          Partition (sample128 (Fin 256)) Order.Ascending keys l r
            (SetKey (sample128P (Fin 256)).lanes p) = some (keys', b)) :=
  ⟨rfl, rfl, rfl, ⟨1, rfl⟩,
    C22_StoreLeftRight_dialects (sample128P (Fin 256)) (sample128 (Fin 256)) Order.Ascending
      rfl rfl rfl ⟨1, rfl⟩⟩

/-- A list all of whose keys go to the left of the pivot. -/
theorem allLeft_of_leftOf_length (o : Order) (p : α) (M : List α)
    (h : (leftOf o p M).length = M.length) : allLeft o p M := by
  intro x hx
  have := (List.filter_length_eq_length (p := fun x => !Compare o p x) (l := M)).1 h x hx
  simpa using this

end

section

variable {α : Type} [LinearOrder α] [BoundedOrder α]

/-- C21: if `Partition` of `keys[l, r)` returned `r` and `ScanMinMax` of the range then gives
`first ≠ last`, then `first` is the broadcast of a key of the range that differs from the
former pivot, and `Partition` of the same range with pivot `first` returns a boundary
strictly between `l` and `r`. -/
theorem C21_degenerate_progress (t : Target α) (o : Order) (p : α)
    (hN : ∃ k, t.lanes = 2 ^ k) (keys keys1 : List α) (l r : Nat) (first last : List α)
    (hr : r ≤ keys.length) (hlr : l + 2 * t.lanes < r)
    (hpart : Partition t o keys l r (SetKey t.lanes p) = some (keys1, r))
    (hscan : ScanMinMax t o keys1 l (r - l) = some (first, last)) (hne : first ≠ last) :
    ∃ f, first = SetKey t.lanes f ∧ f ≠ p ∧ f ∈ (keys.drop l).take (r - l) ∧
      ∃ keys2 b, Partition t o keys1 l r first = some (keys2, b) ∧ l < b ∧ b < r := by
  have hNpos : 0 < t.lanes := by
    obtain ⟨k, hk⟩ := hN; rw [hk]; exact Nat.pos_pow_of_pos _ (by omega)
  obtain ⟨keys', b, e, _, _, hlen, _, _, _, _, hperm, hb⟩ :=
    Partition_index t o p hN keys l r hr hlr
  rw [hpart] at e
  simp only [Option.some.injEq, Prod.mk.injEq] at e
  obtain ⟨rfl, rfl⟩ := e
  have hMlen : ((keys.drop l).take (r - l)).length = r - l := by
    rw [List.length_take, List.length_drop]; omega
  have hall : allLeft o p ((keys.drop l).take (r - l)) :=
    allLeft_of_leftOf_length o p _ (by rw [← hb, hMlen])
  have hall1 : ∀ x ∈ (keys1.drop l).take (r - l), ole o x p :=
    fun x hx => hall x (hperm.mem_iff.1 hx)
  -- what ScanMinMax returns
  have hsplit : keys1 = keys1.take l ++ (keys1.drop l ++ []) := by
    rw [List.append_nil, List.take_append_drop]
  have hl1 : (keys1.take l).length = l := by rw [List.length_take]; omega
  have hsc := ScanMinMax_spec t o hNpos (keys1.take l) (keys1.drop l) [] (r - l) (by omega)
    (by rw [List.length_drop]; omega)
  rw [← hsplit, hl1] at hsc
  obtain ⟨f, la, e2, hf, hla, hbd⟩ := hsc
  rw [hscan] at e2
  simp only [Option.some.injEq, Prod.mk.injEq] at e2
  obtain ⟨rfl, rfl⟩ := e2
  have hfp : f ≠ p := by
    intro hfp
    subst hfp
    apply hne
    rw [ole_antisymm o (hbd la hla).1 (hall1 la hla)]
  refine ⟨f, rfl, hfp, hperm.mem_iff.1 hf, ?_⟩
  obtain ⟨keys2, b, e3, h1, h2, _, _, _, _, _, _, hb2⟩ :=
    Partition_index t o f hN keys1 l r (by omega) hlr
  have hM1len : ((keys1.drop l).take (r - l)).length = r - l := by
    rw [List.length_take, List.length_drop]; omega
  have hlr2 := leftOf_length_add o f ((keys1.drop l).take (r - l))
  have hleft : 0 < (leftOf o f ((keys1.drop l).take (r - l))).length :=
    List.length_pos_of_mem (List.mem_filter.2 ⟨hf, by simp [Compare_irrefl]⟩)
  obtain ⟨y, hy, hyf⟩ : ∃ y ∈ (keys1.drop l).take (r - l), Compare o f y = true := by
    by_contra hcon
    apply hne
    have : la = f := by
      refine ole_antisymm o ?_ (hbd la hla).1
      have := fun h => hcon ⟨la, hla, h⟩
      simpa [ole] using this
    rw [this]
  have hright : 0 < (rightOf o f ((keys1.drop l).take (r - l))).length :=
    List.length_pos_of_mem (List.mem_filter.2 ⟨hy, hyf⟩)
  exact ⟨keys2, b, e3, by omega, by omega⟩

theorem C21_degenerate_progress_witness :
    (∃ k, (sample128 (Fin 256)).lanes = 2 ^ k) ∧ 6 ≤ ([4, 1, 3, 2, 6, 5] : List (Fin 256)).length ∧
      0 + 2 * (sample128 (Fin 256)).lanes < 6 ∧
      Partition (sample128 (Fin 256)) Order.Ascending [4, 1, 3, 2, 6, 5] 0 6
          (SetKey (sample128 (Fin 256)).lanes 6) = some ([4, 1, 3, 2, 6, 5], 6) ∧
      ScanMinMax (sample128 (Fin 256)) Order.Ascending [4, 1, 3, 2, 6, 5] 0 (6 - 0)
          = some ([1, 1], [6, 6]) ∧
      ([1, 1] : List (Fin 256)) ≠ [6, 6] ∧
      ∃ f, ([1, 1] : List (Fin 256)) = SetKey (sample128 (Fin 256)).lanes f ∧ f ≠ 6 ∧
        f ∈ (([4, 1, 3, 2, 6, 5] : List (Fin 256)).drop 0).take (6 - 0) ∧
        ∃ keys2 b, Partition (sample128 (Fin 256)) Order.Ascending [4, 1, 3, 2, 6, 5] 0 6 [1, 1]
            = some (keys2, b) ∧ 0 < b ∧ b < 6 :=
  ⟨⟨1, rfl⟩, by decide, by decide, by decide, by decide, by decide,
    C21_degenerate_progress (sample128 (Fin 256)) Order.Ascending 6 ⟨1, rfl⟩
      [4, 1, 3, 2, 6, 5] [4, 1, 3, 2, 6, 5] 0 6 [1, 1] [6, 6] (by decide) (by decide)
      (by decide) (by decide) (by decide)⟩

theorem OnlyHeapSortAt.rfl (d : Int) (g : Globals α) : OnlyHeapSortAt d g g :=
  ⟨[], by simp, by simp, by simp, by simp⟩

theorem OnlyHeapSortAt.chain {d : Int} {g g1 g2 : Globals α} (h1 : OnlyHeapSortAt d g g1)
    (h2 : OnlyHeapSortAt d g1 g2) : OnlyHeapSortAt d g g2 := by
  obtain ⟨e1, a1, b1, c1, d1⟩ := h1
  obtain ⟨e2, a2, b2, c2, d2⟩ := h2
  refine ⟨e1 ++ e2, by rw [a2, a1, List.append_assoc], ?_, ?_, by rw [d2, d1]⟩
  · rw [b2, b1, List.length_append]; omega
  · intro e he
    rcases List.mem_append.1 he with h | h
    · exact c1 e h
    · exact c2 e h

/-- One side of `Recurse` reaches `HeapSort` only through its recursive call. -/
theorem Recurse.side_heapsort (t : Target α) (o : Order) (addr keys_end : Nat)
    (recurse : List α → Nat → Nat → List α → Generator → Globals α →
      Option (List α × Generator × Globals α)) (rl : Nat)
    (hrec : ∀ keys lo hi p rng g res, recurse keys lo hi p rng g = some res →
      OnlyHeapSortAt (g.depth + rl) g res.2.2)
    (keys : List α) (lo hi : Nat) (num_side : Int) (rng : Generator) (g : Globals α)
    (res : List α × Generator × Globals α)
    (h : Recurse.side t o addr keys_end recurse keys lo hi num_side rng g = some res) :
    OnlyHeapSortAt (g.depth + (rl + 1 : Nat)) g res.2.2 := by
  unfold Recurse.side at h
  simp only [] at h
  split_ifs at h with hb
  · simp only [Option.bind_eq_bind, Option.bind_eq_some, Option.pure_def,
      Option.some.injEq] at h
    obtain ⟨k, _, rfl⟩ := h
    exact OnlyHeapSortAt.rfl _ _
  · simp only [Option.bind_eq_bind, Option.bind_eq_some, Option.pure_def,
      Option.some.injEq] at h
    obtain ⟨⟨p, rng2⟩, _, ⟨k, r, g2⟩, hr, rfl⟩ := h
    obtain ⟨ev, a, b, c, d⟩ := hrec _ _ _ _ _ _ _ hr
    simp only at a b c d
    refine ⟨ev, a, b, ?_, ?_⟩
    · intro e he
      obtain ⟨n, hn⟩ := c e he
      refine ⟨n, ?_⟩
      rw [hn]
      congr 1
      push_cast
      ring
    · simp only [d]
      omega

/-- Every `Heapsort` line printed during a call of `Recurse` entered at nesting depth `d`
with `rl` remaining levels comes from nesting depth `d + rl`, that is from an invocation
entered with `remaining_levels == 0`, and `HeapSort` is called once per such line. -/
theorem Recurse_heapsort (t : Target α) (o : Order) (addr keys_end : Nat) :
    ∀ (rl : Nat) (keys : List α) (begin end_ : Nat) (pivot : List α) (rng : Generator)
      (g : Globals α) (res : List α × Generator × Globals α),
      Recurse t o addr keys_end rl keys begin end_ pivot rng g = some res →
      OnlyHeapSortAt (g.depth + rl) g res.2.2 := by
  intro rl
  induction rl with
  | zero =>
    intro keys begin end_ pivot rng g res h
    rw [Recurse] at h
    simp only [Option.bind_eq_bind, Option.bind_eq_some, Option.pure_def,
      Option.some.injEq] at h
    obtain ⟨sorted, _, rfl⟩ := h
    exact ⟨[Event.heapsort g.depth (end_ - begin)], rfl, rfl, by simp, rfl⟩
  | succ rl ih =>
    intro keys begin end_ pivot rng g res h
    rw [Recurse] at h
    simp only [Option.bind_eq_bind, Option.bind_eq_some] at h
    obtain ⟨⟨keys1, bound⟩, _, h⟩ := h
    simp only [] at h
    split_ifs at h with hnr
    · simp only [Option.bind_eq_bind, Option.bind_eq_some] at h
      obtain ⟨⟨first, last⟩, _, h⟩ := h
      simp only [] at h
      split_ifs at h with hfl
      · simp only [Option.pure_def, Option.some.injEq] at h
        subst h
        exact ⟨[], by simp, by simp, by simp, rfl⟩
      · simp only [Option.bind_eq_bind, Option.bind_eq_some, Option.pure_def,
          Option.some.injEq] at h
        obtain ⟨⟨k, r, g2⟩, hr, rfl⟩ := h
        obtain ⟨ev, a, b, c, d⟩ := ih _ _ _ _ _ _ _ hr
        simp only at a b c d
        refine ⟨ev, a, b, ?_, ?_⟩
        · intro e he
          obtain ⟨n, hn⟩ := c e he
          refine ⟨n, ?_⟩
          rw [hn]
          congr 1
          push_cast
          ring
        · simp only [d]
          omega
    · simp only [Option.bind_eq_bind, Option.bind_eq_some] at h
      obtain ⟨⟨k, r, g2⟩, h1, h2⟩ := h
      have s1 := Recurse.side_heapsort t o addr keys_end _ rl ih _ _ _ _ _ _ _ h1
      have s2 := Recurse.side_heapsort t o addr keys_end _ rl ih _ _ _ _ _ _ _ h2
      simp only at s1 s2
      obtain ⟨_, _, _, _, hd⟩ := id s1
      simp only at hd
      rw [hd] at s2
      have s0 : OnlyHeapSortAt (g.depth + (rl + 1 : Nat)) g
          { g with max_depth := max g.max_depth g.depth } := ⟨[], by simp, by simp, by simp, rfl⟩
      exact s0.chain (s1.chain s2)

/-- C23: entered with `remaining_levels == 0`, `Recurse` returns what `HeapSort` of
`keys[begin, end)` gives: that range sorted, a rearrangement of its former keys, every lane
outside it unchanged, the generator untouched and no pivot chosen, with one `Heapsort` line
printed and one `HeapSort` call counted.  And whenever any call of `Recurse` returns, every
`Heapsort` line it printed comes from the nesting depth at which `remaining_levels` is `0`,
one line per call of `HeapSort`. -/
theorem C23_Recurse_depth_limit (t : Target α) (o : Order) (addr keys_end : Nat)
    (keys : List α) (begin end_ : Nat) (pivot : List α) (rng : Generator) (g : Globals α)
    (h1 : begin ≤ end_) (h2 : end_ ≤ keys.length) :
    (∃ keys', Recurse t o addr keys_end 0 keys begin end_ pivot rng g
        = some (keys', rng, { g with
            max_depth := max g.max_depth g.depth,
            out := g.out ++ [Event.heapsort g.depth (end_ - begin)],
            heapSortCalls := g.heapSortCalls + 1 }) ∧
      HeapSort o (keys.drop begin) (end_ - begin) = some (keys'.drop begin) ∧
      keys'.take begin = keys.take begin ∧ keys'.drop end_ = keys.drop end_ ∧
      ((keys'.drop begin).take (end_ - begin)).Perm ((keys.drop begin).take (end_ - begin)) ∧
      ((keys'.drop begin).take (end_ - begin)).Sorted (ole o)) ∧
    ∀ (rl : Nat) (keys2 : List α) (b2 e2 : Nat) (p2 : List α) (rng2 : Generator)
      (g2 : Globals α) (res : List α × Generator × Globals α),
      Recurse t o addr keys_end rl keys2 b2 e2 p2 rng2 g2 = some res →
      OnlyHeapSortAt (g2.depth + rl) g2 res.2.2 := by
  refine ⟨?_, Recurse_heapsort t o addr keys_end⟩
  obtain ⟨l2, e, hd, hp, hs⟩ := HeapSort_spec o (keys.drop begin) (end_ - begin)
    (by rw [List.length_drop]; omega)
  have hlen : (keys.take begin).length = begin := by rw [List.length_take]; omega
  refine ⟨keys.take begin ++ l2, ?_, ?_, ?_, ?_, ?_, ?_⟩
  · rw [Recurse]
    simp only [e, Option.some_bind, Option.bind_eq_bind, Option.pure_def]
  · rw [List.drop_left' hlen]; exact e
  · rw [List.take_left' hlen]
  · have : end_ = begin + (end_ - begin) := by omega
    rw [this, ← List.drop_drop, ← List.drop_drop, List.drop_left' hlen, hd]
  · rw [List.drop_left' hlen]; exact hp
  · rw [List.drop_left' hlen]; exact hs

theorem C23_Recurse_depth_limit_witness :
    1 ≤ 4 ∧ 4 ≤ ([0, 3, 1, 2, 9] : List (Fin 256)).length ∧
      (∃ keys', Recurse (sample128 (Fin 256)) Order.Ascending 0 5 0 [0, 3, 1, 2, 9] 1 4 [2, 2]
          ⟨1, 2, 3, 1⟩ (Globals.initial (Fin 256))
          = some (keys', ⟨1, 2, 3, 1⟩, { Globals.initial (Fin 256) with
              max_depth := max (Globals.initial (Fin 256)).max_depth
                (Globals.initial (Fin 256)).depth,
              out := (Globals.initial (Fin 256)).out ++
                [Event.heapsort (Globals.initial (Fin 256)).depth (4 - 1)],
              heapSortCalls := (Globals.initial (Fin 256)).heapSortCalls + 1 }) ∧
        HeapSort Order.Ascending (([0, 3, 1, 2, 9] : List (Fin 256)).drop 1) (4 - 1)
          = some (keys'.drop 1) ∧
        keys'.take 1 = ([0, 3, 1, 2, 9] : List (Fin 256)).take 1 ∧
        keys'.drop 4 = ([0, 3, 1, 2, 9] : List (Fin 256)).drop 4 ∧
        ((keys'.drop 1).take (4 - 1)).Perm
          ((([0, 3, 1, 2, 9] : List (Fin 256)).drop 1).take (4 - 1)) ∧
        ((keys'.drop 1).take (4 - 1)).Sorted (ole Order.Ascending)) ∧
      ∀ (rl : Nat) (keys2 : List (Fin 256)) (b2 e2 : Nat) (p2 : List (Fin 256))
        (rng2 : Generator) (g2 : Globals (Fin 256))
        (res : List (Fin 256) × Generator × Globals (Fin 256)),
        Recurse (sample128 (Fin 256)) Order.Ascending 0 5 rl keys2 b2 e2 p2 rng2 g2 = some res →
        OnlyHeapSortAt (g2.depth + rl) g2 res.2.2 :=
  ⟨by decide, by decide,
    C23_Recurse_depth_limit (sample128 (Fin 256)) Order.Ascending 0 5 [0, 3, 1, 2, 9] 1 4
      [2, 2] ⟨1, 2, 3, 1⟩ (Globals.initial (Fin 256)) (by decide) (by decide)⟩

end

section

variable {α : Type} [LinearOrder α]

theorem LoadU_len (N : Nat) (mem v : List α) (i : Nat) (h : LoadU N mem i = some v) :
    v.length ≤ N := by
  unfold LoadU at h
  split_ifs at h
  cases h
  rw [List.length_take]
  exact min_le_left _ _

theorem CountTrue_le (m : List Bool) : CountTrue m ≤ m.length := List.count_le_length _ _

theorem CompareV_length_le (o : Order) (a b : List α) : (CompareV o a b).length ≤ b.length := by
  unfold CompareV
  rw [List.length_zipWith]
  exact min_le_right _ _

/-- What one call of `StoreLeftRight` does to `writeL` and `remaining`. -/
theorem StoreLeftRight_arith (t : Target α) (o : Order) (v pivot keys : List α)
    (writeL remaining : Nat) (k : List α) (w r : Nat) (hv : v.length ≤ t.lanes)
    (h : StoreLeftRight t o v pivot keys writeL remaining = some (k, w, r)) :
    r = remaining - t.lanes ∧ writeL ≤ w ∧ w ≤ writeL + t.lanes := by
  have hc := CompareV_length_le o pivot v
  unfold StoreLeftRight at h
  simp only [] at h
  split_ifs at h
  · simp only [Option.bind_eq_bind, Option.bind_eq_some, Option.pure_def, Option.some.injEq,
      Prod.mk.injEq] at h
    obtain ⟨_, _, _, _, _, rfl, rfl⟩ := h
    exact ⟨rfl, by omega, by omega⟩
  · simp only [Option.bind_eq_bind, Option.bind_eq_some, Option.pure_def, Option.some.injEq,
      Prod.mk.injEq, CompressStore, CompressBlendedStore] at h
    obtain ⟨⟨k1, n1⟩, ⟨_, _, e1⟩, ⟨k2, n2⟩, _, _, rfl, rfl⟩ := h
    simp only [Prod.mk.injEq] at e1
    obtain ⟨_, rfl⟩ := e1
    have : CountTrue (MaskNot (CompareV o pivot v)) ≤ (CompareV o pivot v).length := by
      have h := CountTrue_le (MaskNot (CompareV o pivot v))
      rwa [MaskNot, List.length_map] at h
    exact ⟨rfl, by omega, by omega⟩

/-- What `StoreLeftRight4` does to `writeL` and `remaining`. -/
theorem StoreLeftRight4_arith (t : Target α) (o : Order) (v0 v1 v2 v3 pivot keys : List α)
    (writeL remaining : Nat) (k : List α) (w r : Nat) (h0 : v0.length ≤ t.lanes)
    (h1 : v1.length ≤ t.lanes) (h2 : v2.length ≤ t.lanes) (h3 : v3.length ≤ t.lanes)
    (h : StoreLeftRight4 t o v0 v1 v2 v3 pivot keys writeL remaining = some (k, w, r)) :
    r = remaining - kPartitionUnroll * t.lanes ∧ writeL ≤ w ∧
      w ≤ writeL + kPartitionUnroll * t.lanes := by
  unfold StoreLeftRight4 at h
  simp only [Option.bind_eq_bind, Option.bind_eq_some] at h
  obtain ⟨⟨ka, wa, ra⟩, ea, ⟨kb, wb, rb⟩, eb, ⟨kc, wc, rc⟩, ec, ed⟩ := h
  have a := StoreLeftRight_arith t o v0 pivot keys writeL remaining ka wa ra h0 ea
  have b := StoreLeftRight_arith t o v1 pivot ka wa ra kb wb rb h1 eb
  have c := StoreLeftRight_arith t o v2 pivot kb wb rb kc wc rc h2 ec
  have d := StoreLeftRight_arith t o v3 pivot kc wc rc k w r h3 ed
  rw [kPartitionUnroll]
  omega

/-- The loop of `Partition` is the repetition of `Partition.body`. -/
theorem Partition.loop_succ (t : Target α) (o : Order) (pivot : List α) (fuel : Nat)
    (keys : List α) (left right writeL remaining : Nat) :
    Partition.loop t o pivot (fuel + 1) keys left right writeL remaining
      = if left ≠ right then
          (Partition.body t o pivot keys left right writeL remaining).bind
            (fun s => Partition.loop t o pivot fuel s.1 s.2.1 s.2.2.1 s.2.2.2.1 s.2.2.2.2)
        else some (keys, writeL, remaining) := by
  rw [Partition.loop]
  unfold Partition.body
  simp only []
  split_ifs
  · simp only [Option.bind_eq_bind, Option.bind_assoc, Option.pure_def, Option.some_bind]
  · simp only [Option.bind_eq_bind, Option.bind_assoc, Option.pure_def, Option.some_bind]
  · rfl

/-- One iteration of the loop of `Partition` preserves the capacity invariant. -/
theorem Partition.body_inv (t : Target α) (o : Order) (pivot keys : List α)
    (left right writeL remaining : Nat) (s : List α × Nat × Nat × Nat × Nat)
    (hI : CapacityInv t.lanes left right writeL remaining) (hne : left ≠ right)
    (h : Partition.body t o pivot keys left right writeL remaining = some s) :
    CapacityInv t.lanes s.2.1 s.2.2.1 s.2.2.2.1 s.2.2.2.2 := by
  obtain ⟨i1, i2, i3, ⟨c, hc⟩, i5⟩ := hI
  rw [Nat.mul_assoc] at i5
  rw [CapacityInv, Nat.mul_assoc 2]
  have hB : right - left = kPartitionUnroll * t.lanes * (c - 1) + kPartitionUnroll * t.lanes := by
    rcases c with _ | c
    · rw [Nat.mul_zero] at hc; omega
    · rw [hc, Nat.mul_succ, Nat.add_sub_cancel]
  unfold Partition.body at h
  simp only [] at h
  split_ifs at h with hcap
  · simp only [Option.bind_eq_bind, Option.bind_eq_some, Option.pure_def,
      Option.some.injEq] at h
    obtain ⟨v0, e0, v1, e1, v2, e2, v3, e3, ⟨k, w, r⟩, e, rfl⟩ := h
    have a := StoreLeftRight4_arith t o v0 v1 v2 v3 pivot keys writeL remaining k w r
      (LoadU_len _ _ _ _ e0) (LoadU_len _ _ _ _ e1) (LoadU_len _ _ _ _ e2)
      (LoadU_len _ _ _ _ e3) e
    refine ⟨?_, ?_, ?_, ⟨c - 1, ?_⟩, ?_⟩ <;> simp only <;>
      generalize kPartitionUnroll * t.lanes * (c - 1) = m at * <;>
      generalize kPartitionUnroll * t.lanes = B at * <;> omega
  · simp only [Option.bind_eq_bind, Option.bind_eq_some, Option.pure_def,
      Option.some.injEq] at h
    obtain ⟨v0, e0, v1, e1, v2, e2, v3, e3, ⟨k, w, r⟩, e, rfl⟩ := h
    have a := StoreLeftRight4_arith t o v0 v1 v2 v3 pivot keys writeL remaining k w r
      (LoadU_len _ _ _ _ e0) (LoadU_len _ _ _ _ e1) (LoadU_len _ _ _ _ e2)
      (LoadU_len _ _ _ _ e3) e
    refine ⟨?_, ?_, ?_, ⟨c - 1, ?_⟩, ?_⟩ <;> simp only <;>
      generalize kPartitionUnroll * t.lanes * (c - 1) = m at * <;>
      generalize kPartitionUnroll * t.lanes = B at * <;> omega

/-- The capacity invariant holds at the start of every iteration. -/
theorem Partition.iterate_inv (t : Target α) (o : Order) (pivot : List α) :
    ∀ (k : Nat) (s s2 : List α × Nat × Nat × Nat × Nat),
      CapacityInv t.lanes s.2.1 s.2.2.1 s.2.2.2.1 s.2.2.2.2 →
      Partition.iterate t o pivot k s = some s2 →
      CapacityInv t.lanes s2.2.1 s2.2.2.1 s2.2.2.2.1 s2.2.2.2.2 := by
  intro k
  induction k with
  | zero =>
    intro s s2 hI h
    rw [Partition.iterate] at h
    cases h
    exact hI
  | succ k ih =>
    intro s s2 hI h
    obtain ⟨keys, left, right, writeL, remaining⟩ := s
    rw [Partition.iterate] at h
    split_ifs at h with hne
    simp only [Option.bind_eq_some] at h
    obtain ⟨s1, e1, e2⟩ := h
    exact ih s1 s2 (Partition.body_inv t o pivot keys left right writeL remaining s1 hI hne e1) e2

/-- When the loop of `Partition` ends, `remaining` is the two blocks that were primed. -/
theorem Partition.loop_remaining (t : Target α) (o : Order) (pivot : List α) :
    ∀ (fuel : Nat) (keys : List α) (left right writeL remaining : Nat)
      (res : List α × Nat × Nat), CapacityInv t.lanes left right writeL remaining →
      Partition.loop t o pivot fuel keys left right writeL remaining = some res →
      res.2.2 = 2 * kPartitionUnroll * t.lanes := by
  intro fuel
  induction fuel with
  | zero =>
    intro keys left right writeL remaining res _ h
    rw [Partition.loop] at h
    cases h
  | succ fuel ih =>
    intro keys left right writeL remaining res hI h
    rw [Partition.loop_succ] at h
    split_ifs at h with hne
    · simp only [Option.bind_eq_some] at h
      obtain ⟨s1, e1, e2⟩ := h
      exact ih _ _ _ _ _ res
        (Partition.body_inv t o pivot keys left right writeL remaining s1 hI hne e1) e2
    · cases h
      obtain ⟨i1, i2, i3, _, i5⟩ := hI
      simp only
      omega

/-- The state in which `Partition.main` enters its loop satisfies the capacity invariant. -/
theorem CapacityInv.initial (N left right : Nat) (hle : left ≤ right)
    (h8 : 2 * kPartitionUnroll * N ≤ right - left)
    (hdvd : kPartitionUnroll * N ∣ right - left) :
    CapacityInv N (left + kPartitionUnroll * N) (right - kPartitionUnroll * N) left
      (right - left) := by
  rw [CapacityInv, Nat.mul_assoc 2]
  rw [Nat.mul_assoc] at h8
  obtain ⟨c, hc⟩ := hdvd
  have hB : right - left = kPartitionUnroll * N * (c - 2) + 2 * (kPartitionUnroll * N) := by
    rcases c with _ | _ | c
    · rw [Nat.mul_zero] at hc; omega
    · rw [Nat.mul_one] at hc; omega
    · rw [hc, show c + 1 + 1 - 2 = c by omega, Nat.mul_succ, Nat.mul_succ]; omega
  refine ⟨?_, ?_, ?_, ⟨c - 2, ?_⟩, ?_⟩ <;>
    generalize kPartitionUnroll * N * (c - 2) = m at * <;>
    generalize kPartitionUnroll * N = B at * <;> omega

/-- After the loop and the two flushes, `remaining` is zero. -/
theorem Partition.main_remaining (t : Target α) (o : Order) (pivot keys : List α)
    (left right : Nat) (hle : left ≤ right)
    (h8 : 2 * kPartitionUnroll * t.lanes ≤ right - left)
    (hdvd : kPartitionUnroll * t.lanes ∣ right - left) (res : List α × Nat × Nat)
    (h : Partition.main t o pivot keys left right = some res) : res.2.2 = 0 := by
  unfold Partition.main at h
  simp only [] at h
  split_ifs at h with hnum
  · simp only [Option.bind_eq_bind, Option.bind_eq_some] at h
    obtain ⟨a0, ea0, a1, ea1, a2, ea2, a3, ea3, b0, eb0, b1, eb1, b2, eb2, b3, eb3,
      ⟨k1, w1, r1⟩, el, ⟨k2, w2, r2⟩, es1, es2⟩ := h
    have hl := Partition.loop_remaining t o pivot _ _ _ _ _ _ _
      (CapacityInv.initial t.lanes left right hle h8 hdvd) el
    simp only at hl
    rw [Nat.mul_assoc] at hl h8
    have s1 := StoreLeftRight4_arith t o a0 a1 a2 a3 pivot k1 w1 r1 k2 w2 r2
      (LoadU_len _ _ _ _ ea0) (LoadU_len _ _ _ _ ea1) (LoadU_len _ _ _ _ ea2)
      (LoadU_len _ _ _ _ ea3) es1
    obtain ⟨k3, w3, r3⟩ := res
    have s2 := StoreLeftRight4_arith t o b0 b1 b2 b3 pivot k2 w2 r2 k3 w3 r3
      (LoadU_len _ _ _ _ eb0) (LoadU_len _ _ _ _ eb1) (LoadU_len _ _ _ _ eb2)
      (LoadU_len _ _ _ _ eb3) es2
    simp only
    generalize kPartitionUnroll * t.lanes = B at *
    omega
  · simp only [Option.pure_def, Option.some.injEq] at h
    subst h
    simp only
    omega

/-- C30: the loop of `Partition` repeats `Partition.body`; in the state at the start of each
of its iterations the cursors are ordered and `capacityL + capacityR = 2 * kUnroll * N` with
`capacityL = left - writeL` and `capacityR = writeL + remaining - right`, so that the test
`kUnroll * N < capacityL` holds exactly when `capacityL > capacityR`; and whenever the block
returns, in particular for every broadcast pivot, `remaining` is `0` after the two
flushes. -/
theorem C30_Partition_capacity (t : Target α) (o : Order) (hN : 0 < t.lanes)
    (pivot keys : List α) (left right : Nat) (hle : left ≤ right) (hr : right ≤ keys.length)
    (h8 : 2 * kPartitionUnroll * t.lanes ≤ right - left)
    (hdvd : kPartitionUnroll * t.lanes ∣ right - left) :
    (∀ (fuel : Nat) (ks : List α) (l r w rem : Nat),
      Partition.loop t o pivot (fuel + 1) ks l r w rem
        = if l ≠ r then
            (Partition.body t o pivot ks l r w rem).bind
              (fun s => Partition.loop t o pivot fuel s.1 s.2.1 s.2.2.1 s.2.2.2.1 s.2.2.2.2)
          else some (ks, w, rem)) ∧
    (∀ (k : Nat) (ks : List α) (l r w rem : Nat),
      Partition.iterate t o pivot k (keys, left + kPartitionUnroll * t.lanes,
        right - kPartitionUnroll * t.lanes, left, right - left) = some (ks, l, r, w, rem) →
      w ≤ l ∧ l ≤ r ∧ r ≤ w + rem ∧
        (l - w) + (w + rem - r) = 2 * kPartitionUnroll * t.lanes ∧
        (kPartitionUnroll * t.lanes < l - w ↔ w + rem - r < l - w)) ∧
    (∀ res, Partition.main t o pivot keys left right = some res → res.2.2 = 0) ∧
    ∀ p : α, ∃ ks w, Partition.main t o (SetKey t.lanes p) keys left right = some (ks, w, 0) := by
  refine ⟨Partition.loop_succ t o pivot, ?_, ?_, ?_⟩
  · intro k ks l r w rem h
    obtain ⟨i1, i2, i3, _, i5⟩ := Partition.iterate_inv t o pivot k _ _
      (CapacityInv.initial t.lanes left right hle h8 hdvd) h
    simp only at i1 i2 i3 i5
    refine ⟨i1, i2, i3, i5, ?_⟩
    rw [Nat.mul_assoc] at i5
    generalize kPartitionUnroll * t.lanes = B at *
    omega
  · exact fun res h => Partition.main_remaining t o pivot keys left right hle h8 hdvd res h
  · intro p
    obtain ⟨pre, rest, rfl, hpre⟩ := split_at keys left (by omega)
    rw [List.length_append] at hr
    obtain ⟨U, post, rfl, hU⟩ := split_at rest (right - left) (by omega)
    subst hpre
    obtain rfl : right = pre.length + U.length := by omega
    rw [Nat.add_sub_cancel_left, kPartitionUnroll] at h8 hdvd
    obtain ⟨P, S, _, _, _, H⟩ := Partition.main_uniform t.lanes o p hN pre [] U [] post
      (Or.inr ⟨by omega, hdvd⟩)
    have := H t rfl
    simp only [List.nil_append, List.length_nil, Nat.add_zero] at this
    exact ⟨_, _, this⟩

theorem C30_Partition_capacity_witness :
    0 < (sample128 (Fin 256)).lanes ∧ 0 ≤ 16 ∧
      16 ≤ ([9, 2, 7, 4, 1, 8, 3, 6, 5, 0, 12, 11, 10, 15, 14, 13] : List (Fin 256)).length ∧
      2 * kPartitionUnroll * (sample128 (Fin 256)).lanes ≤ 16 - 0 ∧
      kPartitionUnroll * (sample128 (Fin 256)).lanes ∣ 16 - 0 ∧
      ((∀ (fuel : Nat) (ks : List (Fin 256)) (l r w rem : Nat),
        Partition.loop (sample128 (Fin 256)) Order.Ascending [5, 5] (fuel + 1) ks l r w rem
          = if l ≠ r then
              (Partition.body (sample128 (Fin 256)) Order.Ascending [5, 5] ks l r w rem).bind
                (fun s => Partition.loop (sample128 (Fin 256)) Order.Ascending [5, 5] fuel
                  s.1 s.2.1 s.2.2.1 s.2.2.2.1 s.2.2.2.2)
            else some (ks, w, rem)) ∧
      (∀ (k : Nat) (ks : List (Fin 256)) (l r w rem : Nat),
        Partition.iterate (sample128 (Fin 256)) Order.Ascending [5, 5] k
          ([9, 2, 7, 4, 1, 8, 3, 6, 5, 0, 12, 11, 10, 15, 14, 13],
            0 + kPartitionUnroll * (sample128 (Fin 256)).lanes,
            16 - kPartitionUnroll * (sample128 (Fin 256)).lanes, 0, 16 - 0)
          = some (ks, l, r, w, rem) →
        w ≤ l ∧ l ≤ r ∧ r ≤ w + rem ∧
          (l - w) + (w + rem - r) = 2 * kPartitionUnroll * (sample128 (Fin 256)).lanes ∧
          (kPartitionUnroll * (sample128 (Fin 256)).lanes < l - w ↔ w + rem - r < l - w)) ∧
      (∀ res, Partition.main (sample128 (Fin 256)) Order.Ascending [5, 5]
          [9, 2, 7, 4, 1, 8, 3, 6, 5, 0, 12, 11, 10, 15, 14, 13] 0 16 = some res →
        res.2.2 = 0) ∧
      ∀ p : Fin 256, ∃ ks w, Partition.main (sample128 (Fin 256)) Order.Ascending
          (SetKey (sample128 (Fin 256)).lanes p)
          [9, 2, 7, 4, 1, 8, 3, 6, 5, 0, 12, 11, 10, 15, 14, 13] 0 16 = some (ks, w, 0)) :=
  ⟨by decide, by decide, by decide, by decide, by decide,
    C30_Partition_capacity (sample128 (Fin 256)) Order.Ascending (by decide) [5, 5]
      [9, 2, 7, 4, 1, 8, 3, 6, 5, 0, 12, 11, 10, 15, 14, 13] 0 16 (by decide) (by decide)
      (by decide) (by decide)⟩

end

section

variable {α : Type} [LinearOrder α] [BoundedOrder α]

/-- C31: for every array and every range `keys[0, num)` of at least `N` lanes inside it,
`ScanMinMax` returns as `first` the broadcast of a key of the range that precedes or equals
every key of the range, and as `last` the broadcast of a key of the range that every key of
the range precedes or equals, also when `num` is not a multiple of `N`: no lane outside the
range enters the result. -/
theorem C31_ScanMinMax_exact (t : Target α) (o : Order) (hN : 0 < t.lanes) (mem : List α)
    (keys num : Nat) (h1 : t.lanes ≤ num) (h2 : keys + num ≤ mem.length) :
    ∃ f l, ScanMinMax t o mem keys num = some (SetKey t.lanes f, SetKey t.lanes l) ∧
      f ∈ (mem.drop keys).take num ∧ l ∈ (mem.drop keys).take num ∧
      ∀ x ∈ (mem.drop keys).take num, ole o f x ∧ ole o x l := by
  have hsplit : mem = mem.take keys ++ (mem.drop keys ++ []) := by
    rw [List.append_nil, List.take_append_drop]
  have hl : (mem.take keys).length = keys := by rw [List.length_take]; omega
  have hsc := ScanMinMax_spec t o hN (mem.take keys) (mem.drop keys) [] num h1
    (by rw [List.length_drop]; omega)
  rw [← hsplit, hl] at hsc
  exact hsc

theorem C31_ScanMinMax_exact_witness :
    0 < (sample128 (Fin 256)).lanes ∧ (sample128 (Fin 256)).lanes ≤ 5 ∧
      1 + 5 ≤ ([0, 5, 3, 8, 4, 6, 9] : List (Fin 256)).length ∧
      ∃ f l, ScanMinMax (sample128 (Fin 256)) Order.Ascending [0, 5, 3, 8, 4, 6, 9] 1 5
          = some (SetKey (sample128 (Fin 256)).lanes f, SetKey (sample128 (Fin 256)).lanes l) ∧
        f ∈ (([0, 5, 3, 8, 4, 6, 9] : List (Fin 256)).drop 1).take 5 ∧
        l ∈ (([0, 5, 3, 8, 4, 6, 9] : List (Fin 256)).drop 1).take 5 ∧
        ∀ x ∈ (([0, 5, 3, 8, 4, 6, 9] : List (Fin 256)).drop 1).take 5,
          ole Order.Ascending f x ∧ ole Order.Ascending x l :=
  ⟨by decide, by decide, by decide,
    C31_ScanMinMax_exact (sample128 (Fin 256)) Order.Ascending (by decide)
      [0, 5, 3, 8, 4, 6, 9] 1 5 (by decide) (by decide)⟩

/-- C35: two invocations of `Sort` on arrays with the same `num` and the same keys return
the same keys, whatever the addresses of the arrays, the seeds drawn from them, the vector
lengths of the two targets and the file-scope state on entry: the output does not depend on
the state of the random generator. -/
theorem C35_Sort_address_independent (t1 t2 : Target α) (o : Order) (hW1 : t1.WellFormed)
    (hW2 : t2.WellFormed) (addr1 addr2 : Nat) (keys : List α) (num : Nat)
    (g1 g2 : Globals α) (hnum : num ≤ keys.length) :
    ∃ keys' ga gb, Sort' t1 o addr1 keys num g1 = some (keys', ga) ∧
      Sort' t2 o addr2 keys num g2 = some (keys', gb) := by
  obtain ⟨ka, ga, ea, hda, hpa, hsa⟩ := Sort_spec t1 o hW1 addr1 keys num g1 hnum
  obtain ⟨kb, gb, eb, hdb, hpb, hsb⟩ := Sort_spec t2 o hW2 addr2 keys num g2 hnum
  have h1 : ka.take num = kb.take num :=
    List.eq_of_perm_of_sorted (hpa.trans hpb.symm) hsa hsb
  have h2 : ka = kb := by
    rw [← List.take_append_drop num ka, ← List.take_append_drop num kb, h1, hda, hdb]
  rw [← h2] at eb
  exact ⟨ka, ga, gb, ea, eb⟩

theorem C35_Sort_address_independent_witness :
    (sample128 (Fin 256)).WellFormed ∧ (sample128 (Fin 256)).WellFormed ∧
      33 ≤ sampleKeys.length ∧
      ∃ keys' ga gb, Sort' (sample128 (Fin 256)) Order.Ascending 0 sampleKeys 33
          (Globals.initial _) = some (keys', ga) ∧
        Sort' (sample128 (Fin 256)) Order.Ascending 808 sampleKeys 33
          (Globals.initial _) = some (keys', gb) :=
  ⟨sample128_wellFormed, sample128_wellFormed, by decide,
    C35_Sort_address_independent (sample128 (Fin 256)) (sample128 (Fin 256)) Order.Ascending
      sample128_wellFormed sample128_wellFormed 0 808 sampleKeys 33 (Globals.initial _)
      (Globals.initial _) (by decide)⟩

theorem InputStats.Notify_comm (bitsOf : α → Nat) (s : InputStats α) (a b : α) :
    InputStats.Notify bitsOf (InputStats.Notify bitsOf s a) b
      = InputStats.Notify bitsOf (InputStats.Notify bitsOf s b) a := by
  simp only [InputStats.Notify, InputStats.mk.injEq, Nat.add_mod_mod, Nat.mod_add_mod]
  refine ⟨?_, ?_, ?_, trivial⟩
  · rw [min_assoc, min_comm a b, ← min_assoc]
  · rw [max_assoc, max_comm a b, ← max_assoc]
  · congr 1; omega

theorem InputStats.foldl_perm (bitsOf : α → Nat) {v w : List α} (h : v.Perm w) :
    ∀ s : InputStats α, v.foldl (InputStats.Notify bitsOf) s
      = w.foldl (InputStats.Notify bitsOf) s := by
  induction h with
  | nil => intro s; rfl
  | cons x _ ih => intro s; exact ih _
  | swap x y l =>
    intro s
    simp only [List.foldl_cons]
    rw [InputStats.Notify_comm]
  | trans _ _ ih1 ih2 => intro s; rw [ih1, ih2]

theorem InputStats.foldl_count (bitsOf : α → Nat) (v : List α) :
    ∀ s : InputStats α, (v.foldl (InputStats.Notify bitsOf) s).count_ % 2 ^ 64
        = (s.count_ + v.length) % 2 ^ 64 ∧
      (v.foldl (InputStats.Notify bitsOf) s).sum_ % 2 ^ 64
        = (s.sum_ + (v.map bitsOf).sum) % 2 ^ 64 := by
  induction v with
  | nil => intro s; simp
  | cons a v ih =>
    intro s
    obtain ⟨h1, h2⟩ := ih (InputStats.Notify bitsOf s a)
    simp only [List.foldl_cons, List.length_cons, List.map_cons, List.sum_cons]
    rw [h1, h2]
    simp only [InputStats.Notify, Nat.mod_add_mod]
    constructor
    · congr 1; omega
    · congr 1; omega

theorem InputStats.foldl_mod (bitsOf : α → Nat) (v : List α) :
    ∀ s : InputStats α, s.count_ < 2 ^ 64 → s.sum_ < 2 ^ 64 →
      (v.foldl (InputStats.Notify bitsOf) s).count_ < 2 ^ 64 ∧
        (v.foldl (InputStats.Notify bitsOf) s).sum_ < 2 ^ 64 := by
  induction v with
  | nil => intro s h1 h2; exact ⟨h1, h2⟩
  | cons a v ih =>
    intro s _ _
    exact ih _ (Nat.mod_lt _ (by norm_num)) (Nat.mod_lt _ (by norm_num))

theorem InputStats.foldl_bounds (bitsOf : α → Nat) (v : List α) :
    ∀ s : InputStats α, (v.foldl (InputStats.Notify bitsOf) s).min_ ≤ s.min_ ∧
      s.max_ ≤ (v.foldl (InputStats.Notify bitsOf) s).max_ ∧
      ∀ x ∈ v, (v.foldl (InputStats.Notify bitsOf) s).min_ ≤ x ∧
        x ≤ (v.foldl (InputStats.Notify bitsOf) s).max_ := by
  induction v with
  | nil => intro s; simp
  | cons a v ih =>
    intro s
    obtain ⟨h1, h2, h3⟩ := ih (InputStats.Notify bitsOf s a)
    simp only [List.foldl_cons]
    have e1 : (InputStats.Notify bitsOf s a).min_ = min s.min_ a := rfl
    have e2 : (InputStats.Notify bitsOf s a).max_ = max s.max_ a := rfl
    rw [e1] at h1
    rw [e2] at h2
    refine ⟨le_trans h1 (min_le_left _ _), le_trans (le_max_left _ _) h2, ?_⟩
    intro x hx
    rcases List.mem_cons.1 hx with rfl | hx
    · exact ⟨le_trans h1 (min_le_right _ _), le_trans (le_max_right _ _) h2⟩
    · exact h3 x hx

/-- C34: the statistics `InputStats` collects from the elements of an array `v` and from
those of any permutation `w` of it are equal member by member (count, minimum, maximum and
the sum of the bit patterns modulo `2^64`), so `operator==` returns `true` instead of
aborting; the count is the number of elements and the sum is the sum of their bit patterns,
both modulo `2^64`, and the minimum and maximum bound every element. -/
theorem C34_InputStats_perm (bitsOf : α → Nat) (v w : List α) (h : w.Perm v) :
    InputStats.NotifyAll bitsOf w = InputStats.NotifyAll bitsOf v ∧
      InputStats.equals (InputStats.NotifyAll bitsOf v) (InputStats.NotifyAll bitsOf w)
        = some true ∧
      (InputStats.NotifyAll bitsOf v).count_ = v.length % 2 ^ 64 ∧
      (InputStats.NotifyAll bitsOf v).sum_ = (v.map bitsOf).sum % 2 ^ 64 ∧
      ∀ x ∈ v, (InputStats.NotifyAll bitsOf v).min_ ≤ x ∧
        x ≤ (InputStats.NotifyAll bitsOf v).max_ := by
  have hp : InputStats.NotifyAll bitsOf w = InputStats.NotifyAll bitsOf v :=
    InputStats.foldl_perm bitsOf h _
  have hc := InputStats.foldl_count bitsOf v InputStats.initial
  have hm := InputStats.foldl_mod bitsOf v InputStats.initial (by norm_num [InputStats.initial])
    (by norm_num [InputStats.initial])
  refine ⟨hp, ?_, ?_, ?_, (InputStats.foldl_bounds bitsOf v InputStats.initial).2.2⟩
  · rw [hp]
    simp [InputStats.equals]
  · have := hc.1
    rw [Nat.mod_eq_of_lt hm.1] at this
    simpa [InputStats.initial] using this
  · have := hc.2
    rw [Nat.mod_eq_of_lt hm.2] at this
    simpa [InputStats.initial] using this

theorem C34_InputStats_perm_witness :
    ([2, 3, 1, 3] : List (Fin 256)).Perm [3, 1, 3, 2] ∧
      (InputStats.NotifyAll (fun x : Fin 256 => x.val) [2, 3, 1, 3]
          = InputStats.NotifyAll (fun x : Fin 256 => x.val) [3, 1, 3, 2] ∧
        InputStats.equals (InputStats.NotifyAll (fun x : Fin 256 => x.val) [3, 1, 3, 2])
          (InputStats.NotifyAll (fun x : Fin 256 => x.val) [2, 3, 1, 3]) = some true ∧
        (InputStats.NotifyAll (fun x : Fin 256 => x.val) [3, 1, 3, 2]).count_
          = ([3, 1, 3, 2] : List (Fin 256)).length % 2 ^ 64 ∧
        (InputStats.NotifyAll (fun x : Fin 256 => x.val) [3, 1, 3, 2]).sum_
          = (([3, 1, 3, 2] : List (Fin 256)).map (fun x : Fin 256 => x.val)).sum % 2 ^ 64 ∧
        ∀ x ∈ ([3, 1, 3, 2] : List (Fin 256)),
          (InputStats.NotifyAll (fun x : Fin 256 => x.val) [3, 1, 3, 2]).min_ ≤ x ∧
            x ≤ (InputStats.NotifyAll (fun x : Fin 256 => x.val) [3, 1, 3, 2]).max_) :=
  ⟨by decide,
    C34_InputStats_perm (fun x : Fin 256 => x.val) [3, 1, 3, 2] [2, 3, 1, 3] (by decide)⟩

end

section

variable {α : Type} [LinearOrder α]

/-- `RecursiveMedianOf3` either broadcasts the first key or runs one level and recurses on
the medians. -/
theorem RecursiveMedianOf3_succ (o : Order) (N fuel : Nat) (keys : List α) (num : Nat) :
    RecursiveMedianOf3 o N (fuel + 1) keys num
      = if num < 3 then (keys[0]?).map (SetKey N)
        else (RecursiveMedianOf3.level o N keys num).bind
          (fun out => RecursiveMedianOf3 o N fuel out out.length) := by
  rw [RecursiveMedianOf3]
  unfold RecursiveMedianOf3.level
  split_ifs
  · cases keys[0]? <;> rfl
  · simp only [Option.bind_eq_bind, Option.bind_assoc, Option.pure_def, Option.some_bind]

/-- One level writes `⌊num / 3⌋` medians. -/
theorem RecursiveMedianOf3.level_length (o : Order) (N : Nat) (hN : 0 < N) (keys : List α)
    (num : Nat) (hk : num ≤ keys.length) :
    ∃ out, RecursiveMedianOf3.level o N keys num = some out ∧ out.length = num / 3 := by
  obtain ⟨r1, o1, e1, hr1, ho1⟩ := RecursiveMedianOf3.vectors_spec o N num hN keys hk
    (num + 1) 0 [] (Nat.zero_le _) (by omega) (by omega) rfl
  obtain ⟨r2, o2, e2, hr2, hlt2, ho2⟩ := RecursiveMedianOf3.singles_spec o num keys hk
    (num + 1) r1 o1 hr1 (by omega) (by omega) ho1
  refine ⟨o2, ?_, by omega⟩
  unfold RecursiveMedianOf3.level
  simp only [e1, e2, Option.some_bind, Option.bind_eq_bind, Option.pure_def]

/-- With enough fuel `RecursiveMedianOf3` ends in a buffer of one or two keys, reached after
some number of levels, and broadcasts its first key. -/
theorem RecursiveMedianOf3_final (o : Order) (N : Nat) (hN : 0 < N) :
    ∀ (fuel : Nat) (keys : List α) (num : Nat), num ≤ keys.length → 3 ≤ num → num < fuel →
      ∃ k buf key, 1 ≤ k ∧ RecursiveMedianOf3.levels o N k keys num = some buf ∧
        (buf.length = 1 ∨ buf.length = 2) ∧ buf[0]? = some key ∧
        RecursiveMedianOf3 o N fuel keys num = some (SetKey N key) := by
  intro fuel
  induction fuel with
  | zero => intro _ _ _ _ h; omega
  | succ fuel ih =>
    intro keys num hk h3 hf
    obtain ⟨out, e, hlen⟩ := RecursiveMedianOf3.level_length o N hN keys num hk
    rw [RecursiveMedianOf3_succ, if_neg (by omega), e, Option.some_bind]
    by_cases hout : 3 ≤ out.length
    · obtain ⟨k, buf, key, _, hl, hb, hkey, hres⟩ := ih out out.length (le_refl _) hout
        (by omega)
      refine ⟨k + 1, buf, key, by omega, ?_, hb, hkey, hres⟩
      rw [RecursiveMedianOf3.levels, if_pos h3, e, Option.some_bind]
      exact hl
    · have h1 : 1 ≤ out.length := by omega
      refine ⟨1, out, out[0], le_refl _, ?_, by omega, List.getElem?_eq_getElem _, ?_⟩
      · rw [RecursiveMedianOf3.levels, if_pos h3, e, Option.some_bind]
        rfl
      · obtain ⟨f2, rfl⟩ : ∃ f2, fuel = f2 + 1 := ⟨fuel - 1, by omega⟩
        rw [RecursiveMedianOf3_succ, if_pos (by omega), List.getElem?_eq_getElem h1]
        rfl

/-- C37: for `num ≥ 3` keys and every vector length `N ≥ 1`, one level of
`RecursiveMedianOf3` writes exactly `⌊num / 3⌋` medians, fewer than `num` and at least one,
and the call continues as the call on these medians; with fuel for `num` levels the
recursion returns: after some levels the buffer holds one or two keys, and the result is the
broadcast of its first key. -/
theorem C37_RecursiveMedianOf3_levels (o : Order) (N : Nat) (hN : 0 < N) (keys : List α)
    (num : Nat) (hk : num ≤ keys.length) (h3 : 3 ≤ num) :
    (∃ out, RecursiveMedianOf3.level o N keys num = some out ∧ out.length = num / 3 ∧
      1 ≤ out.length ∧ out.length < num ∧
      ∀ fuel, RecursiveMedianOf3 o N (fuel + 1) keys num
        = RecursiveMedianOf3 o N fuel out out.length) ∧
    (∀ fuel, num < fuel →
      ∃ k buf key, 1 ≤ k ∧ RecursiveMedianOf3.levels o N k keys num = some buf ∧
        (buf.length = 1 ∨ buf.length = 2) ∧ buf[0]? = some key ∧
        RecursiveMedianOf3 o N fuel keys num = some (SetKey N key)) ∧
    ∀ (fuel : Nat) (ks : List α) (n : Nat), RecursiveMedianOf3 o N (fuel + 1) ks n
      = if n < 3 then (ks[0]?).map (SetKey N)
        else (RecursiveMedianOf3.level o N ks n).bind
          (fun out => RecursiveMedianOf3 o N fuel out out.length) := by
  refine ⟨?_, fun fuel hf => RecursiveMedianOf3_final o N hN fuel keys num hk h3 hf,
    fun fuel ks n => RecursiveMedianOf3_succ o N fuel ks n⟩
  obtain ⟨out, e, hlen⟩ := RecursiveMedianOf3.level_length o N hN keys num hk
  refine ⟨out, e, hlen, by omega, by omega, fun fuel => ?_⟩
  rw [RecursiveMedianOf3_succ, if_neg (by omega), e, Option.some_bind]

theorem C37_RecursiveMedianOf3_levels_witness :
    0 < 2 ∧ 11 ≤ ([9, 2, 7, 4, 1, 8, 3, 6, 5, 0, 12] : List (Fin 256)).length ∧ 3 ≤ 11 ∧
      ((∃ out, RecursiveMedianOf3.level Order.Ascending 2
          ([9, 2, 7, 4, 1, 8, 3, 6, 5, 0, 12] : List (Fin 256)) 11 = some out ∧
        out.length = 11 / 3 ∧ 1 ≤ out.length ∧ out.length < 11 ∧
        ∀ fuel, RecursiveMedianOf3 Order.Ascending 2 (fuel + 1)
            ([9, 2, 7, 4, 1, 8, 3, 6, 5, 0, 12] : List (Fin 256)) 11
          = RecursiveMedianOf3 Order.Ascending 2 fuel out out.length) ∧
      (∀ fuel, 11 < fuel →
        ∃ k buf key, 1 ≤ k ∧ RecursiveMedianOf3.levels Order.Ascending 2 k
            ([9, 2, 7, 4, 1, 8, 3, 6, 5, 0, 12] : List (Fin 256)) 11 = some buf ∧
          (buf.length = 1 ∨ buf.length = 2) ∧ buf[0]? = some key ∧
          RecursiveMedianOf3 Order.Ascending 2 fuel
            ([9, 2, 7, 4, 1, 8, 3, 6, 5, 0, 12] : List (Fin 256)) 11
            = some (SetKey 2 key)) ∧
      ∀ (fuel : Nat) (ks : List (Fin 256)) (n : Nat),
        RecursiveMedianOf3 Order.Ascending 2 (fuel + 1) ks n
          = if n < 3 then (ks[0]?).map (SetKey 2)
            else (RecursiveMedianOf3.level Order.Ascending 2 ks n).bind
              (fun out => RecursiveMedianOf3 Order.Ascending 2 fuel out out.length)) :=
  ⟨by decide, by decide, by decide,
    C37_RecursiveMedianOf3_levels Order.Ascending 2 (by decide)
      [9, 2, 7, 4, 1, 8, 3, 6, 5, 0, 12] 11 (by decide) (by decide)⟩

/-- `ChoosePivot` samples at the offsets of `ChoosePivot.plan`. -/
theorem ChoosePivot_eq_plan (t : Target α) (o : Order) (addr : Nat) (keys : List α)
    (begin end_ : Nat) (rng : Generator) :
    ChoosePivot t o addr keys begin end_ rng
      = (ChoosePivot.sample o t.lanes (LanesPerChunk t.sizeofT t.lanes) keys
          (ChoosePivot.plan t addr begin end_ rng).1
          (ChoosePivot.plan t addr begin end_ rng).2.2.1
          (LanesPerChunk t.sizeofT t.lanes + 1) 0 [] [] []).bind fun m =>
        (RecursiveMedianOf3 o t.lanes (3 * LanesPerChunk t.sizeofT t.lanes + 1)
          (m.1 ++ m.2.1 ++ m.2.2) (3 * LanesPerChunk t.sizeofT t.lanes)).bind fun pivot =>
          some (pivot, (ChoosePivot.plan t addr begin end_ rng).2.2.2) := by
  unfold ChoosePivot ChoosePivot.plan
  simp only [Option.bind_eq_bind, Option.pure_def]

/-- The chunks of `ChoosePivot.plan` lie inside the range. -/
theorem ChoosePivot.plan_spec (t : Target α) (hV : t.Valid) (addr begin end_ : Nat)
    (rng : Generator) (hnum : 2 * LanesPerChunk t.sizeofT t.lanes ≤ end_ - begin) :
    1 ≤ (ChoosePivot.plan t addr begin end_ rng).2.1 ∧
      begin ≤ (ChoosePivot.plan t addr begin end_ rng).1 ∧
      ∀ j, (ChoosePivot.plan t addr begin end_ rng).1 +
          (ChoosePivot.plan t addr begin end_ rng).2.2.1 j +
          LanesPerChunk t.sizeofT t.lanes ≤ end_ := by
  obtain ⟨hpos, h32, ⟨j, hj5, hj, hctz⟩, hdvd, _, _, _, _⟩ := hV.facts
  unfold ChoosePivot.plan
  simp only [hctz]
  rw [hj] at hnum ⊢
  have hlpos : 0 < 2 ^ j := Nat.pos_pow_of_pos _ (by omega)
  have key : ∀ (base num : Nat), base + num = end_ → 2 ^ j ≤ num →
      1 ≤ min (num >>> j) 0xFFFFFFFF ∧ ∀ bits, bits < 2 ^ 32 →
      base + (RandomChunkIndex (min (num >>> j) 0xFFFFFFFF) bits <<< j) + 2 ^ j ≤ end_ := by
    intro base num hb hn
    rw [Nat.shiftRight_eq_div_pow]
    have h1 : 0 < num / 2 ^ j := Nat.div_pos hn hlpos
    have hmin : 1 ≤ min (num / 2 ^ j) 0xFFFFFFFF := by
      rw [Nat.le_min]; exact ⟨h1, by norm_num⟩
    refine ⟨hmin, fun bits hbits => ?_⟩
    have hlt := RandomChunkIndex_lt (min (num / 2 ^ j) 0xFFFFFFFF) bits hbits hmin
      (lt_of_le_of_lt (min_le_right _ _) (by norm_num))
    have hle : RandomChunkIndex (min (num / 2 ^ j) 0xFFFFFFFF) bits + 1 ≤ num / 2 ^ j := by
      have := min_le_left (num / 2 ^ j) 0xFFFFFFFF
      omega
    rw [Nat.shiftLeft_eq]
    have h2 : (RandomChunkIndex (min (num / 2 ^ j) 0xFFFFFFFF) bits + 1) * 2 ^ j
        ≤ num / 2 ^ j * 2 ^ j := Nat.mul_le_mul_right _ hle
    have h3 : num / 2 ^ j * 2 ^ j ≤ num := Nat.div_mul_le_self _ _
    rw [Nat.add_mul] at h2
    omega
  have hbits : ∀ (l : List Nat) (i : Nat),
      (if i % 2 = 0 then l[i / 2]! % 2 ^ 32 else (l[i / 2]! >>> 32) % 2 ^ 32) < 2 ^ 32 := by
    intro l i
    split_ifs <;> exact Nat.mod_lt _ (by norm_num)
  have hmis : (addr + begin * t.sizeofT) / t.sizeofT &&& (2 ^ j - 1) ≤ 2 ^ j - 1 :=
    Nat.and_le_right
  by_cases hm : (addr + begin * t.sizeofT) / t.sizeofT &&& (2 ^ j - 1) = 0
  · simp only [hm, ne_eq, not_true_eq_false, if_false]
    obtain ⟨k1, k2⟩ := key begin (end_ - begin) (by omega) (by omega)
    exact ⟨k1, le_refl _, fun i => k2 _ (hbits _ i)⟩
  · simp only [hm, ne_eq, not_false_eq_true, if_true]
    obtain ⟨k1, k2⟩ := key
      (begin + (2 ^ j - ((addr + begin * t.sizeofT) / t.sizeofT &&& (2 ^ j - 1))))
      (end_ - begin - (2 ^ j - ((addr + begin * t.sizeofT) / t.sizeofT &&& (2 ^ j - 1))))
      (by omega) (by omega)
    exact ⟨k1, by omega, fun i => k2 _ (hbits _ i)⟩

/-- C32: on a range of at least two chunks, for every base address and generator state,
after the alignment step of `ChoosePivot` at least one whole chunk remains
(`num_chunks ≥ 1`), and every index `base + ofs j + i` with `i < LanesPerChunk` that the
sampling loop loads lies in `[begin, end)`; the loop loads at exactly these offsets, and
`ChoosePivot` returns. -/
theorem C32_ChoosePivot_in_range (t : Target α) (o : Order) (hV : t.Valid) (addr : Nat)
    (keys : List α) (begin end_ : Nat) (rng : Generator) (hend : end_ ≤ keys.length)
    (hnum : 2 * LanesPerChunk t.sizeofT t.lanes ≤ end_ - begin) :
    1 ≤ (ChoosePivot.plan t addr begin end_ rng).2.1 ∧
    (∀ j i, i < LanesPerChunk t.sizeofT t.lanes →
      begin ≤ (ChoosePivot.plan t addr begin end_ rng).1 +
          (ChoosePivot.plan t addr begin end_ rng).2.2.1 j + i ∧
        (ChoosePivot.plan t addr begin end_ rng).1 +
          (ChoosePivot.plan t addr begin end_ rng).2.2.1 j + i < end_) ∧
    ChoosePivot t o addr keys begin end_ rng
      = ((ChoosePivot.sample o t.lanes (LanesPerChunk t.sizeofT t.lanes) keys
          (ChoosePivot.plan t addr begin end_ rng).1
          (ChoosePivot.plan t addr begin end_ rng).2.2.1
          (LanesPerChunk t.sizeofT t.lanes + 1) 0 [] [] []).bind fun m =>
        (RecursiveMedianOf3 o t.lanes (3 * LanesPerChunk t.sizeofT t.lanes + 1)
          (m.1 ++ m.2.1 ++ m.2.2) (3 * LanesPerChunk t.sizeofT t.lanes)).bind fun pivot =>
          some (pivot, (ChoosePivot.plan t addr begin end_ rng).2.2.2)) ∧
    ∃ p rng2, ChoosePivot t o addr keys begin end_ rng = some (SetKey t.lanes p, rng2) := by
  obtain ⟨h1, h2, h3⟩ := ChoosePivot.plan_spec t hV addr begin end_ rng hnum
  refine ⟨h1, fun j i hi => ?_, ChoosePivot_eq_plan t o addr keys begin end_ rng,
    ChoosePivot_spec t o hV addr keys begin end_ rng hend hnum⟩
  have := h3 j
  omega

theorem C32_ChoosePivot_in_range_witness :
    (sample128 (Fin 256)).Valid ∧ 33 ≤ sampleKeys.length ∧
      2 * LanesPerChunk (sample128 (Fin 256)).sizeofT (sample128 (Fin 256)).lanes ≤ 33 - 5 ∧
      (1 ≤ (ChoosePivot.plan (sample128 (Fin 256)) 24 5 33 ⟨1, 2, 3, 1⟩).2.1 ∧
      (∀ j i, i < LanesPerChunk (sample128 (Fin 256)).sizeofT (sample128 (Fin 256)).lanes →
        5 ≤ (ChoosePivot.plan (sample128 (Fin 256)) 24 5 33 ⟨1, 2, 3, 1⟩).1 +
            (ChoosePivot.plan (sample128 (Fin 256)) 24 5 33 ⟨1, 2, 3, 1⟩).2.2.1 j + i ∧
          (ChoosePivot.plan (sample128 (Fin 256)) 24 5 33 ⟨1, 2, 3, 1⟩).1 +
            (ChoosePivot.plan (sample128 (Fin 256)) 24 5 33 ⟨1, 2, 3, 1⟩).2.2.1 j + i < 33) ∧
      ChoosePivot (sample128 (Fin 256)) Order.Ascending 24 sampleKeys 5 33 ⟨1, 2, 3, 1⟩
        = ((ChoosePivot.sample Order.Ascending (sample128 (Fin 256)).lanes
            (LanesPerChunk (sample128 (Fin 256)).sizeofT (sample128 (Fin 256)).lanes)
            sampleKeys
            (ChoosePivot.plan (sample128 (Fin 256)) 24 5 33 ⟨1, 2, 3, 1⟩).1
            (ChoosePivot.plan (sample128 (Fin 256)) 24 5 33 ⟨1, 2, 3, 1⟩).2.2.1
            (LanesPerChunk (sample128 (Fin 256)).sizeofT (sample128 (Fin 256)).lanes + 1)
            0 [] [] []).bind fun m =>
          (RecursiveMedianOf3 Order.Ascending (sample128 (Fin 256)).lanes
            (3 * LanesPerChunk (sample128 (Fin 256)).sizeofT (sample128 (Fin 256)).lanes + 1)
            (m.1 ++ m.2.1 ++ m.2.2)
            (3 * LanesPerChunk (sample128 (Fin 256)).sizeofT
              (sample128 (Fin 256)).lanes)).bind fun pivot =>
            some (pivot, (ChoosePivot.plan (sample128 (Fin 256)) 24 5 33 ⟨1, 2, 3, 1⟩).2.2.2)) ∧
      ∃ p rng2, ChoosePivot (sample128 (Fin 256)) Order.Ascending 24 sampleKeys 5 33
          ⟨1, 2, 3, 1⟩ = some (SetKey (sample128 (Fin 256)).lanes p, rng2)) :=
  ⟨sample128_valid, by decide, by decide,
    C32_ChoosePivot_in_range (sample128 (Fin 256)) Order.Ascending sample128_valid 24
      sampleKeys 5 33 ⟨1, 2, 3, 1⟩ (by decide) (by decide)⟩

end

section

variable {α : Type} [LinearOrder α] [BoundedOrder α]

theorem Recurse.side_mono (t : Target α) (o : Order) (addr keys_end : Nat)
    (r1 r2 : List α → Nat → Nat → List α → Generator → Globals α →
      Option (List α × Generator × Globals α))
    (h : ∀ keys lo hi pv rng g res, r1 keys lo hi pv rng g = some res →
      r2 keys lo hi pv rng g = some res)
    (keys : List α) (lo hi : Nat) (num_side : Int) (rng : Generator) (g : Globals α)
    (res : List α × Generator × Globals α)
    (h1 : Recurse.side t o addr keys_end r1 keys lo hi num_side rng g = some res) :
    Recurse.side t o addr keys_end r2 keys lo hi num_side rng g = some res := by
  unfold Recurse.side at h1 ⊢
  simp only [] at h1 ⊢
  split_ifs at h1 ⊢ with hb
  · exact h1
  · simp only [Option.bind_eq_bind, Option.bind_eq_some] at h1 ⊢
    obtain ⟨⟨pv, rng2⟩, hc, ⟨k, r, g2⟩, hr, hres⟩ := h1
    exact ⟨(pv, rng2), hc, (k, r, g2), h _ _ _ _ _ _ _ hr, hres⟩

/-- If the function called as `Partition` and the recursive call return the same results
wherever the checked ones return, so does one level of `Recurse`. -/
theorem Recurse.level_mono (t : Target α) (o : Order) (addr keys_end : Nat)
    (p1 p2 : List α → Nat → Nat → List α → Option (List α × Nat))
    (hp : ∀ keys l r pv res, p1 keys l r pv = some res → p2 keys l r pv = some res)
    (r1 r2 : List α → Nat → Nat → List α → Generator → Globals α →
      Option (List α × Generator × Globals α))
    (h : ∀ keys lo hi pv rng g res, r1 keys lo hi pv rng g = some res →
      r2 keys lo hi pv rng g = some res)
    (keys : List α) (begin end_ : Nat) (pivot : List α) (rng : Generator) (g : Globals α)
    (res : List α × Generator × Globals α)
    (h1 : Recurse.level t o addr keys_end p1 r1 keys begin end_ pivot rng g = some res) :
    Recurse.level t o addr keys_end p2 r2 keys begin end_ pivot rng g = some res := by
  unfold Recurse.level at h1 ⊢
  simp only [Option.bind_eq_bind, Option.bind_eq_some] at h1 ⊢
  obtain ⟨⟨keys1, bound⟩, hP, h1⟩ := h1
  refine ⟨(keys1, bound), hp _ _ _ _ _ hP, ?_⟩
  simp only [] at h1 ⊢
  split_ifs at h1 ⊢ with hnr
  · simp only [Option.bind_eq_bind, Option.bind_eq_some] at h1 ⊢
    obtain ⟨⟨first, last⟩, hs, h1⟩ := h1
    refine ⟨(first, last), hs, ?_⟩
    simp only [] at h1 ⊢
    split_ifs at h1 ⊢ with hfl
    · exact h1
    · simp only [Option.bind_eq_bind, Option.bind_eq_some] at h1 ⊢
      obtain ⟨⟨k, r, g2⟩, hr, hres⟩ := h1
      exact ⟨(k, r, g2), h _ _ _ _ _ _ _ hr, hres⟩
  · simp only [Option.bind_eq_bind, Option.bind_eq_some] at h1 ⊢
    obtain ⟨⟨k, r, g2⟩, ha, hb⟩ := h1
    exact ⟨(k, r, g2), Recurse.side_mono t o addr keys_end r1 r2 h _ _ _ _ _ _ _ ha,
      Recurse.side_mono t o addr keys_end r1 r2 h _ _ _ _ _ _ _ hb⟩

/-- Whatever the checked `Recurse` returns, `Recurse` returns. -/
theorem Recurse.checked_le (t : Target α) (o : Order) (addr keys_end : Nat) :
    ∀ (rl : Nat) (keys : List α) (begin end_ : Nat) (pivot : List α) (rng : Generator)
      (g : Globals α) (res : List α × Generator × Globals α),
      Recurse.checked t o addr keys_end rl keys begin end_ pivot rng g = some res →
      Recurse t o addr keys_end rl keys begin end_ pivot rng g = some res := by
  intro rl
  induction rl with
  | zero => intro keys begin end_ pivot rng g res h; exact h
  | succ rl ih =>
    intro keys begin end_ pivot rng g res h
    rw [Recurse_succ]
    rw [Recurse.checked] at h
    refine Recurse.level_mono t o addr keys_end _ _ ?_ _ _ ih _ _ _ _ _ _ _ h
    intro ks l r pv res hp
    unfold Partition.asserted at hp
    split_ifs at hp
    exact hp

/-- The checked `Recurse` sorts its range: no assertion of `Partition` fails. -/
theorem Recurse.checked_spec (t : Target α) (o : Order) (hV : t.Valid) (addr keys_end : Nat) :
    ∀ rl, RecSpec t o keys_end (Recurse.checked t o addr keys_end rl) := by
  intro rl
  induction rl with
  | zero => exact Recurse_spec t o hV addr keys_end 0
  | succ rl ih =>
    have := Recurse.level_spec t o hV addr keys_end (Partition.asserted t o)
      (fun keys l r pivot h => by unfold Partition.asserted; rw [if_pos h])
      (Recurse.checked t o addr keys_end rl) ih
    exact this

/-- C33: on a target on which `Sort` calls `Recurse` (a valid one: the target itself or its
capped instantiation), whenever `HandleSpecialCases` returned `false` the range has more
than `2 * N` keys, and `Recurse` in a debug build, where every call of `Partition` (from the
top-level call, from the two sides and from the rescan after a degenerate partition) checks
`right - left > 2 * N`, returns what `Recurse` returns: the assertion never fails. -/
theorem C33_Partition_precondition (t : Target α) (o : Order) (hV : t.Valid) (addr : Nat)
    (keys keys1 : List α) (num : Nat) (g0 g1 : Globals α) (hnum : num ≤ keys.length)
    (hH : HandleSpecialCases t o keys num g0 = some (false, keys1, g1)) :
    2 * t.lanes < num ∧ keys1 = keys ∧
    (∀ (rl : Nat) (p : α) (rng : Generator) (g : Globals α),
      ∃ res, Recurse.checked t o addr num rl keys1 0 num (SetKey t.lanes p) rng g = some res ∧
        Recurse t o addr num rl keys1 0 num (SetKey t.lanes p) rng g = some res) ∧
    ∀ (rl : Nat) (ks : List α) (b e : Nat) (pv : List α) (rng : Generator) (g : Globals α),
      Recurse t o addr num (rl + 1) ks b e pv rng g
        = Recurse.level t o addr num (Partition t o) (Recurse t o addr num rl) ks b e pv rng g
      ∧ Recurse.checked t o addr num (rl + 1) ks b e pv rng g
        = Recurse.level t o addr num (Partition.asserted t o) (Recurse.checked t o addr num rl)
            ks b e pv rng g := by
  obtain ⟨hpos, h32, _, _, h2N, h2lpc, hbc, _⟩ := hV.facts
  have hlt : keys1 = keys ∧ BaseCaseNum t.lanes < num := by
    rcases HandleSpecialCases_spec t o hpos hV.2.2.2.2 keys num g0 hnum with
      ⟨k', g', e, _⟩ | ⟨e, hlt⟩
    · rw [e] at hH; simp at hH
    · rw [e] at hH
      simp only [Option.some.injEq, Prod.mk.injEq, true_and] at hH
      exact ⟨hH.1.symm, hlt⟩
  obtain ⟨rfl, hlt⟩ := hlt
  refine ⟨by omega, rfl, fun rl p rng g => ?_, fun rl ks b e pv rng g =>
    ⟨Recurse_succ t o addr num rl ks b e pv rng g, rfl⟩⟩
  obtain ⟨X', rng', g', e, _, _⟩ := Recurse.checked_spec t o hV addr num rl []
    (keys1.take num) (keys1.drop num) num p rng g
    (by simp only [List.length_nil, List.length_take]; omega) hlt
    (by simp only [List.length_take]; omega) (CutOK_take_self o keys1 num)
  simp only [List.nil_append, List.length_nil, Nat.zero_add, List.take_append_drop] at e
  exact ⟨_, e, Recurse.checked_le t o addr num rl _ _ _ _ _ _ _ e⟩

theorem C33_Partition_precondition_witness :
    (sample128 (Fin 256)).Valid ∧ 33 ≤ sampleKeys.length ∧
      HandleSpecialCases (sample128 (Fin 256)) Order.Ascending sampleKeys 33
          (Globals.initial (Fin 256)) = some (false, sampleKeys, Globals.initial (Fin 256)) ∧
      (2 * (sample128 (Fin 256)).lanes < 33 ∧ sampleKeys = sampleKeys ∧
      (∀ (rl : Nat) (p : Fin 256) (rng : Generator) (g : Globals (Fin 256)),
        ∃ res, Recurse.checked (sample128 (Fin 256)) Order.Ascending 0 33 rl sampleKeys 0 33
            (SetKey (sample128 (Fin 256)).lanes p) rng g = some res ∧
          Recurse (sample128 (Fin 256)) Order.Ascending 0 33 rl sampleKeys 0 33
            (SetKey (sample128 (Fin 256)).lanes p) rng g = some res) ∧
      ∀ (rl : Nat) (ks : List (Fin 256)) (b e : Nat) (pv : List (Fin 256)) (rng : Generator)
        (g : Globals (Fin 256)),
        Recurse (sample128 (Fin 256)) Order.Ascending 0 33 (rl + 1) ks b e pv rng g
          = Recurse.level (sample128 (Fin 256)) Order.Ascending 0 33
              (Partition (sample128 (Fin 256)) Order.Ascending)
              (Recurse (sample128 (Fin 256)) Order.Ascending 0 33 rl) ks b e pv rng g
        ∧ Recurse.checked (sample128 (Fin 256)) Order.Ascending 0 33 (rl + 1) ks b e pv rng g
          = Recurse.level (sample128 (Fin 256)) Order.Ascending 0 33
              (Partition.asserted (sample128 (Fin 256)) Order.Ascending)
              (Recurse.checked (sample128 (Fin 256)) Order.Ascending 0 33 rl)
              ks b e pv rng g) :=
  ⟨sample128_valid, by decide, by decide,
    C33_Partition_precondition (sample128 (Fin 256)) Order.Ascending sample128_valid 0
      sampleKeys sampleKeys 33 (Globals.initial (Fin 256)) (Globals.initial (Fin 256))
      (by decide) (by decide)⟩

end

section

variable {α : Type} [LinearOrder α]

/-- The load address `startR` lies in the range. -/
theorem Partition.startR_bounds (N l len writeL : Nat) (hlen : 2 * N < len) (h1 : l ≤ writeL)
    (h2 : writeL ≤ l + len - N) :
    l ≤ Partition.startR N (l + len - N) writeL ∧
      Partition.startR N (l + len - N) writeL + N ≤ l + len - N ∧
      (l + len - N - writeL < N →
        N ≤ writeL + (l + len - N - writeL) ∧
          Partition.startR N (l + len - N) writeL = l + len - 2 * N) := by
  unfold Partition.startR
  simp only []
  split_ifs with h
  · exact ⟨by omega, by omega, fun _ => ⟨by omega, by omega⟩⟩
  · exact ⟨by omega, by omega, fun h' => absurd h' h⟩

/-- The frame of `Partition` at the level of values: for a range `M = keys[l, r)` of more
than `2 * N` keys, with any lanes `A` before the range and any lanes `B` behind it, also
none at all, `Partition` returns the same boundary relative to `l` and leaves the same keys
`M'`, a rearrangement of `M`, in the range, and `A` and `B` unchanged: no load, no
whole-vector store and no lane written by a blended store lies outside the range.  The
address `startR` is at least `l` and the vector loaded there ends at or before `last`; when
fewer than `N` right-side keys exist it is `last - N` without wrapping. -/
theorem Partition_frame (t : Target α) (o : Order) (p : α) (hN : ∃ k, t.lanes = 2 ^ k)
    (M : List α) (hM : 2 * t.lanes < M.length) :
    (∃ M' b, b ≤ M.length ∧ M'.Perm M ∧
      (∀ A B : List α,
        Partition t o (A ++ (M ++ B)) A.length (A.length + M.length) (SetKey t.lanes p)
          = some (A ++ (M' ++ B), A.length + b)) ∧
      Partition t o M 0 M.length (SetKey t.lanes p) = some (M', b)) ∧
    ∀ l writeL : Nat, l ≤ writeL → writeL ≤ l + M.length - t.lanes →
      l ≤ Partition.startR t.lanes (l + M.length - t.lanes) writeL ∧
        Partition.startR t.lanes (l + M.length - t.lanes) writeL + t.lanes
          ≤ l + M.length - t.lanes ∧
        (l + M.length - t.lanes - writeL < t.lanes →
          t.lanes ≤ writeL + (l + M.length - t.lanes - writeL) ∧
            Partition.startR t.lanes (l + M.length - t.lanes) writeL
              = l + M.length - 2 * t.lanes) := by
  refine ⟨?_, fun l writeL h1 h2 => Partition.startR_bounds t.lanes l M.length writeL hM h1 h2⟩
  obtain ⟨P, S, _, _, hperm, H⟩ := Partition_local t o p hN M hM
  refine ⟨P ++ S, P.length, ?_, hperm, fun A B => ?_, ?_⟩
  · have := hperm.length_eq
    rw [List.length_append] at this
    omega
  · rw [H t A B rfl, List.append_assoc]
  · have := H t [] [] rfl
    simpa using this

theorem Footprint.unroll_loop_narrow (o : Order) (N num_rem : Nat) (pivot : List α) :
    ∀ (fuel : Nat) (keys : List α) (left readL : Nat) (buf : List α) (i : Nat),
      Footprint.PartitionToMultipleOfUnroll.loop CompressBlendedStore o N num_rem pivot fuel
          keys left readL buf i
        = VQSort.PartitionToMultipleOfUnroll.loop o N num_rem pivot fuel keys left readL buf
            i := by
  intro fuel
  induction fuel with
  | zero => intro keys left readL buf i; rfl
  | succ fuel ih =>
    intro keys left readL buf i
    simp only [Footprint.PartitionToMultipleOfUnroll.loop, VQSort.PartitionToMultipleOfUnroll.loop,
      ih]

theorem Footprint.unroll_narrow (t : Target α) (o : Order) (keys : List α) (left right : Nat)
    (pivot : List α) :
    Footprint.PartitionToMultipleOfUnroll CompressBlendedStore t o keys left right pivot
      = VQSort.PartitionToMultipleOfUnroll t o keys left right pivot := by
  simp only [Footprint.PartitionToMultipleOfUnroll, VQSort.PartitionToMultipleOfUnroll,
    Footprint.unroll_loop_narrow]

theorem Footprint.store_narrow (t : Target α) (o : Order) (v pivot keys : List α)
    (writeL remaining : Nat) :
    Footprint.StoreLeftRight CompressBlendedStore t o v pivot keys writeL remaining
      = VQSort.StoreLeftRight t o v pivot keys writeL remaining := rfl

theorem Footprint.store4_narrow (t : Target α) (o : Order) (v0 v1 v2 v3 pivot keys : List α)
    (writeL remaining : Nat) :
    Footprint.StoreLeftRight4 CompressBlendedStore t o v0 v1 v2 v3 pivot keys writeL remaining
      = VQSort.StoreLeftRight4 t o v0 v1 v2 v3 pivot keys writeL remaining := rfl

theorem Footprint.loop_narrow (t : Target α) (o : Order) (pivot : List α) :
    ∀ (fuel : Nat) (keys : List α) (left right writeL remaining : Nat),
      Footprint.Partition.loop CompressBlendedStore t o pivot fuel keys left right writeL
          remaining
        = VQSort.Partition.loop t o pivot fuel keys left right writeL remaining := by
  intro fuel
  induction fuel with
  | zero => intro keys left right writeL remaining; rfl
  | succ fuel ih =>
    intro keys left right writeL remaining
    simp only [Footprint.Partition.loop, VQSort.Partition.loop, ih,
      Footprint.store4_narrow]

theorem Footprint.main_narrow (t : Target α) (o : Order) (pivot keys : List α)
    (left right : Nat) :
    Footprint.Partition.main CompressBlendedStore t o pivot keys left right
      = VQSort.Partition.main t o pivot keys left right := by
  simp only [Footprint.Partition.main, VQSort.Partition.main, Footprint.loop_narrow,
    Footprint.store4_narrow]

theorem Footprint.insertLast_narrow (t : Target α) (o : Order) (pivot keys vlast : List α)
    (last writeL : Nat) :
    Footprint.Partition.insertLast CompressBlendedStore CompressBlendedStore t o pivot keys
        vlast last writeL
      = VQSort.Partition.insertLast t o pivot keys vlast last writeL := rfl

/-- With `CompressBlendedStore` itself for its blended stores, `Footprint.Partition` is
`Partition`. -/
theorem Footprint.Partition_narrow (t : Target α) (o : Order) (keys : List α)
    (left right : Nat) (pivot : List α) :
    Footprint.Partition CompressBlendedStore CompressBlendedStore t o keys left right pivot
      = VQSort.Partition t o keys left right pivot := by
  simp only [Footprint.Partition, VQSort.Partition, Footprint.unroll_narrow,
    Footprint.main_narrow, Footprint.insertLast_narrow]

end

/-- C36: `Sort` on thirty-nine equal keys followed by a larger one, two lanes to a vector,
chooses the repeated key as its first pivot and so calls `Partition` on the range `[0, 40)`,
the whole array, where `Partition` returns the boundary `39` and the keys as they were.  Its
last store, the `CompressBlendedStore` of the right-side lane of `vlast`, is at index `39`
and its vector covers the lanes `39` and `40`: with the vector of a blended store accessed
as a whole the call fails on the array of forty lanes, and it returns, the lane behind the
array unchanged, when one more lane lies there.  Every other load and store lies in the
range: with the last store alone accessing only the lane it writes, the call returns on the
array of forty lanes.  With `CompressBlendedStore` for all its blended stores
`Footprint.Partition` is `Partition`. -/
theorem C36_Partition_overrun :
    (Sort' (sample128V (Fin 256)) Order.Ascending 0 (List.replicate 39 7 ++ [9]) 40
        (Globals.initial _)).map (fun r => ((r.2.choices.map Prod.snd).head?, r.1))
        = some (some (SetKey 2 7), List.replicate 39 7 ++ [9]) ∧
      Partition (sample128V (Fin 256)) Order.Ascending (List.replicate 39 7 ++ [9]) 0 40
          (SetKey 2 7) = some (List.replicate 39 7 ++ [9], 39) ∧
      Footprint.Partition (CompressBlendedStore.vector 2) (CompressBlendedStore.vector 2)
        (sample128V (Fin 256)) Order.Ascending (List.replicate 39 7 ++ [9]) 0 40 (SetKey 2 7)
          = none ∧
      Footprint.Partition (CompressBlendedStore.vector 2) (CompressBlendedStore.vector 2)
        (sample128V (Fin 256)) Order.Ascending (List.replicate 39 7 ++ [9] ++ [0]) 0 40
          (SetKey 2 7) = some (List.replicate 39 7 ++ [9] ++ [0], 39) ∧
      Footprint.Partition (CompressBlendedStore.vector 2) CompressBlendedStore
        (sample128V (Fin 256)) Order.Ascending (List.replicate 39 7 ++ [9]) 0 40 (SetKey 2 7)
          = some (List.replicate 39 7 ++ [9], 39) ∧
      ∀ (keys : List (Fin 256)) (left right : Nat) (pivot : List (Fin 256)),
        Footprint.Partition CompressBlendedStore CompressBlendedStore (sample128V (Fin 256))
            Order.Ascending keys left right pivot
          = Partition (sample128V (Fin 256)) Order.Ascending keys left right pivot :=
  ⟨by decide, by decide, by decide, by decide, by decide,
    fun keys left right pivot =>
      Footprint.Partition_narrow (sample128V (Fin 256)) Order.Ascending keys left right pivot⟩

end VQSort
